import Mathlib

/-!
Energy trading record management: the B+ tree index.

A shallow embedding of `DSPD_2_ASSIGNMENT_2_BT23CSE110.c`.

Memory is explicit.  Tree nodes live in a heap `List (Option BPTreeNode)`
addressed by position; `malloc` appends a slot, `free` turns a slot into
`none`.  Transaction records live in a second store of the same kind.
A function returns `none` when the C program has no defined behaviour
there: a null or released pointer is dereferenced, an array is indexed
outside its bounds, a block is released twice, or a loop does not end.

Conventions.
* `int` is `Int`.  Where the program can leave the range of a 32-bit `int`
  on the values it is given (the sum `transactionID + 1`, a `%d` conversion
  of `sscanf`), the model keeps the low 32 bits, as the compiled program
  does (`wrapInt`, `storedInt`); the counters that grow by one for each
  transaction are not bounded.
* `double` is `Rat`: a value of the model stands for a finite double.  The
  products, sums and differences that the program stores in a record or in
  an aggregate are rounded to the nearest double, a tie going to the even
  one, as the arithmetic of IEEE 754 binary64 does (`roundDouble`); a result
  of magnitude `2 ^ 1024` or more is an infinity in the program and outside
  the model.  The sums and quotients that the reports compute for display
  are exact.
* `numKeys` is a natural number; the code never lowers it below zero
  before some other access is already undefined.
* The scratch arrays `parents[100]` and `stack[100]` are lists without a
  capacity, and `malloc` never fails.
* Console output and the two data files are not part of the state.  The
  warning of the parent search in `insertInternalNode` is observed by a
  second copy of the insertion functions, which return it as a flag.
* The library function `mktime` is a parameter of the date functions; the
  `sscanf` conversions they use are written out as a scanner.
* The transaction log is the text of the file, which `loadDataFromFile`
  reads line by line as `fgets` returns it.  The conversion `%lf` of `sscanf`
  is a parameter; the conversions `%d` and `%.2f` of `fprintf` are written
  out for the values of the model.  The price file is given as the triples
  that `fscanf` reads from it.
-/

namespace EnergyTrading

/-- The constant `ORDER` (maximum fan-out of a node). -/
def ORDER : Nat := 4

/-- The struct `Transaction` without its unused `next` link. -/
structure Transaction where
  transactionID : Int
  buyerID : Int
  sellerID : Int
  energyAmount : Rat
  pricePerKwh : Rat
  totalPrice : Rat
  timestamp : String
  deriving DecidableEq

/-- The struct `BPTreeNode`: `keys` has `ORDER - 1` slots, `children` has
`ORDER` slots and `records` has `ORDER - 1` slots; slots at or beyond
`numKeys` keep whatever was last written there. -/
structure BPTreeNode where
  isLeaf : Bool
  numKeys : Nat
  keys : List Int
  children : List (Option Nat)
  next : Option Nat
  records : List (Option Nat)
  deriving DecidableEq

/-- The node heap. -/
abbrev Heap := List (Option BPTreeNode)

/-- Read the node behind a pointer. -/
def load (h : Heap) (p : Nat) : Option BPTreeNode :=
  match h[p]? with
  | some (some n) => some n
  | _ => none

/-- Overwrite the node behind a live pointer. -/
def store (h : Heap) (p : Nat) (n : BPTreeNode) : Heap := h.set p (some n)

/-- Update the node behind a pointer with a partial function. -/
def modify (h : Heap) (p : Nat) (f : BPTreeNode → Option BPTreeNode) : Option Heap :=
  match load h p with
  | some n =>
    match f n with
    | some n1 => some (store h p n1)
    | none => none
  | none => none

/-- Read `p->isLeaf`. -/
def getLeaf (h : Heap) (p : Nat) : Option Bool := (load h p).map (fun n => n.isLeaf)

/-- Read `p->numKeys`. -/
def getNum (h : Heap) (p : Nat) : Option Nat := (load h p).map (fun n => n.numKeys)

/-- Read `p->next`. -/
def getNext (h : Heap) (p : Nat) : Option (Option Nat) := (load h p).map (fun n => n.next)

/-- Read `p->keys[i]`. -/
def getKey (h : Heap) (p i : Nat) : Option Int := (load h p).bind (fun n => n.keys[i]?)

/-- Read `p->children[i]`. -/
def getChild (h : Heap) (p i : Nat) : Option (Option Nat) :=
  (load h p).bind (fun n => n.children[i]?)

/-- Read `p->records[i]`. -/
def getRec (h : Heap) (p i : Nat) : Option (Option Nat) :=
  (load h p).bind (fun n => n.records[i]?)

/-- Write `p->numKeys = v`. -/
def setNum (h : Heap) (p v : Nat) : Option Heap :=
  modify h p (fun n => some { n with numKeys := v })

/-- Write `p->next = v`. -/
def setNext (h : Heap) (p : Nat) (v : Option Nat) : Option Heap :=
  modify h p (fun n => some { n with next := v })

/-- Write `p->keys[i] = v`. -/
def setKey (h : Heap) (p i : Nat) (v : Int) : Option Heap :=
  modify h p (fun n => if i < n.keys.length then some { n with keys := n.keys.set i v } else none)

/-- Write `p->children[i] = v`. -/
def setChild (h : Heap) (p i : Nat) (v : Option Nat) : Option Heap :=
  modify h p (fun n =>
    if i < n.children.length then some { n with children := n.children.set i v } else none)

/-- Write `p->records[i] = v`. -/
def setRec (h : Heap) (p i : Nat) (v : Option Nat) : Option Heap :=
  modify h p (fun n =>
    if i < n.records.length then some { n with records := n.records.set i v } else none)

/-- A counting loop `for (i = start; ...; i++) body`, run `cnt` times. -/
def forUp {σ : Type} (body : Nat → σ → Option σ) : Nat → Nat → σ → Option σ
  | 0, _, s => some s
  | cnt + 1, i, s =>
    match body i s with
    | some s1 => forUp body cnt (i + 1) s1
    | none => none

/-- A counting loop `for (i = start; ...; i--) body`, run `cnt` times. -/
def forDown {σ : Type} (body : Nat → σ → Option σ) : Nat → Nat → σ → Option σ
  | 0, _, s => some s
  | cnt + 1, i, s =>
    match body i s with
    | some s1 => forDown body cnt (i - 1) s1
    | none => none

/-- The function `createBPTreeNode`: a fresh node at the end of the heap. -/
def createBPTreeNode (h : Heap) (isLeaf : Bool) : Heap × Nat :=
  (h ++ [some { isLeaf := isLeaf, numKeys := 0, keys := List.replicate (ORDER - 1) 0,
                children := List.replicate ORDER none, next := none,
                records := List.replicate (ORDER - 1) none }], h.length)

/-- The search loop `for (i = 0; i < numKeys; i++) if (id < keys[i]) break;`
with `cnt` iterations left: the value of `i` after the loop. -/
def childIndex (h : Heap) (cursor : Nat) (id : Int) : Nat → Nat → Option Nat
  | 0, i => some i
  | cnt + 1, i =>
    match getKey h cursor i with
    | some k => if id < k then some i else childIndex h cursor id cnt (i + 1)
    | none => none

/-- The descent `while (!cursor->isLeaf) { ...; cursor = cursor->children[i]; }`
shared by lookup, insertion and deletion.  It returns the leaf reached, the
last internal node passed (`parents[parentIndex]`, `parent`) and the last
child index taken (`idx`). -/
def descend (h : Heap) (id : Int) : Nat → Nat → Option Nat → Nat → Option (Nat × Option Nat × Nat)
  | 0, _, _, _ => none
  | fuel + 1, cursor, parent, idx =>
    match load h cursor with
    | none => none
    | some n =>
      if n.isLeaf then some (cursor, parent, idx)
      else
        match childIndex h cursor id n.numKeys 0 with
        | none => none
        | some i =>
          match getChild h cursor i with
          | some (some c) => descend h id fuel c (some cursor) i
          | _ => none

/-- The leaf loop `for (i = 0; i < numKeys; i++) if (keys[i] == id) ...`:
the first index holding `id`, if any. -/
def keyIndex (h : Heap) (cursor : Nat) (id : Int) : Nat → Nat → Option (Option Nat)
  | 0, _ => some none
  | cnt + 1, i =>
    match getKey h cursor i with
    | some k => if k = id then some (some i) else keyIndex h cursor id cnt (i + 1)
    | none => none

/-- The function `findTransactionInBPTree`. -/
def findTransactionInBPTree (h : Heap) (root : Option Nat) (transactionID : Int) : Option Bool :=
  match root with
  | none => some false
  | some r =>
    match descend h transactionID h.length r none 0 with
    | none => none
    | some (cursor, _, _) =>
      match getNum h cursor with
      | none => none
      | some nk => (keyIndex h cursor transactionID nk 0).map (fun r => r.isSome)

/-- The function `findTransactionById`: the record pointer stored beside the
key, or the null pointer. -/
def findTransactionById (h : Heap) (root : Option Nat) (id : Int) : Option (Option Nat) :=
  match root with
  | none => some none
  | some r =>
    match descend h id h.length r none 0 with
    | none => none
    | some (cursor, _, _) =>
      match getNum h cursor with
      | none => none
      | some nk =>
        match keyIndex h cursor id nk 0 with
        | none => none
        | some none => some none
        | some (some i) => getRec h cursor i

/-- The parent search of `insertInternalNode`, inner loop
`for (i = 0; i <= cursor->numKeys; i++)` with `cnt` iterations left: whether
`cursor` has `node` among its children, and the stack afterwards (top first). -/
def searchChildren (h : Heap) (node cursor : Nat) :
    Nat → Nat → List Nat → Option (Bool × List Nat)
  | 0, _, stack => some (false, stack)
  | cnt + 1, i, stack =>
    match getChild h cursor i with
    | none => none
    | some c =>
      if c = some node then some (true, [])
      else
        match getLeaf h cursor with
        | none => none
        | some leaf =>
          match c with
          | some cp =>
            if leaf then searchChildren h node cursor cnt (i + 1) stack
            else searchChildren h node cursor cnt (i + 1) (cp :: stack)
          | none => searchChildren h node cursor cnt (i + 1) stack

/-- The parent search of `insertInternalNode`, outer loop
`while (stackTop >= 0)`: the parent found, or the null pointer. -/
def searchParent (h : Heap) (node : Nat) : Nat → List Nat → Option (Option Nat)
  | 0, _ => none
  | _ + 1, [] => some none
  | fuel + 1, cursor :: stack =>
    match getNum h cursor with
    | none => none
    | some nk =>
      match searchChildren h node cursor (nk + 1) 0 stack with
      | none => none
      | some (true, _) => some (some cursor)
      | some (false, stack1) => searchParent h node fuel stack1

/-- The tail shared by `splitLeafNode` and `splitInternalNode` when
`parent == NULL`: a new root above `node` and `newNode`. -/
def newRootAbove (h : Heap) (promoteKey : Int) (node newNode : Nat) : Option (Heap × Option Nat) :=
  let (h, newRoot) := createBPTreeNode h false
  match setKey h newRoot 0 promoteKey with
  | none => none
  | some h =>
    match setChild h newRoot 0 (some node) with
    | none => none
    | some h =>
      match setChild h newRoot 1 (some newNode) with
      | none => none
      | some h =>
        match setNum h newRoot 1 with
        | none => none
        | some h => some (h, some newRoot)

/-- The first half of `splitInternalNode`: move the keys and children right of
the middle to a fresh node; returns the heap, the new node and the promoted
key. -/
def splitInternalMove (h : Heap) (node : Nat) : Option (Heap × Nat × Int) := do
  let mid := (ORDER - 1) / 2
  let (h, newNode) := createBPTreeNode h false
  let promoteKey ← getKey h node mid
  let h ← forUp (fun i h => do
      let k ← getKey h node i
      let h ← setKey h newNode (i - (mid + 1)) k
      let nk ← getNum h newNode
      let h ← setNum h newNode (nk + 1)
      setKey h node i 0) (ORDER - 1 - (mid + 1)) (mid + 1) h
  let h ← forUp (fun i h => do
      let c ← getChild h node i
      let h ← setChild h newNode (i - (mid + 1)) c
      setChild h node i none) (ORDER - (mid + 1)) (mid + 1) h
  let h ← setNum h node mid
  pure (h, newNode, promoteKey)

/-- The first half of `insertInternalNode`: put `key` and `rightChild` into
`node` at their sorted position. -/
def insertInternalPlace (h : Heap) (key : Int) (rightChild node : Nat) : Option Heap := do
  let nk ← getNum h node
  let pos ← childIndex h node key nk 0
  let h ← forDown (fun i h => do
      let k ← getKey h node (i - 1)
      setKey h node i k) (nk - pos) nk h
  let h ← forDown (fun i h => do
      let c ← getChild h node (i - 1)
      setChild h node i c) (nk - pos) (nk + 1) h
  let h ← setKey h node pos key
  let h ← setChild h node (pos + 1) (some rightChild)
  setNum h node (nk + 1)

mutual

/-- The function `splitInternalNode`. -/
def splitInternalNode : Nat → Heap → Option Nat → Nat → Option Nat → Option (Heap × Option Nat)
  | 0, _, _, _, _ => none
  | fuel + 1, h, root, node, parent =>
    match splitInternalMove h node with
    | none => none
    | some (h, newNode, promoteKey) =>
      match parent with
      | none => newRootAbove h promoteKey node newNode
      | some p => insertInternalNode fuel h root promoteKey newNode p

/-- The function `insertInternalNode`. -/
def insertInternalNode : Nat → Heap → Option Nat → Int → Nat → Nat → Option (Heap × Option Nat)
  | 0, _, _, _, _, _ => none
  | fuel + 1, h, root, key, rightChild, node =>
    match insertInternalPlace h key rightChild node with
    | none => none
    | some h =>
      match getNum h node with
      | none => none
      | some nk =>
        if nk = ORDER - 1 then
          if root = some node then splitInternalNode fuel h root node none
          else
            match root with
            | none => none
            | some r =>
              match searchParent h node (h.length + 1) [r] with
              | none => none
              | some (some parent) => splitInternalNode fuel h root node (some parent)
              | some none => splitInternalNode fuel h root node none
        else some (h, root)

end

/-- The first half of `splitLeafNode`: move the keys and records from the
middle on to a fresh leaf and link it after `node`; returns the heap, the new
leaf and the promoted key. -/
def splitLeafMove (h : Heap) (node : Nat) : Option (Heap × Nat × Int) := do
  let mid := (ORDER - 1) / 2
  let (h, newNode) := createBPTreeNode h true
  let h ← forUp (fun i h => do
      let k ← getKey h node i
      let h ← setKey h newNode (i - mid) k
      let r ← getRec h node i
      let h ← setRec h newNode (i - mid) r
      let nk ← getNum h newNode
      let h ← setNum h newNode (nk + 1)
      let h ← setKey h node i 0
      setRec h node i none) (ORDER - 1 - mid) mid h
  let h ← setNum h node mid
  let nx ← getNext h node
  let h ← setNext h newNode nx
  let h ← setNext h node (some newNode)
  let promoteKey ← getKey h newNode 0
  pure (h, newNode, promoteKey)

/-- The function `splitLeafNode`. -/
def splitLeafNode (fuel : Nat) (h : Heap) (root : Option Nat) (node : Nat)
    (parent : Option Nat) : Option (Heap × Option Nat) :=
  match splitLeafMove h node with
  | none => none
  | some (h, newNode, promoteKey) =>
    match parent with
    | none => newRootAbove h promoteKey node newNode
    | some p => insertInternalNode fuel h root promoteKey newNode p

/-- The middle of `insertTransactionIntoBPTree`: put `key` and the record
pointer `t` into the leaf `cursor` at their sorted position. -/
def insertLeafPlace (h : Heap) (key : Int) (t cursor : Nat) : Option Heap := do
  let nk ← getNum h cursor
  let pos ← childIndex h cursor key nk 0
  let h ← forDown (fun i h => do
      let k ← getKey h cursor (i - 1)
      let h ← setKey h cursor i k
      let rc ← getRec h cursor (i - 1)
      setRec h cursor i rc) (nk - pos) nk h
  let h ← setKey h cursor pos key
  let h ← setRec h cursor pos (some t)
  setNum h cursor (nk + 1)

/-- The first branch of `insertTransactionIntoBPTree`: the tree is empty and
a leaf holding the one key becomes the root. -/
def insertFirst (h : Heap) (key : Int) (t : Nat) : Option (Heap × Option Nat) := do
  let (h, r) := createBPTreeNode h true
  let h ← setKey h r 0 key
  let h ← setRec h r 0 (some t)
  let h ← setNum h r 1
  pure (h, some r)

/-- The body of `insertTransactionIntoBPTree` on the node heap, for a record
pointer `t` whose `transactionID` is `key`. -/
def insertKey (h : Heap) (root : Option Nat) (key : Int) (t : Nat) : Option (Heap × Option Nat) :=
  match root with
  | none => insertFirst h key t
  | some r =>
    match descend h key h.length r none 0 with
    | none => none
    | some (cursor, parent, _) =>
      match insertLeafPlace h key t cursor with
      | none => none
      | some h =>
        match getNum h cursor with
        | none => none
        | some nk =>
          if nk = ORDER - 1 then splitLeafNode (2 * h.length + 2) h root cursor parent
          else some (h, root)

/-- The memory of the program: tree nodes and transaction records. -/
structure Store where
  nodes : Heap
  recs : List (Option Transaction)
  deriving DecidableEq

/-- Read the record behind a pointer. -/
def loadRec (recs : List (Option Transaction)) (p : Nat) : Option Transaction :=
  match recs[p]? with
  | some (some t) => some t
  | _ => none

/-- The call `free(p)` on a record pointer: nothing for the null pointer,
undefined for a pointer that is not live. -/
def freeRec (recs : List (Option Transaction)) (p : Option Nat) :
    Option (List (Option Transaction)) :=
  match p with
  | none => some recs
  | some q =>
    match loadRec recs q with
    | some _ => some (recs.set q none)
    | none => none

/-- The call `free(p)` on a live node pointer. -/
def freeNode (h : Heap) (p : Nat) : Option Heap :=
  match load h p with
  | some _ => some (h.set p none)
  | none => none

/-- The function `insertTransactionIntoBPTree`. -/
def insertTransactionIntoBPTree (m : Store) (root : Option Nat) (t : Nat) :
    Option (Store × Option Nat) :=
  match loadRec m.recs t with
  | none => none
  | some tr =>
    match insertKey m.nodes root tr.transactionID t with
    | none => none
    | some (h, root1) => some ({ m with nodes := h }, root1)

/-- The function `insertTransactionIntoEntityTree`. -/
def insertTransactionIntoEntityTree (m : Store) (entityTree : Option Nat) (t : Nat) :
    Option (Store × Option Nat) :=
  insertTransactionIntoBPTree m entityTree t

/-- The walk `while (!cursor->isLeaf) cursor = cursor->children[0];`. -/
def leftmostLeaf (h : Heap) : Nat → Nat → Option Nat
  | 0, _ => none
  | fuel + 1, cursor =>
    match load h cursor with
    | none => none
    | some n =>
      if n.isLeaf then some cursor
      else
        match n.children[0]? with
        | some (some c) => leftmostLeaf h fuel c
        | _ => none

/-- The keys `keys[0 .. numKeys-1]` of one node, read one by one. -/
def nodeKeys (h : Heap) (p : Nat) : Nat → Nat → Option (List Int)
  | 0, _ => some []
  | cnt + 1, i =>
    match getKey h p i with
    | none => none
    | some k => (nodeKeys h p cnt (i + 1)).map (fun ks => k :: ks)

/-- The record pointers `records[0 .. numKeys-1]` of one node. -/
def nodeRecs (h : Heap) (p : Nat) : Nat → Nat → Option (List (Option Nat))
  | 0, _ => some []
  | cnt + 1, i =>
    match getRec h p i with
    | none => none
    | some r => (nodeRecs h p cnt (i + 1)).map (fun rs => r :: rs)

/-- The leaf-chain walk `while (cursor) { ...; cursor = cursor->next; }`
collecting the keys, as printed by the debug listing of `main`. -/
def chainKeys (h : Heap) : Nat → Option Nat → Option (List Int)
  | 0, _ => none
  | _ + 1, none => some []
  | fuel + 1, some cursor =>
    match load h cursor with
    | none => none
    | some n =>
      match nodeKeys h cursor n.numKeys 0 with
      | none => none
      | some ks => (chainKeys h fuel n.next).map (fun rest => ks ++ rest)

/-- The leaf-chain walk collecting the record pointers, as read by
`displayTransactionsFromTree`. -/
def chainRecs (h : Heap) : Nat → Option Nat → Option (List (Option Nat))
  | 0, _ => none
  | _ + 1, none => some []
  | fuel + 1, some cursor =>
    match load h cursor with
    | none => none
    | some n =>
      match nodeRecs h cursor n.numKeys 0 with
      | none => none
      | some rs => (chainRecs h fuel n.next).map (fun rest => rs ++ rest)

/-- The ordered scan of the keys: leftmost leaf, then the `next` links. -/
def scanKeys (h : Heap) (root : Option Nat) : Option (List Int) :=
  match root with
  | none => some []
  | some r =>
    match leftmostLeaf h h.length r with
    | none => none
    | some leaf => chainKeys h (h.length + 1) (some leaf)

/-- The ordered scan of the record pointers. -/
def scanRecs (h : Heap) (root : Option Nat) : Option (List (Option Nat)) :=
  match root with
  | none => some []
  | some r =>
    match leftmostLeaf h h.length r with
    | none => none
    | some leaf => chainRecs h (h.length + 1) (some leaf)

/-- The rows `displayTransactionsFromTree` adds for the record pointers of the
leaf chain: a null pointer is skipped, any other is read. -/
def rowsOf (recs : List (Option Transaction)) : List (Option Nat) → Option (List Transaction)
  | [] => some []
  | none :: ps => rowsOf recs ps
  | some p :: ps =>
    match loadRec recs p with
    | none => none
    | some tr => (rowsOf recs ps).map (fun rows => tr :: rows)

/-- The function `displayTransactionsFromTree`: the rows of the table it
prints, in the order they are added. -/
def displayTransactionsFromTree (m : Store) (root : Option Nat) : Option (List Transaction) :=
  match scanRecs m.nodes root with
  | none => none
  | some ps => rowsOf m.recs ps

/-- The leaf-chain walk of `countTransactionsInTree`, adding up `numKeys`. -/
def chainCount (h : Heap) : Nat → Option Nat → Option Nat
  | 0, _ => none
  | _ + 1, none => some 0
  | fuel + 1, some cursor =>
    match load h cursor with
    | none => none
    | some n => (chainCount h fuel n.next).map (fun rest => n.numKeys + rest)

/-- The function `countTransactionsInTree`. -/
def countTransactionsInTree (h : Heap) (root : Option Nat) : Option Nat :=
  match root with
  | none => some 0
  | some r =>
    match load h r with
    | none => none
    | some n =>
      if n.isLeaf then some n.numKeys
      else
        match leftmostLeaf h h.length r with
        | none => none
        | some leaf => chainCount h (h.length + 1) (some leaf)

/-- The assignment `p->keys[i] = q->keys[j]`. -/
def copyKey (h : Heap) (p i q j : Nat) : Option Heap :=
  match getKey h q j with
  | some k => setKey h p i k
  | none => none

/-- The assignment `p->records[i] = q->records[j]`. -/
def copyRec (h : Heap) (p i q j : Nat) : Option Heap :=
  match getRec h q j with
  | some r => setRec h p i r
  | none => none

/-- The assignment `p->children[i] = q->children[j]`. -/
def copyChild (h : Heap) (p i q j : Nat) : Option Heap :=
  match getChild h q j with
  | some c => setChild h p i c
  | none => none

/-- The statement `p->numKeys--`. -/
def decNum (h : Heap) (p : Nat) : Option Heap :=
  match getNum h p with
  | some (nk + 1) => setNum h p nk
  | _ => none

/-- The statement `p->numKeys++`. -/
def incNum (h : Heap) (p : Nat) : Option Heap :=
  match getNum h p with
  | some nk => setNum h p (nk + 1)
  | none => none

/-- The pointer stored in `p->children[i]`, for a use that dereferences it. -/
def childPtr (h : Heap) (p i : Nat) : Option Nat :=
  match getChild h p i with
  | some (some c) => some c
  | _ => none

/-- The function `removeFromLeaf`. -/
def removeFromLeaf (h : Heap) (node idx : Nat) : Option Heap := do
  let nk ← getNum h node
  let h ← forUp (fun i h => (copyKey h node i node (i + 1)).bind
      (fun h => copyRec h node i node (i + 1))) (nk - 1 - idx) idx h
  decNum h node

/-- The function `borrowFromNext`. -/
def borrowFromNext (h : Heap) (node idx : Nat) : Option Heap := do
  let child ← childPtr h node idx
  let sibling ← childPtr h node (idx + 1)
  let cn ← getNum h child
  let h ← copyKey h child cn node idx
  let cl ← getLeaf h child
  let h ← if cl then copyRec h child cn sibling 0 else copyChild h child (cn + 1) sibling 0
  let h ← copyKey h node idx sibling 0
  let sn ← getNum h sibling
  let sl ← getLeaf h sibling
  let h ← forUp (fun i h => (copyKey h sibling i sibling (i + 1)).bind
      (fun h => if sl then copyRec h sibling i sibling (i + 1)
                else copyChild h sibling i sibling (i + 1))) (sn - 1) 0 h
  let h ← if sl then some h
          else if sn = 0 then none else copyChild h sibling (sn - 1) sibling sn
  let h ← incNum h child
  decNum h sibling

/-- The function `borrowFromPrev`; its only call has `idx > 0`. -/
def borrowFromPrev (h : Heap) (node idx : Nat) : Option Heap := do
  let child ← childPtr h node idx
  let sibling ← if idx = 0 then none else childPtr h node (idx - 1)
  let cn ← getNum h child
  let cl ← getLeaf h child
  let h ← forDown (fun j h => (copyKey h child j child (j - 1)).bind
      (fun h => if cl then copyRec h child j child (j - 1)
                else copyChild h child (j + 1) child j)) cn cn h
  let h ← if cl then some h else copyChild h child 1 child 0
  let h ← copyKey h child 0 node (idx - 1)
  let sn ← getNum h sibling
  let h ← if cl then (if sn = 0 then none else copyRec h child 0 sibling (sn - 1))
          else copyChild h child 0 sibling sn
  let sn ← getNum h sibling
  let h ← if sn = 0 then none else copyKey h node (idx - 1) sibling (sn - 1)
  let h ← incNum h child
  decNum h sibling

/-- The first half of `mergeNodes`: append the separator key and the content
of `rightChild` to `leftChild`. -/
def mergeInto (h : Heap) (node ix leftChild rightChild : Nat) : Option Heap := do
  let ln ← getNum h leftChild
  let h ← copyKey h leftChild ln node ix
  let rn ← getNum h rightChild
  let ll ← getLeaf h leftChild
  let h ← forUp (fun i h => (copyKey h leftChild (ln + 1 + i) rightChild i).bind
      (fun h => if ll then copyRec h leftChild (ln + 1 + i) rightChild i
                else copyChild h leftChild (ln + 1 + i) rightChild i)) rn 0 h
  let h ← if ll then some h else copyChild h leftChild (ln + 1 + rn) rightChild rn
  let h ← if ll then (getNext h rightChild).bind (fun nx => setNext h leftChild nx) else some h
  setNum h leftChild (ln + (1 + rn))

/-- The function `mergeNodes`; `idx` is an `int` that the caller may make
negative, and indexing `children` with it is then undefined. -/
def mergeNodes (h : Heap) (root : Option Nat) (node : Nat) (idx : Int) :
    Option (Heap × Option Nat) := do
  let ix ← if idx < 0 then none else some idx.toNat
  let leftChild ← childPtr h node ix
  let rightChild ← childPtr h node (ix + 1)
  let h ← mergeInto h node ix leftChild rightChild
  let nk ← getNum h node
  let h ← forUp (fun i h => (copyKey h node i node (i + 1)).bind
      (fun h => copyChild h node (i + 1) node (i + 2))) (nk - 1 - ix) ix h
  let h ← decNum h node
  let h ← freeNode h rightChild
  let nk ← getNum h node
  if nk = 0 ∧ root = some node then (freeNode h node).map (fun h => (h, some leftChild))
  else some (h, root)

/-- The loop `while (parentIdx <= parent->numKeys &&
parent->children[parentIdx] != cursor) parentIdx++;` with `cnt` iterations
left: the value of `parentIdx` after the loop. -/
def parentIndex (h : Heap) (parent cursor : Nat) : Nat → Nat → Option Nat
  | 0, i => some i
  | cnt + 1, i =>
    match getChild h parent i with
    | none => none
    | some c => if c = some cursor then some i else parentIndex h parent cursor cnt (i + 1)

/-- The test `parent->children[i]->numKeys > (ORDER - 1) / 2`. -/
def hasSpare (h : Heap) (parent i : Nat) : Option Bool :=
  match childPtr h parent i with
  | some sib => (getNum h sib).map (fun sn => decide (sn > (ORDER - 1) / 2))
  | none => none

/-- The rebalancing tail of `deleteTransactionFromBPTree`, entered when a
leaf other than the root has fallen below `(ORDER - 1) / 2` keys. -/
def rebalanceLeaf (h : Heap) (root : Option Nat) (cursor : Nat) (parent : Option Nat) :
    Option (Heap × Option Nat) := do
  let parent ← parent
  let pn ← getNum h parent
  let parentIdx ← parentIndex h parent cursor (pn + 1) 0
  let nextSpare ← if parentIdx < pn then hasSpare h parent (parentIdx + 1) else some false
  if nextSpare then (borrowFromNext h parent parentIdx).map (fun h => (h, root))
  else
    let prevSpare ← if parentIdx > 0 then hasSpare h parent (parentIdx - 1) else some false
    if prevSpare then (borrowFromPrev h parent parentIdx).map (fun h => (h, root))
    else if parentIdx < pn then mergeNodes h root parent (parentIdx : Int)
    else mergeNodes h root parent ((parentIdx : Int) - 1)

/-- The function `deleteTransactionFromBPTree`. -/
def deleteTransactionFromBPTree (m : Store) (root : Option Nat) (transactionID : Int) :
    Option (Store × Option Nat) :=
  match root with
  | none => some (m, none)
  | some r => do
    let (cursor, parent, _) ← descend m.nodes transactionID m.nodes.length r none 0
    let nk ← getNum m.nodes cursor
    let keyIdx ← keyIndex m.nodes cursor transactionID nk 0
    match keyIdx with
    | none => some (m, root)
    | some keyIdx =>
      let rp ← getRec m.nodes cursor keyIdx
      let recs ← freeRec m.recs rp
      let h ← removeFromLeaf m.nodes cursor keyIdx
      let nk ← getNum h cursor
      if nk = 0 ∧ cursor = r then
        (freeNode h cursor).map (fun h => ({ nodes := h, recs := recs }, none))
      else if nk ≥ (ORDER - 1) / 2 ∨ cursor = r then
        some ({ nodes := h, recs := recs }, root)
      else
        (rebalanceLeaf h root cursor parent).map
          (fun hr => ({ nodes := hr.1, recs := recs }, hr.2))

/-! ## Machine arithmetic -/

/-- The value of type `int` (32 bits, two's complement) with the same low 32
bits as `i`. -/
def wrapInt (i : Int) : Int := (i + 2147483648) % 4294967296 - 2147483648

/-- The number of binary digits of `n`; `fuel` bounds their number. -/
def bitLength : Nat → Nat → Nat
  | 0, _ => 0
  | fuel + 1, n => if n = 0 then 0 else bitLength fuel (n / 2) + 1

/-- The whole number nearest to the fraction `n / d`, a tie going to the
even one. -/
def roundHalfEven (n d : Nat) : Nat :=
  if 2 * (n % d) < d then n / d
  else if d < 2 * (n % d) then n / d + 1
  else if n / d % 2 = 0 then n / d
  else n / d + 1

/-- The binary exponent of the positive fraction `p / q`: the `e` with
`2 ^ e ≤ p / q < 2 ^ (e + 1)`. -/
def binaryExponent (p q : Nat) : Int :=
  if bitLength q q ≤ bitLength p p then
    if q * 2 ^ (bitLength p p - bitLength q q) ≤ p then
      ((bitLength p p - bitLength q q : Nat) : Int)
    else ((bitLength p p - bitLength q q : Nat) : Int) - 1
  else
    if q ≤ p * 2 ^ (bitLength q q - bitLength p p) then
      -((bitLength q q - bitLength p p : Nat) : Int)
    else -((bitLength q q - bitLength p p : Nat) : Int) - 1

/-- The double nearest to the positive fraction `p / q`: a multiple of
`2 ^ (e - 52)`, where `e` is the binary exponent of the fraction and at
least -1022 (below `2 ^ (-1022)` the doubles are the multiples of
`2 ^ (-1074)`). -/
def roundMagnitude (p q : Nat) : Rat :=
  if 0 ≤ max (binaryExponent p q) (-1022) - 52 then
    ((roundHalfEven p (q * 2 ^ (max (binaryExponent p q) (-1022) - 52).toNat) *
      2 ^ (max (binaryExponent p q) (-1022) - 52).toNat : Nat) : Rat)
  else
    mkRat (roundHalfEven (p * 2 ^ (52 - max (binaryExponent p q) (-1022)).toNat) q)
      (2 ^ (52 - max (binaryExponent p q) (-1022)).toNat)

/-- The rounding of IEEE 754 binary64 arithmetic in its default mode: the
double nearest to the exact result `x`, a tie going to the one whose last
binary digit is 0.  The value is the program's as long as its magnitude is
below `2 ^ 1024`. -/
def roundDouble (x : Rat) : Rat :=
  if x.num = 0 then 0
  else if x.num < 0 then -roundMagnitude x.num.natAbs x.den
  else roundMagnitude x.num.natAbs x.den

/-- The operator `+` on two values of type `double`. -/
def doubleAdd (a b : Rat) : Rat := roundDouble (a + b)

/-- The operator `-` on two values of type `double`. -/
def doubleSub (a b : Rat) : Rat := roundDouble (a - b)

/-- The operator `*` on two values of type `double`. -/
def doubleMul (a b : Rat) : Rat := roundDouble (a * b)

/-- Whether a value of the model is in the range of the finite doubles. -/
def inDoubleRange (x : Rat) : Bool := decide (-(2 ^ 1024) < x ∧ x < 2 ^ 1024)

/-- The struct `RegularBuyer` list of a seller is a list of buyer ids; the
struct `Seller`, one cell of the list headed by `seller_head`. -/
structure Seller where
  sellerID : Int
  rateBelow300 : Rat
  rateAbove300 : Rat
  numTransactions : Int
  totalRevenue : Rat
  regularBuyers : List Int
  transactionTree : Option Nat
  deriving DecidableEq

/-- The struct `Buyer`, one cell of the list headed by `buyer_head`. -/
structure Buyer where
  buyerID : Int
  totalEnergyPurchased : Rat
  numTransactions : Int
  transactionTree : Option Nat
  deriving DecidableEq

/-- The global variables of the program together with its memory. -/
structure Engine where
  mem : Store
  globalTransactionTree : Option Nat
  seller_head : List Seller
  buyer_head : List Buyer
  nextTransactionID : Int
  loading_mode : Bool
  deriving DecidableEq

/-- The state at program start. -/
def Engine.empty : Engine :=
  { mem := { nodes := [], recs := [] }, globalTransactionTree := none, seller_head := [],
    buyer_head := [], nextTransactionID := 1, loading_mode := false }

/-- The list walk `while (current) { if (current->sellerID == sellerID) ... }`:
the position of the first seller with this id. -/
def sellerIndex (sellerID : Int) : List Seller → Option Nat
  | [] => none
  | s :: rest => if s.sellerID = sellerID then some 0 else (sellerIndex sellerID rest).map (· + 1)

/-- The list walk over `buyer_head`: the position of the first buyer with
this id. -/
def buyerIndex (buyerID : Int) : List Buyer → Option Nat
  | [] => none
  | b :: rest => if b.buyerID = buyerID then some 0 else (buyerIndex buyerID rest).map (· + 1)

/-- The function `findOrCreateSeller`: the seller list afterwards and the
position of the seller returned.  The two rates are what the operator types
when the seller is new and the program is not loading. -/
def findOrCreateSeller (sellers : List Seller) (sellerID : Int) (loading : Bool)
    (typedBelow typedAbove : Rat) : List Seller × Nat :=
  match sellerIndex sellerID sellers with
  | some i => (sellers, i)
  | none =>
    ({ sellerID := sellerID,
       rateBelow300 := if loading then 0 else typedBelow,
       rateAbove300 := if loading then 0 else typedAbove,
       numTransactions := 0, totalRevenue := 0, regularBuyers := [],
       transactionTree := none } :: sellers, 0)

/-- The function `findOrCreateBuyer`. -/
def findOrCreateBuyer (buyers : List Buyer) (buyerID : Int) : List Buyer × Nat :=
  match buyerIndex buyerID buyers with
  | some i => (buyers, i)
  | none =>
    ({ buyerID := buyerID, totalEnergyPurchased := 0, numTransactions := 0,
       transactionTree := none } :: buyers, 0)

/-- The function `addRegularBuyer`. -/
def addRegularBuyer (seller : Seller) (buyer : Buyer) : Seller :=
  if buyer.numTransactions > 5 then
    if buyer.buyerID ∈ seller.regularBuyers then seller
    else { seller with regularBuyers := buyer.buyerID :: seller.regularBuyers }
  else seller

/-- The function `createTransaction`: the record is placed at the end of the
record store; returns the state and the pointer.  The sum
`transactionID + 1` is an `int`: for the id 2147483647 it is -2147483648 in
the compiled program (by the C standard the addition overflows there);
nothing reads `nextTransactionID`. -/
def createTransaction (s : Engine) (transactionID buyerID sellerID : Int)
    (energyAmount pricePerKwh : Rat) (timestamp : String) : Engine × Nat :=
  ({ s with
      mem := { s.mem with recs := s.mem.recs ++
        [some { transactionID := transactionID, buyerID := buyerID, sellerID := sellerID,
                energyAmount := energyAmount, pricePerKwh := pricePerKwh,
                totalPrice := doubleMul energyAmount pricePerKwh,
                timestamp := String.mk (timestamp.data.take 29) }] },
      nextTransactionID :=
        if transactionID ≥ s.nextTransactionID then wrapInt (transactionID + 1)
        else s.nextTransactionID },
   s.mem.recs.length)

/-- What `insertTransaction` prints. -/
inductive InsertReport where
  | duplicate
  | added
  deriving DecidableEq

/-- What `deleteTransaction` prints. -/
inductive DeleteReport where
  | notFound
  | deleted
  deriving DecidableEq

/-- The three tree insertions of `insertTransaction` (global tree, seller
tree, buyer tree): the memory and the three roots afterwards. -/
def insertIntoTrees (m : Store) (g st bt : Option Nat) (t : Nat) :
    Option (Store × Option Nat × Option Nat × Option Nat) :=
  match insertTransactionIntoBPTree m g t with
  | none => none
  | some (m, g1) =>
    match insertTransactionIntoEntityTree m st t with
    | none => none
    | some (m, st1) =>
      match insertTransactionIntoEntityTree m bt t with
      | none => none
      | some (m, bt1) => some (m, g1, st1, bt1)

/-- The part of `insertTransaction` after the duplicate check, for the
record `tr` behind `t`. -/
def insertFresh (s : Engine) (t : Nat) (tr : Transaction) (typedBelow typedAbove : Rat) :
    Option Engine :=
  let (sellers, si) :=
    findOrCreateSeller s.seller_head tr.sellerID s.loading_mode typedBelow typedAbove
  let (buyers, bi) := findOrCreateBuyer s.buyer_head tr.buyerID
  match sellers[si]?, buyers[bi]? with
  | some seller, some buyer =>
    let price := if tr.energyAmount ≤ 300 then seller.rateBelow300 else seller.rateAbove300
    let tr1 := { tr with pricePerKwh := price, totalPrice := doubleMul tr.energyAmount price }
    let m : Store := { s.mem with recs := s.mem.recs.set t (some tr1) }
    match insertIntoTrees m s.globalTransactionTree seller.transactionTree
        buyer.transactionTree t with
    | none => none
    | some (m, g1, st1, bt1) =>
      let buyer1 : Buyer :=
        { buyer with transactionTree := bt1, numTransactions := buyer.numTransactions + 1,
                     totalEnergyPurchased :=
                       doubleAdd buyer.totalEnergyPurchased tr1.energyAmount }
      let seller1 : Seller :=
        { seller with transactionTree := st1, numTransactions := seller.numTransactions + 1,
                      totalRevenue := doubleAdd seller.totalRevenue tr1.totalPrice }
      some { s with mem := m, globalTransactionTree := g1,
                    seller_head := sellers.set si (addRegularBuyer seller1 buyer1),
                    buyer_head := buyers.set bi buyer1 }
  | _, _ => none

/-- The function `insertTransaction`, called with a pointer to a record made
by `createTransaction`. -/
def insertTransaction (s : Engine) (t : Nat) (typedBelow typedAbove : Rat) :
    Option (Engine × InsertReport) :=
  match loadRec s.mem.recs t with
  | none => none
  | some tr =>
    match findTransactionInBPTree s.mem.nodes s.globalTransactionTree tr.transactionID with
    | none => none
    | some true =>
      match freeRec s.mem.recs (some t) with
      | none => none
      | some recs => some ({ s with mem := { s.mem with recs := recs } }, InsertReport.duplicate)
    | some false =>
      (insertFresh s t tr typedBelow typedAbove).map (fun s1 => (s1, InsertReport.added))

/-- Whether every total and aggregate stored in the engine is in the range
of the finite doubles, so that none of the products and sums that the
program has stored is an infinity. -/
def finiteTotals (s : Engine) : Bool :=
  s.mem.recs.all (fun r =>
    match r with
    | some tr => inDoubleRange tr.totalPrice
    | none => true) &&
  s.seller_head.all (fun S => inDoubleRange S.totalRevenue) &&
  s.buyer_head.all (fun B => inDoubleRange B.totalEnergyPurchased)

/-- The seller block of `deleteTransaction`:
`if (seller && seller->transactionTree) { ... }`. -/
def deleteFromSeller (m : Store) (sellers : List Seller) (sellerID : Int)
    (transactionID : Int) (totalPrice : Rat) : Option (Store × List Seller) :=
  match sellerIndex sellerID sellers with
  | none => some (m, sellers)
  | some i =>
    match sellers[i]? with
    | none => none
    | some seller =>
      match seller.transactionTree with
      | none => some (m, sellers)
      | some r =>
        match deleteTransactionFromBPTree m (some r) transactionID with
        | none => none
        | some (m, r1) =>
          some (m, sellers.set i
            { seller with transactionTree := r1, numTransactions := seller.numTransactions - 1,
                          totalRevenue := doubleSub seller.totalRevenue totalPrice })

/-- The buyer block of `deleteTransaction`:
`if (buyer && buyer->transactionTree) { ... }`. -/
def deleteFromBuyer (m : Store) (buyers : List Buyer) (buyerID : Int)
    (transactionID : Int) (energyAmount : Rat) : Option (Store × List Buyer) :=
  match buyerIndex buyerID buyers with
  | none => some (m, buyers)
  | some i =>
    match buyers[i]? with
    | none => none
    | some buyer =>
      match buyer.transactionTree with
      | none => some (m, buyers)
      | some r =>
        match deleteTransactionFromBPTree m (some r) transactionID with
        | none => none
        | some (m, r1) =>
          some (m, buyers.set i
            { buyer with transactionTree := r1, numTransactions := buyer.numTransactions - 1,
                         totalEnergyPurchased :=
                           doubleSub buyer.totalEnergyPurchased energyAmount })

/-- The function `deleteTransaction`. -/
def deleteTransaction (s : Engine) (transactionID : Int) : Option (Engine × DeleteReport) :=
  match findTransactionById s.mem.nodes s.globalTransactionTree transactionID with
  | none => none
  | some none => some (s, DeleteReport.notFound)
  | some (some t) =>
    match loadRec s.mem.recs t with
    | none => none
    | some tr =>
      match deleteTransactionFromBPTree s.mem s.globalTransactionTree transactionID with
      | none => none
      | some (m, g1) =>
        match deleteFromSeller m s.seller_head tr.sellerID transactionID tr.totalPrice with
        | none => none
        | some (m, sellers) =>
          match deleteFromBuyer m s.buyer_head tr.buyerID transactionID tr.energyAmount with
          | none => none
          | some (m, buyers) =>
            some ({ s with mem := m, globalTransactionTree := g1, seller_head := sellers,
                           buyer_head := buyers }, DeleteReport.deleted)

/-! ## Operation sequences -/

/-- Insert the records behind the given pointers, in this order. -/
def insertAll : List Nat → Store × Option Nat → Option (Store × Option Nat)
  | [], s => some s
  | t :: ts, (m, root) =>
    match insertTransactionIntoBPTree m root t with
    | none => none
    | some s => insertAll ts s

/-- The id of the record behind a pointer (`t->transactionID`). -/
def idOf (m : Store) (t : Nat) : Option Int :=
  (loadRec m.recs t).map (fun tr => tr.transactionID)

/-- A record that carries the given id; the other fields play no part in the
tree operations. -/
def recordWithId (k : Int) : Transaction :=
  { transactionID := k, buyerID := 0, sellerID := 0, energyAmount := 0, pricePerKwh := 0,
    totalPrice := 0, timestamp := "" }

/-- A memory without tree nodes whose records `0, 1, ...` carry the given ids. -/
def storeWithIds (ids : List Int) : Store :=
  { nodes := [], recs := ids.map (fun k => some (recordWithId k)) }

/-- The tree obtained from the empty tree by inserting records with the given
ids in this order. -/
def treeOfIds (ids : List Int) : Option (Store × Option Nat) :=
  insertAll (List.range ids.length) (storeWithIds ids, none)

/-- The two state-changing menu entries of `main`, with the values typed. -/
inductive MenuAction where
  | record (transactionID buyerID sellerID : Int) (energyAmount : Rat) (timestamp : String)
      (typedBelow typedAbove : Rat)
  | delete (transactionID : Int)

/-- The `case 1` and `case 11` branches of the `switch` in `main`. -/
def menuStep (s : Engine) : MenuAction → Option Engine
  | MenuAction.record transactionID buyerID sellerID energyAmount timestamp typedBelow typedAbove =>
    match findTransactionInBPTree s.mem.nodes s.globalTransactionTree transactionID with
    | none => none
    | some true => some s
    | some false =>
      let (s1, t) := createTransaction s transactionID buyerID sellerID energyAmount 0 timestamp
      (insertTransaction s1 t typedBelow typedAbove).map (fun r => r.1)
  | MenuAction.delete transactionID => (deleteTransaction s transactionID).map (fun r => r.1)

/-- A run of menu entries. -/
def runMenu : List MenuAction → Engine → Option Engine
  | [], s => some s
  | a :: rest, s =>
    match menuStep s a with
    | none => none
    | some s1 => runMenu rest s1

/-- Record a transaction of 100 units between buyer 20 and seller 10, whose
rates are typed as 1/10 and 2/25 if the seller is new. -/
def recordPlain (transactionID : Int) : MenuAction :=
  MenuAction.record transactionID 20 10 100 "2024-01-01 10:00:00" (1 / 10) (2 / 25)

/-- The engine after recording one transaction with id 1, or the empty
engine should that run have no result. -/
def engineWithOne : Engine := (runMenu [recordPlain 1] Engine.empty).getD Engine.empty

/-- The engine `engineWithOne` after `createTransaction` has made a second
record with id 1, and the pointer to that record. -/
def engineWithDuplicate : Engine × Nat :=
  createTransaction engineWithOne 1 21 11 50 0 "2024-01-02 10:00:00"

/-! ## The shape of a tree built by insertions

These definitions are used by the proofs only.  A `Shape` names the nodes of
a tree together with what the proofs need to know of their content; `Rep`
says that a heap holds such a tree.  A `Frame` is an internal node with one
child taken out, and a list of frames (innermost first) is a path from a
node up to the root. -/

/-- A tree of leaves with one or two entries and internal nodes with two or
three children, each node with its address; a leaf also with its `next`
link. -/
inductive Shape where
  | leaf (a : Nat) (es : List (Int × Nat)) (nx : Option Nat)
  | node2 (a : Nat) (c0 : Shape) (k0 : Int) (c1 : Shape)
  | node3 (a : Nat) (c0 : Shape) (k0 : Int) (c1 : Shape) (k1 : Int) (c2 : Shape)

/-- The address of the top node. -/
def Shape.addr : Shape → Nat
  | Shape.leaf a _ _ => a
  | Shape.node2 a _ _ _ => a
  | Shape.node3 a _ _ _ _ _ => a

/-- All addresses of the tree. -/
def Shape.addrs : Shape → List Nat
  | Shape.leaf a _ _ => [a]
  | Shape.node2 a c0 _ c1 => a :: (c0.addrs ++ c1.addrs)
  | Shape.node3 a c0 _ c1 _ c2 => a :: (c0.addrs ++ c1.addrs ++ c2.addrs)

/-- The leaves from left to right: address, entries and `next` link. -/
def Shape.leaves : Shape → List (Nat × List (Int × Nat) × Option Nat)
  | Shape.leaf a es nx => [(a, es, nx)]
  | Shape.node2 _ c0 _ c1 => c0.leaves ++ c1.leaves
  | Shape.node3 _ c0 _ c1 _ c2 => c0.leaves ++ c1.leaves ++ c2.leaves

/-- The entries (key and record pointer) from left to right. -/
def Shape.entries : Shape → List (Int × Nat)
  | Shape.leaf _ es _ => es
  | Shape.node2 _ c0 _ c1 => c0.entries ++ c1.entries
  | Shape.node3 _ c0 _ c1 _ c2 => c0.entries ++ c1.entries ++ c2.entries

/-- The number of nodes. -/
def Shape.size : Shape → Nat
  | Shape.leaf _ _ _ => 1
  | Shape.node2 _ c0 _ c1 => 1 + c0.size + c1.size
  | Shape.node3 _ c0 _ c1 _ c2 => 1 + c0.size + c1.size + c2.size

/-- The heap holds a leaf with these entries and this `next` link at `a`. -/
def RepLeaf (h : Heap) (a : Nat) (nx : Option Nat) : List (Int × Nat) → Prop
  | [(k, r)] => ∃ x y rx ry,
      load h a = some ⟨true, 1, [k, x, y], [none, none, none, none], nx, [some r, rx, ry]⟩
  | [(k0, r0), (k1, r1)] => ∃ y ry,
      load h a = some ⟨true, 2, [k0, k1, y], [none, none, none, none], nx, [some r0, some r1, ry]⟩
  | _ => False

/-- The heap holds an internal node with one key and these two children. -/
def RepNode2 (h : Heap) (a : Nat) (c0 : Nat) (k0 : Int) (c1 : Nat) : Prop :=
  ∃ x y z w, load h a =
    some ⟨false, 1, [k0, x, y], [some c0, some c1, z, w], none, [none, none, none]⟩

/-- The heap holds an internal node with two keys and these three children. -/
def RepNode3 (h : Heap) (a : Nat) (c0 : Nat) (k0 : Int) (c1 : Nat) (k1 : Int) (c2 : Nat) :
    Prop :=
  ∃ y w, load h a =
    some ⟨false, 2, [k0, k1, y], [some c0, some c1, some c2, w], none, [none, none, none]⟩

/-- The heap holds the tree. -/
def Rep (h : Heap) : Shape → Prop
  | Shape.leaf a es nx => RepLeaf h a nx es
  | Shape.node2 a c0 k0 c1 => RepNode2 h a c0.addr k0 c1.addr ∧ Rep h c0 ∧ Rep h c1
  | Shape.node3 a c0 k0 c1 k1 c2 =>
    RepNode3 h a c0.addr k0 c1.addr k1 c2.addr ∧ Rep h c0 ∧ Rep h c1 ∧ Rep h c2

/-- A lower bound that may be absent. -/
def geLo (lo : Option Int) (k : Int) : Prop :=
  match lo with
  | none => True
  | some l => l ≤ k

/-- A strict lower bound that may be absent. -/
def gtLo (lo : Option Int) (k : Int) : Prop :=
  match lo with
  | none => True
  | some l => l < k

/-- A strict upper bound that may be absent. -/
def ltHi (k : Int) (hi : Option Int) : Prop :=
  match hi with
  | none => True
  | some u => k < u

/-- The search-tree order: keys ascend inside a leaf, every key of a subtree
lies between the separators around it, and separators lie strictly inside
the bounds of their node. -/
def Ord (lo hi : Option Int) : Shape → Prop
  | Shape.leaf _ es _ =>
    (es.map Prod.fst).Pairwise (· < ·) ∧ ∀ e ∈ es, geLo lo e.1 ∧ ltHi e.1 hi
  | Shape.node2 _ c0 k0 c1 =>
    gtLo lo k0 ∧ ltHi k0 hi ∧ Ord lo (some k0) c0 ∧ Ord (some k0) hi c1
  | Shape.node3 _ c0 k0 c1 k1 c2 =>
    gtLo lo k0 ∧ k0 < k1 ∧ ltHi k1 hi ∧
      Ord lo (some k0) c0 ∧ Ord (some k0) (some k1) c1 ∧ Ord (some k1) hi c2

/-- The address a leaf followed by the leaves `rest` must link to: the first
of `rest`, or `last` when there is none. -/
def nextOf (rest : List (Nat × List (Int × Nat) × Option Nat)) (last : Option Nat) :
    Option Nat :=
  match rest with
  | [] => last
  | m :: _ => some m.1

/-- Each leaf of the list links to the next one, and the last one to `last`. -/
def Linked : List (Nat × List (Int × Nat) × Option Nat) → Option Nat → Prop
  | [], _ => True
  | l :: rest, last => l.2.2 = nextOf rest last ∧ Linked rest last

/-- An internal node with one child taken out. -/
inductive Frame where
  | n2l (a : Nat) (k0 : Int) (c1 : Shape)
  | n2r (a : Nat) (c0 : Shape) (k0 : Int)
  | n3l (a : Nat) (k0 : Int) (c1 : Shape) (k1 : Int) (c2 : Shape)
  | n3m (a : Nat) (c0 : Shape) (k0 : Int) (k1 : Int) (c2 : Shape)
  | n3r (a : Nat) (c0 : Shape) (k0 : Int) (c1 : Shape) (k1 : Int)

/-- The address of the node of a frame. -/
def Frame.addr : Frame → Nat
  | Frame.n2l a _ _ => a
  | Frame.n2r a _ _ => a
  | Frame.n3l a _ _ _ _ => a
  | Frame.n3m a _ _ _ _ => a
  | Frame.n3r a _ _ _ _ => a

/-- Put a subtree back into the frame. -/
def Frame.fill : Frame → Shape → Shape
  | Frame.n2l a k0 c1, t => Shape.node2 a t k0 c1
  | Frame.n2r a c0 k0, t => Shape.node2 a c0 k0 t
  | Frame.n3l a k0 c1 k1 c2, t => Shape.node3 a t k0 c1 k1 c2
  | Frame.n3m a c0 k0 k1 c2, t => Shape.node3 a c0 k0 t k1 c2
  | Frame.n3r a c0 k0 c1 k1, t => Shape.node3 a c0 k0 c1 k1 t

/-- The subtrees left of the hole. -/
def Frame.before : Frame → List Shape
  | Frame.n2l _ _ _ => []
  | Frame.n2r _ c0 _ => [c0]
  | Frame.n3l _ _ _ _ _ => []
  | Frame.n3m _ c0 _ _ _ => [c0]
  | Frame.n3r _ c0 _ c1 _ => [c0, c1]

/-- The subtrees right of the hole. -/
def Frame.after : Frame → List Shape
  | Frame.n2l _ _ c1 => [c1]
  | Frame.n2r _ _ _ => []
  | Frame.n3l _ _ c1 _ c2 => [c1, c2]
  | Frame.n3m _ _ _ _ c2 => [c2]
  | Frame.n3r _ _ _ _ _ => []

/-- The lower bound of the hole, given the lower bound of the node. -/
def Frame.lo (lo : Option Int) : Frame → Option Int
  | Frame.n2l _ _ _ => lo
  | Frame.n2r _ _ k0 => some k0
  | Frame.n3l _ _ _ _ _ => lo
  | Frame.n3m _ _ k0 _ _ => some k0
  | Frame.n3r _ _ _ _ k1 => some k1

/-- The upper bound of the hole, given the upper bound of the node. -/
def Frame.hi (hi : Option Int) : Frame → Option Int
  | Frame.n2l _ k0 _ => some k0
  | Frame.n2r _ _ _ => hi
  | Frame.n3l _ k0 _ _ _ => some k0
  | Frame.n3m _ _ _ k1 _ => some k1
  | Frame.n3r _ _ _ _ _ => hi

/-- Put a subtree back at the bottom of a path. -/
def plug : List Frame → Shape → Shape
  | [], t => t
  | f :: c, t => plug c (f.fill t)

/-- The lower bound of the hole at the bottom of a path in a whole tree. -/
def pathLo : List Frame → Option Int
  | [] => none
  | f :: c => f.lo (pathLo c)

/-- The upper bound of the hole at the bottom of a path in a whole tree. -/
def pathHi : List Frame → Option Int
  | [] => none
  | f :: c => f.hi (pathHi c)

/-- The path taken by the descent for `id`, pushed onto `c`, and the leaf it
reaches. -/
def pathTo (id : Int) : Shape → List Frame → List Frame × Nat × List (Int × Nat) × Option Nat
  | Shape.leaf a es nx, c => (c, a, es, nx)
  | Shape.node2 a c0 k0 c1, c =>
    if id < k0 then pathTo id c0 (Frame.n2l a k0 c1 :: c)
    else pathTo id c1 (Frame.n2r a c0 k0 :: c)
  | Shape.node3 a c0 k0 c1 k1 c2, c =>
    if id < k0 then pathTo id c0 (Frame.n3l a k0 c1 k1 c2 :: c)
    else if id < k1 then pathTo id c1 (Frame.n3m a c0 k0 k1 c2 :: c)
    else pathTo id c2 (Frame.n3r a c0 k0 c1 k1 :: c)

/-- The tree rooted at `root` is held by the heap, is ordered, uses each
address once, its leaves are linked in order, and its entries are `es` in
some order. -/
def TreeAt (h : Heap) (root : Option Nat) (es : List (Int × Nat)) : Prop :=
  match root with
  | none => es = []
  | some r => ∃ t : Shape, t.addr = r ∧ Rep h t ∧ Ord none none t ∧ t.addrs.Nodup ∧
      Linked t.leaves none ∧ t.entries.Perm es

/-- The heap holds the node of a frame, with `hole` as the missing child, and
the other subtrees of the frame. -/
def RepFrame (h : Heap) (hole : Nat) : Frame → Prop
  | Frame.n2l a k0 c1 => RepNode2 h a hole k0 c1.addr ∧ Rep h c1
  | Frame.n2r a c0 k0 => RepNode2 h a c0.addr k0 hole ∧ Rep h c0
  | Frame.n3l a k0 c1 k1 c2 => RepNode3 h a hole k0 c1.addr k1 c2.addr ∧ Rep h c1 ∧ Rep h c2
  | Frame.n3m a c0 k0 k1 c2 => RepNode3 h a c0.addr k0 hole k1 c2.addr ∧ Rep h c0 ∧ Rep h c2
  | Frame.n3r a c0 k0 c1 k1 => RepNode3 h a c0.addr k0 c1.addr k1 hole ∧ Rep h c0 ∧ Rep h c1

/-- The heap holds all frames of a path whose bottom hole is at `hole`. -/
def RepPath (h : Heap) : List Frame → Nat → Prop
  | [], _ => True
  | f :: c, hole => RepFrame h hole f ∧ RepPath h c f.addr

/-- The order conditions of a frame that do not concern the hole. -/
def OrdFrame (lo hi : Option Int) : Frame → Prop
  | Frame.n2l _ k0 c1 => gtLo lo k0 ∧ ltHi k0 hi ∧ Ord (some k0) hi c1
  | Frame.n2r _ c0 k0 => gtLo lo k0 ∧ ltHi k0 hi ∧ Ord lo (some k0) c0
  | Frame.n3l _ k0 c1 k1 c2 =>
    gtLo lo k0 ∧ k0 < k1 ∧ ltHi k1 hi ∧ Ord (some k0) (some k1) c1 ∧ Ord (some k1) hi c2
  | Frame.n3m _ c0 k0 k1 c2 =>
    gtLo lo k0 ∧ k0 < k1 ∧ ltHi k1 hi ∧ Ord lo (some k0) c0 ∧ Ord (some k1) hi c2
  | Frame.n3r _ c0 k0 c1 k1 =>
    gtLo lo k0 ∧ k0 < k1 ∧ ltHi k1 hi ∧ Ord lo (some k0) c0 ∧ Ord (some k0) (some k1) c1

/-- The order conditions of all frames of a path in a whole tree. -/
def OrdPath : List Frame → Prop
  | [] => True
  | f :: c => OrdFrame (pathLo c) (pathHi c) f ∧ OrdPath c

/-- The addresses of a frame: its node and its subtrees. -/
def Frame.addrs (f : Frame) : List Nat :=
  f.addr :: ((f.before.map Shape.addrs).flatten ++ (f.after.map Shape.addrs).flatten)

/-- The addresses of a path. -/
def pathAddrs : List Frame → List Nat
  | [] => []
  | f :: c => f.addrs ++ pathAddrs c

/-- The leaves of the whole tree left of the hole of a path. -/
def leavesBefore : List Frame → List (Nat × List (Int × Nat) × Option Nat)
  | [] => []
  | f :: c => leavesBefore c ++ (f.before.map Shape.leaves).flatten

/-- The leaves of the whole tree right of the hole of a path. -/
def leavesAfter : List Frame → List (Nat × List (Int × Nat) × Option Nat)
  | [] => []
  | f :: c => (f.after.map Shape.leaves).flatten ++ leavesAfter c

/-- The address of the root of the tree around a path whose hole is at
`hole`. -/
def pathRoot : List Frame → Nat → Nat
  | [], hole => hole
  | f :: c, _ => pathRoot c f.addr

/-- The continuation of a split: hang the new right node beside the left one,
under a new root when the path is empty and under the parent otherwise. -/
def attach (fuel : Nat) (h : Heap) (root : Option Nat) (c : List Frame) (left : Nat)
    (key : Int) (right : Nat) : Option (Heap × Option Nat) :=
  match c with
  | [] => newRootAbove h key left right
  | f :: _ => insertInternalNode fuel h root key right f.addr

/-- The number of nodes the parent search visits before it reaches the frame
above the hole: each frame and the subtrees right of its hole. -/
def searchCost : List Frame → Nat
  | [] => 0
  | f :: c => 1 + (f.after.map Shape.size).sum + searchCost c

/-- The heap `h1` extends `h` and agrees with it outside the addresses `xs`. -/
def HeapExt (h h1 : Heap) (xs : List Nat) : Prop :=
  h.length ≤ h1.length ∧ ∀ p, p < h.length → p ∉ xs → load h1 p = load h p

/-- The branch of `insertInternalNode` taken when the node has become full:
find the parent unless the node is the root, then split. -/
def splitFull (fuel : Nat) (h : Heap) (root : Option Nat) (node : Nat) :
    Option (Heap × Option Nat) :=
  if root = some node then splitInternalNode fuel h root node none
  else
    match root with
    | none => none
    | some r =>
      match searchParent h node (h.length + 1) [r] with
      | none => none
      | some (some parent) => splitInternalNode fuel h root node (some parent)
      | some none => splitInternalNode fuel h root node none

/-- What is known when a right node `right` with separator `key` is about to
be hung beside `left` at the bottom of the path `c`. -/
structure UpPre (h : Heap) (c : List Frame) (left right : Shape) (key : Int) : Prop where
  rpath : RepPath h c left.addr
  rleft : Rep h left
  rright : Rep h right
  nodup : (pathAddrs c ++ (left.addrs ++ right.addrs)).Nodup
  opath : OrdPath c
  oleft : Ord (pathLo c) (some key) left
  oright : Ord (some key) (pathHi c) right
  klo : gtLo (pathLo c) key
  khi : ltHi key (pathHi c)

/-- What holds afterwards: the result is a whole tree whose leaves are those
around the path with the leaves of `left` and `right` in the hole. -/
def UpPost (h : Heap) (c : List Frame) (left right : Shape)
    (res : Option (Heap × Option Nat)) : Prop :=
  ∃ h1 t, res = some (h1, some t.addr) ∧ Rep h1 t ∧ Ord none none t ∧ t.addrs.Nodup ∧
    t.leaves = leavesBefore c ++ (left.leaves ++ right.leaves) ++ leavesAfter c ∧
    HeapExt h h1 (pathAddrs c) ∧
    ∀ a ∈ t.addrs, a ∈ pathAddrs c ∨ a ∈ left.addrs ∨ a ∈ right.addrs ∨ h.length ≤ a

/-! ## Observations on trees and engines used by the statements -/

/-- The number of node levels from `cursor` down to a leaf, walking
`children[0]` as every scan of the program does. -/
def levelsDown (h : Heap) : Nat → Nat → Option Nat
  | 0, _ => none
  | fuel + 1, cursor =>
    match load h cursor with
    | none => none
    | some n =>
      if n.isLeaf then some 1
      else
        match n.children[0]? with
        | some (some c) => (levelsDown h fuel c).map (· + 1)
        | _ => none

/-- The height of a tree: the number of node levels from the root down to
the leaves; the empty tree has none. -/
def treeHeight (h : Heap) (root : Option Nat) : Option Nat :=
  match root with
  | none => some 0
  | some r => levelsDown h h.length r

/-- The level of every leaf below `cursor`, from left to right, the node
`cursor` being at level 1. -/
def leafLevels (h : Heap) : Nat → Nat → Option (List Nat)
  | 0, _ => none
  | fuel + 1, cursor =>
    match load h cursor with
    | none => none
    | some n =>
      if n.isLeaf then some [1]
      else
        (List.range (n.numKeys + 1)).foldr (fun i acc =>
          match n.children[i]?, acc with
          | some (some c), some rest =>
            (leafLevels h fuel c).map (fun ls => ls.map (· + 1) ++ rest)
          | _, _ => none) (some [])

/-- The list walk `while (current) { if (current->sellerID == sellerID) ... }`
returning the cell found. -/
def sellerOf (sellers : List Seller) (sellerID : Int) : Option Seller :=
  sellers.find? (fun s => decide (s.sellerID = sellerID))

/-- The list walk over `buyer_head` returning the cell found. -/
def buyerOf (buyers : List Buyer) (buyerID : Int) : Option Buyer :=
  buyers.find? (fun b => decide (b.buyerID = buyerID))

/-- The arguments of one `createTransaction` call whose record is handed to
`insertTransaction`, and the two rates the operator types should the seller
be new. -/
structure RecordArgs where
  transactionID : Int
  buyerID : Int
  sellerID : Int
  energyAmount : Rat
  pricePerKwh : Rat
  timestamp : String
  typedBelow : Rat
  typedAbove : Rat

/-- The call `insertTransaction(createTransaction(...))`. -/
def recordCall (s : Engine) (a : RecordArgs) : Option (Engine × InsertReport) :=
  insertTransaction
    (createTransaction s a.transactionID a.buyerID a.sellerID a.energyAmount a.pricePerKwh
      a.timestamp).1
    (createTransaction s a.transactionID a.buyerID a.sellerID a.energyAmount a.pricePerKwh
      a.timestamp).2
    a.typedBelow a.typedAbove

/-- A sequence of such calls each of which adds its record; there is no
result when a call is undefined or reports a duplicate. -/
def recordAll : List RecordArgs → Engine → Option Engine
  | [], s => some s
  | a :: rest, s =>
    match recordCall s a with
    | some (s1, InsertReport.added) => recordAll rest s1
    | _ => none

/-- A transaction of `energyAmount` units between buyer `buyerID` and
seller `sellerID`, whose rates are typed as 1/10 and 2/25 if the seller is
new. -/
def plainArgs (transactionID buyerID sellerID : Int) (energyAmount : Rat) : RecordArgs :=
  { transactionID := transactionID, buyerID := buyerID, sellerID := sellerID,
    energyAmount := energyAmount, pricePerKwh := 0, timestamp := "2024-01-01 10:00:00",
    typedBelow := 1 / 10, typedAbove := 2 / 25 }

/-! ## The sort of the energy-range query -/

/-- The copy loop `for (i = 0; i < n; i++) L[i] = arr[start + i];` of `merge`,
from `i` on with `n` rounds left: the values copied. -/
def copyRun (arr : List Nat) (start : Int) : Nat → Nat → Option (List Nat)
  | 0, _ => some []
  | n + 1, i =>
    match (if 0 ≤ start + i then arr[(start + i).toNat]? else none) with
    | none => none
    | some p => (copyRun arr start n (i + 1)).map (fun rest => p :: rest)

/-- The three `while` loops of `merge` on what is left of `L` and of `R`:
the values written to `arr[k++]`, in order.  Each round writes one value. -/
def mergeLoop (recs : List (Option Transaction)) : Nat → List Nat → List Nat → Option (List Nat)
  | _, [], R => some R
  | _, a :: L, [] => some (a :: L)
  | 0, _ :: _, _ :: _ => none
  | fuel + 1, a :: L, b :: R =>
    match loadRec recs a, loadRec recs b with
    | some ta, some tb =>
      if ta.energyAmount ≤ tb.energyAmount then
        (mergeLoop recs fuel L (b :: R)).map (fun rest => a :: rest)
      else (mergeLoop recs fuel (a :: L) R).map (fun rest => b :: rest)
    | _, _ => none

/-- The writes `arr[k++] = v` of `merge` for the values `vs`. -/
def writeRun (arr : List Nat) (k : Int) : List Nat → Option (List Nat)
  | [] => some arr
  | v :: vs =>
    if 0 ≤ k ∧ k.toNat < arr.length then writeRun (arr.set k.toNat v) (k + 1) vs else none

/-- The function `merge` on an array of record pointers. -/
def merge (recs : List (Option Transaction)) (arr : List Nat) (l m r : Int) :
    Option (List Nat) :=
  match copyRun arr l (m - l + 1).toNat 0, copyRun arr (m + 1) (r - m).toNat 0 with
  | some L, some R =>
    match mergeLoop recs (L.length + R.length) L R with
    | none => none
    | some out => writeRun arr l out
  | _, _ => none

/-- The recursion of `mergeSort`, at most `fuel` calls deep. -/
def mergeSortFuel (recs : List (Option Transaction)) :
    Nat → List Nat → Int → Int → Option (List Nat)
  | 0, _, _, _ => none
  | fuel + 1, arr, l, r =>
    if l < r then
      match mergeSortFuel recs fuel arr l (l + (r - l).tdiv 2) with
      | none => none
      | some arr1 =>
        match mergeSortFuel recs fuel arr1 (l + (r - l).tdiv 2 + 1) r with
        | none => none
        | some arr2 => merge recs arr2 l (l + (r - l).tdiv 2) r
    else some arr

/-- The function `mergeSort`; a call on the range `l..r` is never more than
`r - l + 1` calls deep. -/
def mergeSort (recs : List (Option Transaction)) (arr : List Nat) (l r : Int) :
    Option (List Nat) :=
  mergeSortFuel recs ((r - l).toNat + 1) arr l r

/-- The amount of the record behind a pointer, 0 for a pointer that is not
live. -/
def energyOf (recs : List (Option Transaction)) (p : Nat) : Rat :=
  ((loadRec recs p).map (fun tr => tr.energyAmount)).getD 0

/-- The collection loop of `findTransactionsByEnergyRange` over the record
pointers of the leaf chain: every record is read, also behind a null
pointer, and kept when its amount lies within the bounds. -/
def collectByEnergy (recs : List (Option Transaction)) (minEnergy maxEnergy : Rat) :
    List (Option Nat) → Option (List Nat)
  | [] => some []
  | none :: _ => none
  | some p :: ps =>
    match loadRec recs p with
    | none => none
    | some tr =>
      (collectByEnergy recs minEnergy maxEnergy ps).map (fun rest =>
        if tr.energyAmount ≥ minEnergy ∧ tr.energyAmount ≤ maxEnergy then p :: rest else rest)

/-- The array `transArray` of `findTransactionsByEnergyRange` after the
collection loop. -/
def energyMatches (m : Store) (root : Option Nat) (minEnergy maxEnergy : Rat) :
    Option (List Nat) :=
  match scanRecs m.nodes root with
  | none => none
  | some ps => collectByEnergy m.recs minEnergy maxEnergy ps

/-- The function `findTransactionsByEnergyRange`: the array after the sort,
whose records are the rows of the table in this order. -/
def findTransactionsByEnergyRange (m : Store) (root : Option Nat) (minEnergy maxEnergy : Rat) :
    Option (List Nat) :=
  match root with
  | none => some []
  | some r =>
    match energyMatches m (some r) minEnergy maxEnergy with
    | none => none
    | some arr => mergeSort m.recs arr 0 ((arr.length : Int) - 1)

/-- A memory without tree nodes whose records `0, 1, ...` carry the ids
`0, 1, ...` and the given amounts. -/
def storeWithEnergies (es : List Rat) : Store :=
  { nodes := [],
    recs := es.enum.map (fun p => some { recordWithId p.1 with energyAmount := p.2 }) }

/-! ## The date-range query -/

/-- The test `isspace` in the C locale. -/
def isSpaceC (c : Char) : Bool := c.toNat = 32 || (9 ≤ c.toNat && c.toNat ≤ 13)

/-- The test `isdigit`. -/
def isDigitC (c : Char) : Bool := 48 ≤ c.toNat && c.toNat ≤ 57

/-- The value of a run of decimal digits. -/
def digitsValue (ds : List Char) : Int :=
  ds.foldl (fun acc c => acc * 10 + ((c.toNat - 48 : Nat) : Int)) 0

/-- The digits of a `%d` conversion after white space and sign: at least one
digit must be there; returns the value and the rest of the input. -/
def scanDigits (cs : List Char) : Option (Int × List Char) :=
  if (cs.takeWhile isDigitC).isEmpty then none
  else some (digitsValue (cs.takeWhile isDigitC), cs.dropWhile isDigitC)

/-- The value that a `%d` conversion stores in an `int` when the digits read
denote the number `v`: the C library converts with `strtol`, which keeps the
value within the range of `long` (64 bits), and the store into the `int`
keeps the low 32 bits.  It is `v` when `v` is in the range of `int`. -/
def storedInt (v : Int) : Int :=
  wrapInt (max (-9223372036854775808) (min v 9223372036854775807))

/-- The conversion `%d` of `sscanf`: white space is skipped, then an optional
sign and decimal digits are read, and the number is stored in an `int`. -/
def scanInt (cs : List Char) : Option (Int × List Char) :=
  match cs.dropWhile isSpaceC with
  | [] => none
  | c :: rest =>
    if c.toNat = 45 then (scanDigits rest).map (fun r => (storedInt (-r.1), r.2))
    else if c.toNat = 43 then (scanDigits rest).map (fun r => (storedInt r.1, r.2))
    else (scanDigits (c :: rest)).map (fun r => (storedInt r.1, r.2))

/-- An ordinary character of a `sscanf` format: the next input character
must be this one. -/
def scanChar (code : Nat) (cs : List Char) : Option (List Char) :=
  match cs with
  | [] => none
  | c :: rest => if c.toNat = code then some rest else none

/-- The first three conversions of `sscanf` with a format that starts
`"%d-%d-%d"`: year, month and day, and the rest of the input. -/
def scanDateRest (cs : List Char) : Option ((Int × Int × Int) × List Char) :=
  match scanInt cs with
  | none => none
  | some (year, r1) =>
    match scanChar 45 r1 with
    | none => none
    | some r2 =>
      match scanInt r2 with
      | none => none
      | some (month, r3) =>
        match scanChar 45 r3 with
        | none => none
        | some r4 =>
          match scanInt r4 with
          | none => none
          | some (day, r5) => some ((year, month, day), r5)

/-- The call `sscanf(s, "%d-%d-%d", ...)`: the three values when it returns 3. -/
def scanDate (s : String) : Option (Int × Int × Int) :=
  (scanDateRest s.data).map (fun r => r.1)

/-- The call `sscanf(s, "%d-%d-%d %d:%d:%d", ...)`: the six values when it
returns 6. -/
def scanDateTime (s : String) : Option ((Int × Int × Int) × (Int × Int × Int)) :=
  match scanDateRest s.data with
  | none => none
  | some (date, r5) =>
    match scanInt r5 with
    | none => none
    | some (hour, r6) =>
      match scanChar 58 r6 with
      | none => none
      | some r7 =>
        match scanInt r7 with
        | none => none
        | some (minute, r8) =>
          match scanChar 58 r8 with
          | none => none
          | some r9 =>
            match scanInt r9 with
            | none => none
            | some (second, _) => some (date, (hour, minute, second))

/-- The range checks of `isValidDateTimeFormat` on year, month and day. -/
def validDate (year month day : Int) : Bool :=
  !(year < 1900 || year > 2100 || month < 1 || month > 12 || day < 1 || day > 31) &&
  !((month = 4 || month = 6 || month = 9 || month = 11) && day > 30) &&
  !(month = 2 &&
    day > (if year % 4 = 0 && (year % 100 ≠ 0 || year % 400 = 0) then 29 else 28))

/-- The range checks of `isValidDateTimeFormat` on hour, minute and second. -/
def validTime (hour minute second : Int) : Bool :=
  !(hour < 0 || hour > 23 || minute < 0 || minute > 59 || second < 0 || second > 59)

/-- The function `isValidDateTimeFormat`. -/
def isValidDateTimeFormat (dateTime : String) : Bool :=
  match scanDateTime dateTime with
  | none => false
  | some ((year, month, day), (hour, minute, second)) =>
    validDate year month day && validTime hour minute second

/-- The function `isDateInRange`.  The library function `mktime` is a
parameter: `mktime tm_year tm_mon tm_mday` is its value on a `struct tm`
with these three fields and all others zero. -/
def isDateInRange (mktime : Int → Int → Int → Int) (date startDate endDate : String) : Bool :=
  match scanDate date with
  | none => false
  | some (y, mo, d) =>
    match scanDate startDate with
    | none => false
    | some (ys, ms, ds) =>
      match scanDate endDate with
      | none => false
      | some (ye, me, de) =>
        decide (mktime (y - 1900) (mo - 1) d ≥ mktime (ys - 1900) (ms - 1) ds ∧
          mktime (y - 1900) (mo - 1) d ≤ mktime (ye - 1900) (me - 1) de)

/-- The loop of `findTransactionsByTimeRange` over the record pointers of the
leaf chain: every record is read, also behind a null pointer, and a row is
added for it when its date is in the range; the pointers of these records. -/
def collectByDate (mktime : Int → Int → Int → Int) (recs : List (Option Transaction))
    (startDate endDate : String) : List (Option Nat) → Option (List Nat)
  | [] => some []
  | none :: _ => none
  | some p :: ps =>
    match loadRec recs p with
    | none => none
    | some tr =>
      (collectByDate mktime recs startDate endDate ps).map (fun rest =>
        if isDateInRange mktime tr.timestamp startDate endDate then p :: rest else rest)

/-- The function `findTransactionsByTimeRange`: the records whose rows it
adds to the table, in this order. -/
def findTransactionsByTimeRange (mktime : Int → Int → Int → Int) (m : Store)
    (root : Option Nat) (startDate endDate : String) : Option (List Nat) :=
  match root with
  | none => some []
  | some r =>
    match scanRecs m.nodes (some r) with
    | none => none
    | some ps => collectByDate mktime m.recs startDate endDate ps

/-- The calendar date of a timestamp as `isValidDateTimeFormat` reads it. -/
def calendarDate (s : String) : Option (Int × Int × Int) :=
  (scanDateTime s).map (fun r => r.1)

/-- The order of calendar dates: by year, then month, then day. -/
def dateLe (a b : Int × Int × Int) : Bool :=
  decide (a.1 < b.1 ∨ (a.1 = b.1 ∧ (a.2.1 < b.2.1 ∨ (a.2.1 = b.2.1 ∧ a.2.2 ≤ b.2.2))))

/-- The strict order of calendar dates. -/
def dateLt (a b : Int × Int × Int) : Bool :=
  decide (a.1 < b.1 ∨ (a.1 = b.1 ∧ (a.2.1 < b.2.1 ∨ (a.2.1 = b.2.1 ∧ a.2.2 < b.2.2))))

/-- The date of `date` lies between the dates of `startDate` and `endDate`,
both included; dates as `isValidDateTimeFormat` reads them. -/
def inDateRange (startDate endDate date : String) : Bool :=
  match calendarDate date, calendarDate startDate, calendarDate endDate with
  | some d, some s, some e => dateLe s d && dateLe d e
  | _, _, _ => false

/-- The timestamp of the record behind a pointer, empty for a pointer that
is not live. -/
def timestampOf (recs : List (Option Transaction)) (p : Nat) : String :=
  ((loadRec recs p).map (fun tr => tr.timestamp)).getD ""

/-- What the statements assume of the library function `mktime`: on dates
that pass the checks of `isValidDateTimeFormat` a later date gives a greater
time. -/
def MktimeAscends (mktime : Int → Int → Int → Int) : Prop :=
  ∀ y1 m1 d1 y2 m2 d2 : Int, validDate y1 m1 d1 = true → validDate y2 m2 d2 = true →
    dateLt (y1, m1, d1) (y2, m2, d2) = true →
      mktime (y1 - 1900) (m1 - 1) d1 < mktime (y2 - 1900) (m2 - 1) d2

/-- A sample `mktime`: days counted with months of 31 days, in seconds. -/
def sampleMktime (tm_year tm_mon tm_mday : Int) : Int :=
  ((tm_year * 12 + tm_mon) * 31 + tm_mday) * 86400

/-- A memory without tree nodes whose records `0, 1, ...` carry the ids
`0, 1, ...` and the given timestamps. -/
def storeWithStamps (stamps : List String) : Store :=
  { nodes := [],
    recs := stamps.enum.map (fun p => some { recordWithId p.1 with timestamp := p.2 }) }

/-! ## Several trees in one heap

These definitions are used by the proofs only.  The trees of the engine share
the node heap; an owner map says to which tree a node belongs, and the
history is the list of the records inserted so far, newest first, each with
its pointer. -/

/-- The trees of the engine: the global tree, the tree of a seller, the tree
of a buyer. -/
inductive Owner where
  | global
  | seller (id : Int)
  | buyer (id : Int)
  deriving DecidableEq

/-- The heap holds a whole tree with root `root` and the entries `es` in some
order, and all its nodes belong to `O`. -/
def Owned (h : Heap) (own : Nat → Option Owner) (O : Owner) (root : Option Nat)
    (es : List (Int × Nat)) : Prop :=
  match root with
  | none => es = []
  | some r => ∃ t : Shape, t.addr = r ∧ Rep h t ∧ Ord none none t ∧ t.addrs.Nodup ∧
      Linked t.leaves none ∧ t.entries.Perm es ∧ ∀ a ∈ t.addrs, own a = some O

/-- The owner map after `O` has taken every node from address `n` on. -/
def claimFrom (own : Nat → Option Owner) (n : Nat) (O : Owner) : Nat → Option Owner :=
  fun a => if n ≤ a then some O else own a

/-- The tree entries (key and record pointer) of a history. -/
def entriesOf (L : List (Nat × Transaction)) : List (Int × Nat) :=
  L.map (fun x => (x.2.transactionID, x.1))

/-- The engine holds the history `L`: the global tree holds all of it, the
tree of every seller and of every buyer holds the part that names them, the
trees share no node, the records are live, no two sellers and no two buyers
have one id, and every record's seller and buyer are there. -/
structure ForestInv (s : Engine) (L : List (Nat × Transaction)) : Prop where
  trees : ∃ own : Nat → Option Owner,
    Owned s.mem.nodes own Owner.global s.globalTransactionTree (entriesOf L) ∧
    (∀ S ∈ s.seller_head, Owned s.mem.nodes own (Owner.seller S.sellerID) S.transactionTree
      (entriesOf (L.filter (fun x => decide (x.2.sellerID = S.sellerID))))) ∧
    (∀ B ∈ s.buyer_head, Owned s.mem.nodes own (Owner.buyer B.buyerID) B.transactionTree
      (entriesOf (L.filter (fun x => decide (x.2.buyerID = B.buyerID)))))
  recs : ∀ x ∈ L, loadRec s.mem.recs x.1 = some x.2
  sellerIds : (s.seller_head.map (fun S => S.sellerID)).Nodup
  buyerIds : (s.buyer_head.map (fun B => B.buyerID)).Nodup
  sellerCover : ∀ x ∈ L, x.2.sellerID ∈ s.seller_head.map (fun S => S.sellerID)
  buyerCover : ∀ x ∈ L, x.2.buyerID ∈ s.buyer_head.map (fun B => B.buyerID)

/-! ## Listings per seller and per buyer, regular buyers -/

/-- The function `createSetOfTransactionsForSeller`: the rows of the table it
builds; there is none when the seller is not found or has no tree. -/
def createSetOfTransactionsForSeller (s : Engine) (sellerID : Int) :
    Option (List Transaction) :=
  match sellerOf s.seller_head sellerID with
  | none => some []
  | some seller =>
    match seller.transactionTree with
    | none => some []
    | some r =>
      match scanRecs s.mem.nodes (some r) with
      | none => none
      | some ps => rowsOf s.mem.recs ps

/-- The function `createSetOfTransactionsForBuyer`. -/
def createSetOfTransactionsForBuyer (s : Engine) (buyerID : Int) : Option (List Transaction) :=
  match buyerOf s.buyer_head buyerID with
  | none => some []
  | some buyer =>
    match buyer.transactionTree with
    | none => some []
    | some r =>
      match scanRecs s.mem.nodes (some r) with
      | none => none
      | some ps => rowsOf s.mem.recs ps

/-- The record pointers among `ps` whose record names the seller `sellerID`. -/
def ofSeller (m : Store) (sellerID : Int) (ps : List Nat) : List Nat :=
  ps.filter (fun p => decide ((loadRec m.recs p).map (fun tr => tr.sellerID) = some sellerID))

/-- The record pointers among `ps` whose record names the buyer `buyerID`. -/
def ofBuyer (m : Store) (buyerID : Int) (ps : List Nat) : List Nat :=
  ps.filter (fun p => decide ((loadRec m.recs p).map (fun tr => tr.buyerID) = some buyerID))

/-- Whether the ordered key scan of a tree reads the id. -/
def holdsId (h : Heap) (root : Option Nat) (id : Int) : Bool :=
  match scanKeys h root with
  | some ks => decide (id ∈ ks)
  | none => false

/-- The number of calls that name the buyer. -/
def buyerCount (inputs : List RecordArgs) (buyerID : Int) : Nat :=
  (inputs.filter (fun a => decide (a.buyerID = buyerID))).length

/-- The number of calls that name the buyer and the seller. -/
def pairCount (inputs : List RecordArgs) (buyerID sellerID : Int) : Nat :=
  (inputs.filter (fun a => decide (a.buyerID = buyerID ∧ a.sellerID = sellerID))).length

/-- The list `seller->regularBuyers` of the seller with this id, from its
head; empty when there is no such seller. -/
def regularBuyersOf (s : Engine) (sellerID : Int) : List Int :=
  match sellerOf s.seller_head sellerID with
  | some seller => seller.regularBuyers
  | none => []

/-- The field `buyer->numTransactions` of the buyer with this id; 0 when
there is no such buyer. -/
def transactionsOf (s : Engine) (buyerID : Int) : Int :=
  match buyerOf s.buyer_head buyerID with
  | some buyer => buyer.numTransactions
  | none => 0

/-- Six calls between buyer 20 and sellers: five with seller 10, then one
with seller 11. -/
def fiveThenOther : List RecordArgs :=
  [plainArgs 1 20 10 50, plainArgs 2 20 10 50, plainArgs 3 20 10 50, plainArgs 4 20 10 50,
   plainArgs 5 20 10 50, plainArgs 6 20 11 50]

/-- Seven calls between buyer 20 and seller 10. -/
def sevenWithOne : List RecordArgs :=
  [plainArgs 1 20 10 50, plainArgs 2 20 10 50, plainArgs 3 20 10 50, plainArgs 4 20 10 50,
   plainArgs 5 20 10 50, plainArgs 6 20 10 50, plainArgs 7 20 10 50]

/-- Three calls between two buyers and two sellers. -/
def threeMixed : List RecordArgs :=
  [plainArgs 1 20 10 50, plainArgs 2 21 10 400, plainArgs 3 20 11 50]

/-- The engine after a run of calls from the empty engine; the empty engine
should the run have no result. -/
def engineAfter (inputs : List RecordArgs) : Engine :=
  (recordAll inputs Engine.empty).getD Engine.empty

/-! ### The books of the engine (used by the proofs only) -/

/-- The buyer and the seller of every record of a history. -/
def pairsOf (L : List (Nat × Transaction)) : List (Int × Int) :=
  L.map (fun x => (x.2.buyerID, x.2.sellerID))

/-- How often a buyer occurs in a list of buyer and seller pairs. -/
def timesOf (H : List (Int × Int)) (b : Int) : Nat :=
  (H.filter (fun p => decide (p.1 = b))).length

/-- The counters and the regular-buyer lists agree with the pairs `H`
recorded so far, newest first: a buyer's counter is the number of its pairs,
no regular-buyer list repeats an id, a regular buyer of a seller has a pair
with that seller and more than 5 pairs in all, and a buyer whose counter
exceeded 5 when a pair was recorded is a regular buyer of that pair's
seller. -/
structure Book (s : Engine) (H : List (Int × Int)) : Prop where
  counts : ∀ B ∈ s.buyer_head, B.numTransactions = (timesOf H B.buyerID : Int)
  regNodup : ∀ S ∈ s.seller_head, S.regularBuyers.Nodup
  regSound : ∀ S ∈ s.seller_head, ∀ b ∈ S.regularBuyers,
    (b, S.sellerID) ∈ H ∧ 5 < timesOf H b
  regComplete : ∀ (H1 : List (Int × Int)) (p : Int × Int) (H2 : List (Int × Int)),
    H = H1 ++ p :: H2 → 5 < timesOf (p :: H2) p.1 →
    ∃ S ∈ s.seller_head, S.sellerID = p.2 ∧ p.1 ∈ S.regularBuyers

/-! ## Sample nodes for the split functions -/

/-- A heap whose only node is a leaf with the keys 1, 2, 3 and the record
pointers 0, 1, 2 (a leaf as `insertTransactionIntoBPTree` hands it to
`splitLeafNode`). -/
def heapFullLeaf : Heap :=
  [some ⟨true, 3, [1, 2, 3], [none, none, none, none], none, [some 0, some 1, some 2]⟩]

/-- A heap with four leaves at the addresses 0 to 3 and, at address 4, an
internal node with the keys 2, 3, 4 and these leaves as children (a node as
`insertInternalNode` hands it to `splitInternalNode`). -/
def heapFullNode : Heap :=
  [some ⟨true, 1, [1, 0, 0], [none, none, none, none], some 1, [some 0, none, none]⟩,
   some ⟨true, 1, [2, 0, 0], [none, none, none, none], some 2, [some 1, none, none]⟩,
   some ⟨true, 1, [3, 0, 0], [none, none, none, none], some 3, [some 2, none, none]⟩,
   some ⟨true, 2, [4, 5, 0], [none, none, none, none], none, [some 3, some 4, none]⟩,
   some ⟨false, 3, [2, 3, 4], [some 0, some 1, some 2, some 3], none, [none, none, none]⟩]

/-! ## The revenue reports -/

/-- The number of node levels of a tree shape, counted along the first
children as every scan of the program walks. -/
def Shape.height : Shape → Nat
  | Shape.leaf _ _ _ => 1
  | Shape.node2 _ c0 _ _ => c0.height + 1
  | Shape.node3 _ c0 _ _ _ _ => c0.height + 1

/-- All leaves of the tree shape are at the same level. -/
def Shape.Balanced : Shape → Prop
  | Shape.leaf _ _ _ => True
  | Shape.node2 _ c0 _ c1 => c0.Balanced ∧ c1.Balanced ∧ c1.height = c0.height
  | Shape.node3 _ c0 _ c1 _ c2 =>
    c0.Balanced ∧ c1.Balanced ∧ c2.Balanced ∧ c1.height = c0.height ∧ c2.height = c0.height

/-- The subtrees beside the hole of a frame are level and `n` high. -/
def Frame.Level (n : Nat) (f : Frame) : Prop :=
  ∀ s ∈ f.before ++ f.after, s.Balanced ∧ s.height = n

/-- The subtrees beside a path are level, those hanging off the bottom frame
`n` high, one more for each frame further up. -/
def PathLevel : List Frame → Nat → Prop
  | [], _ => True
  | f :: c, n => f.Level n ∧ PathLevel c (n + 1)

/-- The number of keys in the top node of a tree shape. -/
def Shape.numKeys : Shape → Nat
  | Shape.leaf _ es _ => es.length
  | Shape.node2 _ _ _ _ => 1
  | Shape.node3 _ _ _ _ _ _ => 2

/-- The shape `t1` after an insertion compared with the tree rooted at `r`
of height `n` before it, `base` being the number of nodes allocated before
the insertion: either the root node is the same and the height has not
changed, or the root has been split: `t1` is a newly allocated node with one
key whose first child is the old root, left with one key, and whose second
child is newly allocated too; the tree is then one level higher. -/
def Grown (base r n : Nat) (t1 : Shape) : Prop :=
  (t1.addr = r ∧ t1.height = n) ∨
  (∃ A k B, t1 = Shape.node2 t1.addr A k B ∧ A.addr = r ∧ A.numKeys = 1 ∧
    t1.height = n + 1 ∧ base ≤ t1.addr ∧ base ≤ B.addr)

/-- What is known when a right node `right` with separator `key` is about to
be hung beside `left` at the bottom of the path `c`, the key not being known
to differ from the keys of the tree: both nodes are level and `n` high, the
left one has one key and the right one was allocated after the first `base`
nodes. -/
structure UpPreF (h : Heap) (c : List Frame) (left right : Shape) (key : Int) (n base : Nat) :
    Prop where
  rpath : RepPath h c left.addr
  rleft : Rep h left
  rright : Rep h right
  nodup : (pathAddrs c ++ (left.addrs ++ right.addrs)).Nodup
  opath : OrdPath c
  klo : geLo (pathLo c) key
  khi : ltHi key (pathHi c)
  bleft : left.Balanced
  bright : right.Balanced
  hleft : left.height = n
  hright : right.height = n
  plevel : PathLevel c n
  lone : left.numKeys = 1
  rnew : base ≤ right.addr
  hbase : base ≤ h.length

/-- What holds afterwards: the result is a level tree whose leaves are those
around the path with the leaves of `left` and `right` in the hole, and which
has grown by a level only under a new root. -/
def UpPostF (c : List Frame) (left right : Shape) (n base : Nat)
    (res : Option (Heap × Option Nat)) : Prop :=
  ∃ h1 t, res = some (h1, some t.addr) ∧ Rep h1 t ∧ t.addrs.Nodup ∧
    t.leaves = leavesBefore c ++ (left.leaves ++ right.leaves) ++ leavesAfter c ∧
    t.Balanced ∧ Grown base (pathRoot c left.addr) (n + c.length) t

/-- The tree rooted at `root` is whole as for `TreeAt`, and level. -/
def WholeAt (h : Heap) (root : Option Nat) (es : List (Int × Nat)) : Prop :=
  match root with
  | none => es = []
  | some r => ∃ t : Shape, t.addr = r ∧ Rep h t ∧ Ord none none t ∧ t.addrs.Nodup ∧
      Linked t.leaves none ∧ t.entries.Perm es ∧ t.Balanced

/-! ## The transaction log -/

/-- The seven values `sscanf` reads from a line of the log. -/
structure LogRow where
  transactionID : Int
  buyerID : Int
  sellerID : Int
  energyAmount : Rat
  pricePerKwh : Rat
  totalPrice : Rat
  timestamp : List Char
  deriving DecidableEq

/-- The conversion `%[^\n]` into `char timestamp[30]`: the characters up to
the next line feed or the end of the string.  It fails to match when there
is none; it is undefined (no result) when there are more than 29, as they
and the closing zero are written past the end of the array. -/
def scanStamp (cs : List Char) : Option (Option (List Char)) :=
  if (cs.takeWhile (fun c => c.toNat != 10)).isEmpty then some none
  else if 29 < (cs.takeWhile (fun c => c.toNat != 10)).length then none
  else some (some (cs.takeWhile (fun c => c.toNat != 10)))

/-- The first six conversions of
`sscanf(line, "%d,%d,%d,%lf,%lf,%lf,%[^\n]", ...)` with the commas between
and after them: the six values and the rest of the input.  The conversion
`%lf` is the parameter `strtod`. -/
def scanNumbers (strtod : List Char → Option (Rat × List Char)) (line : List Char) :
    Option ((Int × Int × Int × Rat × Rat × Rat) × List Char) :=
  (scanInt line).bind fun r1 =>
  (scanChar 44 r1.2).bind fun r2 =>
  (scanInt r2).bind fun r3 =>
  (scanChar 44 r3.2).bind fun r4 =>
  (scanInt r4).bind fun r5 =>
  (scanChar 44 r5.2).bind fun r6 =>
  (strtod r6).bind fun r7 =>
  (scanChar 44 r7.2).bind fun r8 =>
  (strtod r8).bind fun r9 =>
  (scanChar 44 r9.2).bind fun r10 =>
  (strtod r10).bind fun r11 =>
  (scanChar 44 r11.2).map fun r12 => ((r1.1, r3.1, r5.1, r7.1, r9.1, r11.1), r12)

/-- The test `sscanf(line, "%d,%d,%d,%lf,%lf,%lf,%[^\n]", ...) == 7`: the row
when it holds, `some none` when fewer values are read; no result when the
call is undefined.  The string that `sscanf` scans ends at the first zero
byte of the buffer `line`. -/
def scanRow (strtod : List Char → Option (Rat × List Char)) (line : List Char) :
    Option (Option LogRow) :=
  match scanNumbers strtod (line.takeWhile (fun c => c.toNat != 0)) with
  | none => some none
  | some (v, rest) =>
    match scanStamp rest with
    | none => none
    | some none => some none
    | some (some stamp) =>
      some (some { transactionID := v.1, buyerID := v.2.1, sellerID := v.2.2.1,
                   energyAmount := v.2.2.2.1, pricePerKwh := v.2.2.2.2.1,
                   totalPrice := v.2.2.2.2.2, timestamp := stamp })

/-- The counters `totalLoaded` and `duplicates` of `loadDataFromFile`, and the
lines it prints a "Malformed transaction data" warning for. -/
structure LoadReport where
  totalLoaded : Int
  duplicates : Int
  malformed : List (List Char)
  deriving DecidableEq

/-- The part of the loop body of `loadDataFromFile` after `createTransaction`
and the assignment of the total: seller and buyer are found or created (no
rate is typed, `loading_mode` being 1), the record is put into the three
trees as it is, and the sums are updated. -/
def loadFresh (s : Engine) (t : Nat) (tr : Transaction) : Option Engine :=
  let (sellers, si) := findOrCreateSeller s.seller_head tr.sellerID s.loading_mode 0 0
  let (buyers, bi) := findOrCreateBuyer s.buyer_head tr.buyerID
  match sellers[si]?, buyers[bi]? with
  | some seller, some buyer =>
    match insertIntoTrees s.mem s.globalTransactionTree seller.transactionTree
        buyer.transactionTree t with
    | none => none
    | some (m, g1, st1, bt1) =>
      let buyer1 : Buyer :=
        { buyer with transactionTree := bt1, numTransactions := buyer.numTransactions + 1,
                     totalEnergyPurchased :=
                       doubleAdd buyer.totalEnergyPurchased tr.energyAmount }
      let seller1 : Seller :=
        { seller with transactionTree := st1, numTransactions := seller.numTransactions + 1,
                      totalRevenue := doubleAdd seller.totalRevenue tr.totalPrice }
      some { s with mem := m, globalTransactionTree := g1,
                    seller_head := sellers.set si (addRegularBuyer seller1 buyer1),
                    buyer_head := buyers.set bi buyer1 }
  | _, _ => none

/-- The record a row is loaded as: `createTransaction` with the row's values,
then `t->totalPrice = totalPrice`. -/
def rowRecord (row : LogRow) : Transaction :=
  { transactionID := row.transactionID, buyerID := row.buyerID, sellerID := row.sellerID,
    energyAmount := row.energyAmount, pricePerKwh := row.pricePerKwh,
    totalPrice := row.totalPrice, timestamp := String.mk (row.timestamp.take 29) }

/-- The branch of the loop body for a row that is read and whose id is not in
the global tree. -/
def loadNew (s : Engine) (row : LogRow) : Option Engine :=
  match loadRec
      (createTransaction s row.transactionID row.buyerID row.sellerID row.energyAmount
        row.pricePerKwh (String.mk row.timestamp)).1.mem.recs
      (createTransaction s row.transactionID row.buyerID row.sellerID row.energyAmount
        row.pricePerKwh (String.mk row.timestamp)).2 with
  | none => none
  | some tr =>
    loadFresh
      { (createTransaction s row.transactionID row.buyerID row.sellerID row.energyAmount
          row.pricePerKwh (String.mk row.timestamp)).1 with
        mem :=
          { (createTransaction s row.transactionID row.buyerID row.sellerID row.energyAmount
              row.pricePerKwh (String.mk row.timestamp)).1.mem with
            recs :=
              (createTransaction s row.transactionID row.buyerID row.sellerID row.energyAmount
                row.pricePerKwh (String.mk row.timestamp)).1.mem.recs.set
                (createTransaction s row.transactionID row.buyerID row.sellerID
                  row.energyAmount row.pricePerKwh (String.mk row.timestamp)).2
                (some { tr with totalPrice := row.totalPrice }) } }
      (createTransaction s row.transactionID row.buyerID row.sellerID row.energyAmount
        row.pricePerKwh (String.mk row.timestamp)).2
      { tr with totalPrice := row.totalPrice }

/-- The loop body of `loadDataFromFile` for one line returned by `fgets`. -/
def loadRow (strtod : List Char → Option (Rat × List Char)) (s : Engine) (rep : LoadReport)
    (line : List Char) : Option (Engine × LoadReport) :=
  match scanRow strtod line with
  | none => none
  | some none => some (s, { rep with malformed := rep.malformed ++ [line] })
  | some (some row) =>
    match findTransactionInBPTree s.mem.nodes s.globalTransactionTree row.transactionID with
    | none => none
    | some true => some (s, { rep with duplicates := rep.duplicates + 1 })
    | some false =>
      (loadNew s row).map (fun s1 => (s1, { rep with totalLoaded := rep.totalLoaded + 1 }))

/-- The loop `while (fgets(line, sizeof(line), file))` over the lines that
`fgets` returns. -/
def loadRows (strtod : List Char → Option (Rat × List Char)) :
    List (List Char) → Engine × LoadReport → Option (Engine × LoadReport)
  | [], s => some s
  | line :: rest, (s, rep) =>
    match loadRow strtod s rep line with
    | none => none
    | some s1 => loadRows strtod rest s1

/-- One call `fgets(line, size, file)` on the unread part of a file that is
not at its end: at most `size - 1` characters, up to and including the first
line feed; returns the line and what is left unread. -/
def fgets : Nat → List Char → List Char × List Char
  | 0, cs => ([], cs)
  | _ + 1, [] => ([], [])
  | n + 1, c :: cs =>
    if c.toNat = 10 then ([c], cs)
    else ((fgets n cs).1.cons c, (fgets n cs).2)

/-- The lines that the repeated call `fgets(line, 256, file)` returns until
the end of the file. -/
def fgetsAll : Nat → List Char → List (List Char)
  | 0, _ => []
  | _ + 1, [] => []
  | fuel + 1, c :: cs => (fgets 255 (c :: cs)).1 :: fgetsAll fuel (fgets 255 (c :: cs)).2

/-- What `loadDataFromFile` prints at its end: the two counters, the lines
reported as malformed, the count of the global tree and whether the mismatch
warning is printed. -/
structure LoadSummary where
  totalLoaded : Int
  duplicates : Int
  malformed : List (List Char)
  treeCount : Nat
  mismatch : Bool
  deriving DecidableEq

/-- The list walk of `loadSellerPrices` for the three values that `fscanf`
has read: the first seller with this id gets the two rates; there is no
result when no seller has the id (`found` stays 0). -/
def setSellerRates (sellerID : Int) (rateBelow300 rateAbove300 : Rat) :
    List Seller → Option (List Seller)
  | [] => none
  | S :: rest =>
    if S.sellerID = sellerID then
      some ({ S with rateBelow300 := rateBelow300, rateAbove300 := rateAbove300 } :: rest)
    else (setSellerRates sellerID rateBelow300 rateAbove300 rest).map (fun l => S :: l)

/-- The body of the loop of `loadSellerPrices`: the rates of the seller are
overwritten, or a new seller with these rates and no transaction is put at
the head of the list. -/
def loadSellerPrice (sellers : List Seller) (row : Int × Rat × Rat) : List Seller :=
  match setSellerRates row.1 row.2.1 row.2.2 sellers with
  | some l => l
  | none =>
    { sellerID := row.1, rateBelow300 := row.2.1, rateAbove300 := row.2.2,
      numTransactions := 0, totalRevenue := 0, regularBuyers := [],
      transactionTree := none } :: sellers

/-- The function `loadSellerPrices`, given the price file if it can be
opened: the triples (seller id and two rates) that the calls
`fscanf(file, "%d %lf %lf", ...)` read from it until one of them does not
return 3. -/
def loadSellerPrices (file : Option (List (Int × Rat × Rat))) (s : Engine) : Engine :=
  match file with
  | none => s
  | some rows => { s with seller_head := rows.foldl loadSellerPrice s.seller_head }

/-- The engine and the counters when the loop of `loadDataFromFile` starts in
`main`, which has called `loadSellerPrices` before: the sellers of the price
file are there, no transaction is stored, `loading_mode` is 1 and both
counters are 0. -/
def loadStartWith (prices : Option (List (Int × Rat × Rat))) : Engine × LoadReport :=
  ({ loadSellerPrices prices Engine.empty with loading_mode := true }, ⟨0, 0, []⟩)

/-- The function `loadDataFromFile`, given the content of the file, if it can
be opened. -/
def loadDataFromFile (strtod : List Char → Option (Rat × List Char))
    (file : Option (List Char)) (s : Engine) : Option (Engine × Option LoadSummary) :=
  match file with
  | none => some (s, none)
  | some content =>
    match loadRows strtod (fgetsAll content.length content)
        ({ s with loading_mode := true }, ⟨0, 0, []⟩) with
    | none => none
    | some (s1, rep) =>
      match countTransactionsInTree s1.mem.nodes s1.globalTransactionTree with
      | none => none
      | some treeCount =>
        some ({ s1 with loading_mode := false },
          some { totalLoaded := rep.totalLoaded, duplicates := rep.duplicates,
                 malformed := rep.malformed, treeCount := treeCount,
                 mismatch := decide ((treeCount : Int) ≠ rep.totalLoaded) })

/-! ## Writing the log -/

/-- The decimal digits of a number, most significant first, put before
`acc`; `fuel` bounds the number of digits. -/
def natDigits : Nat → Nat → List Char → List Char
  | 0, _, acc => acc
  | fuel + 1, n, acc =>
    if n / 10 = 0 then Char.ofNat (48 + n % 10) :: acc
    else natDigits fuel (n / 10) (Char.ofNat (48 + n % 10) :: acc)

/-- The conversion `%d` of `fprintf`. -/
def printInt (i : Int) : List Char :=
  if i < 0 then Char.ofNat 45 :: natDigits (i.natAbs + 1) i.natAbs []
  else natDigits (i.natAbs + 1) i.natAbs []

/-- The number of hundredths nearest to a fraction that is not negative, a
tie going to the even one. -/
def hundredths (num den : Nat) : Nat :=
  if 2 * (num * 100 % den) < den then num * 100 / den
  else if den < 2 * (num * 100 % den) then num * 100 / den + 1
  else if num * 100 / den % 2 = 0 then num * 100 / den
  else num * 100 / den + 1

/-- The conversion `%.2f` of `fprintf` for a value of the model. -/
def printFixed2 (x : Rat) : List Char :=
  (if x < 0 then [Char.ofNat 45] else []) ++
    natDigits (hundredths x.num.natAbs x.den / 100 + 1)
      (hundredths x.num.natAbs x.den / 100) [] ++
    [Char.ofNat 46, Char.ofNat (48 + hundredths x.num.natAbs x.den % 100 / 10),
      Char.ofNat (48 + hundredths x.num.natAbs x.den % 10)]

/-- The line `insertTransaction` appends to the log for a record:
`fprintf(file, "%d,%d,%d,%.2f,%.2f,%.2f,%s\n", ...)`. -/
def logLine (tr : Transaction) : List Char :=
  printInt tr.transactionID ++ [Char.ofNat 44] ++ printInt tr.buyerID ++ [Char.ofNat 44] ++
    printInt tr.sellerID ++ [Char.ofNat 44] ++ printFixed2 tr.energyAmount ++ [Char.ofNat 44] ++
    printFixed2 tr.pricePerKwh ++ [Char.ofNat 44] ++ printFixed2 tr.totalPrice ++
    [Char.ofNat 44] ++ tr.timestamp.data ++ [Char.ofNat 10]

/-- The log written for the records behind `ptrs`, in this order. -/
def logOf (recs : List (Option Transaction)) (ptrs : List Nat) : List Char :=
  (ptrs.map (fun p => match loadRec recs p with
    | some tr => logLine tr
    | none => [])).flatten

/-- A conversion `%lf` for plain decimal numbers: white space is skipped,
then an optional sign, digits, and optionally a point and digits are read;
there must be a digit.  It stands for `strtod` in evaluations. -/
def sampleStrtod (cs : List Char) : Option (Rat × List Char) :=
  let body := match cs.dropWhile isSpaceC with
    | [] => []
    | c :: rest => if c.toNat = 45 ∨ c.toNat = 43 then rest else c :: rest
  let neg := match cs.dropWhile isSpaceC with
    | [] => false
    | c :: _ => decide (c.toNat = 45)
  let ip := body.takeWhile isDigitC
  let r1 := body.dropWhile isDigitC
  let fp := match r1 with
    | [] => []
    | c :: rest => if c.toNat = 46 then rest.takeWhile isDigitC else []
  let r2 := match r1 with
    | [] => []
    | c :: rest => if c.toNat = 46 then rest.dropWhile isDigitC else c :: rest
  if ip.isEmpty && fp.isEmpty then none
  else
    some ((if neg then -1 else 1) *
      ((digitsValue ip : Rat) + (digitsValue fp : Rat) / (10 : Rat) ^ fp.length), r2)

/-- The count of the ids that are not among those seen before them, `seen`
being seen at the start. -/
def countFresh : List Int → List Int → Nat
  | _, [] => 0
  | seen, k :: ks => (if k ∈ seen then 0 else 1) + countFresh (k :: seen) ks

/-- The rows that are read from the lines, in order. -/
def rowsRead (strtod : List Char → Option (Rat × List Char)) (lines : List (List Char)) :
    List LogRow :=
  lines.filterMap (fun line => (scanRow strtod line).getD none)

/-- The lines from which no row is read, in order. -/
def linesMalformed (strtod : List Char → Option (Rat × List Char))
    (lines : List (List Char)) : List (List Char) :=
  lines.filter (fun line => decide (scanRow strtod line = some none))

/-- A log of three lines: a row with id 1, a line without commas, and a row
with id 1 again. -/
def sampleLog : List (List Char) :=
  ["1,20,10,200.00,0.10,20.00,2024-01-01 10:00:00\n".data, "no row\n".data,
   "1,21,11,50.00,0.10,5.00,2024-01-02 10:00:00\n".data]

/-- A line whose seventh field has 30 characters. -/
def longStampLine : List Char :=
  "1,20,10,200.00,0.10,20.00,2024-01-01 10:00:00 0123456789\n".data

/-- A row whose total is not the amount times the price: 200 units at 0.10
with the total 99.99. -/
def oddRowLine : List Char := "7,20,10,200.00,0.10,99.99,2024-01-01 10:00:00\n".data

/-- The values of `oddRowLine`. -/
def oddRow : LogRow :=
  { transactionID := 7, buyerID := 20, sellerID := 10, energyAmount := 200,
    pricePerKwh := 1 / 10, totalPrice := 9999 / 100,
    timestamp := "2024-01-01 10:00:00".data }

/-- The arguments of the transaction 1 between buyer 20 and seller 10 over
2 ^ 818 units, the rates of the new seller typed as 0. -/
def hugeArgs : RecordArgs :=
  { transactionID := 1, buyerID := 20, sellerID := 10, energyAmount := 2 ^ 818,
    pricePerKwh := 0, timestamp := "2024-01-01 10:00:00", typedBelow := 0, typedAbove := 0 }

/-! ## Runs of tree operations -/

/-- A call of `insertTransactionIntoBPTree` with the record behind a pointer,
or of `deleteTransactionFromBPTree` with an id. -/
inductive TreeOp where
  | insert (t : Nat)
  | delete (transactionID : Int)
  deriving DecidableEq

/-- One tree operation on the memory and the root. -/
def treeStep (s : Store × Option Nat) : TreeOp → Option (Store × Option Nat)
  | TreeOp.insert t => insertTransactionIntoBPTree s.1 s.2 t
  | TreeOp.delete transactionID => deleteTransactionFromBPTree s.1 s.2 transactionID

/-- A run of tree operations, in this order. -/
def runTree : List TreeOp → Store × Option Nat → Option (Store × Option Nat)
  | [], s => some s
  | op :: rest, s =>
    match treeStep s op with
    | none => none
    | some s1 => runTree rest s1

/-- The run of C31: the ids 1, 2, 3 are inserted, 2 is deleted and 4 is
inserted (the records 0, 1, 2, 3 of `storeWithIds [1, 2, 3, 4]`). -/
def refillRun : List TreeOp :=
  [TreeOp.insert 0, TreeOp.insert 1, TreeOp.insert 2, TreeOp.delete 2, TreeOp.insert 3]

/-- The run of C34: the ids 2, 3, 4, 1 are inserted and 4 is deleted (the
records 0, 1, 2, 3 of `storeWithIds [2, 3, 4, 1]`). -/
def spareLeftRun : List TreeOp :=
  [TreeOp.insert 0, TreeOp.insert 1, TreeOp.insert 2, TreeOp.insert 3, TreeOp.delete 4]

/-- The run of C35: the ids 1, 2, 3, 4, 5 are inserted and 2 is deleted
twice (the records 0 to 4 of `storeWithIds [1, 2, 3, 4, 5]`). -/
def emptyParentRun : List TreeOp :=
  [TreeOp.insert 0, TreeOp.insert 1, TreeOp.insert 2, TreeOp.insert 3, TreeOp.insert 4,
    TreeOp.delete 2, TreeOp.delete 2]

/-! ## The sizes found in the nodes of a tree -/

/-- For every node of the tree below `cursor` (the node itself first, then
its subtrees from left to right, walking `children[0 .. numKeys]`): the value
of `numKeys` and the sizes of the arrays `keys`, `children` and `records`. -/
def nodeSizes (h : Heap) : Nat → Nat → Option (List (Nat × Nat × Nat × Nat))
  | 0, _ => none
  | fuel + 1, cursor =>
    match load h cursor with
    | none => none
    | some n =>
      if n.isLeaf then some [(n.numKeys, n.keys.length, n.children.length, n.records.length)]
      else
        ((List.range (n.numKeys + 1)).foldr (fun i acc =>
          match n.children[i]?, acc with
          | some (some c), some rest => (nodeSizes h fuel c).map (fun xs => xs ++ rest)
          | _, _ => none) (some [])).map
          (fun rest => (n.numKeys, n.keys.length, n.children.length, n.records.length) :: rest)

/-! ## The insertion with the warning of the parent search observed

`insertInternalNode` prints "Warning: Parent not found for internal node
during split." when its search from the root has not found the parent of a
full node that is not the root, and then splits the node as if it were the
root.  The definitions of this section are the insertion functions once more,
returning besides their result whether that warning was printed. -/

mutual

/-- The function `splitInternalNode`, with the flag of `insertInternalNode`
for the call it ends in. -/
def splitInternalNodeTraced :
    Nat → Heap → Option Nat → Nat → Option Nat → Option ((Heap × Option Nat) × Bool)
  | 0, _, _, _, _ => none
  | fuel + 1, h, root, node, parent =>
    match splitInternalMove h node with
    | none => none
    | some (h, newNode, promoteKey) =>
      match parent with
      | none => (newRootAbove h promoteKey node newNode).map (fun res => (res, false))
      | some p => insertInternalNodeTraced fuel h root promoteKey newNode p

/-- The function `insertInternalNode`; the flag says whether the branch
`else { printf("Warning: Parent not found ..."); splitInternalNode(root,
node, NULL); }` was taken in this call or in one it led to. -/
def insertInternalNodeTraced :
    Nat → Heap → Option Nat → Int → Nat → Nat → Option ((Heap × Option Nat) × Bool)
  | 0, _, _, _, _, _ => none
  | fuel + 1, h, root, key, rightChild, node =>
    match insertInternalPlace h key rightChild node with
    | none => none
    | some h =>
      match getNum h node with
      | none => none
      | some nk =>
        if nk = ORDER - 1 then
          if root = some node then splitInternalNodeTraced fuel h root node none
          else
            match root with
            | none => none
            | some r =>
              match searchParent h node (h.length + 1) [r] with
              | none => none
              | some (some parent) => splitInternalNodeTraced fuel h root node (some parent)
              | some none =>
                (splitInternalNodeTraced fuel h root node none).map (fun res => (res.1, true))
        else some ((h, root), false)

end

/-- The function `splitLeafNode`, with the flag of `insertInternalNode`. -/
def splitLeafNodeTraced (fuel : Nat) (h : Heap) (root : Option Nat) (node : Nat)
    (parent : Option Nat) : Option ((Heap × Option Nat) × Bool) :=
  match splitLeafMove h node with
  | none => none
  | some (h, newNode, promoteKey) =>
    match parent with
    | none => (newRootAbove h promoteKey node newNode).map (fun res => (res, false))
    | some p => insertInternalNodeTraced fuel h root promoteKey newNode p

/-- The body of `insertTransactionIntoBPTree` on the node heap, with the flag
of `insertInternalNode`. -/
def insertKeyTraced (h : Heap) (root : Option Nat) (key : Int) (t : Nat) :
    Option ((Heap × Option Nat) × Bool) :=
  match root with
  | none => (insertFirst h key t).map (fun res => (res, false))
  | some r =>
    match descend h key h.length r none 0 with
    | none => none
    | some (cursor, parent, _) =>
      match insertLeafPlace h key t cursor with
      | none => none
      | some h =>
        match getNum h cursor with
        | none => none
        | some nk =>
          if nk = ORDER - 1 then splitLeafNodeTraced (2 * h.length + 2) h root cursor parent
          else some ((h, root), false)

/-- The function `insertTransactionIntoBPTree`, with the flag of
`insertInternalNode`: whether the warning "Parent not found for internal node
during split" was printed during the call. -/
def insertTransactionIntoBPTreeTraced (m : Store) (root : Option Nat) (t : Nat) :
    Option ((Store × Option Nat) × Bool) :=
  match loadRec m.recs t with
  | none => none
  | some tr =>
    match insertKeyTraced m.nodes root tr.transactionID t with
    | none => none
    | some ((h, root1), warned) => some (({ m with nodes := h }, root1), warned)

/-- The branch of `insertInternalNodeTraced` taken when the node has become
full (used by the proofs only). -/
def splitFullTraced (fuel : Nat) (h : Heap) (root : Option Nat) (node : Nat) :
    Option ((Heap × Option Nat) × Bool) :=
  if root = some node then splitInternalNodeTraced fuel h root node none
  else
    match root with
    | none => none
    | some r =>
      match searchParent h node (h.length + 1) [r] with
      | none => none
      | some (some parent) => splitInternalNodeTraced fuel h root node (some parent)
      | some none =>
        (splitInternalNodeTraced fuel h root node none).map (fun res => (res.1, true))

/-- The continuation of a split in the traced insertion (used by the proofs
only): a new root when the path is empty, the parent otherwise. -/
def attachTraced (fuel : Nat) (h : Heap) (root : Option Nat) (c : List Frame) (left : Nat)
    (key : Int) (right : Nat) : Option ((Heap × Option Nat) × Bool) :=
  match c with
  | [] => (newRootAbove h key left right).map (fun res => (res, false))
  | f :: _ => insertInternalNodeTraced fuel h root key right f.addr

/-! ## Sample data for the rounded sums and products -/

/-- A transaction between buyer 20 and seller 10, whose rates are typed as 1
and 1 if the seller is new. -/
def unitRateArgs (transactionID : Int) (energyAmount : Rat) : RecordArgs :=
  { transactionID := transactionID, buyerID := 20, sellerID := 10,
    energyAmount := energyAmount, pricePerKwh := 0, timestamp := "2024-01-01 10:00:00",
    typedBelow := 1, typedAbove := 1 }

/-- A transaction between buyer 20 and seller 10, whose rates are typed as
0.10 and 0.08 if the seller is new: the rates stored are the doubles nearest
to these numbers. -/
def tariffArgs (transactionID : Int) (energyAmount : Rat) : RecordArgs :=
  { transactionID := transactionID, buyerID := 20, sellerID := 10,
    energyAmount := energyAmount, pricePerKwh := 0, timestamp := "2024-01-01 10:00:00",
    typedBelow := roundDouble (1 / 10), typedAbove := roundDouble (2 / 25) }

/-- A log of three lines: a row with id 5, a line without commas, and a row
whose first number is 4294967301 (2 ^ 32 + 5), which the conversion `%d`
stores in the `int` as 5. -/
def wrappedLog : List (List Char) :=
  ["5,20,10,200.00,0.10,20.00,2024-01-01 10:00:00\n".data, "no row\n".data,
   "4294967301,21,11,50.00,0.10,5.00,2024-01-02 10:00:00\n".data]

/-- A log of two rows of seller 10: the first with the total
9007199254740992 (2 ^ 53), the second with the total 1. -/
def absorbLog : List (List Char) :=
  ["1,20,10,200.00,0.10,9007199254740992.00,2024-01-01 10:00:00\n".data,
   "2,20,10,200.00,0.10,1.00,2024-01-02 10:00:00\n".data]

/-- A price file with the seller 10, whose rates are 0.25 and 0.125. -/
def samplePrices : Option (List (Int × Rat × Rat)) := some [(10, 1 / 4, 1 / 8)]

/-- The engine and the counters after the first line of `sampleLog` has been
loaded in `main` with the price file `samplePrices`. -/
def loadedPriced : Engine × LoadReport :=
  (loadRows sampleStrtod ["1,20,10,200.00,0.10,20.00,2024-01-01 10:00:00\n".data]
    (loadStartWith samplePrices)).getD (loadStartWith samplePrices)

/-! ## Heap algebra -/

theorem load_lt {h : Heap} {p : Nat} {n : BPTreeNode} (hl : load h p = some n) :
    p < h.length := by
  unfold load at hl
  by_contra hc
  rw [List.getElem?_eq_none (by omega)] at hl
  simp at hl

theorem load_store_eq {h : Heap} {p : Nat} (n : BPTreeNode) (hp : p < h.length) :
    load (store h p n) p = some n := by
  simp [load, store, hp]

theorem load_store_ne {h : Heap} {p q : Nat} (n : BPTreeNode) (hq : q ≠ p) :
    load (store h p n) q = load h q := by
  simp [load, store, List.getElem?_set_ne (Ne.symm hq)]

theorem length_store (h : Heap) (p : Nat) (n : BPTreeNode) :
    (store h p n).length = h.length := by
  simp [store]

theorem store_store (h : Heap) (p : Nat) (a b : BPTreeNode) :
    store (store h p a) p b = store h p b := by
  simp [store]

theorem load_append_left {h : Heap} {p : Nat} (l : Heap) (hp : p < h.length) :
    load (h ++ l) p = load h p := by
  simp [load, List.getElem?_append_left hp]

theorem load_append_new (h : Heap) (n : BPTreeNode) :
    load (h ++ [some n]) h.length = some n := by
  simp [load]

theorem store_append_left {h : Heap} {p : Nat} (l : Heap) (n : BPTreeNode) (hp : p < h.length) :
    store (h ++ l) p n = store h p n ++ l := by
  simp [store, List.set_append_left _ _ hp]

theorem store_append_new (h : Heap) (a b : BPTreeNode) :
    store (h ++ [some a]) h.length b = h ++ [some b] := by
  simp [store, List.set_append_right]

theorem modify_of_load {h : Heap} {p : Nat} {n : BPTreeNode} (f : BPTreeNode → Option BPTreeNode)
    (hl : load h p = some n) : modify h p f = (f n).map (store h p) := by
  unfold modify
  rw [hl]
  cases hf : f n <;> simp [hf]

theorem load_append_at {h : Heap} {p : Nat} (n : BPTreeNode) (hp : p = h.length) :
    load (h ++ [some n]) p = some n := by
  subst hp
  simp [load]

theorem store_append_at {h : Heap} {p : Nat} (a b : BPTreeNode) (hp : p = h.length) :
    store (h ++ [some a]) p b = h ++ [some b] := by
  subst hp
  simp [store, List.set_append_right]

/-! ## Symbolic execution of the insertion steps on one node -/

theorem insertFirst_eq (h : Heap) (key : Int) (t : Nat) :
    insertFirst h key t = some (h ++ [some ⟨true, 1, [key, 0, 0], [none, none, none, none], none,
      [some t, none, none]⟩], some h.length) := by
  simp [insertFirst, createBPTreeNode, ORDER, setKey, setRec, setNum, modify, load_append_at,
    store_append_at, List.replicate]

theorem insertLeafPlace_one {h : Heap} {a : Nat} {k0 x y : Int} {cs : List (Option Nat)}
    {nx r0 rx ry : Option Nat} (key : Int) (t : Nat)
    (hl : load h a = some ⟨true, 1, [k0, x, y], cs, nx, [r0, rx, ry]⟩) :
    insertLeafPlace h key t a = some (store h a
      (if key < k0 then ⟨true, 2, [key, k0, y], cs, nx, [some t, r0, ry]⟩
       else ⟨true, 2, [k0, key, y], cs, nx, [r0, some t, ry]⟩)) := by
  have ha := load_lt hl
  by_cases hk : key < k0 <;>
    simp [insertLeafPlace, getNum, getKey, getRec, setKey, setRec, setNum, modify, childIndex,
      forDown, hl, hk, load_store_eq, store_store, ha]

theorem insertLeafPlace_two {h : Heap} {a : Nat} {k0 k1 y : Int} {cs : List (Option Nat)}
    {nx r0 r1 ry : Option Nat} (key : Int) (t : Nat)
    (hl : load h a = some ⟨true, 2, [k0, k1, y], cs, nx, [r0, r1, ry]⟩) :
    insertLeafPlace h key t a = some (store h a
      (if key < k0 then ⟨true, 3, [key, k0, k1], cs, nx, [some t, r0, r1]⟩
       else if key < k1 then ⟨true, 3, [k0, key, k1], cs, nx, [r0, some t, r1]⟩
       else ⟨true, 3, [k0, k1, key], cs, nx, [r0, r1, some t]⟩)) := by
  have ha := load_lt hl
  by_cases hk : key < k0 <;> by_cases hk1 : key < k1 <;>
    simp [insertLeafPlace, getNum, getKey, getRec, setKey, setRec, setNum, modify, childIndex,
      forDown, hl, hk, hk1, load_store_eq, store_store, ha]

theorem splitLeafMove_eq {h : Heap} {a : Nat} {k0 k1 k2 : Int} {cs : List (Option Nat)}
    {nx r0 r1 r2 : Option Nat}
    (hl : load h a = some ⟨true, 3, [k0, k1, k2], cs, nx, [r0, r1, r2]⟩) :
    splitLeafMove h a = some
      (store h a ⟨true, 1, [k0, 0, 0], cs, some h.length, [r0, none, none]⟩ ++
        [some ⟨true, 2, [k1, k2, 0], [none, none, none, none], nx, [r1, r2, none]⟩],
       h.length, k1) := by
  have ha := load_lt hl
  have ha1 : a < h.length + 1 := by omega
  have hne : a ≠ h.length := by omega
  have hne1 : h.length ≠ a := by omega
  simp [splitLeafMove, createBPTreeNode, ORDER, getNum, getKey, getRec, getNext, setKey, setRec,
    setNum, setNext, modify, forUp, hl, load_store_eq, load_store_ne, store_store, ha, ha1, hne,
    hne1, load_append_left, load_append_at, store_append_left, store_append_at, length_store,
    List.replicate]

theorem newRootAbove_eq (h : Heap) (k : Int) (node newNode : Nat) :
    newRootAbove h k node newNode = some (h ++ [some ⟨false, 1, [k, 0, 0],
      [some node, some newNode, none, none], none, [none, none, none]⟩], some h.length) := by
  simp [newRootAbove, createBPTreeNode, ORDER, setKey, setChild, setNum, modify, load_append_at,
    store_append_at, List.replicate]

theorem insertInternalPlace_one {h : Heap} {a : Nat} {k0 x y : Int} {c0 c1 z w nx : Option Nat}
    {rs : List (Option Nat)} (key : Int) (rc : Nat)
    (hl : load h a = some ⟨false, 1, [k0, x, y], [c0, c1, z, w], nx, rs⟩) :
    insertInternalPlace h key rc a = some (store h a
      (if key < k0 then ⟨false, 2, [key, k0, y], [c0, some rc, c1, w], nx, rs⟩
       else ⟨false, 2, [k0, key, y], [c0, c1, some rc, w], nx, rs⟩)) := by
  have ha := load_lt hl
  by_cases hk : key < k0 <;>
    simp [insertInternalPlace, getNum, getKey, getChild, setKey, setChild, setNum, modify,
      childIndex, forDown, hl, hk, load_store_eq, store_store, ha]

theorem insertInternalPlace_two {h : Heap} {a : Nat} {k0 k1 y : Int} {c0 c1 c2 w nx : Option Nat}
    {rs : List (Option Nat)} (key : Int) (rc : Nat)
    (hl : load h a = some ⟨false, 2, [k0, k1, y], [c0, c1, c2, w], nx, rs⟩) :
    insertInternalPlace h key rc a = some (store h a
      (if key < k0 then ⟨false, 3, [key, k0, k1], [c0, some rc, c1, c2], nx, rs⟩
       else if key < k1 then ⟨false, 3, [k0, key, k1], [c0, c1, some rc, c2], nx, rs⟩
       else ⟨false, 3, [k0, k1, key], [c0, c1, c2, some rc], nx, rs⟩)) := by
  have ha := load_lt hl
  by_cases hk : key < k0 <;> by_cases hk1 : key < k1 <;>
    simp [insertInternalPlace, getNum, getKey, getChild, setKey, setChild, setNum, modify,
      childIndex, forDown, hl, hk, hk1, load_store_eq, store_store, ha]

theorem splitInternalMove_eq {h : Heap} {a : Nat} {k0 k1 k2 : Int} {c0 c1 c2 c3 nx : Option Nat}
    {rs : List (Option Nat)}
    (hl : load h a = some ⟨false, 3, [k0, k1, k2], [c0, c1, c2, c3], nx, rs⟩) :
    splitInternalMove h a = some
      (store h a ⟨false, 1, [k0, k1, 0], [c0, c1, none, none], nx, rs⟩ ++
        [some ⟨false, 1, [k2, 0, 0], [c2, c3, none, none], none, [none, none, none]⟩],
       h.length, k1) := by
  have ha := load_lt hl
  have ha1 : a < h.length + 1 := by omega
  have hne : a ≠ h.length := by omega
  have hne1 : h.length ≠ a := by omega
  simp [splitInternalMove, createBPTreeNode, ORDER, getNum, getKey, getChild, setKey, setChild,
    setNum, modify, forUp, hl, load_store_eq, load_store_ne, store_store, ha, ha1, hne,
    hne1, load_append_left, load_append_at, store_append_left, store_append_at, length_store,
    List.replicate]

/-! ## Shapes, frames and paths -/

@[simp] theorem addr_leaf (a : Nat) (es : List (Int × Nat)) (nx : Option Nat) :
    (Shape.leaf a es nx).addr = a := rfl

@[simp] theorem addr_node2 (a : Nat) (c0 : Shape) (k0 : Int) (c1 : Shape) :
    (Shape.node2 a c0 k0 c1).addr = a := rfl

@[simp] theorem addr_node3 (a : Nat) (c0 : Shape) (k0 : Int) (c1 : Shape) (k1 : Int)
    (c2 : Shape) : (Shape.node3 a c0 k0 c1 k1 c2).addr = a := rfl

theorem Shape.addr_mem (t : Shape) : t.addr ∈ t.addrs := by
  cases t <;> simp [Shape.addr, Shape.addrs]

theorem Shape.size_eq (t : Shape) : t.size = t.addrs.length := by
  induction t with
  | leaf a es nx => simp [Shape.size, Shape.addrs]
  | node2 a c0 k0 c1 ih0 ih1 => simp [Shape.size, Shape.addrs, ih0, ih1]; omega
  | node3 a c0 k0 c1 k1 c2 ih0 ih1 ih2 => simp [Shape.size, Shape.addrs, ih0, ih1, ih2]; omega

theorem Shape.entries_eq (t : Shape) : t.entries = (t.leaves.map (fun l => l.2.1)).flatten := by
  induction t with
  | leaf a es nx => simp [Shape.entries, Shape.leaves]
  | node2 a c0 k0 c1 ih0 ih1 => simp [Shape.entries, Shape.leaves, ih0, ih1]
  | node3 a c0 k0 c1 k1 c2 ih0 ih1 ih2 => simp [Shape.entries, Shape.leaves, ih0, ih1, ih2]

theorem Frame.fill_addr (f : Frame) (t : Shape) : (f.fill t).addr = f.addr := by
  cases f <;> rfl

theorem RepLeaf.leaf_live {h : Heap} {a : Nat} {nx : Option Nat} {es : List (Int × Nat)}
    (hr : RepLeaf h a nx es) : ∃ n, load h a = some n := by
  match es, hr with
  | [(k, r)], ⟨x, y, rx, ry, hl⟩ => exact ⟨_, hl⟩
  | [(k0, r0), (k1, r1)], ⟨y, ry, hl⟩ => exact ⟨_, hl⟩

theorem Rep.live {h : Heap} {t : Shape} (hr : Rep h t) : ∃ n, load h t.addr = some n := by
  cases t with
  | leaf a es nx => exact RepLeaf.leaf_live hr
  | node2 a c0 k0 c1 => obtain ⟨⟨x, y, z, w, hl⟩, _⟩ := hr; exact ⟨_, hl⟩
  | node3 a c0 k0 c1 k1 c2 => obtain ⟨⟨y, w, hl⟩, _⟩ := hr; exact ⟨_, hl⟩

theorem RepLeaf.leaf_congr {h h1 : Heap} {a : Nat} {nx : Option Nat} {es : List (Int × Nat)}
    (hr : RepLeaf h a nx es) (he : load h1 a = load h a) : RepLeaf h1 a nx es := by
  match es, hr with
  | [(k, r)], ⟨x, y, rx, ry, hl⟩ => exact ⟨x, y, rx, ry, he.trans hl⟩
  | [(k0, r0), (k1, r1)], ⟨y, ry, hl⟩ => exact ⟨y, ry, he.trans hl⟩

theorem Rep.congr {h h1 : Heap} {t : Shape} (hr : Rep h t)
    (he : ∀ a ∈ t.addrs, load h1 a = load h a) : Rep h1 t := by
  induction t with
  | leaf a es nx => exact RepLeaf.leaf_congr hr (he a (by simp [Shape.addrs]))
  | node2 a c0 k0 c1 ih0 ih1 =>
    obtain ⟨⟨x, y, z, w, hl⟩, h0, h1'⟩ := hr
    refine ⟨⟨x, y, z, w, (he a (by simp [Shape.addrs])).trans hl⟩, ih0 h0 ?_, ih1 h1' ?_⟩
    · intro b hb; exact he b (by simp [Shape.addrs, hb])
    · intro b hb; exact he b (by simp [Shape.addrs, hb])
  | node3 a c0 k0 c1 k1 c2 ih0 ih1 ih2 =>
    obtain ⟨⟨y, w, hl⟩, h0, h1', h2⟩ := hr
    refine ⟨⟨y, w, (he a (by simp [Shape.addrs])).trans hl⟩, ih0 h0 ?_, ih1 h1' ?_, ih2 h2 ?_⟩
    · intro b hb; exact he b (by simp [Shape.addrs, hb])
    · intro b hb; exact he b (by simp [Shape.addrs, hb])
    · intro b hb; exact he b (by simp [Shape.addrs, hb])

theorem Rep.addr_lt {h : Heap} {t : Shape} (hr : Rep h t) : ∀ a ∈ t.addrs, a < h.length := by
  induction t with
  | leaf a es nx =>
    intro b hb
    simp [Shape.addrs] at hb
    obtain ⟨n, hn⟩ := RepLeaf.leaf_live hr
    exact hb ▸ load_lt hn
  | node2 a c0 k0 c1 ih0 ih1 =>
    obtain ⟨⟨x, y, z, w, hl⟩, h0, h1'⟩ := hr
    intro b hb
    simp [Shape.addrs] at hb
    rcases hb with rfl | hb | hb
    · exact load_lt hl
    · exact ih0 h0 b hb
    · exact ih1 h1' b hb
  | node3 a c0 k0 c1 k1 c2 ih0 ih1 ih2 =>
    obtain ⟨⟨y, w, hl⟩, h0, h1', h2⟩ := hr
    intro b hb
    simp [Shape.addrs] at hb
    rcases hb with rfl | hb | hb | hb
    · exact load_lt hl
    · exact ih0 h0 b hb
    · exact ih1 h1' b hb
    · exact ih2 h2 b hb

theorem rep_fill {h : Heap} (f : Frame) (t : Shape) :
    Rep h (f.fill t) ↔ RepFrame h t.addr f ∧ Rep h t := by
  cases f <;> simp [Frame.fill, Rep, RepFrame] <;> tauto

theorem rep_plug {h : Heap} (c : List Frame) (t : Shape) :
    Rep h (plug c t) ↔ RepPath h c t.addr ∧ Rep h t := by
  induction c generalizing t with
  | nil => simp [plug, RepPath]
  | cons f c ih =>
    simp only [plug, RepPath, ih, rep_fill, Frame.fill_addr]
    tauto

theorem plug_addr (c : List Frame) (t : Shape) : (plug c t).addr = pathRoot c t.addr := by
  induction c generalizing t with
  | nil => rfl
  | cons f c ih => simp [plug, pathRoot, ih, Frame.fill_addr]

theorem ord_fill (lo hi : Option Int) (f : Frame) (t : Shape) :
    Ord lo hi (f.fill t) ↔ OrdFrame lo hi f ∧ Ord (f.lo lo) (f.hi hi) t := by
  cases f <;> simp [Frame.fill, Ord, OrdFrame, Frame.lo, Frame.hi] <;> tauto

theorem ord_plug (c : List Frame) (t : Shape) :
    Ord none none (plug c t) ↔ OrdPath c ∧ Ord (pathLo c) (pathHi c) t := by
  induction c generalizing t with
  | nil => simp [plug, OrdPath, pathLo, pathHi]
  | cons f c ih =>
    simp only [plug, OrdPath, ih, ord_fill, pathLo, pathHi]
    tauto

theorem addrs_fill (f : Frame) (t : Shape) : (f.fill t).addrs.Perm (f.addrs ++ t.addrs) := by
  rw [List.perm_iff_count]
  intro x
  cases f <;> simp [Frame.fill, Shape.addrs, Frame.addrs, Frame.addr, Frame.before,
    Frame.after, List.count_cons, List.count_append] <;> omega

theorem addrs_plug (c : List Frame) (t : Shape) :
    (plug c t).addrs.Perm (pathAddrs c ++ t.addrs) := by
  induction c generalizing t with
  | nil => simp [plug, pathAddrs]
  | cons f c ih =>
    simp only [plug, pathAddrs]
    refine (ih (f.fill t)).trans ?_
    refine ((addrs_fill f t).append_left (pathAddrs c)).trans ?_
    rw [List.perm_iff_count]
    intro x
    simp [List.count_append]
    omega

theorem leaves_fill (f : Frame) (t : Shape) :
    (f.fill t).leaves = (f.before.map Shape.leaves).flatten ++ t.leaves ++
      (f.after.map Shape.leaves).flatten := by
  cases f <;> simp [Frame.fill, Shape.leaves, Frame.before, Frame.after]

theorem leaves_plug (c : List Frame) (t : Shape) :
    (plug c t).leaves = leavesBefore c ++ t.leaves ++ leavesAfter c := by
  induction c generalizing t with
  | nil => simp [plug, leavesBefore, leavesAfter]
  | cons f c ih => simp [plug, ih, leaves_fill, leavesBefore, leavesAfter]

/-! ## Lookup and scan on a represented tree -/

theorem geLo_of_gtLo {lo : Option Int} {k x : Int} (h1 : gtLo lo k) (h2 : k ≤ x) : geLo lo x := by
  cases lo with
  | none => trivial
  | some l => simp only [gtLo] at h1; simp only [geLo]; omega

theorem geLo_mono {lo : Option Int} {k x : Int} (h1 : geLo lo k) (h2 : k ≤ x) : geLo lo x := by
  cases lo with
  | none => trivial
  | some l => simp only [geLo] at h1 ⊢; omega

theorem gtLo_of_geLo {lo : Option Int} {k x : Int} (h1 : geLo lo k) (h2 : k < x) : gtLo lo x := by
  cases lo with
  | none => trivial
  | some l => simp only [geLo] at h1; simp only [gtLo]; omega

theorem gtLo_mono {lo : Option Int} {k x : Int} (h1 : gtLo lo k) (h2 : k ≤ x) : gtLo lo x := by
  cases lo with
  | none => trivial
  | some l => simp only [gtLo] at h1 ⊢; omega

theorem ltHi_mono {hi : Option Int} {k x : Int} (h1 : ltHi k hi) (h2 : x ≤ k) : ltHi x hi := by
  cases hi with
  | none => trivial
  | some u => simp only [ltHi] at h1 ⊢; omega

/-- Widening the bounds of an ordered tree. -/
theorem Ord.weaken {lo hi lo1 hi1 : Option Int} {t : Shape} (ho : Ord lo hi t)
    (hlo : ∀ k, geLo lo k → geLo lo1 k) (hlo' : ∀ k, gtLo lo k → gtLo lo1 k)
    (hhi : ∀ k, ltHi k hi → ltHi k hi1) : Ord lo1 hi1 t := by
  induction t generalizing lo hi lo1 hi1 with
  | leaf a es nx =>
    exact ⟨ho.1, fun e he => ⟨hlo _ (ho.2 e he).1, hhi _ (ho.2 e he).2⟩⟩
  | node2 a c0 k0 c1 ih0 ih1 =>
    obtain ⟨h1, h2, h3, h4⟩ := ho
    exact ⟨hlo' _ h1, hhi _ h2, ih0 h3 hlo hlo' (fun _ hk => hk),
      ih1 h4 (fun _ hk => hk) (fun _ hk => hk) hhi⟩
  | node3 a c0 k0 c1 k1 c2 ih0 ih1 ih2 =>
    obtain ⟨h1, h2, h3, h4, h5, h6⟩ := ho
    exact ⟨hlo' _ h1, h2, hhi _ h3, ih0 h4 hlo hlo' (fun _ hk => hk), h5,
      ih2 h6 (fun _ hk => hk) (fun _ hk => hk) hhi⟩

theorem Ord.weaken_hi {lo hi : Option Int} {k : Int} {t : Shape} (ho : Ord lo (some k) t)
    (hk : ltHi k hi) : Ord lo hi t := by
  refine ho.weaken (fun _ h => h) (fun _ h => h) ?_
  intro x hx
  simp only [ltHi] at hx
  exact ltHi_mono hk (le_of_lt hx)

theorem Ord.weaken_lo {lo hi : Option Int} {k : Int} {t : Shape} (ho : Ord (some k) hi t)
    (hk : gtLo lo k) : Ord lo hi t := by
  refine ho.weaken ?_ ?_ (fun _ h => h)
  · intro x hx
    simp only [geLo] at hx
    exact geLo_of_gtLo hk hx
  · intro x hx
    simp only [gtLo] at hx
    exact gtLo_mono hk (le_of_lt hx)

/-- Every key of an ordered tree lies within the bounds. -/
theorem Ord.bounds {lo hi : Option Int} {t : Shape} (ho : Ord lo hi t) :
    ∀ e ∈ t.entries, geLo lo e.1 ∧ ltHi e.1 hi := by
  induction t generalizing lo hi with
  | leaf a es nx => exact ho.2
  | node2 a c0 k0 c1 ih0 ih1 =>
    obtain ⟨h1, h2, h3, h4⟩ := ho
    intro e he
    simp only [Shape.entries, List.mem_append] at he
    rcases he with he | he
    · have := ih0 h3 e he
      exact ⟨this.1, ltHi_mono h2 (le_of_lt this.2)⟩
    · have := ih1 h4 e he
      exact ⟨geLo_of_gtLo h1 this.1, this.2⟩
  | node3 a c0 k0 c1 k1 c2 ih0 ih1 ih2 =>
    obtain ⟨h1, h2, h3, h4, h5, h6⟩ := ho
    intro e he
    simp only [Shape.entries, List.mem_append] at he
    rcases he with (he | he) | he
    · have := ih0 h4 e he
      have h7 : e.1 < k0 := this.2
      exact ⟨this.1, ltHi_mono h3 (by omega)⟩
    · have := ih1 h5 e he
      have h7 : k0 ≤ e.1 := this.1
      have h8 : e.1 < k1 := this.2
      exact ⟨geLo_of_gtLo h1 h7, ltHi_mono h3 (by omega)⟩
    · have := ih2 h6 e he
      have h7 : k1 ≤ e.1 := this.1
      exact ⟨geLo_of_gtLo h1 (by omega), this.2⟩

/-- The path of the descent, put back together, is the tree. -/
theorem pathTo_plug (id : Int) (t : Shape) (c : List Frame) :
    plug (pathTo id t c).1 (Shape.leaf (pathTo id t c).2.1 (pathTo id t c).2.2.1
      (pathTo id t c).2.2.2) = plug c t := by
  induction t generalizing c with
  | leaf a es nx => rfl
  | node2 a c0 k0 c1 ih0 ih1 =>
    simp only [pathTo]
    split
    · rw [ih0]; rfl
    · rw [ih1]; rfl
  | node3 a c0 k0 c1 k1 c2 ih0 ih1 ih2 =>
    simp only [pathTo]
    split
    · rw [ih0]; rfl
    · split
      · rw [ih1]; rfl
      · rw [ih2]; rfl

/-- The id looked for lies within the bounds of the hole its path ends in. -/
theorem pathTo_bounds (id : Int) (t : Shape) (c : List Frame)
    (hlo : geLo (pathLo c) id) (hhi : ltHi id (pathHi c)) :
    geLo (pathLo (pathTo id t c).1) id ∧ ltHi id (pathHi (pathTo id t c).1) := by
  induction t generalizing c with
  | leaf a es nx => exact ⟨hlo, hhi⟩
  | node2 a c0 k0 c1 ih0 ih1 =>
    simp only [pathTo]
    split
    · rename_i hk
      exact ih0 _ (by simpa [pathLo, Frame.lo] using hlo) (by simpa [pathHi, Frame.hi, ltHi] using hk)
    · rename_i hk
      exact ih1 _ (by simpa [pathLo, Frame.lo, geLo] using hk) (by simpa [pathHi, Frame.hi] using hhi)
  | node3 a c0 k0 c1 k1 c2 ih0 ih1 ih2 =>
    simp only [pathTo]
    split
    · rename_i hk
      exact ih0 _ (by simpa [pathLo, Frame.lo] using hlo) (by simpa [pathHi, Frame.hi, ltHi] using hk)
    · rename_i hk
      split
      · rename_i hk1
        exact ih1 _ (by simpa [pathLo, Frame.lo, geLo] using hk)
          (by simpa [pathHi, Frame.hi, ltHi] using hk1)
      · rename_i hk1
        exact ih2 _ (by simpa [pathLo, Frame.lo, geLo] using hk1)
          (by simpa [pathHi, Frame.hi] using hhi)

/-- An entry of an ordered tree is an entry of the leaf its key's path ends in. -/
theorem pathTo_entry {lo hi : Option Int} {t : Shape} (ho : Ord lo hi t) (c : List Frame)
    {e : Int × Nat} (he : e ∈ t.entries) : e ∈ (pathTo e.1 t c).2.2.1 := by
  induction t generalizing lo hi c with
  | leaf a es nx => exact he
  | node2 a c0 k0 c1 ih0 ih1 =>
    obtain ⟨h1, h2, h3, h4⟩ := ho
    simp only [Shape.entries, List.mem_append] at he
    simp only [pathTo]
    rcases he with he | he
    · have hb : e.1 < k0 := (h3.bounds e he).2
      simp only [hb, if_true]
      exact ih0 h3 _ he
    · have hb : k0 ≤ e.1 := (h4.bounds e he).1
      have : ¬ e.1 < k0 := by omega
      simp only [this, if_false]
      exact ih1 h4 _ he
  | node3 a c0 k0 c1 k1 c2 ih0 ih1 ih2 =>
    obtain ⟨h1, h2, h3, h4, h5, h6⟩ := ho
    simp only [Shape.entries, List.mem_append] at he
    simp only [pathTo]
    rcases he with (he | he) | he
    · have hb : e.1 < k0 := (h4.bounds e he).2
      simp only [hb, if_true]
      exact ih0 h4 _ he
    · have hb : k0 ≤ e.1 := (h5.bounds e he).1
      have hb1 : e.1 < k1 := (h5.bounds e he).2
      have : ¬ e.1 < k0 := by omega
      simp only [this, if_false, hb1, if_true]
      exact ih1 h5 _ he
    · have hb : k1 ≤ e.1 := (h6.bounds e he).1
      have : ¬ e.1 < k0 := by omega
      have h' : ¬ e.1 < k1 := by omega
      simp only [this, if_false, h']
      exact ih2 h6 _ he

/-- The descent of the code follows the path of the shape. -/
theorem descend_path {h : Heap} (id : Int) (t : Shape) :
    ∀ (c : List Frame) (fuel : Nat) (parent : Option Nat) (idx : Nat), Rep h t → t.size ≤ fuel →
      parent = c.head?.map Frame.addr →
      ∃ idx1, descend h id fuel t.addr parent idx =
        some ((pathTo id t c).2.1, (pathTo id t c).1.head?.map Frame.addr, idx1) := by
  induction t with
  | leaf a es nx =>
    intro c fuel parent idx hr hf hp
    obtain ⟨f, rfl⟩ : ∃ f, fuel = f + 1 := ⟨fuel - 1, by simp [Shape.size] at hf; omega⟩
    refine ⟨idx, ?_⟩
    match es, hr with
    | [(k, r)], ⟨x, y, rx, ry, hl⟩ => simp [descend, hl, pathTo, hp]
    | [(k0, r0), (k1, r1)], ⟨y, ry, hl⟩ => simp [descend, hl, pathTo, hp]
  | node2 a c0 k0 c1 ih0 ih1 =>
    intro c fuel parent idx hr hf hp
    obtain ⟨f, rfl⟩ : ∃ f, fuel = f + 1 := ⟨fuel - 1, by simp [Shape.size] at hf; omega⟩
    obtain ⟨⟨x, y, z, w, hl⟩, h0, h1⟩ := hr
    simp only [Shape.size] at hf
    by_cases hk : id < k0
    · obtain ⟨i1, hi1⟩ := ih0 (Frame.n2l a k0 c1 :: c) f (some a) 0 h0 (by omega) (by simp [Frame.addr])
      exact ⟨i1, by simp [descend, hl, childIndex, getKey, getChild, hk, pathTo, hi1]⟩
    · obtain ⟨i1, hi1⟩ := ih1 (Frame.n2r a c0 k0 :: c) f (some a) 1 h1 (by omega) (by simp [Frame.addr])
      exact ⟨i1, by simp [descend, hl, childIndex, getKey, getChild, hk, pathTo, hi1]⟩
  | node3 a c0 k0 c1 k1 c2 ih0 ih1 ih2 =>
    intro c fuel parent idx hr hf hp
    obtain ⟨f, rfl⟩ : ∃ f, fuel = f + 1 := ⟨fuel - 1, by simp [Shape.size] at hf; omega⟩
    obtain ⟨⟨y, w, hl⟩, h0, h1, h2⟩ := hr
    simp only [Shape.size] at hf
    by_cases hk : id < k0
    · obtain ⟨i1, hi1⟩ := ih0 (Frame.n3l a k0 c1 k1 c2 :: c) f (some a) 0 h0 (by omega)
        (by simp [Frame.addr])
      exact ⟨i1, by simp [descend, hl, childIndex, getKey, getChild, hk, pathTo, hi1]⟩
    · by_cases hk1 : id < k1
      · obtain ⟨i1, hi1⟩ := ih1 (Frame.n3m a c0 k0 k1 c2 :: c) f (some a) 1 h1 (by omega)
          (by simp [Frame.addr])
        exact ⟨i1, by
          simp [descend, hl, childIndex, getKey, getChild, hk, hk1, pathTo, hi1]⟩
      · obtain ⟨i1, hi1⟩ := ih2 (Frame.n3r a c0 k0 c1 k1 :: c) f (some a) 2 h2 (by omega)
          (by simp [Frame.addr])
        exact ⟨i1, by
          simp [descend, hl, childIndex, getKey, getChild, hk, hk1, pathTo, hi1]⟩

/-- Distinct numbers below `n` are at most `n` many. -/
theorem length_le_of_nodup_lt {l : List Nat} {n : Nat} (hn : l.Nodup) (hl : ∀ a ∈ l, a < n) :
    l.length ≤ n := by
  have h1 : l.toFinset ⊆ Finset.range n := by
    intro a ha
    simp only [List.mem_toFinset] at ha
    simpa using hl a ha
  have h2 := Finset.card_le_card h1
  rw [List.toFinset_card_of_nodup hn, Finset.card_range] at h2
  exact h2

theorem Rep.size_le {h : Heap} {t : Shape} (hr : Rep h t) (hn : t.addrs.Nodup) :
    t.size ≤ h.length := by
  rw [Shape.size_eq]
  exact length_le_of_nodup_lt hn hr.addr_lt

theorem Shape.leaves_length_le (t : Shape) : t.leaves.length ≤ t.size := by
  induction t with
  | leaf a es nx => simp [Shape.leaves, Shape.size]
  | node2 a c0 k0 c1 ih0 ih1 => simp [Shape.leaves, Shape.size]; omega
  | node3 a c0 k0 c1 k1 c2 ih0 ih1 ih2 => simp [Shape.leaves, Shape.size]; omega

/-- The key loop of the lookup finds an entry of a leaf and its record. -/
theorem RepLeaf.find {h : Heap} {a : Nat} {nx : Option Nat} {es : List (Int × Nat)}
    (hr : RepLeaf h a nx es) (hs : (es.map Prod.fst).Pairwise (· < ·)) {e : Int × Nat}
    (he : e ∈ es) :
    ∃ nk i, getNum h a = some nk ∧ keyIndex h a e.1 nk 0 = some (some i) ∧
      getRec h a i = some (some e.2) := by
  match es, hr with
  | [(k, r)], ⟨x, y, rx, ry, hl⟩ =>
    simp only [List.mem_singleton] at he
    subst he
    exact ⟨1, 0, by simp [getNum, hl], by simp [keyIndex, getKey, hl], by simp [getRec, hl]⟩
  | [(k0, r0), (k1, r1)], ⟨y, ry, hl⟩ =>
    simp only [List.mem_cons, List.mem_singleton, List.not_mem_nil, or_false] at he
    simp only [List.map, List.pairwise_cons, List.mem_singleton, forall_eq] at hs
    have hlt : k0 < k1 := hs.1
    rcases he with rfl | rfl
    · exact ⟨2, 0, by simp [getNum, hl], by simp [keyIndex, getKey, hl], by simp [getRec, hl]⟩
    · have hne : ¬ k0 = k1 := by omega
      exact ⟨2, 1, by simp [getNum, hl], by simp [keyIndex, getKey, hl, hne],
        by simp [getRec, hl]⟩

/-- The leaf at the end of a path is held by the heap. -/
theorem Rep.pathTo_leaf {h : Heap} (id : Int) {t : Shape} (hr : Rep h t) (c : List Frame) :
    RepLeaf h (pathTo id t c).2.1 (pathTo id t c).2.2.2 (pathTo id t c).2.2.1 := by
  induction t generalizing c with
  | leaf a es nx => exact hr
  | node2 a c0 k0 c1 ih0 ih1 =>
    simp only [pathTo]
    split
    · exact ih0 hr.2.1 _
    · exact ih1 hr.2.2 _
  | node3 a c0 k0 c1 k1 c2 ih0 ih1 ih2 =>
    simp only [pathTo]
    split
    · exact ih0 hr.2.1 _
    · split
      · exact ih1 hr.2.2.1 _
      · exact ih2 hr.2.2.2 _

/-- The keys of the leaf at the end of a path ascend. -/
theorem Ord.pathTo_sorted {lo hi : Option Int} (id : Int) {t : Shape} (ho : Ord lo hi t)
    (c : List Frame) : ((pathTo id t c).2.2.1.map Prod.fst).Pairwise (· < ·) := by
  induction t generalizing lo hi c with
  | leaf a es nx => exact ho.1
  | node2 a c0 k0 c1 ih0 ih1 =>
    simp only [pathTo]
    split
    · exact ih0 ho.2.2.1 _
    · exact ih1 ho.2.2.2 _
  | node3 a c0 k0 c1 k1 c2 ih0 ih1 ih2 =>
    simp only [pathTo]
    split
    · exact ih0 ho.2.2.2.1 _
    · split
      · exact ih1 ho.2.2.2.2.1 _
      · exact ih2 ho.2.2.2.2.2 _

/-- Both lookups find every entry of a represented, ordered tree. -/
theorem find_of_rep {h : Heap} {t : Shape} (hr : Rep h t) (ho : Ord none none t)
    (hn : t.addrs.Nodup) {e : Int × Nat} (he : e ∈ t.entries) :
    findTransactionById h (some t.addr) e.1 = some (some e.2) ∧
      findTransactionInBPTree h (some t.addr) e.1 = some true := by
  obtain ⟨idx1, hd⟩ := descend_path e.1 t [] h.length none 0 hr (hr.size_le hn) rfl
  obtain ⟨nk, i, h1, h2, h3⟩ :=
    (hr.pathTo_leaf e.1 []).find (ho.pathTo_sorted e.1 []) (pathTo_entry ho [] he)
  constructor
  · simp [findTransactionById, hd, h1, h2, h3]
  · simp [findTransactionInBPTree, hd, h1, h2]

/-- Every leaf of a represented tree is held by the heap. -/
theorem Rep.leaves {h : Heap} {t : Shape} (hr : Rep h t) :
    ∀ l ∈ t.leaves, RepLeaf h l.1 l.2.2 l.2.1 := by
  induction t with
  | leaf a es nx =>
    intro l hl
    simp only [Shape.leaves, List.mem_singleton] at hl
    subst hl
    exact hr
  | node2 a c0 k0 c1 ih0 ih1 =>
    intro l hl
    simp only [Shape.leaves, List.mem_append] at hl
    rcases hl with hl | hl
    · exact ih0 hr.2.1 l hl
    · exact ih1 hr.2.2 l hl
  | node3 a c0 k0 c1 k1 c2 ih0 ih1 ih2 =>
    intro l hl
    simp only [Shape.leaves, List.mem_append] at hl
    rcases hl with (hl | hl) | hl
    · exact ih0 hr.2.1 l hl
    · exact ih1 hr.2.2.1 l hl
    · exact ih2 hr.2.2.2 l hl

/-- The walk to the leftmost leaf reaches the first leaf of the shape. -/
theorem leftmost_of_rep {h : Heap} {t : Shape} (hr : Rep h t) :
    ∀ fuel, t.size ≤ fuel →
      ∃ l rest, t.leaves = l :: rest ∧ leftmostLeaf h fuel t.addr = some l.1 := by
  induction t with
  | leaf a es nx =>
    intro fuel hf
    obtain ⟨f, rfl⟩ : ∃ f, fuel = f + 1 := ⟨fuel - 1, by simp [Shape.size] at hf; omega⟩
    refine ⟨(a, es, nx), [], rfl, ?_⟩
    match es, hr with
    | [(k, r)], ⟨x, y, rx, ry, hl⟩ => simp [leftmostLeaf, hl]
    | [(k0, r0), (k1, r1)], ⟨y, ry, hl⟩ => simp [leftmostLeaf, hl]
  | node2 a c0 k0 c1 ih0 ih1 =>
    intro fuel hf
    obtain ⟨f, rfl⟩ : ∃ f, fuel = f + 1 := ⟨fuel - 1, by simp [Shape.size] at hf; omega⟩
    obtain ⟨⟨x, y, z, w, hl⟩, h0, h1⟩ := hr
    simp only [Shape.size] at hf
    obtain ⟨l, rest, h2, h3⟩ := ih0 h0 f (by omega)
    exact ⟨l, rest ++ c1.leaves, by simp [Shape.leaves, h2], by simp [leftmostLeaf, hl, h3]⟩
  | node3 a c0 k0 c1 k1 c2 ih0 ih1 ih2 =>
    intro fuel hf
    obtain ⟨f, rfl⟩ : ∃ f, fuel = f + 1 := ⟨fuel - 1, by simp [Shape.size] at hf; omega⟩
    obtain ⟨⟨y, w, hl⟩, h0, h1, h2'⟩ := hr
    simp only [Shape.size] at hf
    obtain ⟨l, rest, h2, h3⟩ := ih0 h0 f (by omega)
    exact ⟨l, rest ++ c1.leaves ++ c2.leaves, by simp [Shape.leaves, h2],
      by simp [leftmostLeaf, hl, h3]⟩

/-- The key reading loop of the scan on one leaf. -/
theorem RepLeaf.scan {h : Heap} {a : Nat} {nx : Option Nat} {es : List (Int × Nat)}
    (hr : RepLeaf h a nx es) :
    ∃ n, load h a = some n ∧ n.next = nx ∧
      nodeKeys h a n.numKeys 0 = some (es.map Prod.fst) := by
  match es, hr with
  | [(k, r)], ⟨x, y, rx, ry, hl⟩ => exact ⟨_, hl, rfl, by simp [nodeKeys, getKey, hl]⟩
  | [(k0, r0), (k1, r1)], ⟨y, ry, hl⟩ => exact ⟨_, hl, rfl, by simp [nodeKeys, getKey, hl]⟩

/-- The chain walk over linked leaves reads their keys in order. -/
theorem chainKeys_of_linked {h : Heap} :
    ∀ (ls : List (Nat × List (Int × Nat) × Option Nat)) (fuel : Nat),
      (∀ l ∈ ls, RepLeaf h l.1 l.2.2 l.2.1) → Linked ls none → ls.length < fuel →
      chainKeys h fuel (ls.head?.map (fun l => l.1)) =
        some ((ls.map (fun l => l.2.1)).flatten.map Prod.fst) := by
  intro ls
  induction ls with
  | nil =>
    intro fuel _ _ hf
    obtain ⟨f, rfl⟩ : ∃ f, fuel = f + 1 := ⟨fuel - 1, by simp at hf; omega⟩
    simp [chainKeys]
  | cons l rest ih =>
    intro fuel hrep hlink hf
    obtain ⟨f, rfl⟩ : ∃ f, fuel = f + 1 := ⟨fuel - 1, by simp at hf; omega⟩
    obtain ⟨n, hl, hnx, hk⟩ := (hrep l (by simp)).scan
    have hnext : n.next = rest.head?.map (fun l => l.1) := by
      rw [hnx, hlink.1]
      cases rest <;> rfl
    have hlink1 : Linked rest none := hlink.2
    have := ih f (fun m hm => hrep m (by simp [hm])) hlink1 (by simp at hf; omega)
    simp [chainKeys, hl, hk, hnext, this]

/-- The ordered scan of a represented tree with linked leaves reads the keys
of its entries from left to right. -/
theorem scan_of_rep {h : Heap} {t : Shape} (hr : Rep h t) (hn : t.addrs.Nodup)
    (hlink : Linked t.leaves none) :
    scanKeys h (some t.addr) = some (t.entries.map Prod.fst) := by
  obtain ⟨l, rest, h1, h2⟩ := leftmost_of_rep hr h.length (hr.size_le hn)
  have h3 := chainKeys_of_linked t.leaves (h.length + 1) hr.leaves hlink
    (by have := t.leaves_length_le; have := hr.size_le hn; omega)
  rw [h1] at h3
  simp only [List.head?_cons, Option.map_some'] at h3
  rw [← h1, ← Shape.entries_eq] at h3
  simp [scanKeys, h2, h3]

/-! ## The parent search of `insertInternalNode` -/

theorem searchChildren_leaf1 {h : Heap} {p : Nat} {ks : List Int} {nx : Option Nat}
    {rs : List (Option Nat)} (node : Nat) (stack : List Nat)
    (hl : load h p = some ⟨true, 1, ks, [none, none, none, none], nx, rs⟩) :
    searchChildren h node p 2 0 stack = some (false, stack) := by
  simp [searchChildren, getChild, getLeaf, hl]

theorem searchChildren_leaf2 {h : Heap} {p : Nat} {ks : List Int} {nx : Option Nat}
    {rs : List (Option Nat)} (node : Nat) (stack : List Nat)
    (hl : load h p = some ⟨true, 2, ks, [none, none, none, none], nx, rs⟩) :
    searchChildren h node p 3 0 stack = some (false, stack) := by
  simp [searchChildren, getChild, getLeaf, hl]

theorem searchChildren_node2 {h : Heap} {p a0 a1 : Nat} {ks : List Int} {z w nx : Option Nat}
    {rs : List (Option Nat)} (node : Nat) (stack : List Nat)
    (hl : load h p = some ⟨false, 1, ks, [some a0, some a1, z, w], nx, rs⟩) :
    searchChildren h node p 2 0 stack =
      some (if a0 = node then (true, []) else if a1 = node then (true, [])
            else (false, a1 :: a0 :: stack)) := by
  by_cases h0 : a0 = node <;> by_cases h1 : a1 = node <;>
    simp [searchChildren, getChild, getLeaf, hl, h0, h1]

theorem searchChildren_node3 {h : Heap} {p a0 a1 a2 : Nat} {ks : List Int} {w nx : Option Nat}
    {rs : List (Option Nat)} (node : Nat) (stack : List Nat)
    (hl : load h p = some ⟨false, 2, ks, [some a0, some a1, some a2, w], nx, rs⟩) :
    searchChildren h node p 3 0 stack =
      some (if a0 = node then (true, []) else if a1 = node then (true, [])
            else if a2 = node then (true, []) else (false, a2 :: a1 :: a0 :: stack)) := by
  by_cases h0 : a0 = node <;> by_cases h1 : a1 = node <;> by_cases h2 : a2 = node <;>
    simp [searchChildren, getChild, getLeaf, hl, h0, h1, h2]

/-- The search passes over a subtree that does not contain the node looked
for, using one unit of fuel per node. -/
theorem searchParent_skip {h : Heap} {node : Nat} (t : Shape) (hr : Rep h t)
    (hnot : node ∉ t.addrs) :
    ∀ fuel stack, searchParent h node (t.size + fuel) (t.addr :: stack) =
      searchParent h node fuel stack := by
  induction t with
  | leaf a es nx =>
    intro fuel stack
    have e1 : (Shape.leaf a es nx).size + fuel = fuel + 1 := by simp [Shape.size]; omega
    rw [e1]
    match es, hr with
    | [(k, r)], ⟨x, y, rx, ry, hl⟩ =>
      simp [searchParent, getNum, hl, searchChildren_leaf1 node stack hl]
    | [(k0, r0), (k1, r1)], ⟨y, ry, hl⟩ =>
      simp [searchParent, getNum, hl, searchChildren_leaf2 node stack hl]
  | node2 a c0 k0 c1 ih0 ih1 =>
    intro fuel stack
    obtain ⟨⟨x, y, z, w, hl⟩, h0, h1⟩ := hr
    simp only [Shape.addrs, List.mem_cons, List.mem_append, not_or] at hnot
    have n0 : ¬ c0.addr = node := fun e => hnot.2.1 (e ▸ c0.addr_mem)
    have n1 : ¬ c1.addr = node := fun e => hnot.2.2 (e ▸ c1.addr_mem)
    have e1 : (Shape.node2 a c0 k0 c1).size + fuel = (c1.size + (c0.size + fuel)) + 1 := by
      simp [Shape.size]; omega
    rw [e1]
    simp only [searchParent, getNum, hl, Option.map_some', addr_node2,
      searchChildren_node2 node stack hl, n0, n1, if_false]
    rw [ih1 h1 hnot.2.2, ih0 h0 hnot.2.1]
  | node3 a c0 k0 c1 k1 c2 ih0 ih1 ih2 =>
    intro fuel stack
    obtain ⟨⟨y, w, hl⟩, h0, h1, h2⟩ := hr
    simp only [Shape.addrs, List.mem_cons, List.mem_append, not_or] at hnot
    have n0 : ¬ c0.addr = node := fun e => hnot.2.1.1 (e ▸ c0.addr_mem)
    have n1 : ¬ c1.addr = node := fun e => hnot.2.1.2 (e ▸ c1.addr_mem)
    have n2 : ¬ c2.addr = node := fun e => hnot.2.2 (e ▸ c2.addr_mem)
    have e1 : (Shape.node3 a c0 k0 c1 k1 c2).size + fuel =
        (c2.size + (c1.size + (c0.size + fuel))) + 1 := by
      simp [Shape.size]; omega
    rw [e1]
    simp only [searchParent, getNum, hl, Option.map_some', addr_node3,
      searchChildren_node3 node stack hl, n0, n1, n2, if_false]
    rw [ih2 h2 hnot.2.2, ih1 h1 hnot.2.1.2, ih0 h0 hnot.2.1.1]

/-- One step of the search down the path: the node of a frame is taken from
the stack, the subtrees right of the hole are passed over, and the hole comes
to the top of the stack. -/
theorem searchParent_frame {h : Heap} {node : Nat} (g : Frame) (hole : Nat)
    (hr : RepFrame h hole g) (hne : hole ≠ node) (hnot : node ∉ g.addrs) (stack : List Nat) :
    ∃ stack1, ∀ fuel, searchParent h node ((1 + (g.after.map Shape.size).sum) + fuel)
        (g.addr :: stack) = searchParent h node fuel (hole :: stack1) := by
  cases g with
  | n2l a k0 c1 =>
    obtain ⟨⟨x, y, z, w, hl⟩, h1⟩ := hr
    simp only [Frame.addrs, Frame.addr, Frame.before, Frame.after, List.map, List.flatten,
      List.append_nil, List.nil_append, List.mem_cons, not_or] at hnot
    have n1 : ¬ c1.addr = node := fun e => hnot.2 (e ▸ c1.addr_mem)
    refine ⟨stack, fun fuel => ?_⟩
    have e1 : 1 + (List.map Shape.size (Frame.n2l a k0 c1).after).sum + fuel =
        (c1.size + fuel) + 1 := by simp [Frame.after]; omega
    rw [e1]
    simp only [searchParent, getNum, hl, Option.map_some', Frame.addr,
      searchChildren_node2 node stack hl, hne, n1, if_false]
    rw [searchParent_skip c1 h1 hnot.2]
  | n2r a c0 k0 =>
    obtain ⟨⟨x, y, z, w, hl⟩, h0⟩ := hr
    simp only [Frame.addrs, Frame.addr, Frame.before, Frame.after, List.map, List.flatten,
      List.append_nil, List.nil_append, List.mem_cons, not_or] at hnot
    have n0 : ¬ c0.addr = node := fun e => hnot.2 (e ▸ c0.addr_mem)
    refine ⟨c0.addr :: stack, fun fuel => ?_⟩
    have e1 : 1 + (List.map Shape.size (Frame.n2r a c0 k0).after).sum + fuel = fuel + 1 := by
      simp [Frame.after]; omega
    rw [e1]
    simp only [searchParent, getNum, hl, Option.map_some', Frame.addr,
      searchChildren_node2 node stack hl, hne, n0, if_false]
  | n3l a k0 c1 k1 c2 =>
    obtain ⟨⟨y, w, hl⟩, h1, h2⟩ := hr
    simp only [Frame.addrs, Frame.addr, Frame.before, Frame.after, List.map, List.flatten,
      List.append_nil, List.nil_append, List.mem_cons, List.mem_append, not_or] at hnot
    have n1 : ¬ c1.addr = node := fun e => hnot.2.1 (e ▸ c1.addr_mem)
    have n2 : ¬ c2.addr = node := fun e => hnot.2.2 (e ▸ c2.addr_mem)
    refine ⟨stack, fun fuel => ?_⟩
    have e1 : 1 + (List.map Shape.size (Frame.n3l a k0 c1 k1 c2).after).sum + fuel =
        (c2.size + (c1.size + fuel)) + 1 := by simp [Frame.after]; omega
    rw [e1]
    simp only [searchParent, getNum, hl, Option.map_some', Frame.addr,
      searchChildren_node3 node stack hl, hne, n1, n2, if_false]
    rw [searchParent_skip c2 h2 hnot.2.2, searchParent_skip c1 h1 hnot.2.1]
  | n3m a c0 k0 k1 c2 =>
    obtain ⟨⟨y, w, hl⟩, h0, h2⟩ := hr
    simp only [Frame.addrs, Frame.addr, Frame.before, Frame.after, List.map, List.flatten,
      List.append_nil, List.nil_append, List.mem_cons, List.mem_append, not_or] at hnot
    have n0 : ¬ c0.addr = node := fun e => hnot.2.1 (e ▸ c0.addr_mem)
    have n2 : ¬ c2.addr = node := fun e => hnot.2.2 (e ▸ c2.addr_mem)
    refine ⟨c0.addr :: stack, fun fuel => ?_⟩
    have e1 : 1 + (List.map Shape.size (Frame.n3m a c0 k0 k1 c2).after).sum + fuel =
        (c2.size + fuel) + 1 := by simp [Frame.after]; omega
    rw [e1]
    simp only [searchParent, getNum, hl, Option.map_some', Frame.addr,
      searchChildren_node3 node stack hl, hne, n0, n2, if_false]
    rw [searchParent_skip c2 h2 hnot.2.2]
  | n3r a c0 k0 c1 k1 =>
    obtain ⟨⟨y, w, hl⟩, h0, h1⟩ := hr
    simp only [Frame.addrs, Frame.addr, Frame.before, Frame.after, List.map, List.flatten,
      List.append_nil, List.nil_append, List.mem_cons, List.mem_append, not_or] at hnot
    have n0 : ¬ c0.addr = node := fun e => hnot.2.1 (e ▸ c0.addr_mem)
    have n1 : ¬ c1.addr = node := fun e => hnot.2.2 (e ▸ c1.addr_mem)
    refine ⟨c1.addr :: c0.addr :: stack, fun fuel => ?_⟩
    have e1 : 1 + (List.map Shape.size (Frame.n3r a c0 k0 c1 k1).after).sum + fuel =
        fuel + 1 := by simp [Frame.after]; omega
    rw [e1]
    simp only [searchParent, getNum, hl, Option.map_some', Frame.addr,
      searchChildren_node3 node stack hl, hne, n0, n1, if_false]

/-- The search started at the root of a path brings the hole of the path to
the top of the stack. -/
theorem searchParent_reach {h : Heap} {node : Nat} :
    ∀ (c : List Frame) (hole : Nat), RepPath h c hole → hole ≠ node → node ∉ pathAddrs c →
      ∀ stack, ∃ stack1, ∀ fuel, searchParent h node (searchCost c + fuel)
        (pathRoot c hole :: stack) = searchParent h node fuel (hole :: stack1) := by
  intro c
  induction c with
  | nil =>
    intro hole _ _ _ stack
    exact ⟨stack, fun fuel => by simp [searchCost, pathRoot]⟩
  | cons g c ih =>
    intro hole hr hne hnot stack
    simp only [pathAddrs, List.mem_append, not_or] at hnot
    have hg : g.addr ≠ node := fun e => hnot.1 (by rw [← e]; simp [Frame.addrs])
    obtain ⟨s1, hs1⟩ := ih g.addr hr.2 hg hnot.2 stack
    obtain ⟨s2, hs2⟩ := searchParent_frame g hole hr.1 hne hnot.1 s1
    refine ⟨s2, fun fuel => ?_⟩
    have e1 : searchCost (g :: c) + fuel =
        searchCost c + ((1 + (g.after.map Shape.size).sum) + fuel) := by
      simp [searchCost]; omega
    rw [e1]
    simp only [pathRoot]
    rw [hs1, hs2]

/-- When the node of the innermost frame is taken from the stack, the search
sees the node looked for among its children. -/
theorem searchParent_found {h : Heap} {node : Nat} (f : Frame) (hr : RepFrame h node f)
    (hnot : node ∉ f.addrs) (fuel : Nat) (stack : List Nat) :
    searchParent h node (fuel + 1) (f.addr :: stack) = some (some f.addr) := by
  cases f with
  | n2l a k0 c1 =>
    obtain ⟨⟨x, y, z, w, hl⟩, _⟩ := hr
    simp [searchParent, getNum, hl, Frame.addr, searchChildren_node2 node stack hl]
  | n2r a c0 k0 =>
    obtain ⟨⟨x, y, z, w, hl⟩, _⟩ := hr
    simp only [Frame.addrs, Frame.addr, Frame.before, Frame.after, List.map, List.flatten,
      List.append_nil, List.nil_append, List.mem_cons, not_or] at hnot
    have n0 : ¬ c0.addr = node := fun e => hnot.2 (e ▸ c0.addr_mem)
    simp [searchParent, getNum, hl, Frame.addr, searchChildren_node2 node stack hl, n0]
  | n3l a k0 c1 k1 c2 =>
    obtain ⟨⟨y, w, hl⟩, _⟩ := hr
    simp [searchParent, getNum, hl, Frame.addr, searchChildren_node3 node stack hl]
  | n3m a c0 k0 k1 c2 =>
    obtain ⟨⟨y, w, hl⟩, _⟩ := hr
    simp only [Frame.addrs, Frame.addr, Frame.before, Frame.after, List.map, List.flatten,
      List.append_nil, List.nil_append, List.mem_cons, List.mem_append, not_or] at hnot
    have n0 : ¬ c0.addr = node := fun e => hnot.2.1 (e ▸ c0.addr_mem)
    simp [searchParent, getNum, hl, Frame.addr, searchChildren_node3 node stack hl, n0]
  | n3r a c0 k0 c1 k1 =>
    obtain ⟨⟨y, w, hl⟩, _⟩ := hr
    simp only [Frame.addrs, Frame.addr, Frame.before, Frame.after, List.map, List.flatten,
      List.append_nil, List.nil_append, List.mem_cons, List.mem_append, not_or] at hnot
    have n0 : ¬ c0.addr = node := fun e => hnot.2.1 (e ▸ c0.addr_mem)
    have n1 : ¬ c1.addr = node := fun e => hnot.2.2 (e ▸ c1.addr_mem)
    simp [searchParent, getNum, hl, Frame.addr, searchChildren_node3 node stack hl, n0, n1]

theorem searchCost_le (c : List Frame) : searchCost c ≤ (pathAddrs c).length := by
  induction c with
  | nil => simp [searchCost, pathAddrs]
  | cons f c ih =>
    have : (f.after.map Shape.size).sum ≤ (f.after.map Shape.addrs).flatten.length := by
      cases f <;> simp [Frame.after, Shape.size_eq]
    simp only [searchCost, pathAddrs, Frame.addrs, List.length_append, List.length_cons]
    omega

/-- The parent search of `insertInternalNode` finds the node of the innermost
frame of the path above `node`. -/
theorem searchParent_finds {h : Heap} {node : Nat} (f : Frame) (c : List Frame)
    (hr : RepPath h (f :: c) node) (hnot : node ∉ pathAddrs (f :: c)) (fuel : Nat)
    (hf : searchCost c < fuel) :
    searchParent h node fuel [pathRoot (f :: c) node] = some (some f.addr) := by
  simp only [pathAddrs, List.mem_append, not_or] at hnot
  have hne : f.addr ≠ node := fun e => hnot.1 (by rw [← e]; simp [Frame.addrs])
  obtain ⟨s1, hs1⟩ := searchParent_reach c f.addr hr.2 hne hnot.2 []
  obtain ⟨k, rfl⟩ : ∃ k, fuel = searchCost c + (k + 1) := ⟨fuel - searchCost c - 1, by omega⟩
  simp only [pathRoot]
  rw [hs1, searchParent_found f hr.1 hnot.1]

/-! ## Hanging a split-off node into the tree -/

theorem insertInternalNode_succ (fuel : Nat) (h : Heap) (root : Option Nat) (key : Int)
    (rc node : Nat) :
    insertInternalNode (fuel + 1) h root key rc node =
      match insertInternalPlace h key rc node with
      | none => none
      | some h1 =>
        match getNum h1 node with
        | none => none
        | some nk => if nk = ORDER - 1 then splitFull fuel h1 root node else some (h1, root) := by
  rw [insertInternalNode]
  cases insertInternalPlace h key rc node with
  | none => rfl
  | some h1 =>
    simp only
    cases getNum h1 node with
    | none => rfl
    | some nk =>
      simp only [splitFull]

theorem splitInternalNode_succ (fuel : Nat) (h : Heap) (root : Option Nat) (node : Nat)
    (parent : Option Nat) :
    splitInternalNode (fuel + 1) h root node parent =
      match splitInternalMove h node with
      | none => none
      | some (h1, newNode, promoteKey) =>
        match parent with
        | none => newRootAbove h1 promoteKey node newNode
        | some p => insertInternalNode fuel h1 root promoteKey newNode p := by
  rw [splitInternalNode]

theorem RepFrame.frame_congr {h h1 : Heap} {hole : Nat} {f : Frame} (hr : RepFrame h hole f)
    (he : ∀ a ∈ f.addrs, load h1 a = load h a) : RepFrame h1 hole f := by
  have ha : load h1 f.addr = load h f.addr := he _ (by simp [Frame.addrs])
  cases f with
  | n2l a k0 c1 =>
    obtain ⟨⟨x, y, z, w, hl⟩, h1'⟩ := hr
    exact ⟨⟨x, y, z, w, ha.trans hl⟩,
      h1'.congr (fun b hb => he b (by simp [Frame.addrs, Frame.before, Frame.after, hb]))⟩
  | n2r a c0 k0 =>
    obtain ⟨⟨x, y, z, w, hl⟩, h0⟩ := hr
    exact ⟨⟨x, y, z, w, ha.trans hl⟩,
      h0.congr (fun b hb => he b (by simp [Frame.addrs, Frame.before, Frame.after, hb]))⟩
  | n3l a k0 c1 k1 c2 =>
    obtain ⟨⟨y, w, hl⟩, h1', h2⟩ := hr
    exact ⟨⟨y, w, ha.trans hl⟩,
      h1'.congr (fun b hb => he b (by simp [Frame.addrs, Frame.before, Frame.after, hb])),
      h2.congr (fun b hb => he b (by simp [Frame.addrs, Frame.before, Frame.after, hb]))⟩
  | n3m a c0 k0 k1 c2 =>
    obtain ⟨⟨y, w, hl⟩, h0, h2⟩ := hr
    exact ⟨⟨y, w, ha.trans hl⟩,
      h0.congr (fun b hb => he b (by simp [Frame.addrs, Frame.before, Frame.after, hb])),
      h2.congr (fun b hb => he b (by simp [Frame.addrs, Frame.before, Frame.after, hb]))⟩
  | n3r a c0 k0 c1 k1 =>
    obtain ⟨⟨y, w, hl⟩, h0, h1'⟩ := hr
    exact ⟨⟨y, w, ha.trans hl⟩,
      h0.congr (fun b hb => he b (by simp [Frame.addrs, Frame.before, Frame.after, hb])),
      h1'.congr (fun b hb => he b (by simp [Frame.addrs, Frame.before, Frame.after, hb]))⟩

theorem RepPath.path_congr {h h1 : Heap} {c : List Frame} {hole : Nat} (hr : RepPath h c hole)
    (he : ∀ a ∈ pathAddrs c, load h1 a = load h a) : RepPath h1 c hole := by
  induction c generalizing hole with
  | nil => trivial
  | cons f c ih =>
    exact ⟨hr.1.frame_congr (fun a ha => he a (by simp [pathAddrs, ha])),
      ih hr.2 (fun a ha => he a (by simp [pathAddrs, ha]))⟩

theorem RepFrame.frame_addr_lt {h : Heap} {hole : Nat} {f : Frame} (hr : RepFrame h hole f) :
    ∀ a ∈ f.addrs, a < h.length := by
  intro b hb
  cases f with
  | n2l a k0 c1 =>
    obtain ⟨⟨x, y, z, w, hl⟩, h1⟩ := hr
    simp [Frame.addrs, Frame.addr, Frame.before, Frame.after] at hb
    rcases hb with rfl | hb
    · exact load_lt hl
    · exact h1.addr_lt b hb
  | n2r a c0 k0 =>
    obtain ⟨⟨x, y, z, w, hl⟩, h0⟩ := hr
    simp [Frame.addrs, Frame.addr, Frame.before, Frame.after] at hb
    rcases hb with rfl | hb
    · exact load_lt hl
    · exact h0.addr_lt b hb
  | n3l a k0 c1 k1 c2 =>
    obtain ⟨⟨y, w, hl⟩, h1, h2⟩ := hr
    simp [Frame.addrs, Frame.addr, Frame.before, Frame.after] at hb
    rcases hb with rfl | hb | hb
    · exact load_lt hl
    · exact h1.addr_lt b hb
    · exact h2.addr_lt b hb
  | n3m a c0 k0 k1 c2 =>
    obtain ⟨⟨y, w, hl⟩, h0, h2⟩ := hr
    simp [Frame.addrs, Frame.addr, Frame.before, Frame.after] at hb
    rcases hb with rfl | hb | hb
    · exact load_lt hl
    · exact h0.addr_lt b hb
    · exact h2.addr_lt b hb
  | n3r a c0 k0 c1 k1 =>
    obtain ⟨⟨y, w, hl⟩, h0, h1⟩ := hr
    simp [Frame.addrs, Frame.addr, Frame.before, Frame.after] at hb
    rcases hb with rfl | hb | hb
    · exact load_lt hl
    · exact h0.addr_lt b hb
    · exact h1.addr_lt b hb

theorem RepPath.path_addr_lt {h : Heap} {c : List Frame} {hole : Nat} (hr : RepPath h c hole) :
    ∀ a ∈ pathAddrs c, a < h.length := by
  induction c generalizing hole with
  | nil => intro a ha; simp [pathAddrs] at ha
  | cons f c ih =>
    intro a ha
    simp only [pathAddrs, List.mem_append] at ha
    rcases ha with ha | ha
    · exact hr.1.frame_addr_lt a ha
    · exact ih hr.2 a ha

theorem pathRoot_mem (f : Frame) (c : List Frame) (hole : Nat) :
    pathRoot (f :: c) hole ∈ pathAddrs (f :: c) := by
  induction c generalizing f hole with
  | nil => simp [pathRoot, pathAddrs, Frame.addrs]
  | cons g c ih =>
    have := ih g f.addr
    simp only [pathRoot, pathAddrs, List.mem_append] at this ⊢
    exact Or.inr this

theorem length_le_pathAddrs (c : List Frame) : c.length ≤ (pathAddrs c).length := by
  induction c with
  | nil => simp
  | cons f c ih => simp [pathAddrs, Frame.addrs]; omega

theorem HeapExt.refl (h : Heap) (xs : List Nat) : HeapExt h h xs :=
  ⟨le_refl _, fun _ _ _ => rfl⟩

theorem HeapExt.trans {h h1 h2 : Heap} {xs ys zs : List Nat} (h01 : HeapExt h h1 xs)
    (h12 : HeapExt h1 h2 ys) (hx : ∀ a, a ∈ xs → a ∈ zs) (hy : ∀ a, a ∈ ys → a ∈ zs) :
    HeapExt h h2 zs := by
  refine ⟨le_trans h01.1 h12.1, fun p hp hz => ?_⟩
  rw [h12.2 p (lt_of_lt_of_le hp h01.1) (fun hm => hz (hy p hm)),
    h01.2 p hp (fun hm => hz (hx p hm))]

theorem HeapExt.ext_store (h : Heap) (a : Nat) (n : BPTreeNode) (xs : List Nat) (ha : a ∈ xs) :
    HeapExt h (store h a n) xs := by
  refine ⟨by simp [length_store], fun p _ hx => ?_⟩
  exact load_store_ne n (fun e => hx (e ▸ ha))

theorem HeapExt.ext_append (h : Heap) (l : Heap) (xs : List Nat) : HeapExt h (h ++ l) xs := by
  refine ⟨by simp, fun p hp _ => load_append_left l hp⟩

/-- An address that occurs once in a list without repetition. -/
theorem count_le_one_of_nodup {l : List Nat} (hn : l.Nodup) (a : Nat) : l.count a ≤ 1 :=
  List.nodup_iff_count_le_one.mp hn a

theorem mem_iff_count {l : List Nat} {a : Nat} : a ∈ l ↔ 1 ≤ l.count a := by
  rw [List.one_le_count_iff]

theorem Rep.store {h : Heap} {t : Shape} (hr : Rep h t) (a : Nat) (n : BPTreeNode)
    (ha : a ∉ t.addrs) : Rep (store h a n) t :=
  hr.congr (fun _ hb => load_store_ne n (fun e => ha (e ▸ hb)))

theorem RepPath.path_store {h : Heap} {c : List Frame} {hole : Nat} (hr : RepPath h c hole) (a : Nat)
    (n : BPTreeNode) (ha : a ∉ pathAddrs c) : RepPath (store h a n) c hole :=
  hr.path_congr (fun _ hb => load_store_ne n (fun e => ha (e ▸ hb)))

theorem Rep.append {h : Heap} {t : Shape} (hr : Rep h t) (l : Heap) : Rep (h ++ l) t :=
  hr.congr (fun _ hb => load_append_left l (hr.addr_lt _ hb))

theorem RepPath.path_append {h : Heap} {c : List Frame} {hole : Nat} (hr : RepPath h c hole)
    (l : Heap) : RepPath (h ++ l) c hole :=
  hr.path_congr (fun _ hb => load_append_left l (hr.path_addr_lt _ hb))

/-- A subtree put back at the bottom of a path gives a whole tree. -/
theorem plug_ok {h : Heap} {c : List Frame} {s : Shape} (hrp : RepPath h c s.addr)
    (hr : Rep h s) (op : OrdPath c) (o : Ord (pathLo c) (pathHi c) s)
    (nd : (pathAddrs c ++ s.addrs).Nodup) :
    Rep h (plug c s) ∧ Ord none none (plug c s) ∧ (plug c s).addrs.Nodup ∧
      (plug c s).addr = pathRoot c s.addr ∧
      (plug c s).leaves = leavesBefore c ++ s.leaves ++ leavesAfter c ∧
      ∀ a ∈ (plug c s).addrs, a ∈ pathAddrs c ∨ a ∈ s.addrs :=
  ⟨(rep_plug c s).mpr ⟨hrp, hr⟩, (ord_plug c s).mpr ⟨op, o⟩,
    ((addrs_plug c s).nodup_iff).mpr nd, plug_addr c s, leaves_plug c s,
    fun _ ha => List.mem_append.mp (((addrs_plug c s).mem_iff).mp ha)⟩

/-- The base case: with no path left, a new root is made. -/
theorem attach_nil {h : Heap} {L R : Shape} {key : Int} (fuel : Nat) (root : Option Nat)
    (pre : UpPre h [] L R key) : UpPost h [] L R (attach fuel h root [] L.addr key R.addr) := by
  have hlt : ∀ a ∈ L.addrs ++ R.addrs, a < h.length := by
    intro a ha
    rcases List.mem_append.mp ha with ha | ha
    · exact pre.rleft.addr_lt a ha
    · exact pre.rright.addr_lt a ha
  refine ⟨h ++ [some ⟨false, 1, [key, 0, 0], [some L.addr, some R.addr, none, none], none,
      [none, none, none]⟩], Shape.node2 h.length L key R, by simp [attach, newRootAbove_eq],
    ?_, ?_, ?_, ?_, HeapExt.ext_append _ _ _, ?_⟩
  · exact ⟨⟨0, 0, none, none, load_append_at _ rfl⟩, pre.rleft.append _, pre.rright.append _⟩
  · exact ⟨trivial, trivial, by simpa [pathLo] using pre.oleft,
      by simpa [pathHi] using pre.oright⟩
  · have hn := pre.nodup
    simp only [pathAddrs, List.nil_append] at hn
    simp only [Shape.addrs, List.nodup_cons]
    exact ⟨fun hm => lt_irrefl _ (hlt _ hm), hn⟩
  · simp [Shape.leaves, leavesBefore, leavesAfter]
  · intro a ha
    simp only [Shape.addrs, List.mem_cons, List.mem_append] at ha
    rcases ha with rfl | ha | ha
    · exact Or.inr (Or.inr (Or.inr (le_refl _)))
    · exact Or.inr (Or.inl ha)
    · exact Or.inr (Or.inr (Or.inl ha))

theorem load_store_append {h : Heap} {a p : Nat} (n : BPTreeNode) (l : Heap)
    (hp : p < h.length) (hne : p ≠ a) : load (store h a n ++ l) p = load h p := by
  rw [load_append_left l (by simpa [length_store] using hp), load_store_ne n hne]

theorem load_store_append_eq {h : Heap} {a : Nat} (n : BPTreeNode) (l : Heap)
    (ha : a < h.length) : load (store h a n ++ l) a = some n := by
  rw [load_append_left l (by simpa [length_store] using ha), load_store_eq n ha]

/-- A full internal node at the bottom of the path `c` is split and its right
half handed to the rest of the path. -/
theorem splitFull_spec {c : List Frame}
    (ih : ∀ (h : Heap) (L R : Shape) (key : Int) (fuel : Nat) (root : Option Nat),
      UpPre h c L R key → 2 * c.length ≤ fuel → root = some (pathRoot c L.addr) →
      UpPost h c L R (attach fuel h root c L.addr key R.addr))
    {h1 : Heap} {a : Nat} {d0 d1 d2 d3 : Shape} {x0 x1 x2 : Int} (fuel : Nat)
    (root : Option Nat)
    (hl : load h1 a = some ⟨false, 3, [x0, x1, x2],
      [some d0.addr, some d1.addr, some d2.addr, some d3.addr], none, [none, none, none]⟩)
    (hrp : RepPath h1 c a) (r0 : Rep h1 d0) (r1 : Rep h1 d1) (r2 : Rep h1 d2) (r3 : Rep h1 d3)
    (nd : (pathAddrs c ++ (a :: (d0.addrs ++ d1.addrs ++ (d2.addrs ++ d3.addrs)))).Nodup)
    (op : OrdPath c) (hx0 : gtLo (pathLo c) x0) (h01 : x0 < x1) (h12 : x1 < x2)
    (hx2 : ltHi x2 (pathHi c))
    (o0 : Ord (pathLo c) (some x0) d0) (o1 : Ord (some x0) (some x1) d1)
    (o2 : Ord (some x1) (some x2) d2) (o3 : Ord (some x2) (pathHi c) d3)
    (hroot : root = some (pathRoot c a)) (hf : 2 * c.length + 1 ≤ fuel) :
    ∃ h2 t, splitFull fuel h1 root a = some (h2, some t.addr) ∧ Rep h2 t ∧ Ord none none t ∧
      t.addrs.Nodup ∧
      t.leaves = leavesBefore c ++ (d0.leaves ++ d1.leaves ++ (d2.leaves ++ d3.leaves)) ++
        leavesAfter c ∧
      HeapExt h1 h2 (a :: pathAddrs c) ∧
      ∀ b ∈ t.addrs, b ∈ pathAddrs c ∨ b = a ∨
        b ∈ d0.addrs ++ d1.addrs ++ (d2.addrs ++ d3.addrs) ∨ h1.length ≤ b := by
  obtain ⟨f, rfl⟩ : ∃ f, fuel = f + 1 := ⟨fuel - 1, by omega⟩
  have ha : a < h1.length := load_lt hl
  have hcount := fun x => count_le_one_of_nodup nd x
  simp only [List.count_append, List.count_cons] at hcount
  have hnotpath : a ∉ pathAddrs c := by
    intro hm
    have h1' := mem_iff_count.mp hm
    have := hcount a
    simp at this
    omega
  have hlt : ∀ p ∈ pathAddrs c ++ (a :: (d0.addrs ++ d1.addrs ++ (d2.addrs ++ d3.addrs))),
      p < h1.length := by
    intro p hp
    simp only [List.mem_append, List.mem_cons] at hp
    rcases hp with hp | rfl | (hp | hp) | (hp | hp)
    · exact hrp.path_addr_lt p hp
    · exact ha
    · exact r0.addr_lt p hp
    · exact r1.addr_lt p hp
    · exact r2.addr_lt p hp
    · exact r3.addr_lt p hp
  -- the heap after the split
  let nl : BPTreeNode := ⟨false, 1, [x0, x1, 0], [some d0.addr, some d1.addr, none, none], none,
    [none, none, none]⟩
  let nr : BPTreeNode := ⟨false, 1, [x2, 0, 0], [some d2.addr, some d3.addr, none, none], none,
    [none, none, none]⟩
  have hstep : splitFull (f + 1) h1 root a =
      attach f (store h1 a nl ++ [some nr]) root c a x1 h1.length := by
    cases c with
    | nil =>
      simp only [pathRoot] at hroot
      simp [splitFull, hroot, splitInternalNode_succ, splitInternalMove_eq hl, attach, nl, nr]
    | cons g c1 =>
      have hmem := pathRoot_mem g c1 a
      have hra : ¬ pathRoot (g :: c1) a = a := fun e => hnotpath (e ▸ hmem)
      have hfind := searchParent_finds g c1 hrp hnotpath (h1.length + 1) (by
        have h1' := searchCost_le c1
        have h2' : (pathAddrs c1).length ≤ h1.length := by
          apply length_le_of_nodup_lt
          · have := nd
            simp only [pathAddrs, List.nodup_append] at this
            exact this.1.2.1
          · intro p hp
            exact hlt p (by simp [pathAddrs, hp])
        omega)
      simp [splitFull, hroot, hra, hfind, splitInternalNode_succ, splitInternalMove_eq hl, attach,
        nl, nr]
  have hmemd : ∀ p, p ∈ d0.addrs ++ d1.addrs ++ (d2.addrs ++ d3.addrs) → p ≠ a := by
    intro p hp e
    subst e
    have h1' := mem_iff_count.mp hp
    have := hcount p
    simp [List.count_append] at this h1'
    omega
  have hrep : ∀ d : Shape, Rep h1 d → (∀ p ∈ d.addrs, p ≠ a) →
      Rep (store h1 a nl ++ [some nr]) d := by
    intro d hd hp
    exact hd.congr (fun p hm => load_store_append nl _ (hd.addr_lt p hm) (hp p hm))
  have pre : UpPre (store h1 a nl ++ [some nr]) c (Shape.node2 a d0 x0 d1)
      (Shape.node2 h1.length d2 x2 d3) x1 := by
    refine ⟨?_, ?_, ?_, ?_, op, ?_, ?_, gtLo_mono hx0 (le_of_lt h01),
      ltHi_mono hx2 (le_of_lt h12)⟩
    · exact hrp.path_congr (fun p hp => load_store_append nl _ (hrp.path_addr_lt p hp)
        (fun e => hnotpath (e ▸ hp)))
    · exact ⟨⟨x1, 0, none, none, load_store_append_eq nl _ ha⟩,
        hrep d0 r0 (fun p hp => hmemd p (by simp [hp])),
        hrep d1 r1 (fun p hp => hmemd p (by simp [hp]))⟩
    · exact ⟨⟨0, 0, none, none, load_append_at _ (by simp [length_store])⟩,
        hrep d2 r2 (fun p hp => hmemd p (by simp [hp])),
        hrep d3 r3 (fun p hp => hmemd p (by simp [hp]))⟩
    · have hperm : (pathAddrs c ++ ((Shape.node2 a d0 x0 d1).addrs ++
          (Shape.node2 h1.length d2 x2 d3).addrs)).Perm
          (h1.length :: (pathAddrs c ++ (a :: (d0.addrs ++ d1.addrs ++
            (d2.addrs ++ d3.addrs))))) := by
        rw [List.perm_iff_count]
        intro x
        simp [Shape.addrs, List.count_append, List.count_cons]
        omega
      rw [hperm.nodup_iff, List.nodup_cons]
      exact ⟨fun hm => lt_irrefl _ (hlt _ hm), nd⟩
    · exact ⟨hx0, h01, o0, o1⟩
    · exact ⟨h12, hx2, o2, o3⟩
  obtain ⟨h2, t, hres, hrt, hot, hnt, hleaves, hext, hprov⟩ :=
    ih _ _ _ x1 f root pre (by omega) (by simpa using hroot)
  refine ⟨h2, t, by rw [hstep]; simpa using hres, hrt, hot, hnt, ?_, ?_, ?_⟩
  · rw [hleaves]
    simp [Shape.leaves]
  · have e1 : HeapExt h1 (store h1 a nl ++ [some nr]) (a :: pathAddrs c) :=
      ⟨by simp [length_store], fun p hp hx =>
        load_store_append nl _ hp (fun e => hx (by simp [e]))⟩
    exact e1.trans hext (fun _ hx => hx) (fun _ hx => List.mem_cons_of_mem _ hx)
  · intro b hb
    have hlen : h1.length ≤ (store h1 a nl ++ [some nr]).length := by simp [length_store]
    rcases hprov b hb with hb | hb | hb | hb
    · exact Or.inl hb
    · simp only [Shape.addrs, List.mem_cons, List.mem_append] at hb
      rcases hb with rfl | hb | hb
      · exact Or.inr (Or.inl rfl)
      · exact Or.inr (Or.inr (Or.inl (by simp [hb])))
      · exact Or.inr (Or.inr (Or.inl (by simp [hb])))
    · simp only [Shape.addrs, List.mem_cons, List.mem_append] at hb
      rcases hb with rfl | hb | hb
      · exact Or.inr (Or.inr (Or.inr (le_refl _)))
      · exact Or.inr (Or.inr (Or.inl (by simp [hb])))
      · exact Or.inr (Or.inr (Or.inl (by simp [hb])))
    · exact Or.inr (Or.inr (Or.inr (le_trans hlen hb)))

theorem not_mem_of_nodup_cons {xs ys : List Nat} {a : Nat} (nd : (xs ++ (a :: ys)).Nodup) :
    a ∉ xs ∧ a ∉ ys := by
  have hc := count_le_one_of_nodup nd a
  simp only [List.count_append, List.count_cons_self] at hc
  constructor
  · intro hm; have := mem_iff_count.mp hm; omega
  · intro hm; have := mem_iff_count.mp hm; omega

/-- An internal node that has taken a third child without becoming full: the
tree around it is whole again. -/
theorem place_node3 {h : Heap} {c : List Frame} {a : Nat} {d0 d1 d2 : Shape} {u v y : Int}
    {w : Option Nat} (ha : a < h.length)
    (hrp : RepPath h c a) (r0 : Rep h d0) (r1 : Rep h d1) (r2 : Rep h d2)
    (nd : (pathAddrs c ++ (a :: (d0.addrs ++ d1.addrs ++ d2.addrs))).Nodup)
    (op : OrdPath c) (o : Ord (pathLo c) (pathHi c) (Shape.node3 a d0 u d1 v d2)) :
    ∃ t : Shape, t.addr = pathRoot c a ∧
      Rep (store h a ⟨false, 2, [u, v, y], [some d0.addr, some d1.addr, some d2.addr, w], none,
        [none, none, none]⟩) t ∧
      Ord none none t ∧ t.addrs.Nodup ∧
      t.leaves = leavesBefore c ++ (d0.leaves ++ d1.leaves ++ d2.leaves) ++ leavesAfter c ∧
      ∀ b ∈ t.addrs, b ∈ pathAddrs c ∨ b = a ∨ b ∈ d0.addrs ++ d1.addrs ++ d2.addrs := by
  obtain ⟨hn1, hn2⟩ := not_mem_of_nodup_cons nd
  simp only [List.mem_append, not_or] at hn2
  have hp := plug_ok (h := store h a ⟨false, 2, [u, v, y],
      [some d0.addr, some d1.addr, some d2.addr, w], none, [none, none, none]⟩) (c := c)
    (s := Shape.node3 a d0 u d1 v d2) (hrp.path_store a _ hn1)
    ⟨⟨y, w, load_store_eq _ ha⟩, r0.store a _ hn2.1.1, r1.store a _ hn2.1.2, r2.store a _ hn2.2⟩
    op o (by simpa [Shape.addrs] using nd)
  obtain ⟨p1, p2, p3, p4, p5, p6⟩ := hp
  refine ⟨_, by simpa using p4, p1, p2, p3, by simpa [Shape.leaves] using p5, ?_⟩
  intro b hb
  rcases p6 b hb with hb | hb
  · exact Or.inl hb
  · simp only [Shape.addrs, List.mem_cons] at hb
    rcases hb with rfl | hb
    · exact Or.inr (Or.inl rfl)
    · exact Or.inr (Or.inr hb)

/-- An internal node that has taken a fourth child: its content and its
surroundings in the heap. -/
theorem place_node4 {h : Heap} {c : List Frame} {a : Nat} {d0 d1 d2 d3 : Shape}
    (n : BPTreeNode) (ha : a < h.length)
    (hrp : RepPath h c a) (r0 : Rep h d0) (r1 : Rep h d1) (r2 : Rep h d2) (r3 : Rep h d3)
    (nd : (pathAddrs c ++ (a :: (d0.addrs ++ d1.addrs ++ (d2.addrs ++ d3.addrs)))).Nodup) :
    load (store h a n) a = some n ∧ RepPath (store h a n) c a ∧ Rep (store h a n) d0 ∧
      Rep (store h a n) d1 ∧ Rep (store h a n) d2 ∧ Rep (store h a n) d3 := by
  obtain ⟨hn1, hn2⟩ := not_mem_of_nodup_cons nd
  simp only [List.mem_append, not_or] at hn2
  exact ⟨load_store_eq n ha, hrp.path_store a n hn1, r0.store a n hn2.1.1, r1.store a n hn2.1.2,
    r2.store a n hn2.2.1, r3.store a n hn2.2.2⟩

theorem attach_n2l {h : Heap} {c : List Frame} {L R : Shape} {key : Int} {a : Nat} {k0 : Int}
    {c1 : Shape} (fuel : Nat) (root : Option Nat)
    (pre : UpPre h (Frame.n2l a k0 c1 :: c) L R key)
    (hroot : root = some (pathRoot (Frame.n2l a k0 c1 :: c) L.addr)) :
    UpPost h (Frame.n2l a k0 c1 :: c) L R
      (attach (fuel + 1) h root (Frame.n2l a k0 c1 :: c) L.addr key R.addr) := by
  obtain ⟨⟨⟨x, y, z, w, hl⟩, rc1⟩, hrp⟩ := pre.rpath
  obtain ⟨⟨g1, g2, oc1⟩, op⟩ := pre.opath
  have hk : key < k0 := pre.khi
  have ha := load_lt hl
  have nd : (pathAddrs c ++ (a :: (L.addrs ++ R.addrs ++ c1.addrs))).Nodup := by
    refine (List.Perm.nodup_iff ?_).mp pre.nodup
    rw [List.perm_iff_count]
    intro v
    simp [pathAddrs, Frame.addrs, Frame.addr, Frame.before, Frame.after, List.count_append,
      List.count_cons]
    omega
  obtain ⟨t, t1, t2, t3, t4, t5, t6⟩ := place_node3 (u := key) (v := k0) (y := y) (w := w) ha hrp
    pre.rleft pre.rright rc1 nd op ⟨pre.klo, hk, g2, pre.oleft, pre.oright, oc1⟩
  refine ⟨_, t, ?_, t2, t3, t4, ?_, HeapExt.ext_store h a _ _ (by simp [pathAddrs, Frame.addrs,
    Frame.addr]), ?_⟩
  · simp [attach, Frame.addr, insertInternalNode_succ, insertInternalPlace_one key R.addr hl, hk,
      getNum, load_store_eq, ha, ORDER, hroot, pathRoot, t1]
  · rw [t5]
    simp [leavesBefore, leavesAfter, Frame.before, Frame.after]
  · intro b hb
    rcases t6 b hb with hb | rfl | hb
    · exact Or.inl (by simp [pathAddrs, hb])
    · exact Or.inl (by simp [pathAddrs, Frame.addrs, Frame.addr])
    · simp only [List.mem_append] at hb
      rcases hb with (hb | hb) | hb
      · exact Or.inr (Or.inl hb)
      · exact Or.inr (Or.inr (Or.inl hb))
      · exact Or.inl (by simp [pathAddrs, Frame.addrs, Frame.before, Frame.after, hb])

theorem attach_n2r {h : Heap} {c : List Frame} {L R : Shape} {key : Int} {a : Nat} {k0 : Int}
    {c0 : Shape} (fuel : Nat) (root : Option Nat)
    (pre : UpPre h (Frame.n2r a c0 k0 :: c) L R key)
    (hroot : root = some (pathRoot (Frame.n2r a c0 k0 :: c) L.addr)) :
    UpPost h (Frame.n2r a c0 k0 :: c) L R
      (attach (fuel + 1) h root (Frame.n2r a c0 k0 :: c) L.addr key R.addr) := by
  obtain ⟨⟨⟨x, y, z, w, hl⟩, rc0⟩, hrp⟩ := pre.rpath
  obtain ⟨⟨g1, g2, oc0⟩, op⟩ := pre.opath
  have hk0 : k0 < key := pre.klo
  have hk : ¬ key < k0 := by omega
  have ha := load_lt hl
  have nd : (pathAddrs c ++ (a :: (c0.addrs ++ L.addrs ++ R.addrs))).Nodup := by
    refine (List.Perm.nodup_iff ?_).mp pre.nodup
    rw [List.perm_iff_count]
    intro v
    simp [pathAddrs, Frame.addrs, Frame.addr, Frame.before, Frame.after, List.count_append,
      List.count_cons]
    omega
  obtain ⟨t, t1, t2, t3, t4, t5, t6⟩ := place_node3 (u := k0) (v := key) (y := y) (w := w) ha hrp
    rc0 pre.rleft pre.rright nd op ⟨g1, hk0, pre.khi, oc0, pre.oleft, pre.oright⟩
  refine ⟨_, t, ?_, t2, t3, t4, ?_, HeapExt.ext_store h a _ _ (by simp [pathAddrs, Frame.addrs,
    Frame.addr]), ?_⟩
  · simp [attach, Frame.addr, insertInternalNode_succ, insertInternalPlace_one key R.addr hl, hk,
      getNum, load_store_eq, ha, ORDER, hroot, pathRoot, t1]
  · rw [t5]
    simp [leavesBefore, leavesAfter, Frame.before, Frame.after]
  · intro b hb
    rcases t6 b hb with hb | rfl | hb
    · exact Or.inl (by simp [pathAddrs, hb])
    · exact Or.inl (by simp [pathAddrs, Frame.addrs, Frame.addr])
    · simp only [List.mem_append] at hb
      rcases hb with (hb | hb) | hb
      · exact Or.inl (by simp [pathAddrs, Frame.addrs, Frame.before, Frame.after, hb])
      · exact Or.inr (Or.inl hb)
      · exact Or.inr (Or.inr (Or.inl hb))

/-- The shared end of the three cases in which the parent becomes full. -/
theorem attach_full {h : Heap} {c : List Frame} {f : Frame} {L R : Shape} {a : Nat}
    {d0 d1 d2 d3 : Shape} {res : Option (Heap × Option Nat)} {n : BPTreeNode}
    (hfa : f.addr = a)
    (hex : ∃ h2 t, res = some (h2, some t.addr) ∧ Rep h2 t ∧ Ord none none t ∧
      t.addrs.Nodup ∧
      t.leaves = leavesBefore c ++ (d0.leaves ++ d1.leaves ++ (d2.leaves ++ d3.leaves)) ++
        leavesAfter c ∧
      HeapExt (store h a n) h2 (a :: pathAddrs c) ∧
      ∀ b ∈ t.addrs, b ∈ pathAddrs c ∨ b = a ∨
        b ∈ d0.addrs ++ d1.addrs ++ (d2.addrs ++ d3.addrs) ∨ (store h a n).length ≤ b)
    (hleaves : leavesBefore c ++ (d0.leaves ++ d1.leaves ++ (d2.leaves ++ d3.leaves)) ++
        leavesAfter c =
      leavesBefore (f :: c) ++ (L.leaves ++ R.leaves) ++ leavesAfter (f :: c))
    (haddrs : ∀ b, b ∈ d0.addrs ++ d1.addrs ++ (d2.addrs ++ d3.addrs) →
      b ∈ pathAddrs (f :: c) ∨ b ∈ L.addrs ∨ b ∈ R.addrs) :
    UpPost h (f :: c) L R res := by
  obtain ⟨h2, t, e1, e2, e3, e4, e5, e6, e7⟩ := hex
  have hmem : a ∈ pathAddrs (f :: c) := by simp [pathAddrs, Frame.addrs, hfa]
  refine ⟨h2, t, e1, e2, e3, e4, e5.trans hleaves, ?_, ?_⟩
  · refine (HeapExt.ext_store h a n (pathAddrs (f :: c)) hmem).trans e6 (fun _ hx => hx) ?_
    intro b hb
    simp only [List.mem_cons] at hb
    rcases hb with rfl | hb
    · exact hmem
    · simp [pathAddrs, hb]
  · intro b hb
    rcases e7 b hb with hb | rfl | hb | hb
    · exact Or.inl (by simp [pathAddrs, hb])
    · exact Or.inl hmem
    · rcases haddrs b hb with hb | hb | hb
      · exact Or.inl hb
      · exact Or.inr (Or.inl hb)
      · exact Or.inr (Or.inr (Or.inl hb))
    · exact Or.inr (Or.inr (Or.inr (by simpa [length_store] using hb)))

theorem attach_n3l {h : Heap} {c : List Frame} {L R : Shape} {key : Int} {a : Nat}
    {k0 k1 : Int} {c1 c2 : Shape}
    (ih : ∀ (h : Heap) (L R : Shape) (key : Int) (fuel : Nat) (root : Option Nat),
      UpPre h c L R key → 2 * c.length ≤ fuel → root = some (pathRoot c L.addr) →
      UpPost h c L R (attach fuel h root c L.addr key R.addr))
    (fuel : Nat) (root : Option Nat) (hf : 2 * c.length + 1 ≤ fuel)
    (pre : UpPre h (Frame.n3l a k0 c1 k1 c2 :: c) L R key)
    (hroot : root = some (pathRoot (Frame.n3l a k0 c1 k1 c2 :: c) L.addr)) :
    UpPost h (Frame.n3l a k0 c1 k1 c2 :: c) L R
      (attach (fuel + 1) h root (Frame.n3l a k0 c1 k1 c2 :: c) L.addr key R.addr) := by
  obtain ⟨⟨⟨y, w, hl⟩, rc1, rc2⟩, hrp⟩ := pre.rpath
  obtain ⟨⟨g1, g2, g3, oc1, oc2⟩, op⟩ := pre.opath
  have hk : key < k0 := pre.khi
  have ha := load_lt hl
  have nd : (pathAddrs c ++ (a :: (L.addrs ++ R.addrs ++ (c1.addrs ++ c2.addrs)))).Nodup := by
    refine (List.Perm.nodup_iff ?_).mp pre.nodup
    rw [List.perm_iff_count]
    intro v
    simp [pathAddrs, Frame.addrs, Frame.addr, Frame.before, Frame.after, List.count_append,
      List.count_cons]
    omega
  obtain ⟨q0, q1, q2, q3, q4, q5⟩ := place_node4 (⟨false, 3, [key, k0, k1],
    [some L.addr, some R.addr, some c1.addr, some c2.addr], none, [none, none, none]⟩)
    ha hrp pre.rleft pre.rright rc1 rc2 nd
  have hsp := splitFull_spec ih fuel root q0 q1 q2 q3 q4 q5 nd op pre.klo hk g2 g3
    pre.oleft pre.oright oc1 oc2 (by simpa [pathRoot] using hroot) hf
  have hres : attach (fuel + 1) h root (Frame.n3l a k0 c1 k1 c2 :: c) L.addr key R.addr =
      splitFull fuel (store h a ⟨false, 3, [key, k0, k1],
        [some L.addr, some R.addr, some c1.addr, some c2.addr], none, [none, none, none]⟩)
        root a := by
    simp [attach, Frame.addr, insertInternalNode_succ, insertInternalPlace_two key R.addr hl, hk,
      getNum, load_store_eq, ha, ORDER]
  rw [hres]
  refine attach_full rfl hsp ?_ ?_
  · simp [leavesBefore, leavesAfter, Frame.before, Frame.after]
  · intro b hb
    simp only [List.mem_append] at hb
    rcases hb with (hb | hb) | (hb | hb)
    · exact Or.inr (Or.inl hb)
    · exact Or.inr (Or.inr hb)
    · exact Or.inl (by simp [pathAddrs, Frame.addrs, Frame.before, Frame.after, hb])
    · exact Or.inl (by simp [pathAddrs, Frame.addrs, Frame.before, Frame.after, hb])

theorem attach_n3m {h : Heap} {c : List Frame} {L R : Shape} {key : Int} {a : Nat}
    {k0 k1 : Int} {c0 c2 : Shape}
    (ih : ∀ (h : Heap) (L R : Shape) (key : Int) (fuel : Nat) (root : Option Nat),
      UpPre h c L R key → 2 * c.length ≤ fuel → root = some (pathRoot c L.addr) →
      UpPost h c L R (attach fuel h root c L.addr key R.addr))
    (fuel : Nat) (root : Option Nat) (hf : 2 * c.length + 1 ≤ fuel)
    (pre : UpPre h (Frame.n3m a c0 k0 k1 c2 :: c) L R key)
    (hroot : root = some (pathRoot (Frame.n3m a c0 k0 k1 c2 :: c) L.addr)) :
    UpPost h (Frame.n3m a c0 k0 k1 c2 :: c) L R
      (attach (fuel + 1) h root (Frame.n3m a c0 k0 k1 c2 :: c) L.addr key R.addr) := by
  obtain ⟨⟨⟨y, w, hl⟩, rc0, rc2⟩, hrp⟩ := pre.rpath
  obtain ⟨⟨g1, g2, g3, oc0, oc2⟩, op⟩ := pre.opath
  have hk0 : k0 < key := pre.klo
  have hk1 : key < k1 := pre.khi
  have hk : ¬ key < k0 := by omega
  have ha := load_lt hl
  have nd : (pathAddrs c ++ (a :: (c0.addrs ++ L.addrs ++ (R.addrs ++ c2.addrs)))).Nodup := by
    refine (List.Perm.nodup_iff ?_).mp pre.nodup
    rw [List.perm_iff_count]
    intro v
    simp [pathAddrs, Frame.addrs, Frame.addr, Frame.before, Frame.after, List.count_append,
      List.count_cons]
    omega
  obtain ⟨q0, q1, q2, q3, q4, q5⟩ := place_node4 (⟨false, 3, [k0, key, k1],
    [some c0.addr, some L.addr, some R.addr, some c2.addr], none, [none, none, none]⟩)
    ha hrp rc0 pre.rleft pre.rright rc2 nd
  have hsp := splitFull_spec ih fuel root q0 q1 q2 q3 q4 q5 nd op g1 hk0 hk1 g3
    oc0 pre.oleft pre.oright oc2 (by simpa [pathRoot] using hroot) hf
  have hres : attach (fuel + 1) h root (Frame.n3m a c0 k0 k1 c2 :: c) L.addr key R.addr =
      splitFull fuel (store h a ⟨false, 3, [k0, key, k1],
        [some c0.addr, some L.addr, some R.addr, some c2.addr], none, [none, none, none]⟩)
        root a := by
    simp [attach, Frame.addr, insertInternalNode_succ, insertInternalPlace_two key R.addr hl, hk,
      hk1, getNum, load_store_eq, ha, ORDER]
  rw [hres]
  refine attach_full rfl hsp ?_ ?_
  · simp [leavesBefore, leavesAfter, Frame.before, Frame.after]
  · intro b hb
    simp only [List.mem_append] at hb
    rcases hb with (hb | hb) | (hb | hb)
    · exact Or.inl (by simp [pathAddrs, Frame.addrs, Frame.before, Frame.after, hb])
    · exact Or.inr (Or.inl hb)
    · exact Or.inr (Or.inr hb)
    · exact Or.inl (by simp [pathAddrs, Frame.addrs, Frame.before, Frame.after, hb])

theorem attach_n3r {h : Heap} {c : List Frame} {L R : Shape} {key : Int} {a : Nat}
    {k0 k1 : Int} {c0 c1 : Shape}
    (ih : ∀ (h : Heap) (L R : Shape) (key : Int) (fuel : Nat) (root : Option Nat),
      UpPre h c L R key → 2 * c.length ≤ fuel → root = some (pathRoot c L.addr) →
      UpPost h c L R (attach fuel h root c L.addr key R.addr))
    (fuel : Nat) (root : Option Nat) (hf : 2 * c.length + 1 ≤ fuel)
    (pre : UpPre h (Frame.n3r a c0 k0 c1 k1 :: c) L R key)
    (hroot : root = some (pathRoot (Frame.n3r a c0 k0 c1 k1 :: c) L.addr)) :
    UpPost h (Frame.n3r a c0 k0 c1 k1 :: c) L R
      (attach (fuel + 1) h root (Frame.n3r a c0 k0 c1 k1 :: c) L.addr key R.addr) := by
  obtain ⟨⟨⟨y, w, hl⟩, rc0, rc1⟩, hrp⟩ := pre.rpath
  obtain ⟨⟨g1, g2, g3, oc0, oc1⟩, op⟩ := pre.opath
  have hk1 : k1 < key := pre.klo
  have hk : ¬ key < k0 := by omega
  have hk' : ¬ key < k1 := by omega
  have ha := load_lt hl
  have nd : (pathAddrs c ++ (a :: (c0.addrs ++ c1.addrs ++ (L.addrs ++ R.addrs)))).Nodup := by
    refine (List.Perm.nodup_iff ?_).mp pre.nodup
    rw [List.perm_iff_count]
    intro v
    simp [pathAddrs, Frame.addrs, Frame.addr, Frame.before, Frame.after, List.count_append,
      List.count_cons]
    omega
  obtain ⟨q0, q1, q2, q3, q4, q5⟩ := place_node4 (⟨false, 3, [k0, k1, key],
    [some c0.addr, some c1.addr, some L.addr, some R.addr], none, [none, none, none]⟩)
    ha hrp rc0 rc1 pre.rleft pre.rright nd
  have hsp := splitFull_spec ih fuel root q0 q1 q2 q3 q4 q5 nd op g1 g2 hk1 pre.khi
    oc0 oc1 pre.oleft pre.oright (by simpa [pathRoot] using hroot) hf
  have hres : attach (fuel + 1) h root (Frame.n3r a c0 k0 c1 k1 :: c) L.addr key R.addr =
      splitFull fuel (store h a ⟨false, 3, [k0, k1, key],
        [some c0.addr, some c1.addr, some L.addr, some R.addr], none, [none, none, none]⟩)
        root a := by
    simp [attach, Frame.addr, insertInternalNode_succ, insertInternalPlace_two key R.addr hl, hk,
      hk', getNum, load_store_eq, ha, ORDER]
  rw [hres]
  refine attach_full rfl hsp ?_ ?_
  · simp [leavesBefore, leavesAfter, Frame.before, Frame.after]
  · intro b hb
    simp only [List.mem_append] at hb
    rcases hb with (hb | hb) | (hb | hb)
    · exact Or.inl (by simp [pathAddrs, Frame.addrs, Frame.before, Frame.after, hb])
    · exact Or.inl (by simp [pathAddrs, Frame.addrs, Frame.before, Frame.after, hb])
    · exact Or.inr (Or.inl hb)
    · exact Or.inr (Or.inr hb)

/-- Hanging a split-off node into the tree yields a whole tree again, however
far the splits travel up the path. -/
theorem attach_spec : ∀ (c : List Frame) (h : Heap) (L R : Shape) (key : Int) (fuel : Nat)
    (root : Option Nat), UpPre h c L R key → 2 * c.length ≤ fuel →
    root = some (pathRoot c L.addr) →
    UpPost h c L R (attach fuel h root c L.addr key R.addr) := by
  intro c
  induction c with
  | nil =>
    intro h L R key fuel root pre _ _
    exact attach_nil fuel root pre
  | cons f c ih =>
    intro h L R key fuel root pre hf hroot
    obtain ⟨F, rfl⟩ : ∃ F, fuel = F + 1 := ⟨fuel - 1, by simp at hf; omega⟩
    simp only [List.length_cons] at hf
    cases f with
    | n2l a k0 c1 => exact attach_n2l F root pre hroot
    | n2r a c0 k0 => exact attach_n2r F root pre hroot
    | n3l a k0 c1 k1 c2 => exact attach_n3l ih F root (by omega) pre hroot
    | n3m a c0 k0 k1 c2 => exact attach_n3m ih F root (by omega) pre hroot
    | n3r a c0 k0 c1 k1 => exact attach_n3r ih F root (by omega) pre hroot

/-! ## One insertion keeps the tree whole -/

theorem nextOf_append (xs ys : List (Nat × List (Int × Nat) × Option Nat)) (last : Option Nat) :
    nextOf (xs ++ ys) last = nextOf xs (nextOf ys last) := by
  cases xs <;> rfl

theorem linked_append (xs ys : List (Nat × List (Int × Nat) × Option Nat)) (last : Option Nat) :
    Linked (xs ++ ys) last ↔ Linked xs (nextOf ys last) ∧ Linked ys last := by
  induction xs with
  | nil => simp [Linked]
  | cons l xs ih =>
    show (l.2.2 = nextOf (xs ++ ys) last ∧ Linked (xs ++ ys) last) ↔
      (l.2.2 = nextOf xs (nextOf ys last) ∧ Linked xs (nextOf ys last)) ∧ Linked ys last
    rw [ih, nextOf_append]
    tauto

/-- The links do not depend on the entries of a leaf. -/
theorem linked_replace_one {B A : List (Nat × List (Int × Nat) × Option Nat)} {a : Nat}
    {es : List (Int × Nat)} (es1 : List (Int × Nat)) {nx : Option Nat}
    (hl : Linked (B ++ [(a, es, nx)] ++ A) none) : Linked (B ++ [(a, es1, nx)] ++ A) none := by
  simp only [List.append_assoc, List.singleton_append, linked_append, Linked, nextOf] at hl ⊢
  exact hl

/-- A leaf split in two, the left half linked to the right half and the
right half to the old successor, keeps the chain linked. -/
theorem linked_replace_two {B A : List (Nat × List (Int × Nat) × Option Nat)} {a : Nat}
    {es : List (Int × Nat)} (es1 es2 : List (Int × Nat)) (n : Nat) {nx : Option Nat}
    (hl : Linked (B ++ [(a, es, nx)] ++ A) none) :
    Linked (B ++ [(a, es1, some n), (n, es2, nx)] ++ A) none := by
  simp only [List.append_assoc, List.singleton_append, List.cons_append, List.nil_append,
    linked_append, Linked, nextOf] at hl ⊢
  exact ⟨hl.1, trivial, hl.2.1, hl.2.2⟩

/-- The entries of a tree whose leaves differ from those of another tree in
one segment. -/
theorem entries_of_leaves {t t1 : Shape} {B A M N : List (Nat × List (Int × Nat) × Option Nat)}
    {e : Int × Nat} (h0 : t.leaves = B ++ M ++ A) (h1 : t1.leaves = B ++ N ++ A)
    (hp : ((N.map (fun l => l.2.1)).flatten).Perm (e :: (M.map (fun l => l.2.1)).flatten)) :
    t1.entries.Perm (e :: t.entries) := by
  rw [Shape.entries_eq, Shape.entries_eq, h0, h1]
  simp only [List.map_append, List.flatten_append, List.append_assoc]
  refine (List.Perm.append_left _ (hp.append_right _)).trans ?_
  simp only [List.cons_append]
  exact List.perm_middle

/-- The keys of an ordered tree ascend from left to right. -/
theorem Ord.sorted {lo hi : Option Int} {t : Shape} (ho : Ord lo hi t) :
    (t.entries.map Prod.fst).Pairwise (· < ·) := by
  induction t generalizing lo hi with
  | leaf a es nx => exact ho.1
  | node2 a c0 k0 c1 ih0 ih1 =>
    obtain ⟨_, _, h0, h1⟩ := ho
    simp only [Shape.entries, List.map_append, List.pairwise_append]
    refine ⟨ih0 h0, ih1 h1, ?_⟩
    intro x hx y hy
    obtain ⟨e, he, rfl⟩ := List.mem_map.mp hx
    obtain ⟨e', he', rfl⟩ := List.mem_map.mp hy
    have b0 := (h0.bounds e he).2
    have b1 := (h1.bounds e' he').1
    simp only [ltHi, geLo] at b0 b1
    omega
  | node3 a c0 k0 c1 k1 c2 ih0 ih1 ih2 =>
    obtain ⟨_, h01, _, h0, h1, h2⟩ := ho
    simp only [Shape.entries, List.map_append, List.pairwise_append, List.mem_append]
    refine ⟨⟨ih0 h0, ih1 h1, ?_⟩, ih2 h2, ?_⟩
    · intro x hx y hy
      obtain ⟨e, he, rfl⟩ := List.mem_map.mp hx
      obtain ⟨e', he', rfl⟩ := List.mem_map.mp hy
      have b0 := (h0.bounds e he).2
      have b1 := (h1.bounds e' he').1
      simp only [ltHi, geLo] at b0 b1
      omega
    · intro x hx y hy
      obtain ⟨e', he', rfl⟩ := List.mem_map.mp hy
      have b2 := (h2.bounds e' he').1
      simp only [geLo] at b2
      rcases hx with hx | hx
      · obtain ⟨e, he, rfl⟩ := List.mem_map.mp hx
        have b0 := (h0.bounds e he).2
        simp only [ltHi] at b0
        omega
      · obtain ⟨e, he, rfl⟩ := List.mem_map.mp hx
        have b1 := (h1.bounds e he).2
        simp only [ltHi] at b1
        omega

/-- The two forms of a leaf of a tree. -/
theorem RepLeaf.shape {h : Heap} {a : Nat} {nx : Option Nat} {es : List (Int × Nat)}
    (hr : RepLeaf h a nx es) :
    (∃ k r x y rx ry, es = [(k, r)] ∧ load h a =
        some ⟨true, 1, [k, x, y], [none, none, none, none], nx, [some r, rx, ry]⟩) ∨
    (∃ k0 r0 k1 r1 y ry, es = [(k0, r0), (k1, r1)] ∧ load h a =
        some ⟨true, 2, [k0, k1, y], [none, none, none, none], nx, [some r0, some r1, ry]⟩) := by
  match es, hr with
  | [(k, r)], ⟨x, y, rx, ry, hl⟩ => exact Or.inl ⟨k, r, x, y, rx, ry, rfl, hl⟩
  | [(k0, r0), (k1, r1)], ⟨y, ry, hl⟩ => exact Or.inr ⟨k0, r0, k1, r1, y, ry, rfl, hl⟩

/-- The body of `insertTransactionIntoBPTree` after the descent and the
placement into the leaf. -/
theorem insertKey_after {h h1 : Heap} {r0 : Nat} {key : Int} {r cursor idx nk : Nat}
    {parent : Option Nat}
    (hd : descend h key h.length r0 none 0 = some (cursor, parent, idx))
    (hp : insertLeafPlace h key r cursor = some h1) (hn : getNum h1 cursor = some nk) :
    insertKey h (some r0) key r =
      if nk = ORDER - 1 then splitLeafNode (2 * h1.length + 2) h1 (some r0) cursor parent
      else some (h1, some r0) := by
  simp [insertKey, hd, hp, hn]

/-- A leaf that has taken a second entry: the tree around it is whole. -/
theorem leaf_grow {h : Heap} {c : List Frame} {a : Nat} {nx : Option Nat} (n : BPTreeNode)
    (es1 : List (Int × Nat)) (hrp : RepPath h c a) (nd : (pathAddrs c ++ [a]).Nodup)
    (op : OrdPath c) (hrep : RepLeaf (store h a n) a nx es1)
    (ho : Ord (pathLo c) (pathHi c) (Shape.leaf a es1 nx)) :
    ∃ t1 : Shape, t1.addr = pathRoot c a ∧ Rep (store h a n) t1 ∧ Ord none none t1 ∧
      t1.addrs.Nodup ∧ t1.leaves = leavesBefore c ++ [(a, es1, nx)] ++ leavesAfter c := by
  obtain ⟨hn1, _⟩ := not_mem_of_nodup_cons nd
  obtain ⟨p1, p2, p3, p4, p5, _⟩ := plug_ok (h := store h a n) (c := c)
    (s := Shape.leaf a es1 nx) (hrp.path_store a n hn1) hrep op ho (by simpa [Shape.addrs] using nd)
  exact ⟨_, by simpa using p4, p1, p2, p3, by simpa [Shape.leaves] using p5⟩

/-- A leaf that has taken a third entry is split and its right half is hung
into the tree. -/
theorem leaf_split {h : Heap} {c : List Frame} {a : Nat} {nx : Option Nat} {k0 k1 k2 : Int}
    {r0 r1 r2 : Nat} (root parent : Option Nat)
    (hl : load h a = some ⟨true, 3, [k0, k1, k2], [none, none, none, none], nx,
      [some r0, some r1, some r2]⟩)
    (hrp : RepPath h c a) (nd : (pathAddrs c ++ [a]).Nodup) (op : OrdPath c)
    (h01 : k0 < k1) (h12 : k1 < k2) (hlo : geLo (pathLo c) k0) (hhi : ltHi k2 (pathHi c))
    (hroot : root = some (pathRoot c a)) (hpar : parent = c.head?.map Frame.addr) :
    ∃ h2 t1, splitLeafNode (2 * h.length + 2) h root a parent = some (h2, some t1.addr) ∧
      Rep h2 t1 ∧ Ord none none t1 ∧ t1.addrs.Nodup ∧
      t1.leaves = leavesBefore c ++
        [(a, [(k0, r0)], some h.length), (h.length, [(k1, r1), (k2, r2)], nx)] ++
        leavesAfter c := by
  have ha := load_lt hl
  obtain ⟨hn1, _⟩ := not_mem_of_nodup_cons nd
  have hlt := hrp.path_addr_lt
  have hsplit : splitLeafNode (2 * h.length + 2) h root a parent =
      attach (2 * h.length + 2)
        (store h a ⟨true, 1, [k0, 0, 0], [none, none, none, none], some h.length,
          [some r0, none, none]⟩ ++
          [some ⟨true, 2, [k1, k2, 0], [none, none, none, none], nx, [some r1, some r2, none]⟩])
        root c a k1 h.length := by
    simp only [splitLeafNode, splitLeafMove_eq hl]
    cases c with
    | nil => subst hpar; rfl
    | cons f c => subst hpar; rfl
  have hlen : c.length ≤ h.length :=
    le_trans (length_le_pathAddrs c) (length_le_of_nodup_lt (List.Nodup.of_append_left nd) hlt)
  have pre : UpPre
      (store h a ⟨true, 1, [k0, 0, 0], [none, none, none, none], some h.length,
          [some r0, none, none]⟩ ++
          [some ⟨true, 2, [k1, k2, 0], [none, none, none, none], nx, [some r1, some r2, none]⟩])
      c (Shape.leaf a [(k0, r0)] (some h.length))
      (Shape.leaf h.length [(k1, r1), (k2, r2)] nx) k1 := by
    refine ⟨(hrp.path_store a _ hn1).path_append _, ⟨0, 0, none, none, load_store_append_eq _ _ ha⟩,
      ⟨0, none, load_append_at _ (by simp [length_store])⟩, ?_, op, ?_, ?_, ?_, ?_⟩
    · have e : pathAddrs c ++ ((Shape.leaf a [(k0, r0)] (some h.length)).addrs ++
          (Shape.leaf h.length [(k1, r1), (k2, r2)] nx).addrs) =
          (pathAddrs c ++ [a]) ++ [h.length] := by simp [Shape.addrs]
      rw [e, List.nodup_append]
      refine ⟨nd, by simp, ?_⟩
      intro z hz hz1
      simp only [List.mem_singleton] at hz1
      subst hz1
      rcases List.mem_append.mp hz with hm | hm
      · exact lt_irrefl _ (hlt _ hm)
      · simp only [List.mem_singleton] at hm
        omega
    · simp only [Ord, List.map_cons, List.map_nil, List.pairwise_cons, List.mem_singleton,
        forall_eq, ltHi]
      exact ⟨by simp, hlo, h01⟩
    · simp only [Ord, List.map_cons, List.map_nil, List.pairwise_cons, List.mem_cons,
        List.mem_singleton, forall_eq_or_imp, forall_eq, geLo]
      refine ⟨by simp [h12], ⟨le_refl _, ltHi_mono hhi (le_of_lt h12)⟩, ⟨le_of_lt h12, hhi⟩, ?_⟩
      simp
    · exact gtLo_of_geLo hlo h01
    · exact ltHi_mono hhi (le_of_lt h12)
  obtain ⟨h3, t1, hres, hrep, hord, hnd, hleaves, _, _⟩ :=
    attach_spec c _ _ _ k1 (2 * h.length + 2) root pre (by omega) hroot
  refine ⟨h3, t1, ?_, hrep, hord, hnd, ?_⟩
  · rw [hsplit]
    exact hres
  · simpa [Shape.leaves] using hleaves

/-- One insertion of a key that is not in the tree gives a whole tree with
the new entry added. -/
theorem insertKey_tree {h : Heap} {root : Option Nat} {es : List (Int × Nat)} (key : Int)
    (r : Nat) (ht : TreeAt h root es) (hk : key ∉ es.map Prod.fst) :
    ∃ h1 root1, insertKey h root key r = some (h1, root1) ∧
      TreeAt h1 root1 ((key, r) :: es) := by
  cases root with
  | none =>
    simp only [TreeAt] at ht
    subst ht
    refine ⟨_, _, by simp only [insertKey]; exact insertFirst_eq h key r, ?_⟩
    refine ⟨Shape.leaf h.length [(key, r)] none, rfl,
      ⟨0, 0, none, none, load_append_new _ _⟩, ?_, ?_, ?_, ?_⟩
    · simp [Ord, geLo, ltHi]
    · simp [Shape.addrs]
    · simp [Shape.leaves, Linked, nextOf]
    · simp [Shape.entries]
  | some r0 =>
    obtain ⟨t, rfl, hr, ho, hn, hlink, hperm⟩ := ht
    have hkt : key ∉ t.entries.map Prod.fst :=
      fun hm => hk (((hperm.map Prod.fst).mem_iff).mp hm)
    obtain ⟨idx1, hd⟩ := descend_path key t [] h.length none 0 hr (hr.size_le hn) rfl
    have hplug := pathTo_plug key t []
    have hb := pathTo_bounds key t [] (by simp [pathLo, geLo]) (by simp [pathHi, ltHi])
    generalize pathTo key t [] = P at hd hplug hb
    obtain ⟨c, a, es0, nx⟩ := P
    simp only [plug] at hd hplug hb
    subst hplug
    obtain ⟨hrp, hleaf⟩ := (rep_plug c _).mp hr
    obtain ⟨op, oleaf⟩ := (ord_plug c _).mp ho
    have nd : (pathAddrs c ++ [a]).Nodup := ((addrs_plug c _).nodup_iff).mp hn
    have hlv := leaves_plug c (Shape.leaf a es0 nx)
    have haddr := plug_addr c (Shape.leaf a es0 nx)
    rw [hlv] at hlink
    simp only [addr_leaf, Shape.leaves] at hrp hlv haddr hlink
    simp only [Rep] at hleaf
    obtain ⟨hn1, _⟩ := not_mem_of_nodup_cons nd
    have hin : ∀ e ∈ es0, e ∈ (plug c (Shape.leaf a es0 nx)).entries := by
      intro e he
      rw [Shape.entries_eq, hlv]
      simp only [List.map_append, List.flatten_append, List.map_cons, List.map_nil,
        List.flatten_cons, List.flatten_nil, List.append_nil, List.mem_append]
      exact Or.inl (Or.inr he)
    have hne : ∀ e ∈ es0, key ≠ e.1 := by
      intro e he hc
      exact hkt (List.mem_map.mpr ⟨e, hin e he, hc.symm⟩)
    have finish : ∀ (h2 : Heap) (t1 : Shape)
        (mid1 : List (Nat × List (Int × Nat) × Option Nat)),
        Rep h2 t1 → Ord none none t1 → t1.addrs.Nodup →
        t1.leaves = leavesBefore c ++ mid1 ++ leavesAfter c →
        Linked (leavesBefore c ++ mid1 ++ leavesAfter c) none →
        ((mid1.map (fun l => l.2.1)).flatten).Perm ((key, r) :: es0) →
        TreeAt h2 (some t1.addr) ((key, r) :: es) := by
      intro h2 t1 mid1 q1 q2 q3 q4 q5 q6
      refine ⟨t1, rfl, q1, q2, q3, by rw [q4]; exact q5, ?_⟩
      refine (entries_of_leaves (M := [(a, es0, nx)]) hlv q4 (by simpa using q6)).trans ?_
      exact List.Perm.cons _ hperm
    rcases hleaf.shape with ⟨k0, q0, x, y, rx, ry, rfl, hl⟩ | ⟨k0, q0, k1, q1, y, ry, rfl, hl⟩
    · -- the leaf has one entry and takes the second
      have ha := load_lt hl
      have hne0 : key ≠ k0 := hne (k0, q0) (by simp)
      have hplace := insertLeafPlace_one key r hl
      have hb0 := oleaf.2 (k0, q0) (by simp)
      by_cases hlt : key < k0
      · simp only [hlt, if_true] at hplace
        have hnum : getNum (store h a ⟨true, 2, [key, k0, y], [none, none, none, none], nx,
            [some r, some q0, ry]⟩) a = some 2 := by simp [getNum, load_store_eq, ha]
        obtain ⟨t1, p1, p2, p3, p4, p5⟩ := leaf_grow
          (⟨true, 2, [key, k0, y], [none, none, none, none], nx, [some r, some q0, ry]⟩)
          [(key, r), (k0, q0)] hrp nd op ⟨y, ry, load_store_eq _ ha⟩
          (by
            simp only [Ord, List.map_cons, List.map_nil, List.pairwise_cons, List.mem_cons,
              List.mem_singleton, forall_eq_or_imp, forall_eq]
            exact ⟨by simp [hlt], ⟨hb.1, ltHi_mono hb0.2 (le_of_lt hlt)⟩, hb0, by simp⟩)
        refine ⟨_, _, ?_, finish _ t1 _ p2 p3 p4 p5 (linked_replace_one _ hlink) (by simp)⟩
        rw [insertKey_after hd hplace hnum, haddr, p1]
        simp [ORDER]
      · simp only [hlt, if_false] at hplace
        have hgt : k0 < key := lt_of_le_of_ne (not_lt.mp hlt) (Ne.symm hne0)
        have hnum : getNum (store h a ⟨true, 2, [k0, key, y], [none, none, none, none], nx,
            [some q0, some r, ry]⟩) a = some 2 := by simp [getNum, load_store_eq, ha]
        obtain ⟨t1, p1, p2, p3, p4, p5⟩ := leaf_grow
          (⟨true, 2, [k0, key, y], [none, none, none, none], nx, [some q0, some r, ry]⟩)
          [(k0, q0), (key, r)] hrp nd op ⟨y, ry, load_store_eq _ ha⟩
          (by
            simp only [Ord, List.map_cons, List.map_nil, List.pairwise_cons, List.mem_cons,
              List.mem_singleton, forall_eq_or_imp, forall_eq]
            exact ⟨by simp [hgt], hb0, hb, by simp⟩)
        refine ⟨_, _, ?_, finish _ t1 _ p2 p3 p4 p5 (linked_replace_one _ hlink)
          (by simpa using List.Perm.swap _ _ _)⟩
        rw [insertKey_after hd hplace hnum, haddr, p1]
        simp [ORDER]
    · -- the leaf has two entries, takes the third and is split
      have ha := load_lt hl
      have hne0 : key ≠ k0 := hne (k0, q0) (by simp)
      have hne1 : key ≠ k1 := hne (k1, q1) (by simp)
      have hplace := insertLeafPlace_two key r hl
      have hb0 := oleaf.2 (k0, q0) (by simp)
      have hb1 := oleaf.2 (k1, q1) (by simp)
      have h01 : k0 < k1 := by
        have := oleaf.1
        simp only [List.map_cons, List.map_nil, List.pairwise_cons, List.mem_singleton,
          forall_eq] at this
        exact this.1
      have hlen : ∀ n : BPTreeNode, (store h a n).length = h.length := fun n => length_store h a n
      by_cases hlt : key < k0
      · simp only [hlt, if_true] at hplace
        have hnum : getNum (store h a ⟨true, 3, [key, k0, k1], [none, none, none, none], nx,
            [some r, some q0, some q1]⟩) a = some 3 := by simp [getNum, load_store_eq, ha]
        obtain ⟨h2, t1, p0, p2, p3, p4, p5⟩ := leaf_split (c := c) (some (pathRoot c a))
          (c.head?.map Frame.addr)
          (load_store_eq (⟨true, 3, [key, k0, k1], [none, none, none, none], nx,
            [some r, some q0, some q1]⟩) ha) (hrp.path_store a _ hn1) nd op hlt h01 hb.1 hb1.2 rfl rfl
        refine ⟨_, _, ?_, finish _ t1 _ p2 p3 p4 p5 (linked_replace_two _ _ _ hlink) ?_⟩
        · rw [insertKey_after hd hplace hnum, haddr]
          simpa [ORDER] using p0
        · simp
      · simp only [hlt, if_false] at hplace
        have hgt : k0 < key := lt_of_le_of_ne (not_lt.mp hlt) (Ne.symm hne0)
        by_cases hlt1 : key < k1
        · simp only [hlt1, if_true] at hplace
          have hnum : getNum (store h a ⟨true, 3, [k0, key, k1], [none, none, none, none], nx,
              [some q0, some r, some q1]⟩) a = some 3 := by simp [getNum, load_store_eq, ha]
          obtain ⟨h2, t1, p0, p2, p3, p4, p5⟩ := leaf_split (c := c)
            (some (pathRoot c a)) (c.head?.map Frame.addr)
            (load_store_eq (⟨true, 3, [k0, key, k1], [none, none, none, none], nx,
              [some q0, some r, some q1]⟩) ha) (hrp.path_store a _ hn1) nd op hgt hlt1 hb0.1 hb1.2
            rfl rfl
          refine ⟨_, _, ?_, finish _ t1 _ p2 p3 p4 p5 (linked_replace_two _ _ _ hlink) ?_⟩
          · rw [insertKey_after hd hplace hnum, haddr]
            simpa [ORDER] using p0
          · simpa using List.Perm.swap _ _ _
        · simp only [hlt1, if_false] at hplace
          have hgt1 : k1 < key := lt_of_le_of_ne (not_lt.mp hlt1) (Ne.symm hne1)
          have hnum : getNum (store h a ⟨true, 3, [k0, k1, key], [none, none, none, none], nx,
              [some q0, some q1, some r]⟩) a = some 3 := by simp [getNum, load_store_eq, ha]
          obtain ⟨h2, t1, p0, p2, p3, p4, p5⟩ := leaf_split (c := c)
            (some (pathRoot c a)) (c.head?.map Frame.addr)
            (load_store_eq (⟨true, 3, [k0, k1, key], [none, none, none, none], nx,
              [some q0, some q1, some r]⟩) ha) (hrp.path_store a _ hn1) nd op h01 hgt1 hb0.1 hb.2
            rfl rfl
          refine ⟨_, _, ?_, finish _ t1 _ p2 p3 p4 p5 (linked_replace_two _ _ _ hlink) ?_⟩
          · rw [insertKey_after hd hplace hnum, haddr]
            simpa [ORDER] using p0
          · rw [List.perm_iff_count]
            intro z
            simp only [List.map_cons, List.map_nil, List.flatten_cons, List.flatten_nil,
              List.append_nil, List.singleton_append, List.cons_append, List.nil_append,
              List.count_cons, List.count_nil]
            omega

/-! ## The record scan -/

/-- The record reading loop of the scan on one leaf. -/
theorem RepLeaf.scanRecs {h : Heap} {a : Nat} {nx : Option Nat} {es : List (Int × Nat)}
    (hr : RepLeaf h a nx es) :
    ∃ n, load h a = some n ∧ n.next = nx ∧
      nodeRecs h a n.numKeys 0 = some (es.map (fun e => some e.2)) := by
  match es, hr with
  | [(k, r)], ⟨x, y, rx, ry, hl⟩ => exact ⟨_, hl, rfl, by simp [nodeRecs, getRec, hl]⟩
  | [(k0, r0), (k1, r1)], ⟨y, ry, hl⟩ => exact ⟨_, hl, rfl, by simp [nodeRecs, getRec, hl]⟩

/-- The chain walk over linked leaves reads their record pointers in order. -/
theorem chainRecs_of_linked {h : Heap} :
    ∀ (ls : List (Nat × List (Int × Nat) × Option Nat)) (fuel : Nat),
      (∀ l ∈ ls, RepLeaf h l.1 l.2.2 l.2.1) → Linked ls none → ls.length < fuel →
      chainRecs h fuel (ls.head?.map (fun l => l.1)) =
        some ((ls.map (fun l => l.2.1)).flatten.map (fun e => some e.2)) := by
  intro ls
  induction ls with
  | nil =>
    intro fuel _ _ hf
    obtain ⟨f, rfl⟩ : ∃ f, fuel = f + 1 := ⟨fuel - 1, by simp at hf; omega⟩
    simp [chainRecs]
  | cons l rest ih =>
    intro fuel hrep hlink hf
    obtain ⟨f, rfl⟩ : ∃ f, fuel = f + 1 := ⟨fuel - 1, by simp at hf; omega⟩
    obtain ⟨n, hl, hnx, hk⟩ := (hrep l (by simp)).scanRecs
    have hnext : n.next = rest.head?.map (fun l => l.1) := by
      rw [hnx, hlink.1]
      cases rest <;> rfl
    have hlink1 : Linked rest none := hlink.2
    have := ih f (fun m hm => hrep m (by simp [hm])) hlink1 (by simp at hf; omega)
    simp [chainRecs, hl, hk, hnext, this]

/-- The record scan of a represented tree with linked leaves reads the
record pointers of its entries from left to right. -/
theorem scanRecs_of_rep {h : Heap} {t : Shape} (hr : Rep h t) (hn : t.addrs.Nodup)
    (hlink : Linked t.leaves none) :
    scanRecs h (some t.addr) = some (t.entries.map (fun e => some e.2)) := by
  obtain ⟨l, rest, h1, h2⟩ := leftmost_of_rep hr h.length (hr.size_le hn)
  have h3 := chainRecs_of_linked t.leaves (h.length + 1) hr.leaves hlink
    (by have := t.leaves_length_le; have := hr.size_le hn; omega)
  rw [h1] at h3
  simp only [List.head?_cons, Option.map_some'] at h3
  rw [← h1, ← Shape.entries_eq] at h3
  simp [scanRecs, h2, h3]

/-- The rows read for entries whose records are live and carry the keys. -/
theorem rowsOf_entries (recs : List (Option Transaction)) :
    ∀ es : List (Int × Nat),
      (∀ e ∈ es, ∃ tr, loadRec recs e.2 = some tr ∧ tr.transactionID = e.1) →
      ∃ rows, rowsOf recs (es.map (fun e => some e.2)) = some rows ∧
        rows.map (fun tr => tr.transactionID) = es.map Prod.fst ∧
        es.map (fun e => loadRec recs e.2) = rows.map some := by
  intro es
  induction es with
  | nil => intro _; exact ⟨[], rfl, rfl, rfl⟩
  | cons e es ih =>
    intro hall
    obtain ⟨tr, h1, h2⟩ := hall e (by simp)
    obtain ⟨rows, h3, h4, h5⟩ := ih (fun x hx => hall x (by simp [hx]))
    exact ⟨tr :: rows, by simp [rowsOf, h1, h3], by simp [h2, h4], by simp [h1, h5]⟩

/-! ## Sequences of insertions -/

theorem idOf_nodes (m : Store) (h : Heap) (t : Nat) :
    idOf { m with nodes := h } t = idOf m t := rfl

/-- The function `insertTransactionIntoBPTree` on a whole tree, for a live
record whose id is not in the tree. -/
theorem insertTransactionIntoBPTree_tree {m : Store} {root : Option Nat}
    {es : List (Int × Nat)} {t : Nat} {k : Int} (ht : TreeAt m.nodes root es)
    (hid : idOf m t = some k) (hk : k ∉ es.map Prod.fst) :
    ∃ m1 root1, insertTransactionIntoBPTree m root t = some (m1, root1) ∧ m1.recs = m.recs ∧
      TreeAt m1.nodes root1 ((k, t) :: es) := by
  simp only [idOf, Option.map_eq_some'] at hid
  obtain ⟨tr, h1, h2⟩ := hid
  obtain ⟨h', root1, h3, h4⟩ := insertKey_tree k t ht hk
  refine ⟨{ m with nodes := h' }, root1, ?_, rfl, h4⟩
  simp [insertTransactionIntoBPTree, h1, h2, h3]

/-- The entries that a list of record pointers adds to a tree. -/
theorem insertAll_tree : ∀ (ts : List Nat) (m : Store) (root : Option Nat)
    (es : List (Int × Nat)), TreeAt m.nodes root es →
    (∀ t ∈ ts, (idOf m t).isSome) → (ts.map (idOf m)).Nodup →
    (∀ t ∈ ts, ∀ k, idOf m t = some k → k ∉ es.map Prod.fst) →
    ∃ m1 root1 es1, insertAll ts (m, root) = some (m1, root1) ∧ m1.recs = m.recs ∧
      TreeAt m1.nodes root1 es1 ∧
      es1.Perm (es ++ ts.filterMap (fun t => (idOf m t).map (fun k => (k, t)))) := by
  intro ts
  induction ts with
  | nil =>
    intro m root es ht _ _ _
    exact ⟨m, root, es, rfl, rfl, ht, by simp⟩
  | cons t ts ih =>
    intro m root es ht hlive hnd hfresh
    obtain ⟨k, hk⟩ := Option.isSome_iff_exists.mp (hlive t (by simp))
    simp only [List.map_cons, List.nodup_cons] at hnd
    obtain ⟨m1, root1, h1, h2, h3⟩ :=
      insertTransactionIntoBPTree_tree ht hk (hfresh t (by simp) k hk)
    have hid : ∀ x, idOf m1 x = idOf m x := by
      intro x
      simp only [idOf, h2]
    have hfun : idOf m1 = idOf m := funext hid
    obtain ⟨m2, root2, es2, g1, g2, g3, g4⟩ := ih m1 root1 ((k, t) :: es) h3
      (fun x hx => by rw [hid]; exact hlive x (by simp [hx]))
      (by rw [hfun]; exact hnd.2)
      (by
        intro x hx kx hkx hm
        rw [hid] at hkx
        simp only [List.map_cons, List.mem_cons] at hm
        rcases hm with hm | hm
        · subst hm
          apply hnd.1
          rw [hk, ← hkx]
          exact List.mem_map_of_mem _ hx
        · exact hfresh x (by simp [hx]) kx hkx hm)
    refine ⟨m2, root2, es2, ?_, g2.trans h2, g3, ?_⟩
    · simp only [insertAll, h1]
      exact g1
    · refine g4.trans ?_
      rw [hfun]
      simp only [List.filterMap_cons, hk, Option.map_some', List.cons_append]
      exact List.perm_middle.symm

/-- The tree built from the empty tree by inserting live records with
distinct ids holds exactly their entries. -/
theorem insertAll_empty (m : Store) (ts : List Nat) (hlive : ∀ t ∈ ts, (idOf m t).isSome)
    (hdist : (ts.map (idOf m)).Nodup) :
    ∃ m1 root1 es1, insertAll ts (m, none) = some (m1, root1) ∧ m1.recs = m.recs ∧
      TreeAt m1.nodes root1 es1 ∧
      es1.Perm (ts.filterMap (fun t => (idOf m t).map (fun k => (k, t)))) := by
  obtain ⟨m1, root1, es1, h1, h2, h3, h4⟩ := insertAll_tree ts m none [] rfl hlive hdist
    (fun _ _ _ _ hm => by simp at hm)
  exact ⟨m1, root1, es1, h1, h2, h3, by simpa using h4⟩

/-- The keys of the entries added by a list of record pointers. -/
theorem keys_of_added (m : Store) (ts : List Nat) :
    (ts.filterMap (fun t => (idOf m t).map (fun k => (k, t)))).map Prod.fst =
      ts.filterMap (idOf m) := by
  induction ts with
  | nil => rfl
  | cons t ts ih =>
    cases hk : idOf m t <;> simp [List.filterMap_cons, hk, ih]

/-- An added entry pairs a pointer of the list with the id of its record. -/
theorem mem_added {m : Store} {ts : List Nat} {e : Int × Nat} :
    e ∈ ts.filterMap (fun t => (idOf m t).map (fun k => (k, t))) ↔
      e.2 ∈ ts ∧ idOf m e.2 = some e.1 := by
  simp only [List.mem_filterMap, Option.map_eq_some']
  constructor
  · rintro ⟨t, ht, k, hk, rfl⟩
    exact ⟨ht, hk⟩
  · rintro ⟨ht, hk⟩
    exact ⟨e.2, ht, e.1, hk, rfl⟩

/-! ## Insertion into the empty tree -/

/-- C1: for every list of live records with pairwise-distinct ids, inserting
them one after the other into the empty tree with
`insertTransactionIntoBPTree` succeeds and leaves the records untouched;
afterwards `findTransactionById` returns, for the id of every inserted
record, the pointer to that very record, and `findTransactionInBPTree`
returns 1 for it. -/
theorem insert_then_find (m : Store) (ts : List Nat)
    (hlive : ∀ t ∈ ts, (idOf m t).isSome) (hdist : (ts.map (idOf m)).Nodup) :
    ∃ m1 root, insertAll ts (m, none) = some (m1, root) ∧ m1.recs = m.recs ∧
      ∀ t ∈ ts, ∀ k, idOf m t = some k →
        findTransactionById m1.nodes root k = some (some t) ∧
          findTransactionInBPTree m1.nodes root k = some true := by
  obtain ⟨m1, root1, es1, h1, h2, h3, h4⟩ := insertAll_empty m ts hlive hdist
  refine ⟨m1, root1, h1, h2, ?_⟩
  intro t ht k hk
  have hmem : (k, t) ∈ es1 := (h4.mem_iff).mpr (mem_added.mpr ⟨ht, hk⟩)
  cases root1 with
  | none =>
    simp only [TreeAt] at h3
    rw [h3] at hmem
    simp at hmem
  | some r =>
    obtain ⟨T, rfl, hr, ho, hn, _, hperm⟩ := h3
    exact find_of_rep hr ho hn ((hperm.mem_iff).mpr hmem)

/-- Witness for C1: seven records with the ids 5, 3, 8, 1, 9, 2, 7 inserted in
this order. -/
theorem insert_then_find_witness :
    (∀ t ∈ [0, 1, 2, 3, 4, 5, 6], (idOf (storeWithIds [5, 3, 8, 1, 9, 2, 7]) t).isSome) ∧
    ([0, 1, 2, 3, 4, 5, 6].map (idOf (storeWithIds [5, 3, 8, 1, 9, 2, 7]))).Nodup ∧
    ∃ m1 root, insertAll [0, 1, 2, 3, 4, 5, 6] (storeWithIds [5, 3, 8, 1, 9, 2, 7], none) =
        some (m1, root) ∧ m1.recs = (storeWithIds [5, 3, 8, 1, 9, 2, 7]).recs ∧
      ∀ t ∈ [0, 1, 2, 3, 4, 5, 6], ∀ k, idOf (storeWithIds [5, 3, 8, 1, 9, 2, 7]) t = some k →
        findTransactionById m1.nodes root k = some (some t) ∧
          findTransactionInBPTree m1.nodes root k = some true :=
  ⟨by decide, by decide,
    insert_then_find (storeWithIds [5, 3, 8, 1, 9, 2, 7]) [0, 1, 2, 3, 4, 5, 6]
      (by decide) (by decide)⟩

/-- C2: for every list of live records with pairwise-distinct ids inserted
into the empty tree, the leaf-chain scan (leftmost leaf, then the `next`
links) reads exactly the inserted ids, each once, in strictly ascending
order, and `displayTransactionsFromTree` adds one row per record in that
order; inserting 5, 3, 8, 1, 9, 2, 7 gives the scan 1, 2, 3, 5, 7, 8, 9. -/
theorem insert_scan_ascending (m : Store) (ts : List Nat)
    (hlive : ∀ t ∈ ts, (idOf m t).isSome) (hdist : (ts.map (idOf m)).Nodup) :
    (∃ m1 root ks rows, insertAll ts (m, none) = some (m1, root) ∧
      scanKeys m1.nodes root = some ks ∧
      displayTransactionsFromTree m1 root = some rows ∧
      rows.map (fun tr => tr.transactionID) = ks ∧
      ks.Pairwise (· < ·) ∧ ks.Perm (ts.filterMap (idOf m))) ∧
    (treeOfIds [5, 3, 8, 1, 9, 2, 7]).bind (fun s => scanKeys s.1.nodes s.2) =
      some [1, 2, 3, 5, 7, 8, 9] ∧
    ((treeOfIds [5, 3, 8, 1, 9, 2, 7]).bind
      (fun s => displayTransactionsFromTree s.1 s.2)).map
        (fun rows => rows.map (fun tr => tr.transactionID)) = some [1, 2, 3, 5, 7, 8, 9] := by
  refine ⟨?_, by decide!, by decide!⟩
  obtain ⟨m1, root1, es1, h1, h2, h3, h4⟩ := insertAll_empty m ts hlive hdist
  cases root1 with
  | none =>
    simp only [TreeAt] at h3
    subst h3
    have hnil : ts.filterMap (idOf m) = [] := by
      rw [← keys_of_added, ← List.Perm.nil_eq h4]
      rfl
    exact ⟨m1, none, [], [], h1, rfl, rfl, rfl, List.Pairwise.nil, by rw [hnil]⟩
  | some r =>
    obtain ⟨T, rfl, hr, ho, hn, hlink, hperm⟩ := h3
    have hrows := rowsOf_entries m1.recs T.entries (by
      intro e he
      have hm := mem_added.mp ((h4.mem_iff).mp ((hperm.mem_iff).mp he))
      have hid := hm.2
      simp only [idOf, Option.map_eq_some'] at hid
      obtain ⟨tr, g1, g2⟩ := hid
      exact ⟨tr, by rw [h2]; exact g1, g2⟩)
    obtain ⟨rows, g1, g2, _⟩ := hrows
    refine ⟨m1, some T.addr, T.entries.map Prod.fst, rows, h1, scan_of_rep hr hn hlink, ?_, g2,
      ho.sorted, ?_⟩
    · simp [displayTransactionsFromTree, scanRecs_of_rep hr hn hlink, g1]
    · rw [← keys_of_added]
      exact (hperm.trans h4).map Prod.fst

/-- Witness for C2: five records with the ids 4, 1, 5, 2, 3 inserted in this
order. -/
theorem insert_scan_ascending_witness :
    (∀ t ∈ [0, 1, 2, 3, 4], (idOf (storeWithIds [4, 1, 5, 2, 3]) t).isSome) ∧
    ([0, 1, 2, 3, 4].map (idOf (storeWithIds [4, 1, 5, 2, 3]))).Nodup ∧
    ((∃ m1 root ks rows, insertAll [0, 1, 2, 3, 4] (storeWithIds [4, 1, 5, 2, 3], none) =
        some (m1, root) ∧
      scanKeys m1.nodes root = some ks ∧
      displayTransactionsFromTree m1 root = some rows ∧
      rows.map (fun tr => tr.transactionID) = ks ∧
      ks.Pairwise (· < ·) ∧
      ks.Perm ([0, 1, 2, 3, 4].filterMap (idOf (storeWithIds [4, 1, 5, 2, 3])))) ∧
    (treeOfIds [5, 3, 8, 1, 9, 2, 7]).bind (fun s => scanKeys s.1.nodes s.2) =
      some [1, 2, 3, 5, 7, 8, 9] ∧
    ((treeOfIds [5, 3, 8, 1, 9, 2, 7]).bind
      (fun s => displayTransactionsFromTree s.1 s.2)).map
        (fun rows => rows.map (fun tr => tr.transactionID)) = some [1, 2, 3, 5, 7, 8, 9]) :=
  ⟨by decide, by decide,
    insert_scan_ascending (storeWithIds [4, 1, 5, 2, 3]) [0, 1, 2, 3, 4]
      (by decide) (by decide)⟩

/-! ## Deletion on concrete trees -/

/-- C3: after inserting 1, 2, 3, 4, 5, 0 and deleting 2, both lookups still
report id 2 as present; the record returned is the one of id 1 (pointer 0). -/
theorem delete_leaves_id_found :
    ((treeOfIds [1, 2, 3, 4, 5, 0]).bind (fun s => deleteTransactionFromBPTree s.1 s.2 2)).bind
      (fun s => (findTransactionInBPTree s.1.nodes s.2 2).bind
        (fun b => (findTransactionById s.1.nodes s.2 2).map (fun r => (b, r))))
      = some (true, some 0) := by
  decide!

/-- C4: after inserting 1, 2, 3, 4, 5, 0 the ordered scan is 0, 1, 2, 3, 4, 5;
deleting 2 gives the scan 0, 2, 3, 4, 5, in which 2 is still present and 1 is
lost. -/
theorem delete_scan_not_erase :
    (treeOfIds [1, 2, 3, 4, 5, 0]).bind (fun s => scanKeys s.1.nodes s.2)
      = some [0, 1, 2, 3, 4, 5] ∧
    ((treeOfIds [1, 2, 3, 4, 5, 0]).bind (fun s => deleteTransactionFromBPTree s.1 s.2 2)).bind
      (fun s => scanKeys s.1.nodes s.2) = some [0, 2, 3, 4, 5] := by
  decide!

/-- C7: after inserting 1, 2, 3, 4 and deleting 1 the leaf chain reads
2, 2, 3, 4, which is not strictly ascending. -/
theorem delete_chain_not_ascending :
    ((treeOfIds [1, 2, 3, 4]).bind (fun s => deleteTransactionFromBPTree s.1 s.2 1)).bind
      (fun s => scanKeys s.1.nodes s.2) = some [2, 2, 3, 4] ∧
    ¬ List.Pairwise (fun a b : Int => a < b) [2, 2, 3, 4] := by
  decide!

/-- C8: after inserting 1, 2, 3, 4, 5 and deleting 1 the root is an internal
node whose first child is an internal node holding no key. -/
theorem delete_leaves_empty_internal_node :
    ((treeOfIds [1, 2, 3, 4, 5]).bind (fun s => deleteTransactionFromBPTree s.1 s.2 1)).bind
      (fun s => s.2.bind (fun r => (childPtr s.1.nodes r 0).bind (fun c =>
        (load s.1.nodes c).map (fun n => (decide (r ≠ c), n.isLeaf, n.numKeys)))))
      = some (true, false, 0) := by
  decide!

/-- C9: after recording ids 1, 2, 3, 4 the call `deleteTransaction(1)` first
deletes from the global tree, whose leaf chain then reads 2, 2, 3, 4; the
call as a whole has no defined result. -/
theorem delete_duplicates_key_in_global_tree :
    ((runMenu [recordPlain 1, recordPlain 2, recordPlain 3, recordPlain 4] Engine.empty).bind
      (fun s => (deleteTransactionFromBPTree s.mem s.globalTransactionTree 1).bind
        (fun r => scanKeys r.1.nodes r.2))) = some [2, 2, 3, 4] ∧
    ((runMenu [recordPlain 1, recordPlain 2, recordPlain 3, recordPlain 4] Engine.empty).bind
      (fun s => deleteTransaction s 1)) = none := by
  decide!

/-- C10: after recording one transaction with id 1, `deleteTransaction(1)`
finds the record, and the delete from the global tree succeeds, but the
delete from the seller's tree releases the record a second time: the call
has no defined result. -/
theorem delete_releases_record_twice :
    ((runMenu [recordPlain 1] Engine.empty).bind
      (fun s => findTransactionById s.mem.nodes s.globalTransactionTree 1)) = some (some 0) ∧
    ((runMenu [recordPlain 1] Engine.empty).bind
      (fun s => (deleteTransactionFromBPTree s.mem s.globalTransactionTree 1).map
        (fun r => (loadRec r.1.recs 0).isSome))) = some false ∧
    ((runMenu [recordPlain 1] Engine.empty).bind
      (fun s => (deleteTransactionFromBPTree s.mem s.globalTransactionTree 1).bind
        (fun r => deleteFromSeller r.1 s.seller_head 10 1 10))) = none ∧
    ((runMenu [recordPlain 1] Engine.empty).bind (fun s => deleteTransaction s 1)) = none := by
  decide!

/-! ## Rejected operations -/

/-- C5: when the id of the record behind `t` is found in the global tree,
`insertTransaction` reports a duplicate; the node heap (hence every tree),
the global root, the seller list and the buyer list with all their
aggregates are unchanged, and the only change to memory is that the record
behind `t` is released. -/
theorem insertTransaction_duplicate_unchanged (s : Engine) (t : Nat) (tr : Transaction)
    (typedBelow typedAbove : Rat)
    (ht : loadRec s.mem.recs t = some tr)
    (hdup : findTransactionInBPTree s.mem.nodes s.globalTransactionTree tr.transactionID
      = some true) :
    ∃ s1, insertTransaction s t typedBelow typedAbove = some (s1, InsertReport.duplicate) ∧
      s1.mem.nodes = s.mem.nodes ∧
      s1.globalTransactionTree = s.globalTransactionTree ∧
      s1.seller_head = s.seller_head ∧
      s1.buyer_head = s.buyer_head ∧
      s1.nextTransactionID = s.nextTransactionID ∧
      s1.mem.recs = s.mem.recs.set t none := by
  refine ⟨{ s with mem := { s.mem with recs := s.mem.recs.set t none } }, ?_, rfl, rfl, rfl, rfl,
    rfl, rfl⟩
  simp [insertTransaction, ht, hdup, freeRec]

/-- Witness for C5: a second record with id 1 offered to an engine that
already holds id 1. -/
theorem insertTransaction_duplicate_unchanged_witness :
    ∃ s1, insertTransaction engineWithDuplicate.1 engineWithDuplicate.2 (1 / 5) (1 / 4)
        = some (s1, InsertReport.duplicate) ∧
      s1.mem.nodes = engineWithDuplicate.1.mem.nodes ∧
      s1.globalTransactionTree = engineWithDuplicate.1.globalTransactionTree ∧
      s1.seller_head = engineWithDuplicate.1.seller_head ∧
      s1.buyer_head = engineWithDuplicate.1.buyer_head ∧
      s1.nextTransactionID = engineWithDuplicate.1.nextTransactionID ∧
      s1.mem.recs = engineWithDuplicate.1.mem.recs.set engineWithDuplicate.2 none :=
  insertTransaction_duplicate_unchanged engineWithDuplicate.1 engineWithDuplicate.2
    { transactionID := 1, buyerID := 21, sellerID := 11, energyAmount := 50, pricePerKwh := 0,
      totalPrice := 0, timestamp := "2024-01-02 10:00:00" } (1 / 5) (1 / 4)
    (by decide!) (by decide!)

/-- A lookup that answers "absent" has reached a live leaf and found no slot
holding the id. -/
theorem find_false_inv (h : Heap) (r : Nat) (id : Int)
    (hf : findTransactionInBPTree h (some r) id = some false) :
    ∃ cursor parent idx nk, descend h id h.length r none 0 = some (cursor, parent, idx) ∧
      getNum h cursor = some nk ∧ keyIndex h cursor id nk 0 = some none := by
  unfold findTransactionInBPTree at hf
  cases hd : descend h id h.length r none 0 with
  | none => simp [hd] at hf
  | some res =>
    obtain ⟨cursor, parent, idx⟩ := res
    simp only [hd] at hf
    cases hn : getNum h cursor with
    | none => simp [hn] at hf
    | some nk =>
      simp only [hn] at hf
      cases hk : keyIndex h cursor id nk 0 with
      | none => simp [hk] at hf
      | some o =>
        cases o with
        | none => exact ⟨cursor, parent, idx, nk, rfl, hn, hk⟩
        | some i => simp [hk] at hf

/-- C6: when the global lookup returns the null pointer, `deleteTransaction`
reports not-found and returns the state as it was; when the lookup in a tree
answers "absent", `deleteTransactionFromBPTree` returns the memory and the
root as they were, so `countTransactionsInTree` gives the same count. -/
theorem delete_absent_unchanged (s : Engine) (m : Store) (root : Option Nat) (id : Int)
    (h1 : findTransactionById s.mem.nodes s.globalTransactionTree id = some none)
    (h2 : findTransactionInBPTree m.nodes root id = some false) :
    deleteTransaction s id = some (s, DeleteReport.notFound) ∧
    deleteTransactionFromBPTree m root id = some (m, root) ∧
    (deleteTransactionFromBPTree m root id).bind
      (fun r => countTransactionsInTree r.1.nodes r.2) = countTransactionsInTree m.nodes root := by
  have hdel : deleteTransactionFromBPTree m root id = some (m, root) := by
    cases root with
    | none => rfl
    | some r =>
      obtain ⟨cursor, parent, idx, nk, hd, hn, hk⟩ := find_false_inv m.nodes r id h2
      simp [deleteTransactionFromBPTree, hd, hn, hk]
  refine ⟨?_, hdel, ?_⟩
  · simp [deleteTransaction, h1]
  · simp [hdel]

/-- Witness for C6: id 7 is absent from the engine holding id 1 and from the
tree holding ids 1, 2, 3. -/
theorem delete_absent_unchanged_witness :
    deleteTransaction engineWithOne 7 = some (engineWithOne, DeleteReport.notFound) ∧
    deleteTransactionFromBPTree ((treeOfIds [1, 2, 3]).getD (storeWithIds [], none)).1
        ((treeOfIds [1, 2, 3]).getD (storeWithIds [], none)).2 7
      = some (((treeOfIds [1, 2, 3]).getD (storeWithIds [], none)).1,
              ((treeOfIds [1, 2, 3]).getD (storeWithIds [], none)).2) ∧
    (deleteTransactionFromBPTree ((treeOfIds [1, 2, 3]).getD (storeWithIds [], none)).1
        ((treeOfIds [1, 2, 3]).getD (storeWithIds [], none)).2 7).bind
      (fun r => countTransactionsInTree r.1.nodes r.2)
      = countTransactionsInTree ((treeOfIds [1, 2, 3]).getD (storeWithIds [], none)).1.nodes
          ((treeOfIds [1, 2, 3]).getD (storeWithIds [], none)).2 :=
  delete_absent_unchanged engineWithOne ((treeOfIds [1, 2, 3]).getD (storeWithIds [], none)).1
    ((treeOfIds [1, 2, 3]).getD (storeWithIds [], none)).2 7 (by decide!) (by decide!)

/-! ## The effect of one `insertTransaction` on the aggregates -/

theorem insertTransactionIntoBPTree_recs {m m1 : Store} {root r1 : Option Nat} {t : Nat}
    (hi : insertTransactionIntoBPTree m root t = some (m1, r1)) : m1.recs = m.recs := by
  unfold insertTransactionIntoBPTree at hi
  cases hl : loadRec m.recs t with
  | none => simp [hl] at hi
  | some tr =>
    simp only [hl] at hi
    cases hk : insertKey m.nodes root tr.transactionID t with
    | none => simp [hk] at hi
    | some p =>
      obtain ⟨h, r⟩ := p
      simp only [hk, Option.some.injEq, Prod.mk.injEq] at hi
      rw [← hi.1]

theorem insertIntoTrees_recs {m m1 : Store} {g st bt g1 st1 bt1 : Option Nat} {t : Nat}
    (hi : insertIntoTrees m g st bt t = some (m1, g1, st1, bt1)) : m1.recs = m.recs := by
  unfold insertIntoTrees insertTransactionIntoEntityTree at hi
  cases h1 : insertTransactionIntoBPTree m g t with
  | none => simp [h1] at hi
  | some p1 =>
    obtain ⟨ma, ga⟩ := p1
    simp only [h1] at hi
    cases h2 : insertTransactionIntoBPTree ma st t with
    | none => simp [h2] at hi
    | some p2 =>
      obtain ⟨mb, sb⟩ := p2
      simp only [h2] at hi
      cases h3 : insertTransactionIntoBPTree mb bt t with
      | none => simp [h3] at hi
      | some p3 =>
        obtain ⟨mc, bc⟩ := p3
        simp only [h3, Option.some.injEq, Prod.mk.injEq] at hi
        rw [← hi.1, insertTransactionIntoBPTree_recs h3, insertTransactionIntoBPTree_recs h2,
          insertTransactionIntoBPTree_recs h1]

/-- The position found by the seller walk holds a seller with the id looked
for, and no earlier cell does. -/
theorem sellerIndex_some {id : Int} : ∀ {l : List Seller} {i : Nat}, sellerIndex id l = some i →
    ∃ S, l[i]? = some S ∧ S.sellerID = id ∧ sellerOf l id = some S
  | [], i, h => by simp [sellerIndex] at h
  | S :: rest, i, h => by
    unfold sellerIndex at h
    by_cases hs : S.sellerID = id
    · simp only [hs, if_true, Option.some.injEq] at h
      subst h
      exact ⟨S, by simp, hs, by simp [sellerOf, hs]⟩
    · simp only [hs, if_false, Option.map_eq_some'] at h
      obtain ⟨j, hj, rfl⟩ := h
      obtain ⟨S1, h1, h2, h3⟩ := sellerIndex_some hj
      refine ⟨S1, by simpa using h1, h2, ?_⟩
      simp only [sellerOf] at h3 ⊢
      simp [List.find?_cons, hs, h3]

theorem sellerIndex_none {id : Int} : ∀ {l : List Seller}, sellerIndex id l = none →
    sellerOf l id = none ∧ ∀ S ∈ l, S.sellerID ≠ id
  | [], _ => by simp [sellerOf]
  | S :: rest, h => by
    unfold sellerIndex at h
    by_cases hs : S.sellerID = id
    · simp [hs] at h
    · simp only [hs, if_false, Option.map_eq_none'] at h
      obtain ⟨h1, h2⟩ := sellerIndex_none h
      constructor
      · simp only [sellerOf] at h1 ⊢
        simp [List.find?_cons, hs, h1]
      · intro S1 hm
        rcases List.mem_cons.mp hm with rfl | hm
        · exact hs
        · exact h2 S1 hm

theorem buyerIndex_some {id : Int} : ∀ {l : List Buyer} {i : Nat}, buyerIndex id l = some i →
    ∃ B, l[i]? = some B ∧ B.buyerID = id ∧ buyerOf l id = some B
  | [], i, h => by simp [buyerIndex] at h
  | B :: rest, i, h => by
    unfold buyerIndex at h
    by_cases hs : B.buyerID = id
    · simp only [hs, if_true, Option.some.injEq] at h
      subst h
      exact ⟨B, by simp, hs, by simp [buyerOf, hs]⟩
    · simp only [hs, if_false, Option.map_eq_some'] at h
      obtain ⟨j, hj, rfl⟩ := h
      obtain ⟨B1, h1, h2, h3⟩ := buyerIndex_some hj
      refine ⟨B1, by simpa using h1, h2, ?_⟩
      simp only [buyerOf] at h3 ⊢
      simp [List.find?_cons, hs, h3]

theorem buyerIndex_none {id : Int} : ∀ {l : List Buyer}, buyerIndex id l = none →
    buyerOf l id = none ∧ ∀ B ∈ l, B.buyerID ≠ id
  | [], _ => by simp [buyerOf]
  | B :: rest, h => by
    unfold buyerIndex at h
    by_cases hs : B.buyerID = id
    · simp [hs] at h
    · simp only [hs, if_false, Option.map_eq_none'] at h
      obtain ⟨h1, h2⟩ := buyerIndex_none h
      constructor
      · simp only [buyerOf] at h1 ⊢
        simp [List.find?_cons, hs, h1]
      · intro B1 hm
        rcases List.mem_cons.mp hm with rfl | hm
        · exact hs
        · exact h2 B1 hm

/-- Replacing the cell the walk finds by a cell with the same id: the walk
finds the new cell, and cells with another id are found as before. -/
theorem sellerOf_set {id : Int} (S1 : Seller) (h1 : S1.sellerID = id) :
    ∀ {l : List Seller} {i : Nat}, sellerIndex id l = some i →
      sellerOf (l.set i S1) id = some S1 ∧
      ∀ id2, id2 ≠ id → sellerOf (l.set i S1) id2 = sellerOf l id2
  | [], i, h => by simp [sellerIndex] at h
  | S :: rest, i, h => by
    unfold sellerIndex at h
    by_cases hs : S.sellerID = id
    · simp only [hs, if_true, Option.some.injEq] at h
      subst h
      refine ⟨by simp [sellerOf, h1], ?_⟩
      intro id2 hne
      have e1 : ¬ S1.sellerID = id2 := by rw [h1]; exact fun e => hne e.symm
      have e2 : ¬ S.sellerID = id2 := by rw [hs]; exact fun e => hne e.symm
      simp [sellerOf, List.find?_cons, e1, e2]
    · simp only [hs, if_false, Option.map_eq_some'] at h
      obtain ⟨j, hj, rfl⟩ := h
      obtain ⟨g1, g2⟩ := sellerOf_set S1 h1 hj
      simp only [sellerOf] at g1 g2 ⊢
      refine ⟨by simp [List.find?_cons, hs, g1], ?_⟩
      intro id2 hne
      by_cases hs2 : S.sellerID = id2
      · simp [List.find?_cons, hs2]
      · simp [List.find?_cons, hs2, g2 id2 hne]

theorem buyerOf_set {id : Int} (B1 : Buyer) (h1 : B1.buyerID = id) :
    ∀ {l : List Buyer} {i : Nat}, buyerIndex id l = some i →
      buyerOf (l.set i B1) id = some B1 ∧
      ∀ id2, id2 ≠ id → buyerOf (l.set i B1) id2 = buyerOf l id2
  | [], i, h => by simp [buyerIndex] at h
  | B :: rest, i, h => by
    unfold buyerIndex at h
    by_cases hs : B.buyerID = id
    · simp only [hs, if_true, Option.some.injEq] at h
      subst h
      refine ⟨by simp [buyerOf, h1], ?_⟩
      intro id2 hne
      have e1 : ¬ B1.buyerID = id2 := by rw [h1]; exact fun e => hne e.symm
      have e2 : ¬ B.buyerID = id2 := by rw [hs]; exact fun e => hne e.symm
      simp [buyerOf, List.find?_cons, e1, e2]
    · simp only [hs, if_false, Option.map_eq_some'] at h
      obtain ⟨j, hj, rfl⟩ := h
      obtain ⟨g1, g2⟩ := buyerOf_set B1 h1 hj
      simp only [buyerOf] at g1 g2 ⊢
      refine ⟨by simp [List.find?_cons, hs, g1], ?_⟩
      intro id2 hne
      by_cases hs2 : B.buyerID = id2
      · simp [List.find?_cons, hs2]
      · simp [List.find?_cons, hs2, g2 id2 hne]

theorem findOrCreateSeller_spec (l : List Seller) (id : Int) (loading : Bool) (x y : Rat) :
    ∃ S, (findOrCreateSeller l id loading x y).1[(findOrCreateSeller l id loading x y).2]? =
        some S ∧ S.sellerID = id ∧
      sellerIndex id (findOrCreateSeller l id loading x y).1 =
        some (findOrCreateSeller l id loading x y).2 ∧
      ((sellerOf l id = some S ∧ (findOrCreateSeller l id loading x y).1 = l) ∨
       (sellerOf l id = none ∧ (∀ S1 ∈ l, S1.sellerID ≠ id) ∧
        (findOrCreateSeller l id loading x y).1 = S :: l ∧
        (findOrCreateSeller l id loading x y).2 = 0 ∧
        S = ⟨id, if loading then 0 else x, if loading then 0 else y, 0, 0, [], none⟩)) := by
  unfold findOrCreateSeller
  cases hi : sellerIndex id l with
  | some i =>
    obtain ⟨S, h1, h2, h3⟩ := sellerIndex_some hi
    exact ⟨S, h1, h2, hi, Or.inl ⟨h3, rfl⟩⟩
  | none =>
    obtain ⟨h1, h2⟩ := sellerIndex_none hi
    exact ⟨_, by simp, rfl, by simp [sellerIndex], Or.inr ⟨h1, h2, rfl, rfl, rfl⟩⟩

theorem findOrCreateBuyer_spec (l : List Buyer) (id : Int) :
    ∃ B, (findOrCreateBuyer l id).1[(findOrCreateBuyer l id).2]? = some B ∧ B.buyerID = id ∧
      buyerIndex id (findOrCreateBuyer l id).1 = some (findOrCreateBuyer l id).2 ∧
      ((buyerOf l id = some B ∧ (findOrCreateBuyer l id).1 = l) ∨
       (buyerOf l id = none ∧ (∀ B1 ∈ l, B1.buyerID ≠ id) ∧
        (findOrCreateBuyer l id).1 = B :: l ∧ (findOrCreateBuyer l id).2 = 0 ∧
        B = ⟨id, 0, 0, none⟩)) := by
  unfold findOrCreateBuyer
  cases hi : buyerIndex id l with
  | some i =>
    obtain ⟨B, h1, h2, h3⟩ := buyerIndex_some hi
    exact ⟨B, h1, h2, hi, Or.inl ⟨h3, rfl⟩⟩
  | none =>
    obtain ⟨h1, h2⟩ := buyerIndex_none hi
    exact ⟨_, by simp, rfl, by simp [buyerIndex], Or.inr ⟨h1, h2, rfl, rfl, rfl⟩⟩

theorem loadRec_lt {recs : List (Option Transaction)} {p : Nat} {tr : Transaction}
    (h : loadRec recs p = some tr) : p < recs.length := by
  unfold loadRec at h
  by_contra hc
  rw [List.getElem?_eq_none (by omega)] at h
  simp at h

theorem loadRec_set_eq {recs : List (Option Transaction)} {p : Nat} (tr : Transaction)
    (h : p < recs.length) : loadRec (recs.set p (some tr)) p = some tr := by
  simp [loadRec, h]

theorem loadRec_set_ne {recs : List (Option Transaction)} {p q : Nat} (tr : Option Transaction)
    (h : q ≠ p) : loadRec (recs.set p tr) q = loadRec recs q := by
  simp [loadRec, List.getElem?_set_ne (Ne.symm h)]

/-- A successful `insertTransaction` is the run of `insertFresh` after the
duplicate check has answered 0. -/
theorem insertTransaction_added {s s1 : Engine} {t : Nat} {x y : Rat} {tr : Transaction}
    (hrec : loadRec s.mem.recs t = some tr)
    (hins : insertTransaction s t x y = some (s1, InsertReport.added)) :
    findTransactionInBPTree s.mem.nodes s.globalTransactionTree tr.transactionID = some false ∧
      insertFresh s t tr x y = some s1 := by
  unfold insertTransaction at hins
  simp only [hrec] at hins
  cases hf : findTransactionInBPTree s.mem.nodes s.globalTransactionTree tr.transactionID with
  | none => simp [hf] at hins
  | some b =>
    cases b with
    | true =>
      simp only [hf] at hins
      cases hfr : freeRec s.mem.recs (some t) with
      | none => simp [hfr] at hins
      | some recs => simp [hfr] at hins
    | false =>
      simp only [hf, Option.map_eq_some'] at hins
      obtain ⟨s2, h1, h2⟩ := hins
      simp only [Prod.mk.injEq, and_true] at h2
      subst h2
      exact ⟨rfl, h1⟩

/-- What `insertFresh` does when it has a result: the seller and the buyer
found or created, the record with its price, the three roots, and the state
afterwards. -/
theorem insertFresh_some {s s1 : Engine} {t : Nat} {x y : Rat} {tr : Transaction}
    (hins : insertFresh s t tr x y = some s1) :
    ∃ seller buyer m g1 st1 bt1,
      (findOrCreateSeller s.seller_head tr.sellerID s.loading_mode x y).1[
        (findOrCreateSeller s.seller_head tr.sellerID s.loading_mode x y).2]? = some seller ∧
      (findOrCreateBuyer s.buyer_head tr.buyerID).1[
        (findOrCreateBuyer s.buyer_head tr.buyerID).2]? = some buyer ∧
      insertIntoTrees
        { s.mem with recs := s.mem.recs.set t (some
          { tr with
            pricePerKwh :=
              if tr.energyAmount ≤ 300 then seller.rateBelow300 else seller.rateAbove300,
            totalPrice := doubleMul tr.energyAmount
              (if tr.energyAmount ≤ 300 then seller.rateBelow300 else seller.rateAbove300) }) }
        s.globalTransactionTree seller.transactionTree buyer.transactionTree t =
          some (m, g1, st1, bt1) ∧
      s1 = { s with
        mem := m, globalTransactionTree := g1,
        seller_head :=
          (findOrCreateSeller s.seller_head tr.sellerID s.loading_mode x y).1.set
            (findOrCreateSeller s.seller_head tr.sellerID s.loading_mode x y).2
            (addRegularBuyer
              { seller with
                transactionTree := st1, numTransactions := seller.numTransactions + 1,
                totalRevenue := doubleAdd seller.totalRevenue (doubleMul tr.energyAmount
                  (if tr.energyAmount ≤ 300 then seller.rateBelow300 else seller.rateAbove300)) }
              { buyer with
                transactionTree := bt1, numTransactions := buyer.numTransactions + 1,
                totalEnergyPurchased := doubleAdd buyer.totalEnergyPurchased tr.energyAmount }),
        buyer_head :=
          (findOrCreateBuyer s.buyer_head tr.buyerID).1.set
            (findOrCreateBuyer s.buyer_head tr.buyerID).2
            { buyer with
              transactionTree := bt1, numTransactions := buyer.numTransactions + 1,
              totalEnergyPurchased := doubleAdd buyer.totalEnergyPurchased tr.energyAmount } } := by
  unfold insertFresh at hins
  simp only at hins
  cases hs : (findOrCreateSeller s.seller_head tr.sellerID s.loading_mode x y).1[
      (findOrCreateSeller s.seller_head tr.sellerID s.loading_mode x y).2]? with
  | none => simp [hs] at hins
  | some seller =>
    cases hb : (findOrCreateBuyer s.buyer_head tr.buyerID).1[
        (findOrCreateBuyer s.buyer_head tr.buyerID).2]? with
    | none => simp [hs, hb] at hins
    | some buyer =>
      simp only [hs, hb] at hins
      split at hins
      · simp at hins
      · rename_i m g1 st1 bt1 htrees
        simp only [Option.some.injEq] at hins
        exact ⟨seller, buyer, m, g1, st1, bt1, rfl, rfl, htrees, hins.symm⟩

theorem addRegularBuyer_fields (S : Seller) (B : Buyer) :
    (addRegularBuyer S B).sellerID = S.sellerID ∧
      (addRegularBuyer S B).rateBelow300 = S.rateBelow300 ∧
      (addRegularBuyer S B).rateAbove300 = S.rateAbove300 ∧
      (addRegularBuyer S B).numTransactions = S.numTransactions ∧
      (addRegularBuyer S B).totalRevenue = S.totalRevenue ∧
      (addRegularBuyer S B).transactionTree = S.transactionTree := by
  unfold addRegularBuyer
  split_ifs <;> simp

/-- Replacing a cell that a filter drops by another cell it drops does not
change what the filter keeps. -/
theorem filter_set_dropped {α : Type} (p : α → Bool) (a1 : α) (h1 : p a1 = false) :
    ∀ (l : List α) (i : Nat), (∀ a, l[i]? = some a → p a = false) →
      (l.set i a1).filter p = l.filter p
  | [], _, _ => rfl
  | a :: rest, 0, h => by
    have := h a (by simp)
    simp [List.filter_cons, h1, this]
  | a :: rest, i + 1, h => by
    have ih := filter_set_dropped p a1 h1 rest i (fun b hb => h b (by simpa using hb))
    simp [List.filter_cons, ih]

theorem sellers_filter_set (l : List Seller) (i : Nat) (S S1 : Seller) (id : Int)
    (h : l[i]? = some S) (hS : S.sellerID = id) (h1 : S1.sellerID = id) :
    (l.set i S1).filter (fun S => decide (S.sellerID ≠ id)) =
      l.filter (fun S => decide (S.sellerID ≠ id)) :=
  filter_set_dropped _ S1 (decide_eq_false (not_not.mpr h1)) l i (by
    intro a ha
    rw [h] at ha
    simp only [Option.some.injEq] at ha
    subst ha
    exact decide_eq_false (not_not.mpr hS))

theorem buyers_filter_set (l : List Buyer) (i : Nat) (B B1 : Buyer) (id : Int)
    (h : l[i]? = some B) (hB : B.buyerID = id) (h1 : B1.buyerID = id) :
    (l.set i B1).filter (fun B => decide (B.buyerID ≠ id)) =
      l.filter (fun B => decide (B.buyerID ≠ id)) :=
  filter_set_dropped _ B1 (decide_eq_false (not_not.mpr h1)) l i (by
    intro a ha
    rw [h] at ha
    simp only [Option.some.injEq] at ha
    subst ha
    exact decide_eq_false (not_not.mpr hB))

/-- The seller list after a successful `insertTransaction`: the cell of the
record's seller, and the cells of the other sellers. -/
theorem insertFresh_sellers {s s1 : Engine} {t : Nat} {x y : Rat} {tr : Transaction}
    (hins : insertFresh s t tr x y = some s1) :
    ∃ S0 S1 : Seller, sellerOf s1.seller_head tr.sellerID = some S1 ∧
      S0.sellerID = tr.sellerID ∧ S1.sellerID = tr.sellerID ∧
      (sellerOf s.seller_head tr.sellerID = some S0 ∨
        (sellerOf s.seller_head tr.sellerID = none ∧
          S0 = ⟨tr.sellerID, if s.loading_mode then 0 else x, if s.loading_mode then 0 else y,
            0, 0, [], none⟩)) ∧
      S1.rateBelow300 = S0.rateBelow300 ∧ S1.rateAbove300 = S0.rateAbove300 ∧
      S1.numTransactions = S0.numTransactions + 1 ∧
      S1.totalRevenue = doubleAdd S0.totalRevenue (doubleMul tr.energyAmount
        (if tr.energyAmount ≤ 300 then S0.rateBelow300 else S0.rateAbove300)) ∧
      s1.seller_head.filter (fun S => decide (S.sellerID ≠ tr.sellerID)) =
        s.seller_head.filter (fun S => decide (S.sellerID ≠ tr.sellerID)) := by
  obtain ⟨seller, buyer, m, g1, st1, bt1, hs, hb, htrees, rfl⟩ := insertFresh_some hins
  obtain ⟨S, q1, q2, q3, q4⟩ :=
    findOrCreateSeller_spec s.seller_head tr.sellerID s.loading_mode x y
  rw [hs] at q1
  simp only [Option.some.injEq] at q1
  subst q1
  obtain ⟨f1, f2, f3, f4, f5, f6⟩ := addRegularBuyer_fields
    { seller with
      transactionTree := st1, numTransactions := seller.numTransactions + 1,
      totalRevenue := doubleAdd seller.totalRevenue (doubleMul tr.energyAmount
        (if tr.energyAmount ≤ 300 then seller.rateBelow300 else seller.rateAbove300)) }
    { buyer with
      transactionTree := bt1, numTransactions := buyer.numTransactions + 1,
      totalEnergyPurchased := doubleAdd buyer.totalEnergyPurchased tr.energyAmount }
  have hset := (sellerOf_set _ (f1.trans q2) q3).1
  refine ⟨seller, _, hset, q2, f1.trans q2, ?_, f2, f3, f4, f5, ?_⟩
  · rcases q4 with ⟨h1, _⟩ | ⟨h1, _, _, _, h5⟩
    · exact Or.inl h1
    · exact Or.inr ⟨h1, h5⟩
  · refine (sellers_filter_set _ _ _ _ _ hs q2 (f1.trans q2)).trans ?_
    rcases q4 with ⟨_, h2⟩ | ⟨_, _, h3, _, _⟩
    · rw [h2]
    · rw [h3]
      simp [List.filter_cons, q2]

/-- The buyer list after a successful `insertTransaction`. -/
theorem insertFresh_buyers {s s1 : Engine} {t : Nat} {x y : Rat} {tr : Transaction}
    (hins : insertFresh s t tr x y = some s1) :
    ∃ B0 B1 : Buyer, buyerOf s1.buyer_head tr.buyerID = some B1 ∧
      B0.buyerID = tr.buyerID ∧ B1.buyerID = tr.buyerID ∧
      (buyerOf s.buyer_head tr.buyerID = some B0 ∨
        (buyerOf s.buyer_head tr.buyerID = none ∧ B0 = ⟨tr.buyerID, 0, 0, none⟩)) ∧
      B1.numTransactions = B0.numTransactions + 1 ∧
      B1.totalEnergyPurchased = doubleAdd B0.totalEnergyPurchased tr.energyAmount ∧
      s1.buyer_head.filter (fun B => decide (B.buyerID ≠ tr.buyerID)) =
        s.buyer_head.filter (fun B => decide (B.buyerID ≠ tr.buyerID)) := by
  obtain ⟨seller, buyer, m, g1, st1, bt1, hs, hb, htrees, rfl⟩ := insertFresh_some hins
  obtain ⟨B, q1, q2, q3, q4⟩ := findOrCreateBuyer_spec s.buyer_head tr.buyerID
  rw [hb] at q1
  simp only [Option.some.injEq] at q1
  subst q1
  have hset := (buyerOf_set
    { buyer with
      transactionTree := bt1, numTransactions := buyer.numTransactions + 1,
      totalEnergyPurchased := doubleAdd buyer.totalEnergyPurchased tr.energyAmount } q2 q3).1
  refine ⟨buyer, _, hset, q2, q2, ?_, rfl, rfl, ?_⟩
  · rcases q4 with ⟨h1, _⟩ | ⟨h1, _, _, _, h5⟩
    · exact Or.inl h1
    · exact Or.inr ⟨h1, h5⟩
  · refine (buyers_filter_set _ _ buyer
      { buyer with
        transactionTree := bt1, numTransactions := buyer.numTransactions + 1,
        totalEnergyPurchased := doubleAdd buyer.totalEnergyPurchased tr.energyAmount }
      _ hb q2 q2).trans ?_
    rcases q4 with ⟨_, h2⟩ | ⟨_, _, h3, _, _⟩
    · rw [h2]
    · rw [h3]
      simp [List.filter_cons, q2]

/-- The record after a successful `insertTransaction`: its price is the rate
of the seller found or created, chosen by the amount. -/
theorem insertFresh_record {s s1 : Engine} {t : Nat} {x y : Rat} {tr : Transaction}
    (hrec : loadRec s.mem.recs t = some tr) (hins : insertFresh s t tr x y = some s1) :
    ∃ S1 : Seller, sellerOf s1.seller_head tr.sellerID = some S1 ∧
      loadRec s1.mem.recs t = some
        { tr with
          pricePerKwh := if tr.energyAmount ≤ 300 then S1.rateBelow300 else S1.rateAbove300,
          totalPrice := doubleMul tr.energyAmount
            (if tr.energyAmount ≤ 300 then S1.rateBelow300 else S1.rateAbove300) } ∧
      ∀ q, q ≠ t → loadRec s1.mem.recs q = loadRec s.mem.recs q := by
  obtain ⟨seller, buyer, m, g1, st1, bt1, hs, hb, htrees, rfl⟩ := insertFresh_some hins
  obtain ⟨S, q1, q2, q3, q4⟩ :=
    findOrCreateSeller_spec s.seller_head tr.sellerID s.loading_mode x y
  rw [hs] at q1
  simp only [Option.some.injEq] at q1
  subst q1
  obtain ⟨f1, f2, f3, f4, f5, f6⟩ := addRegularBuyer_fields
    { seller with
      transactionTree := st1, numTransactions := seller.numTransactions + 1,
      totalRevenue := doubleAdd seller.totalRevenue (doubleMul tr.energyAmount
        (if tr.energyAmount ≤ 300 then seller.rateBelow300 else seller.rateAbove300)) }
    { buyer with
      transactionTree := bt1, numTransactions := buyer.numTransactions + 1,
      totalEnergyPurchased := doubleAdd buyer.totalEnergyPurchased tr.energyAmount }
  have hset := (sellerOf_set _ (f1.trans q2) q3).1
  have hrecs := insertIntoTrees_recs htrees
  refine ⟨_, hset, ?_, ?_⟩
  · show loadRec m.recs t = _
    rw [hrecs, f2, f3]
    exact loadRec_set_eq _ (loadRec_lt hrec)
  · intro q hq
    show loadRec m.recs q = _
    rw [hrecs]
    exact loadRec_set_ne _ hq

/-! ## Recording a transaction: aggregates and price -/

/-- C11, what the code does instead: the aggregates are doubles, and a sum of
doubles is rounded.  Buyer 20 buys 9007199254740992 units (2 ^ 53) from
seller 10 at the rate 1 and then 1 unit more.  The second call adds a record
of 1 unit with the total price 1 and raises both transaction counts to 2, but
the seller's revenue and the buyer's energy total are 9007199254740992 after
it as they were before it, not 9007199254740993. -/
theorem aggregates_absorb_small_amount :
    (recordAll [unitRateArgs 1 9007199254740992] Engine.empty).map (fun s =>
      ((sellerOf s.seller_head 10).map (fun S => (S.numTransactions, S.totalRevenue)),
        (buyerOf s.buyer_head 20).map (fun B => (B.numTransactions, B.totalEnergyPurchased)))) =
      some (some (1, 9007199254740992), some (1, 9007199254740992)) ∧
    (recordAll [unitRateArgs 1 9007199254740992, unitRateArgs 2 1] Engine.empty).map (fun s =>
      ((loadRec s.mem.recs 1).map (fun tr => (tr.energyAmount, tr.totalPrice)),
        (sellerOf s.seller_head 10).map (fun S => (S.numTransactions, S.totalRevenue)),
        (buyerOf s.buyer_head 20).map (fun B => (B.numTransactions, B.totalEnergyPurchased)))) =
      some (some (1, 1), some (2, 9007199254740992), some (2, 9007199254740992)) := by
  decide!

/-- C11 amended: a successful `insertTransaction` after which the totals
stored are finite doubles raises the transaction count of the record's seller
by 1 and makes its revenue the double nearest to the sum of the former
revenue and the record's total price; it raises the transaction count of the
record's buyer by 1 and makes its energy total the double nearest to the sum
of the former total and the record's amount (a seller or buyer created by the
call starts from 0); and it leaves the cells of all sellers and buyers with
another id as they were. -/
theorem insertTransaction_updates_aggregates (s s1 : Engine) (t : Nat) (x y : Rat)
    (tr : Transaction) (hrec : loadRec s.mem.recs t = some tr)
    (hins : insertTransaction s t x y = some (s1, InsertReport.added))
    (hfin : finiteTotals s1 = true) :
    ∃ (tr1 : Transaction) (S1 : Seller) (B1 : Buyer),
      loadRec s1.mem.recs t = some tr1 ∧ tr1.energyAmount = tr.energyAmount ∧
      sellerOf s1.seller_head tr.sellerID = some S1 ∧
      buyerOf s1.buyer_head tr.buyerID = some B1 ∧
      S1.numTransactions =
        ((sellerOf s.seller_head tr.sellerID).map (fun S => S.numTransactions)).getD 0 + 1 ∧
      S1.totalRevenue =
        doubleAdd (((sellerOf s.seller_head tr.sellerID).map (fun S => S.totalRevenue)).getD 0)
          tr1.totalPrice ∧
      B1.numTransactions =
        ((buyerOf s.buyer_head tr.buyerID).map (fun B => B.numTransactions)).getD 0 + 1 ∧
      B1.totalEnergyPurchased =
        doubleAdd
          (((buyerOf s.buyer_head tr.buyerID).map (fun B => B.totalEnergyPurchased)).getD 0)
          tr1.energyAmount ∧
      s1.seller_head.filter (fun S => decide (S.sellerID ≠ tr.sellerID)) =
        s.seller_head.filter (fun S => decide (S.sellerID ≠ tr.sellerID)) ∧
      s1.buyer_head.filter (fun B => decide (B.buyerID ≠ tr.buyerID)) =
        s.buyer_head.filter (fun B => decide (B.buyerID ≠ tr.buyerID)) := by
  have _ := hfin
  obtain ⟨_, hfresh⟩ := insertTransaction_added hrec hins
  obtain ⟨S0, S1, a1, a2, a3, a4, a5, a6, a7, a8, a9⟩ := insertFresh_sellers hfresh
  obtain ⟨B0, B1, b1, b2, b3, b4, b5, b6, b7⟩ := insertFresh_buyers hfresh
  obtain ⟨S2, c1, c2, _⟩ := insertFresh_record hrec hfresh
  rw [a1] at c1
  simp only [Option.some.injEq] at c1
  subst c1
  refine ⟨_, S1, B1, c2, rfl, a1, b1, ?_, ?_, ?_, ?_, a9, b7⟩
  · rcases a4 with h | ⟨h, rfl⟩
    · simp [h, a7]
    · simp [h, a7]
  · rcases a4 with h | ⟨h, rfl⟩
    · simp [h, a8, a5, a6]
    · simp [h, a8, a5, a6]
  · rcases b4 with h | ⟨h, rfl⟩
    · simp [h, b5]
    · simp [h, b5]
  · rcases b4 with h | ⟨h, rfl⟩
    · simp [h, b6]
    · simp [h, b6]

/-- Witness for C11 amended: the second of the two transactions of the
counterexample, of 1 unit, recorded when seller and buyer stand at
9007199254740992. -/
theorem insertTransaction_updates_aggregates_witness :
    loadRec
      (createTransaction (engineAfter [unitRateArgs 1 9007199254740992]) 2 20 10 1 0
        "2024-01-01 10:00:00").1.mem.recs 1 =
      some { transactionID := 2, buyerID := 20, sellerID := 10, energyAmount := 1,
             pricePerKwh := 0, totalPrice := 0, timestamp := "2024-01-01 10:00:00" } ∧
    insertTransaction
      (createTransaction (engineAfter [unitRateArgs 1 9007199254740992]) 2 20 10 1 0
        "2024-01-01 10:00:00").1 1 1 1 =
      some (engineAfter [unitRateArgs 1 9007199254740992, unitRateArgs 2 1],
        InsertReport.added) ∧
    finiteTotals (engineAfter [unitRateArgs 1 9007199254740992, unitRateArgs 2 1]) = true ∧
    ∃ (tr1 : Transaction) (S1 : Seller) (B1 : Buyer),
      loadRec (engineAfter [unitRateArgs 1 9007199254740992, unitRateArgs 2 1]).mem.recs 1 =
        some tr1 ∧
      tr1.energyAmount = 1 ∧
      sellerOf (engineAfter [unitRateArgs 1 9007199254740992, unitRateArgs 2 1]).seller_head 10 =
        some S1 ∧
      buyerOf (engineAfter [unitRateArgs 1 9007199254740992, unitRateArgs 2 1]).buyer_head 20 =
        some B1 ∧
      S1.numTransactions =
        ((sellerOf
          (createTransaction (engineAfter [unitRateArgs 1 9007199254740992]) 2 20 10 1 0
            "2024-01-01 10:00:00").1.seller_head 10).map (fun S => S.numTransactions)).getD 0 +
          1 ∧
      S1.totalRevenue =
        doubleAdd
          (((sellerOf
            (createTransaction (engineAfter [unitRateArgs 1 9007199254740992]) 2 20 10 1 0
              "2024-01-01 10:00:00").1.seller_head 10).map (fun S => S.totalRevenue)).getD 0)
          tr1.totalPrice ∧
      B1.numTransactions =
        ((buyerOf
          (createTransaction (engineAfter [unitRateArgs 1 9007199254740992]) 2 20 10 1 0
            "2024-01-01 10:00:00").1.buyer_head 20).map (fun B => B.numTransactions)).getD 0 +
          1 ∧
      B1.totalEnergyPurchased =
        doubleAdd
          (((buyerOf
            (createTransaction (engineAfter [unitRateArgs 1 9007199254740992]) 2 20 10 1 0
              "2024-01-01 10:00:00").1.buyer_head 20).map
              (fun B => B.totalEnergyPurchased)).getD 0)
          tr1.energyAmount ∧
      (engineAfter [unitRateArgs 1 9007199254740992, unitRateArgs 2 1]).seller_head.filter
          (fun S => decide (S.sellerID ≠ 10)) =
        (createTransaction (engineAfter [unitRateArgs 1 9007199254740992]) 2 20 10 1 0
          "2024-01-01 10:00:00").1.seller_head.filter (fun S => decide (S.sellerID ≠ 10)) ∧
      (engineAfter [unitRateArgs 1 9007199254740992, unitRateArgs 2 1]).buyer_head.filter
          (fun B => decide (B.buyerID ≠ 20)) =
        (createTransaction (engineAfter [unitRateArgs 1 9007199254740992]) 2 20 10 1 0
          "2024-01-01 10:00:00").1.buyer_head.filter (fun B => decide (B.buyerID ≠ 20)) :=
  ⟨by decide!, by decide!, by decide!,
    insertTransaction_updates_aggregates
      (createTransaction (engineAfter [unitRateArgs 1 9007199254740992]) 2 20 10 1 0
        "2024-01-01 10:00:00").1
      (engineAfter [unitRateArgs 1 9007199254740992, unitRateArgs 2 1]) 1 1 1
      { transactionID := 2, buyerID := 20, sellerID := 10, energyAmount := 1,
        pricePerKwh := 0, totalPrice := 0, timestamp := "2024-01-01 10:00:00" }
      (by decide!) (by decide!) (by decide!)⟩

/-- C13, what the code does instead: the total price is a double, and a
product of doubles is rounded.  Seller 10 has the rates typed as 0.10 and
0.08, stored as the doubles nearest to them; the rate below 300 units is
3602879701896397 / 2 ^ 55.  A transaction of 3 units gets this price; its
total price is 1351079888211149 / 2 ^ 52 (printed with 17 digits:
0.30000000000000004), which is not 3 times the price. -/
theorem total_is_rounded_product :
    (recordAll [tariffArgs 1 3] Engine.empty).map (fun e =>
      (loadRec e.mem.recs 0).map (fun r => (r.energyAmount, r.pricePerKwh, r.totalPrice))) =
      some (some (3, 3602879701896397 / 36028797018963968,
        1351079888211149 / 4503599627370496)) ∧
    (3 : Rat) * (3602879701896397 / 36028797018963968) ≠
      1351079888211149 / 4503599627370496 := by
  decide!

/-- C13 amended: a successful `insertTransaction` after which the totals
stored are finite doubles sets the record's price per unit to the seller's
`rateBelow300` when the amount is at most 300 and to its `rateAbove300`
otherwise, and the total price to the double nearest to the amount times
that price; the seller's rates are those it had before the call, or the
rates typed when the call creates it.  With the rates typed as 0.10 and 0.08
(stored as the doubles nearest to them) a transaction of 200 units gets the
price 0.10 and the total 20, one of 400 units the price 0.08 and the
total 32. -/
theorem insertTransaction_sets_price (s s1 : Engine) (t : Nat) (x y : Rat)
    (tr : Transaction) (hrec : loadRec s.mem.recs t = some tr)
    (hins : insertTransaction s t x y = some (s1, InsertReport.added))
    (hfin : finiteTotals s1 = true) :
    (∃ (S1 : Seller) (tr1 : Transaction),
      sellerOf s1.seller_head tr.sellerID = some S1 ∧
      (∀ S0, sellerOf s.seller_head tr.sellerID = some S0 →
        S1.rateBelow300 = S0.rateBelow300 ∧ S1.rateAbove300 = S0.rateAbove300) ∧
      (sellerOf s.seller_head tr.sellerID = none →
        S1.rateBelow300 = (if s.loading_mode then 0 else x) ∧
        S1.rateAbove300 = (if s.loading_mode then 0 else y)) ∧
      loadRec s1.mem.recs t = some tr1 ∧
      tr1.energyAmount = tr.energyAmount ∧
      tr1.pricePerKwh =
        (if tr.energyAmount ≤ 300 then S1.rateBelow300 else S1.rateAbove300) ∧
      tr1.totalPrice = doubleMul tr.energyAmount tr1.pricePerKwh) ∧
    (recordAll [tariffArgs 1 200, tariffArgs 2 400] Engine.empty).map
      (fun e => ((loadRec e.mem.recs 0).map (fun r => (r.energyAmount, r.pricePerKwh, r.totalPrice)),
        (loadRec e.mem.recs 1).map (fun r => (r.energyAmount, r.pricePerKwh, r.totalPrice)))) =
      some (some (200, roundDouble (1 / 10), 20), some (400, roundDouble (2 / 25), 32)) := by
  have _ := hfin
  refine ⟨?_, by decide!⟩
  obtain ⟨_, hfresh⟩ := insertTransaction_added hrec hins
  obtain ⟨S0, S1, a1, a2, a3, a4, a5, a6, a7, a8, a9⟩ := insertFresh_sellers hfresh
  obtain ⟨S2, c1, c2, _⟩ := insertFresh_record hrec hfresh
  rw [a1] at c1
  simp only [Option.some.injEq] at c1
  subst c1
  refine ⟨S1, _, a1, ?_, ?_, c2, rfl, rfl, rfl⟩
  · intro S hS
    rcases a4 with h | ⟨h, _⟩
    · rw [h] at hS
      simp only [Option.some.injEq] at hS
      subst hS
      exact ⟨a5, a6⟩
    · rw [h] at hS
      simp at hS
  · intro hnone
    rcases a4 with h | ⟨_, rfl⟩
    · rw [h] at hnone
      simp at hnone
    · exact ⟨a5, a6⟩

/-- Witness for C13 amended: the transaction of 3 units of the
counterexample, recorded in the empty engine. -/
theorem insertTransaction_sets_price_witness :
    loadRec (createTransaction Engine.empty 1 20 10 3 0 "2024-01-01 10:00:00").1.mem.recs 0 =
      some { transactionID := 1, buyerID := 20, sellerID := 10, energyAmount := 3,
             pricePerKwh := 0, totalPrice := 0, timestamp := "2024-01-01 10:00:00" } ∧
    insertTransaction (createTransaction Engine.empty 1 20 10 3 0 "2024-01-01 10:00:00").1 0
        (roundDouble (1 / 10)) (roundDouble (2 / 25)) =
      some (engineAfter [tariffArgs 1 3], InsertReport.added) ∧
    finiteTotals (engineAfter [tariffArgs 1 3]) = true ∧
    ((∃ (S1 : Seller) (tr1 : Transaction),
      sellerOf (engineAfter [tariffArgs 1 3]).seller_head 10 = some S1 ∧
      (∀ S0, sellerOf (createTransaction Engine.empty 1 20 10 3 0
          "2024-01-01 10:00:00").1.seller_head 10 = some S0 →
        S1.rateBelow300 = S0.rateBelow300 ∧ S1.rateAbove300 = S0.rateAbove300) ∧
      (sellerOf (createTransaction Engine.empty 1 20 10 3 0
          "2024-01-01 10:00:00").1.seller_head 10 = none →
        S1.rateBelow300 =
          (if (createTransaction Engine.empty 1 20 10 3 0
            "2024-01-01 10:00:00").1.loading_mode then 0 else roundDouble (1 / 10)) ∧
        S1.rateAbove300 =
          (if (createTransaction Engine.empty 1 20 10 3 0
            "2024-01-01 10:00:00").1.loading_mode then 0 else roundDouble (2 / 25))) ∧
      loadRec (engineAfter [tariffArgs 1 3]).mem.recs 0 = some tr1 ∧
      tr1.energyAmount = 3 ∧
      tr1.pricePerKwh = (if (3 : Rat) ≤ 300 then S1.rateBelow300 else S1.rateAbove300) ∧
      tr1.totalPrice = doubleMul 3 tr1.pricePerKwh) ∧
    (recordAll [tariffArgs 1 200, tariffArgs 2 400] Engine.empty).map
      (fun e => ((loadRec e.mem.recs 0).map (fun r => (r.energyAmount, r.pricePerKwh, r.totalPrice)),
        (loadRec e.mem.recs 1).map (fun r => (r.energyAmount, r.pricePerKwh, r.totalPrice)))) =
      some (some (200, roundDouble (1 / 10), 20), some (400, roundDouble (2 / 25), 32))) :=
  ⟨by decide!, by decide!, by decide!,
    insertTransaction_sets_price (createTransaction Engine.empty 1 20 10 3 0
        "2024-01-01 10:00:00").1 (engineAfter [tariffArgs 1 3]) 0
      (roundDouble (1 / 10)) (roundDouble (2 / 25))
      { transactionID := 1, buyerID := 20, sellerID := 10, energyAmount := 3,
        pricePerKwh := 0, totalPrice := 0, timestamp := "2024-01-01 10:00:00" }
      (by decide!) (by decide!) (by decide!)⟩

/-! ## The height of a concrete tree -/

/-- C16: after inserting the ids 5, 3, 8, 1, 9 in this order into the empty
tree the walk from the root down to a leaf passes 2 node levels, and every
one of the three leaves is at level 2. -/
theorem height_after_five_inserts :
    (treeOfIds [5, 3, 8, 1, 9]).bind (fun s => treeHeight s.1.nodes s.2) = some 2 ∧
    (treeOfIds [5, 3, 8, 1, 9]).bind
      (fun s => s.2.bind (fun r => leafLevels s.1.nodes s.1.nodes.length r)) =
        some [2, 2, 2] := by
  decide!

/-! ## The merge sort on record pointers -/

theorem energyOf_of_load {recs : List (Option Transaction)} {p : Nat} {tr : Transaction}
    (h : loadRec recs p = some tr) : energyOf recs p = tr.energyAmount := by
  simp [energyOf, h]

/-- The merge loops on two runs of live records: the values written are the
two runs together; when both runs ascend so does what is written, and records
of one amount keep their order, those of the left run first. -/
theorem mergeLoop_spec (recs : List (Option Transaction)) :
    ∀ (fuel : Nat) (L R : List Nat), L.length + R.length ≤ fuel →
      (∀ p ∈ L, (loadRec recs p).isSome) → (∀ p ∈ R, (loadRec recs p).isSome) →
      ∃ out, mergeLoop recs fuel L R = some out ∧ out.Perm (L ++ R) ∧
        (L.Pairwise (fun a b => energyOf recs a ≤ energyOf recs b) →
         R.Pairwise (fun a b => energyOf recs a ≤ energyOf recs b) →
          out.Pairwise (fun a b => energyOf recs a ≤ energyOf recs b) ∧
          ∀ v : Rat, out.filter (fun p => decide (energyOf recs p = v)) =
            L.filter (fun p => decide (energyOf recs p = v)) ++
              R.filter (fun p => decide (energyOf recs p = v))) := by
  intro fuel
  induction fuel with
  | zero =>
    intro L R hlen _ _
    have hL : L = [] := List.eq_nil_of_length_eq_zero (by omega)
    have hR : R = [] := List.eq_nil_of_length_eq_zero (by omega)
    subst hL hR
    exact ⟨[], rfl, by simp, fun _ _ => ⟨List.Pairwise.nil, fun _ => rfl⟩⟩
  | succ fuel ih =>
    intro L R hlen hL hR
    cases L with
    | nil =>
      exact ⟨R, by cases R <;> rfl, by simp, fun _ h => ⟨h, fun _ => by simp⟩⟩
    | cons a L =>
      cases R with
      | nil => exact ⟨a :: L, rfl, by simp, fun h _ => ⟨h, fun _ => by simp⟩⟩
      | cons b R =>
        obtain ⟨ta, hta⟩ := Option.isSome_iff_exists.mp (hL a (by simp))
        obtain ⟨tb, htb⟩ := Option.isSome_iff_exists.mp (hR b (by simp))
        have ea := energyOf_of_load hta
        have eb := energyOf_of_load htb
        simp only [List.length_cons] at hlen
        by_cases hle : ta.energyAmount ≤ tb.energyAmount
        · obtain ⟨out, h1, h2, h3⟩ := ih L (b :: R) (by simp only [List.length_cons]; omega)
            (fun p hp => hL p (by simp [hp])) hR
          refine ⟨a :: out, by simp [mergeLoop, hta, htb, hle, h1], ?_, ?_⟩
          · simpa using h2
          · intro sL sR
            obtain ⟨sL1, sL2⟩ := List.pairwise_cons.mp sL
            obtain ⟨g1, g2⟩ := h3 sL2 sR
            obtain ⟨sR1, _⟩ := List.pairwise_cons.mp sR
            refine ⟨List.pairwise_cons.mpr ⟨?_, g1⟩, ?_⟩
            · intro q hq
              rcases List.mem_append.mp ((h2.mem_iff).mp hq) with hq | hq
              · exact sL1 q hq
              · rcases List.mem_cons.mp hq with rfl | hq
                · rw [ea, eb]
                  exact hle
                · have := sR1 q hq
                  rw [ea]
                  rw [eb] at this
                  exact le_trans hle this
            · intro v
              simp only [List.filter_cons, g2 v]
              split <;> simp
        · obtain ⟨out, h1, h2, h3⟩ := ih (a :: L) R (by simp only [List.length_cons]; omega)
            hL (fun p hp => hR p (by simp [hp]))
          have hlt : tb.energyAmount < ta.energyAmount := not_le.mp hle
          refine ⟨b :: out, by simp [mergeLoop, hta, htb, hle, h1], ?_, ?_⟩
          · refine (List.Perm.cons b h2).trans ?_
            simpa using (@List.perm_middle _ b (a :: L) R).symm
          · intro sL sR
            obtain ⟨sR1, sR2⟩ := List.pairwise_cons.mp sR
            obtain ⟨g1, g2⟩ := h3 sL sR2
            obtain ⟨sL1, _⟩ := List.pairwise_cons.mp sL
            refine ⟨List.pairwise_cons.mpr ⟨?_, g1⟩, ?_⟩
            · intro q hq
              rcases List.mem_append.mp ((h2.mem_iff).mp hq) with hq | hq
              · rcases List.mem_cons.mp hq with rfl | hq
                · rw [ea, eb]
                  exact le_of_lt hlt
                · have := sL1 q hq
                  rw [eb]
                  rw [ea] at this
                  exact le_trans (le_of_lt hlt) this
              · exact sR1 q hq
            · intro v
              by_cases hv : energyOf recs b = v
              · have hnone : (a :: L).filter (fun p => decide (energyOf recs p = v)) = [] := by
                  rw [List.filter_eq_nil_iff]
                  intro q hq
                  have hge : energyOf recs a ≤ energyOf recs q := by
                    rcases List.mem_cons.mp hq with rfl | hq
                    · exact le_refl _
                    · exact sL1 q hq
                  have : energyOf recs q ≠ v := by
                    intro hc
                    rw [hc, ← hv, ea, eb] at hge
                    exact absurd hge (not_le.mpr hlt)
                  simpa using this
                rw [List.filter_cons, g2 v, hnone]
                simp [List.filter_cons, hv]
              · rw [List.filter_cons, g2 v]
                simp [List.filter_cons, hv]

theorem copyRun_spec (xs : List Nat) : ∀ (pre done post : List Nat),
    copyRun (pre ++ done ++ xs ++ post) (pre.length : Int) xs.length done.length = some xs := by
  induction xs with
  | nil => intro _ _ _; rfl
  | cons x xs ih =>
    intro pre done post
    have hidx : ((pre.length : Int) + (done.length : Nat)).toNat = (pre ++ done).length := by
      simp only [List.length_append]
      omega
    have h0 : (0 : Int) ≤ (pre.length : Int) + (done.length : Nat) := by omega
    have hget : (pre ++ done ++ x :: xs ++ post)[(pre ++ done).length]? = some x := by
      rw [List.append_assoc (pre ++ done), List.getElem?_append_right (le_refl _)]
      simp
    have := ih pre (done ++ [x]) post
    simp only [List.length_append, List.length_singleton, List.append_assoc,
      List.singleton_append] at this
    simp only [copyRun, List.length_cons, h0, if_true, hidx, hget]
    simp only [List.append_assoc, List.cons_append] at this ⊢
    rw [this]
    rfl

theorem writeRun_spec : ∀ (ys xs pre post : List Nat), ys.length = xs.length →
    writeRun (pre ++ xs ++ post) (pre.length : Int) ys = some (pre ++ ys ++ post) := by
  intro ys
  induction ys with
  | nil =>
    intro xs pre post h
    have : xs = [] := List.eq_nil_of_length_eq_zero (by simpa using h.symm)
    subst this
    rfl
  | cons y ys ih =>
    intro xs pre post h
    cases xs with
    | nil => simp at h
    | cons x xs =>
      simp only [List.length_cons, Nat.succ.injEq, add_left_inj] at h
      have h0 : (0 : Int) ≤ (pre.length : Int) := by omega
      have hlt : (pre.length : Int).toNat < (pre ++ x :: xs ++ post).length := by
        simp only [List.length_append, List.length_cons]
        omega
      have hset : (pre ++ x :: xs ++ post).set (pre.length : Int).toNat y =
          (pre ++ [y]) ++ xs ++ post := by
        have e : (pre.length : Int).toNat = pre.length := by omega
        rw [e, List.append_assoc pre, List.set_append_right _ _ (le_refl _)]
        simp
      have := ih xs (pre ++ [y]) post h
      simp only [List.length_append, List.length_singleton, Nat.cast_add, Nat.cast_one] at this
      simp only [writeRun, h0, hlt, and_self, if_true, hset, this]
      simp

/-- The function `merge` on two adjacent runs of the array: the runs are
replaced by what the merge loops write, the rest of the array stays. -/
theorem merge_spec (recs : List (Option Transaction)) (pre ys1 ys2 post : List Nat)
    (l m r : Int) (hl : l = pre.length) (hm : m = (pre.length : Int) + ys1.length - 1)
    (hr : r = (pre.length : Int) + ys1.length + ys2.length - 1)
    (h1 : ∀ p ∈ ys1, (loadRec recs p).isSome) (h2 : ∀ p ∈ ys2, (loadRec recs p).isSome) :
    ∃ out, merge recs (pre ++ ys1 ++ ys2 ++ post) l m r = some (pre ++ out ++ post) ∧
      out.Perm (ys1 ++ ys2) ∧
      (ys1.Pairwise (fun a b => energyOf recs a ≤ energyOf recs b) →
       ys2.Pairwise (fun a b => energyOf recs a ≤ energyOf recs b) →
        out.Pairwise (fun a b => energyOf recs a ≤ energyOf recs b) ∧
        ∀ v : Rat, out.filter (fun p => decide (energyOf recs p = v)) =
          ys1.filter (fun p => decide (energyOf recs p = v)) ++
            ys2.filter (fun p => decide (energyOf recs p = v))) := by
  obtain ⟨out, g1, g2, g3⟩ := mergeLoop_spec recs (ys1.length + ys2.length) ys1 ys2
    (le_refl _) h1 h2
  refine ⟨out, ?_, g2, g3⟩
  have e1 : (m - l + 1).toNat = ys1.length := by omega
  have e2 : (r - m).toNat = ys2.length := by omega
  have c1 : copyRun (pre ++ ys1 ++ ys2 ++ post) l ys1.length 0 = some ys1 := by
    have := copyRun_spec ys1 pre [] (ys2 ++ post)
    simp only [List.append_nil, List.length_nil, List.append_assoc] at this ⊢
    rw [hl]
    exact this
  have c2 : copyRun (pre ++ ys1 ++ ys2 ++ post) (m + 1) ys2.length 0 = some ys2 := by
    have := copyRun_spec ys2 (pre ++ ys1) [] post
    simp only [List.append_nil, List.length_nil, List.length_append, Nat.cast_add] at this
    have e : m + 1 = (pre.length : Int) + ys1.length := by omega
    rw [e]
    exact this
  have hlen : out.length = (ys1 ++ ys2).length := g2.length_eq
  have w := writeRun_spec out (ys1 ++ ys2) pre post hlen
  simp only [merge, e1, e2, c1, c2, g1]
  rw [hl]
  simpa [List.append_assoc] using w

/-- The recursion of `mergeSort` on a segment of live records: the segment
is replaced by a permutation of itself that ascends by amount and keeps
records of one amount in their order; the rest of the array stays. -/
theorem mergeSortFuel_spec (recs : List (Option Transaction)) :
    ∀ (fuel : Nat) (xs pre post : List Nat) (l r : Int), xs.length ≤ fuel + 1 →
      l = pre.length → r = (pre.length : Int) + xs.length - 1 →
      (∀ p ∈ xs, (loadRec recs p).isSome) →
      ∃ ys, mergeSortFuel recs (fuel + 1) (pre ++ xs ++ post) l r = some (pre ++ ys ++ post) ∧
        ys.Perm xs ∧ ys.Pairwise (fun a b => energyOf recs a ≤ energyOf recs b) ∧
        ∀ v : Rat, ys.filter (fun p => decide (energyOf recs p = v)) =
          xs.filter (fun p => decide (energyOf recs p = v)) := by
  have small : ∀ (fuel : Nat) (xs pre post : List Nat) (l r : Int), xs.length ≤ 1 →
      l = pre.length → r = (pre.length : Int) + xs.length - 1 →
      ∃ ys, mergeSortFuel recs (fuel + 1) (pre ++ xs ++ post) l r = some (pre ++ ys ++ post) ∧
        ys.Perm xs ∧ ys.Pairwise (fun a b => energyOf recs a ≤ energyOf recs b) ∧
        ∀ v : Rat, ys.filter (fun p => decide (energyOf recs p = v)) =
          xs.filter (fun p => decide (energyOf recs p = v)) := by
    intro fuel xs pre post l r hx hl hr
    have hnot : ¬ l < r := by omega
    refine ⟨xs, by simp [mergeSortFuel, hnot], List.Perm.refl _, ?_, fun _ => rfl⟩
    match xs, hx with
    | [], _ => exact List.Pairwise.nil
    | [a], _ => exact List.pairwise_singleton _ _
  intro fuel
  induction fuel with
  | zero =>
    intro xs pre post l r hx hl hr _
    exact small 0 xs pre post l r (by omega) hl hr
  | succ fuel ih =>
    intro xs pre post l r hx hl hr hlive
    by_cases hsmall : xs.length ≤ 1
    · exact small (fuel + 1) xs pre post l r hsmall hl hr
    · have hn : 2 ≤ xs.length := by omega
      have hlt : l < r := by omega
      have hdiv : (r - l).tdiv 2 = (((xs.length - 1) / 2 : Nat) : Int) := by
        rw [Int.tdiv_eq_ediv (by omega) (by omega)]
        omega
      have hk1 : (xs.length - 1) / 2 + 1 ≤ xs.length - 1 := by omega
      have hsplit : xs.take ((xs.length - 1) / 2 + 1) ++ xs.drop ((xs.length - 1) / 2 + 1) = xs :=
        List.take_append_drop _ _
      have hlen1 : (xs.take ((xs.length - 1) / 2 + 1)).length = (xs.length - 1) / 2 + 1 := by
        rw [List.length_take]
        omega
      have hlen2 : (xs.drop ((xs.length - 1) / 2 + 1)).length =
          xs.length - ((xs.length - 1) / 2 + 1) := List.length_drop _ _
      obtain ⟨ys1, a1, a2, a3, a4⟩ := ih (xs.take ((xs.length - 1) / 2 + 1)) pre
        (xs.drop ((xs.length - 1) / 2 + 1) ++ post) l (l + (r - l).tdiv 2)
        (by rw [hlen1]; omega) hl (by rw [hlen1, hdiv, hl]; push_cast; omega)
        (fun p hp => hlive p (List.mem_of_mem_take hp))
      have hy1 : ys1.length = (xs.length - 1) / 2 + 1 := by rw [a2.length_eq, hlen1]
      obtain ⟨ys2, b1, b2, b3, b4⟩ := ih (xs.drop ((xs.length - 1) / 2 + 1)) (pre ++ ys1) post
        (l + (r - l).tdiv 2 + 1) r (by rw [hlen2]; omega)
        (by rw [hdiv, hl, List.length_append, hy1]; push_cast; omega)
        (by rw [hlen2, hr, List.length_append, hy1]; push_cast; omega)
        (fun p hp => hlive p (List.mem_of_mem_drop hp))
      obtain ⟨out, c1, c2, c3⟩ := merge_spec recs pre ys1 ys2 post l (l + (r - l).tdiv 2) r hl
        (by rw [hdiv, hl, hy1]; push_cast; omega)
        (by rw [hr, hy1, b2.length_eq, hlen2]; push_cast; omega)
        (fun p hp => hlive p (List.mem_of_mem_take ((a2.mem_iff).mp hp)))
        (fun p hp => hlive p (List.mem_of_mem_drop ((b2.mem_iff).mp hp)))
      obtain ⟨c4, c5⟩ := c3 a3 b3
      refine ⟨out, ?_, ?_, c4, ?_⟩
      · have e0 : pre ++ xs ++ post = pre ++ xs.take ((xs.length - 1) / 2 + 1) ++
            (xs.drop ((xs.length - 1) / 2 + 1) ++ post) := by
          have := congrArg (fun z => pre ++ z ++ post) hsplit.symm
          simp only [List.append_assoc] at this ⊢
          exact this
        rw [mergeSortFuel, if_pos hlt, e0, a1]
        simp only
        rw [← List.append_assoc, b1]
        simp only
        exact c1
      · refine c2.trans ?_
        rw [← hsplit]
        exact List.Perm.append a2 b2
      · intro v
        rw [c5 v, a4 v, b4 v, ← List.filter_append, hsplit]

/-- The function `mergeSort` on a whole array of live records. -/
theorem mergeSort_spec (recs : List (Option Transaction)) (arr : List Nat)
    (hlive : ∀ p ∈ arr, (loadRec recs p).isSome) :
    ∃ out, mergeSort recs arr 0 ((arr.length : Int) - 1) = some out ∧ out.Perm arr ∧
      out.Pairwise (fun a b => energyOf recs a ≤ energyOf recs b) ∧
      ∀ v : Rat, out.filter (fun p => decide (energyOf recs p = v)) =
        arr.filter (fun p => decide (energyOf recs p = v)) := by
  obtain ⟨ys, h1, h2, h3, h4⟩ := mergeSortFuel_spec recs ((arr.length : Int) - 1 - 0).toNat arr
    [] [] 0 ((arr.length : Int) - 1) (by omega) (by simp) (by simp) hlive
  refine ⟨ys, ?_, h2, h3, h4⟩
  simpa [mergeSort] using h1

/-! ## Scans of a tree built by insertions -/

theorem added_snd (m : Store) (ts : List Nat) (hlive : ∀ t ∈ ts, (idOf m t).isSome) :
    (ts.filterMap (fun t => (idOf m t).map (fun k => (k, t)))).map Prod.snd = ts := by
  induction ts with
  | nil => rfl
  | cons t ts ih =>
    obtain ⟨k, hk⟩ := Option.isSome_iff_exists.mp (hlive t (by simp))
    simp [List.filterMap_cons, hk, ih (fun x hx => hlive x (by simp [hx]))]

theorem filterMap_idOf_snd (m : Store) : ∀ es : List (Int × Nat),
    (∀ e ∈ es, idOf m e.2 = some e.1) → (es.map Prod.snd).filterMap (idOf m) = es.map Prod.fst
  | [], _ => rfl
  | e :: es, h => by
    have := filterMap_idOf_snd m es (fun x hx => h x (by simp [hx]))
    simp [List.filterMap_cons, h e (by simp), this]

theorem idOf_isSome_iff (m : Store) (t : Nat) :
    (idOf m t).isSome = (loadRec m.recs t).isSome := by
  simp [idOf]

/-- The leaf chain of a tree built from the empty tree by inserting live
records with distinct ids: the record scan reads the inserted pointers, each
once, in strictly ascending order of their ids, and the key scan reads these
ids. -/
theorem insertAll_scan (m : Store) (ts : List Nat) (hlive : ∀ t ∈ ts, (idOf m t).isSome)
    (hdist : (ts.map (idOf m)).Nodup) :
    ∃ (m1 : Store) (root : Option Nat) (ps : List Nat),
      insertAll ts (m, none) = some (m1, root) ∧ m1.recs = m.recs ∧
      scanRecs m1.nodes root = some (ps.map some) ∧
      scanKeys m1.nodes root = some (ps.filterMap (idOf m)) ∧
      (ps.filterMap (idOf m)).Pairwise (· < ·) ∧ ps.Perm ts := by
  obtain ⟨m1, root1, es1, h1, h2, h3, h4⟩ := insertAll_empty m ts hlive hdist
  cases root1 with
  | none =>
    simp only [TreeAt] at h3
    subst h3
    have hnil : ts = [] := by
      have := added_snd m ts hlive
      rw [← List.Perm.nil_eq h4] at this
      exact this.symm
    subst hnil
    exact ⟨m1, none, [], h1, h2, rfl, rfl, List.Pairwise.nil, List.Perm.refl _⟩
  | some r =>
    obtain ⟨T, rfl, hr, ho, hn, hlink, hperm⟩ := h3
    have hent : ∀ e ∈ T.entries, idOf m e.2 = some e.1 := fun e he =>
      (mem_added.mp ((h4.mem_iff).mp ((hperm.mem_iff).mp he))).2
    have hks := filterMap_idOf_snd m T.entries hent
    refine ⟨m1, some T.addr, T.entries.map Prod.snd, h1, h2, ?_, ?_, ?_, ?_⟩
    · rw [scanRecs_of_rep hr hn hlink, List.map_map]
      rfl
    · rw [scan_of_rep hr hn hlink, hks]
    · rw [hks]
      exact ho.sorted
    · have := (hperm.trans h4).map Prod.snd
      rw [added_snd m ts hlive] at this
      exact this

/-! ## The energy-range query -/

/-- The collection loop on live records keeps the pointers whose amount lies
within the bounds, in the order it meets them. -/
theorem collectByEnergy_spec (recs : List (Option Transaction)) (lo hi : Rat) :
    ∀ ps : List Nat, (∀ p ∈ ps, (loadRec recs p).isSome) →
      collectByEnergy recs lo hi (ps.map some) =
        some (ps.filter (fun p => decide (lo ≤ energyOf recs p ∧ energyOf recs p ≤ hi)))
  | [], _ => rfl
  | p :: ps, h => by
    obtain ⟨tr, htr⟩ := Option.isSome_iff_exists.mp (h p (by simp))
    have ih := collectByEnergy_spec recs lo hi ps (fun q hq => h q (by simp [hq]))
    have e := energyOf_of_load htr
    by_cases hc : lo ≤ tr.energyAmount ∧ tr.energyAmount ≤ hi
    · simp [collectByEnergy, htr, ih, List.filter_cons, e, hc]
    · simp [collectByEnergy, htr, ih, List.filter_cons, e, hc]

theorem energyMatches_of_scan {m1 : Store} {root : Option Nat} {ps : List Nat}
    (hs : scanRecs m1.nodes root = some (ps.map some))
    (hl : ∀ p ∈ ps, (loadRec m1.recs p).isSome) (lo hi : Rat) :
    energyMatches m1 root lo hi =
      some (ps.filter (fun p => decide (lo ≤ energyOf m1.recs p ∧ energyOf m1.recs p ≤ hi))) := by
  simp only [energyMatches, hs]
  exact collectByEnergy_spec m1.recs lo hi ps hl

/-- C17: for every tree built from the empty tree by inserting live records
with distinct ids and every pair of bounds, the array collected by the
energy-range scan holds exactly the records of the leaf chain whose amount
`e` satisfies `minEnergy ≤ e ≤ maxEnergy`, in the order of the leaf chain,
which is the ascending order of the ids. -/
theorem energy_range_collects (m : Store) (ts : List Nat) (minEnergy maxEnergy : Rat)
    (hlive : ∀ t ∈ ts, (idOf m t).isSome) (hdist : (ts.map (idOf m)).Nodup) :
    ∃ (m1 : Store) (root : Option Nat) (ps : List Nat),
      insertAll ts (m, none) = some (m1, root) ∧
      scanRecs m1.nodes root = some (ps.map some) ∧
      (ps.filterMap (idOf m1)).Pairwise (· < ·) ∧ ps.Perm ts ∧
      energyMatches m1 root minEnergy maxEnergy =
        some (ps.filter (fun p =>
          decide (minEnergy ≤ energyOf m1.recs p ∧ energyOf m1.recs p ≤ maxEnergy))) := by
  obtain ⟨m1, root, ps, h1, h2, h3, h4, h5, h6⟩ := insertAll_scan m ts hlive hdist
  have hid : idOf m1 = idOf m := by
    funext t
    simp only [idOf, h2]
  have hl : ∀ p ∈ ps, (loadRec m1.recs p).isSome := by
    intro p hp
    rw [h2, ← idOf_isSome_iff]
    exact hlive p ((h6.mem_iff).mp hp)
  exact ⟨m1, root, ps, h1, h3, by rw [hid]; exact h5, h6,
    energyMatches_of_scan h3 hl minEnergy maxEnergy⟩

/-- Witness for C17: seven records with the amounts 5, 3, 8, 3, 1, 5, 3 and
the bounds 3 and 5. -/
theorem energy_range_collects_witness :
    (∀ t ∈ [0, 1, 2, 3, 4, 5, 6], (idOf (storeWithEnergies [5, 3, 8, 3, 1, 5, 3]) t).isSome) ∧
    ([0, 1, 2, 3, 4, 5, 6].map (idOf (storeWithEnergies [5, 3, 8, 3, 1, 5, 3]))).Nodup ∧
    ∃ (m1 : Store) (root : Option Nat) (ps : List Nat),
      insertAll [0, 1, 2, 3, 4, 5, 6] (storeWithEnergies [5, 3, 8, 3, 1, 5, 3], none) =
        some (m1, root) ∧
      scanRecs m1.nodes root = some (ps.map some) ∧
      (ps.filterMap (idOf m1)).Pairwise (· < ·) ∧ ps.Perm [0, 1, 2, 3, 4, 5, 6] ∧
      energyMatches m1 root 3 5 =
        some (ps.filter (fun p =>
          decide ((3 : Rat) ≤ energyOf m1.recs p ∧ energyOf m1.recs p ≤ 5))) :=
  ⟨by decide, by decide,
    energy_range_collects (storeWithEnergies [5, 3, 8, 3, 1, 5, 3]) [0, 1, 2, 3, 4, 5, 6] 3 5
      (by decide) (by decide)⟩

/-- C18: on every array of live records `mergeSort` over the range
`0..n-1` returns, and leaves a permutation of the array that ascends (not
strictly) by `energyAmount`; called with `l = 0`, `r = -1` it leaves the
array as it is. -/
theorem mergeSort_sorted_perm (recs : List (Option Transaction)) (arr : List Nat)
    (hlive : ∀ p ∈ arr, (loadRec recs p).isSome) :
    (∃ out, mergeSort recs arr 0 ((arr.length : Int) - 1) = some out ∧ out.Perm arr ∧
      (out.map (energyOf recs)).Pairwise (· ≤ ·)) ∧
    mergeSort recs arr 0 (-1) = some arr := by
  obtain ⟨out, h1, h2, h3, _⟩ := mergeSort_spec recs arr hlive
  exact ⟨⟨out, h1, h2, List.pairwise_map.mpr h3⟩, by simp [mergeSort, mergeSortFuel]⟩

/-- Witness for C18: seven records with the amounts 5, 3, 8, 3, 1, 5, 3,
the array holding them in reverse order. -/
theorem mergeSort_sorted_perm_witness :
    (∀ p ∈ [6, 5, 4, 3, 2, 1, 0],
      (loadRec (storeWithEnergies [5, 3, 8, 3, 1, 5, 3]).recs p).isSome) ∧
    ((∃ out, mergeSort (storeWithEnergies [5, 3, 8, 3, 1, 5, 3]).recs [6, 5, 4, 3, 2, 1, 0] 0
        ((([6, 5, 4, 3, 2, 1, 0] : List Nat).length : Int) - 1) = some out ∧
      out.Perm [6, 5, 4, 3, 2, 1, 0] ∧
      (out.map (energyOf (storeWithEnergies [5, 3, 8, 3, 1, 5, 3]).recs)).Pairwise (· ≤ ·)) ∧
    mergeSort (storeWithEnergies [5, 3, 8, 3, 1, 5, 3]).recs [6, 5, 4, 3, 2, 1, 0] 0 (-1) =
      some [6, 5, 4, 3, 2, 1, 0]) :=
  ⟨by decide, mergeSort_sorted_perm (storeWithEnergies [5, 3, 8, 3, 1, 5, 3]).recs
    [6, 5, 4, 3, 2, 1, 0] (by decide)⟩

/-- C19: `mergeSort` is stable: on every array of live records the records
of any one amount stand in the output in the order they have in the input.
Hence in the result of the energy-range query on a tree built by inserting
live records with distinct ids, the records of any one amount stand in
strictly ascending order of their ids. -/
theorem mergeSort_stable (recs : List (Option Transaction)) (arr : List Nat)
    (hlive : ∀ p ∈ arr, (loadRec recs p).isSome)
    (m : Store) (ts : List Nat) (minEnergy maxEnergy : Rat)
    (hlive2 : ∀ t ∈ ts, (idOf m t).isSome) (hdist : (ts.map (idOf m)).Nodup) :
    (∃ out, mergeSort recs arr 0 ((arr.length : Int) - 1) = some out ∧
      ∀ v : Rat, out.filter (fun p => decide (energyOf recs p = v)) =
        arr.filter (fun p => decide (energyOf recs p = v))) ∧
    (∃ (m1 : Store) (root : Option Nat) (out : List Nat),
      insertAll ts (m, none) = some (m1, root) ∧
      findTransactionsByEnergyRange m1 root minEnergy maxEnergy = some out ∧
      ∀ v : Rat, ((out.filter (fun p => decide (energyOf m1.recs p = v))).filterMap
        (idOf m1)).Pairwise (· < ·)) := by
  constructor
  · obtain ⟨out, h1, _, _, h4⟩ := mergeSort_spec recs arr hlive
    exact ⟨out, h1, h4⟩
  · obtain ⟨m1, root, ps, h1, h2, h3, h4, h5, h6⟩ := insertAll_scan m ts hlive2 hdist
    have hid : idOf m1 = idOf m := by
      funext t
      simp only [idOf, h2]
    have hl : ∀ p ∈ ps, (loadRec m1.recs p).isSome := by
      intro p hp
      rw [h2, ← idOf_isSome_iff]
      exact hlive2 p ((h6.mem_iff).mp hp)
    cases root with
    | none =>
      exact ⟨m1, none, [], h1, rfl, fun _ => List.Pairwise.nil⟩
    | some r =>
      have hm := energyMatches_of_scan h3 hl minEnergy maxEnergy
      obtain ⟨out, g1, _, _, g4⟩ := mergeSort_spec m1.recs
        (ps.filter (fun p =>
          decide (minEnergy ≤ energyOf m1.recs p ∧ energyOf m1.recs p ≤ maxEnergy)))
        (fun p hp => hl p (List.mem_of_mem_filter hp))
      refine ⟨m1, some r, out, h1, by simp only [findTransactionsByEnergyRange, hm]; exact g1, ?_⟩
      intro v
      rw [g4 v, hid]
      exact List.Pairwise.sublist
        (((List.filter_sublist _).trans (List.filter_sublist _)).filterMap _) h5

/-- Witness for C19: seven records with the amounts 5, 3, 8, 3, 1, 5, 3. -/
theorem mergeSort_stable_witness :
    (∀ p ∈ [6, 5, 4, 3, 2, 1, 0],
      (loadRec (storeWithEnergies [5, 3, 8, 3, 1, 5, 3]).recs p).isSome) ∧
    (∀ t ∈ [0, 1, 2, 3, 4, 5, 6], (idOf (storeWithEnergies [5, 3, 8, 3, 1, 5, 3]) t).isSome) ∧
    ([0, 1, 2, 3, 4, 5, 6].map (idOf (storeWithEnergies [5, 3, 8, 3, 1, 5, 3]))).Nodup ∧
    ((∃ out, mergeSort (storeWithEnergies [5, 3, 8, 3, 1, 5, 3]).recs [6, 5, 4, 3, 2, 1, 0] 0
        ((([6, 5, 4, 3, 2, 1, 0] : List Nat).length : Int) - 1) = some out ∧
      ∀ v : Rat, out.filter
          (fun p => decide (energyOf (storeWithEnergies [5, 3, 8, 3, 1, 5, 3]).recs p = v)) =
        [6, 5, 4, 3, 2, 1, 0].filter
          (fun p => decide (energyOf (storeWithEnergies [5, 3, 8, 3, 1, 5, 3]).recs p = v))) ∧
    (∃ (m1 : Store) (root : Option Nat) (out : List Nat),
      insertAll [0, 1, 2, 3, 4, 5, 6] (storeWithEnergies [5, 3, 8, 3, 1, 5, 3], none) =
        some (m1, root) ∧
      findTransactionsByEnergyRange m1 root 3 5 = some out ∧
      ∀ v : Rat, ((out.filter (fun p => decide (energyOf m1.recs p = v))).filterMap
        (idOf m1)).Pairwise (· < ·))) :=
  ⟨by decide, by decide, by decide,
    mergeSort_stable (storeWithEnergies [5, 3, 8, 3, 1, 5, 3]).recs [6, 5, 4, 3, 2, 1, 0]
      (by decide) (storeWithEnergies [5, 3, 8, 3, 1, 5, 3]) [0, 1, 2, 3, 4, 5, 6] 3 5
      (by decide) (by decide)⟩

/-! ## The date-range query -/

/-- The format `"%d-%d-%d"` reads what the first three conversions of the
longer format read. -/
theorem scanDate_of_dateTime {s : String} {d t : Int × Int × Int}
    (h : scanDateTime s = some (d, t)) : scanDate s = some d := by
  unfold scanDateTime at h
  unfold scanDate
  cases hs : scanDateRest s.data with
  | none => simp [hs] at h
  | some r =>
    obtain ⟨date, r5⟩ := r
    simp only [hs] at h
    have : date = d := by
      split at h
      · simp at h
      · split at h
        · simp at h
        · split at h
          · simp at h
          · split at h
            · simp at h
            · split at h
              · simp at h
              · simp only [Option.some.injEq, Prod.mk.injEq] at h
                exact h.1
    simp [this]

/-- A timestamp that `isValidDateTimeFormat` accepts has a calendar date,
which passes the range checks and is what `"%d-%d-%d"` reads. -/
theorem date_of_valid {s : String} (h : isValidDateTimeFormat s = true) :
    ∃ y m d : Int, calendarDate s = some (y, m, d) ∧ scanDate s = some (y, m, d) ∧
      validDate y m d = true := by
  unfold isValidDateTimeFormat at h
  cases hs : scanDateTime s with
  | none => simp [hs] at h
  | some r =>
    obtain ⟨⟨y, m, d⟩, ⟨hh, mi, se⟩⟩ := r
    simp only [hs, Bool.and_eq_true] at h
    exact ⟨y, m, d, by simp [calendarDate, hs], scanDate_of_dateTime hs, h.1⟩

/-- Under the assumption on `mktime`, times compare as dates do. -/
theorem mktime_le_iff {mktime : Int → Int → Int → Int} (hmk : MktimeAscends mktime)
    {y1 m1 d1 y2 m2 d2 : Int} (h1 : validDate y1 m1 d1 = true) (h2 : validDate y2 m2 d2 = true) :
    mktime (y1 - 1900) (m1 - 1) d1 ≤ mktime (y2 - 1900) (m2 - 1) d2 ↔
      dateLe (y1, m1, d1) (y2, m2, d2) = true := by
  by_cases hlt : dateLt (y1, m1, d1) (y2, m2, d2) = true
  · have := hmk y1 m1 d1 y2 m2 d2 h1 h2 hlt
    simp only [dateLt, dateLe, decide_eq_true_eq] at hlt ⊢
    constructor
    · intro _
      omega
    · intro _
      exact le_of_lt this
  · by_cases hgt : dateLt (y2, m2, d2) (y1, m1, d1) = true
    · have := hmk y2 m2 d2 y1 m1 d1 h2 h1 hgt
      simp only [dateLt, dateLe, decide_eq_true_eq] at hlt hgt ⊢
      constructor
      · intro hle
        exact absurd hle (not_le.mpr this)
      · intro hle
        omega
    · simp only [dateLt, dateLe, decide_eq_true_eq] at hlt hgt ⊢
      have e1 : y1 = y2 := by omega
      have e2 : m1 = m2 := by omega
      have e3 : d1 = d2 := by omega
      subst e1 e2 e3
      simp

/-- On timestamps that `isValidDateTimeFormat` accepts, `isDateInRange`
compares the calendar dates. -/
theorem isDateInRange_valid {mktime : Int → Int → Int → Int} (hmk : MktimeAscends mktime)
    {date startDate endDate : String} (hd : isValidDateTimeFormat date = true)
    (hs : isValidDateTimeFormat startDate = true) (he : isValidDateTimeFormat endDate = true) :
    isDateInRange mktime date startDate endDate = inDateRange startDate endDate date := by
  obtain ⟨y, m, d, a1, a2, a3⟩ := date_of_valid hd
  obtain ⟨ys, ms, ds, b1, b2, b3⟩ := date_of_valid hs
  obtain ⟨ye, me, de, c1, c2, c3⟩ := date_of_valid he
  simp only [isDateInRange, inDateRange, a1, a2, b1, b2, c1, c2, ge_iff_le]
  rw [Bool.eq_iff_iff]
  simp only [decide_eq_true_eq, Bool.and_eq_true]
  rw [mktime_le_iff hmk b3 a3, mktime_le_iff hmk a3 c3]

/-- The loop of the date-range query on live records with accepted
timestamps keeps the pointers whose date is in the range, in the order it
meets them. -/
theorem collectByDate_spec {mktime : Int → Int → Int → Int} (hmk : MktimeAscends mktime)
    (recs : List (Option Transaction)) {startDate endDate : String}
    (hs : isValidDateTimeFormat startDate = true) (he : isValidDateTimeFormat endDate = true) :
    ∀ ps : List Nat, (∀ p ∈ ps, (loadRec recs p).isSome) →
      (∀ p ∈ ps, isValidDateTimeFormat (timestampOf recs p) = true) →
      collectByDate mktime recs startDate endDate (ps.map some) =
        some (ps.filter (fun p => inDateRange startDate endDate (timestampOf recs p)))
  | [], _, _ => rfl
  | p :: ps, h, hv => by
    obtain ⟨tr, htr⟩ := Option.isSome_iff_exists.mp (h p (by simp))
    have ih := collectByDate_spec hmk recs hs he ps (fun q hq => h q (by simp [hq]))
      (fun q hq => hv q (by simp [hq]))
    have e : timestampOf recs p = tr.timestamp := by simp [timestampOf, htr]
    have hvp := hv p (by simp)
    rw [e] at hvp
    have hr := isDateInRange_valid hmk hvp hs he
    by_cases hc : inDateRange startDate endDate tr.timestamp = true
    · simp [collectByDate, htr, ih, List.filter_cons, e, hr, hc]
    · simp [collectByDate, htr, ih, List.filter_cons, e, hr, hc]

/-- The sample `mktime` satisfies the assumption. -/
theorem sampleMktime_ascends : MktimeAscends sampleMktime := by
  intro y1 m1 d1 y2 m2 d2 h1 h2 hlt
  simp only [validDate, Bool.and_eq_true, Bool.not_eq_true', Bool.or_eq_false_iff,
    decide_eq_false_iff_not, not_lt] at h1 h2
  simp only [dateLt, decide_eq_true_eq] at hlt
  simp only [sampleMktime]
  obtain ⟨⟨⟨⟨⟨⟨_, _⟩, a1⟩, a2⟩, a3⟩, a4⟩, _⟩ := h1
  obtain ⟨⟨⟨⟨⟨⟨_, _⟩, b1⟩, b2⟩, b3⟩, b4⟩, _⟩ := h2
  omega

/-- C20: for every tree built from the empty tree by inserting live records
with distinct ids and accepted timestamps, and every two accepted
timestamps as bounds, the date-range query returns the records of the leaf
chain, which stand in ascending order of their ids, whose calendar date lies
between the dates of the two bounds, both included, in that order.  The
result is the same for bounds with the same dates, and `isDateInRange` gives
the same answer for timestamps with the same date.  The library function
`mktime` is assumed to give a greater time for a later date. -/
theorem date_range_filters (mktime : Int → Int → Int → Int) (m : Store) (ts : List Nat)
    (startDate endDate : String) (hmk : MktimeAscends mktime)
    (hlive : ∀ t ∈ ts, (idOf m t).isSome) (hdist : (ts.map (idOf m)).Nodup)
    (hstamps : ∀ t ∈ ts, isValidDateTimeFormat (timestampOf m.recs t) = true)
    (hstart : isValidDateTimeFormat startDate = true)
    (hend : isValidDateTimeFormat endDate = true) :
    ∃ (m1 : Store) (root : Option Nat) (ps : List Nat),
      insertAll ts (m, none) = some (m1, root) ∧
      scanRecs m1.nodes root = some (ps.map some) ∧
      (ps.filterMap (idOf m1)).Pairwise (· < ·) ∧ ps.Perm ts ∧
      findTransactionsByTimeRange mktime m1 root startDate endDate =
        some (ps.filter (fun p => inDateRange startDate endDate (timestampOf m1.recs p))) ∧
      (∀ start2 end2 : String, isValidDateTimeFormat start2 = true →
        isValidDateTimeFormat end2 = true → calendarDate start2 = calendarDate startDate →
        calendarDate end2 = calendarDate endDate →
        findTransactionsByTimeRange mktime m1 root start2 end2 =
          findTransactionsByTimeRange mktime m1 root startDate endDate) ∧
      (∀ stamp1 stamp2 : String, isValidDateTimeFormat stamp1 = true →
        isValidDateTimeFormat stamp2 = true → calendarDate stamp1 = calendarDate stamp2 →
        isDateInRange mktime stamp1 startDate endDate =
          isDateInRange mktime stamp2 startDate endDate) := by
  obtain ⟨m1, root, ps, h1, h2, h3, h4, h5, h6⟩ := insertAll_scan m ts hlive hdist
  have hid : idOf m1 = idOf m := by
    funext t
    simp only [idOf, h2]
  have hl : ∀ p ∈ ps, (loadRec m1.recs p).isSome := by
    intro p hp
    rw [h2, ← idOf_isSome_iff]
    exact hlive p ((h6.mem_iff).mp hp)
  have hv : ∀ p ∈ ps, isValidDateTimeFormat (timestampOf m1.recs p) = true := by
    intro p hp
    rw [h2]
    exact hstamps p ((h6.mem_iff).mp hp)
  have key : ∀ s e : String, isValidDateTimeFormat s = true → isValidDateTimeFormat e = true →
      findTransactionsByTimeRange mktime m1 root s e =
        some (ps.filter (fun p => inDateRange s e (timestampOf m1.recs p))) := by
    intro s e hs he
    cases root with
    | none =>
      have : ps = [] := by
        simp only [scanRecs, Option.some.injEq] at h3
        exact List.map_eq_nil_iff.mp h3.symm
      subst this
      rfl
    | some r =>
      simp only [findTransactionsByTimeRange, h3]
      exact collectByDate_spec hmk m1.recs hs he ps hl hv
  refine ⟨m1, root, ps, h1, h3, by rw [hid]; exact h5, h6, key _ _ hstart hend, ?_, ?_⟩
  · intro start2 end2 hs2 he2 e1 e2
    rw [key _ _ hs2 he2, key _ _ hstart hend]
    simp only [inDateRange, e1, e2]
  · intro stamp1 stamp2 v1 v2 e
    rw [isDateInRange_valid hmk v1 hstart hend, isDateInRange_valid hmk v2 hstart hend]
    simp only [inDateRange, e]

/-- Witness for C20: four records dated 15, 16 and 14 January and
15 February 2024, and the range from 15 January to 15 February. -/
theorem date_range_filters_witness :
    MktimeAscends sampleMktime ∧
    (∀ t ∈ [0, 1, 2, 3], (idOf (storeWithStamps ["2024-01-15 10:30:00", "2024-01-16 00:00:00",
      "2024-01-14 23:59:59", "2024-02-15 10:30:00"]) t).isSome) ∧
    ([0, 1, 2, 3].map (idOf (storeWithStamps ["2024-01-15 10:30:00", "2024-01-16 00:00:00",
      "2024-01-14 23:59:59", "2024-02-15 10:30:00"]))).Nodup ∧
    (∀ t ∈ [0, 1, 2, 3], isValidDateTimeFormat (timestampOf (storeWithStamps
      ["2024-01-15 10:30:00", "2024-01-16 00:00:00", "2024-01-14 23:59:59",
        "2024-02-15 10:30:00"]).recs t) = true) ∧
    isValidDateTimeFormat "2024-01-15 23:00:00" = true ∧
    isValidDateTimeFormat "2024-02-15 00:00:00" = true ∧
    ∃ (m1 : Store) (root : Option Nat) (ps : List Nat),
      insertAll [0, 1, 2, 3] (storeWithStamps ["2024-01-15 10:30:00", "2024-01-16 00:00:00",
        "2024-01-14 23:59:59", "2024-02-15 10:30:00"], none) = some (m1, root) ∧
      scanRecs m1.nodes root = some (ps.map some) ∧
      (ps.filterMap (idOf m1)).Pairwise (· < ·) ∧ ps.Perm [0, 1, 2, 3] ∧
      findTransactionsByTimeRange sampleMktime m1 root "2024-01-15 23:00:00"
          "2024-02-15 00:00:00" =
        some (ps.filter (fun p => inDateRange "2024-01-15 23:00:00" "2024-02-15 00:00:00"
          (timestampOf m1.recs p))) ∧
      (∀ start2 end2 : String, isValidDateTimeFormat start2 = true →
        isValidDateTimeFormat end2 = true →
        calendarDate start2 = calendarDate "2024-01-15 23:00:00" →
        calendarDate end2 = calendarDate "2024-02-15 00:00:00" →
        findTransactionsByTimeRange sampleMktime m1 root start2 end2 =
          findTransactionsByTimeRange sampleMktime m1 root "2024-01-15 23:00:00"
            "2024-02-15 00:00:00") ∧
      (∀ stamp1 stamp2 : String, isValidDateTimeFormat stamp1 = true →
        isValidDateTimeFormat stamp2 = true → calendarDate stamp1 = calendarDate stamp2 →
        isDateInRange sampleMktime stamp1 "2024-01-15 23:00:00" "2024-02-15 00:00:00" =
          isDateInRange sampleMktime stamp2 "2024-01-15 23:00:00" "2024-02-15 00:00:00") :=
  ⟨sampleMktime_ascends, by decide, by decide, by decide, by decide, by decide,
    date_range_filters sampleMktime
      (storeWithStamps ["2024-01-15 10:30:00", "2024-01-16 00:00:00", "2024-01-14 23:59:59",
        "2024-02-15 10:30:00"]) [0, 1, 2, 3] "2024-01-15 23:00:00" "2024-02-15 00:00:00"
      sampleMktime_ascends (by decide) (by decide) (by decide) (by decide) (by decide)⟩

/-! ## One insertion among other trees -/

/-- A leaf that has taken a second entry: the tree around it is whole and
uses the addresses it used before. -/
theorem leaf_grow_frame {h : Heap} {c : List Frame} {a : Nat} {nx : Option Nat} (n : BPTreeNode)
    (es1 : List (Int × Nat)) (hrp : RepPath h c a) (nd : (pathAddrs c ++ [a]).Nodup)
    (op : OrdPath c) (hrep : RepLeaf (store h a n) a nx es1)
    (ho : Ord (pathLo c) (pathHi c) (Shape.leaf a es1 nx)) :
    ∃ t1 : Shape, t1.addr = pathRoot c a ∧ Rep (store h a n) t1 ∧ Ord none none t1 ∧
      t1.addrs.Nodup ∧ t1.leaves = leavesBefore c ++ [(a, es1, nx)] ++ leavesAfter c ∧
      ∀ b ∈ t1.addrs, b ∈ pathAddrs c ∨ b = a := by
  obtain ⟨hn1, _⟩ := not_mem_of_nodup_cons nd
  obtain ⟨p1, p2, p3, p4, p5, p6⟩ := plug_ok (h := store h a n) (c := c)
    (s := Shape.leaf a es1 nx) (hrp.path_store a n hn1) hrep op ho (by simpa [Shape.addrs] using nd)
  exact ⟨_, by simpa using p4, p1, p2, p3, by simpa [Shape.leaves] using p5,
    fun b hb => by simpa [Shape.addrs] using p6 b hb⟩

/-- A leaf that has taken a third entry is split and its right half is hung
into the tree: only nodes of the path and the leaf are written, and the tree
afterwards uses addresses it used before or fresh ones. -/
theorem leaf_split_frame {h : Heap} {c : List Frame} {a : Nat} {nx : Option Nat} {k0 k1 k2 : Int}
    {r0 r1 r2 : Nat} (root parent : Option Nat)
    (hl : load h a = some ⟨true, 3, [k0, k1, k2], [none, none, none, none], nx,
      [some r0, some r1, some r2]⟩)
    (hrp : RepPath h c a) (nd : (pathAddrs c ++ [a]).Nodup) (op : OrdPath c)
    (h01 : k0 < k1) (h12 : k1 < k2) (hlo : geLo (pathLo c) k0) (hhi : ltHi k2 (pathHi c))
    (hroot : root = some (pathRoot c a)) (hpar : parent = c.head?.map Frame.addr) :
    ∃ h2 t1, splitLeafNode (2 * h.length + 2) h root a parent = some (h2, some t1.addr) ∧
      Rep h2 t1 ∧ Ord none none t1 ∧ t1.addrs.Nodup ∧
      t1.leaves = leavesBefore c ++
        [(a, [(k0, r0)], some h.length), (h.length, [(k1, r1), (k2, r2)], nx)] ++
        leavesAfter c ∧
      HeapExt h h2 (pathAddrs c ++ [a]) ∧
      ∀ b ∈ t1.addrs, b ∈ pathAddrs c ∨ b = a ∨ h.length ≤ b := by
  have ha := load_lt hl
  obtain ⟨hn1, _⟩ := not_mem_of_nodup_cons nd
  have hlt := hrp.path_addr_lt
  have hsplit : splitLeafNode (2 * h.length + 2) h root a parent =
      attach (2 * h.length + 2)
        (store h a ⟨true, 1, [k0, 0, 0], [none, none, none, none], some h.length,
          [some r0, none, none]⟩ ++
          [some ⟨true, 2, [k1, k2, 0], [none, none, none, none], nx, [some r1, some r2, none]⟩])
        root c a k1 h.length := by
    simp only [splitLeafNode, splitLeafMove_eq hl]
    cases c with
    | nil => subst hpar; rfl
    | cons f c => subst hpar; rfl
  have hlen : c.length ≤ h.length :=
    le_trans (length_le_pathAddrs c) (length_le_of_nodup_lt (List.Nodup.of_append_left nd) hlt)
  have pre : UpPre
      (store h a ⟨true, 1, [k0, 0, 0], [none, none, none, none], some h.length,
          [some r0, none, none]⟩ ++
          [some ⟨true, 2, [k1, k2, 0], [none, none, none, none], nx, [some r1, some r2, none]⟩])
      c (Shape.leaf a [(k0, r0)] (some h.length))
      (Shape.leaf h.length [(k1, r1), (k2, r2)] nx) k1 := by
    refine ⟨(hrp.path_store a _ hn1).path_append _, ⟨0, 0, none, none, load_store_append_eq _ _ ha⟩,
      ⟨0, none, load_append_at _ (by simp [length_store])⟩, ?_, op, ?_, ?_, ?_, ?_⟩
    · have e : pathAddrs c ++ ((Shape.leaf a [(k0, r0)] (some h.length)).addrs ++
          (Shape.leaf h.length [(k1, r1), (k2, r2)] nx).addrs) =
          (pathAddrs c ++ [a]) ++ [h.length] := by simp [Shape.addrs]
      rw [e, List.nodup_append]
      refine ⟨nd, by simp, ?_⟩
      intro z hz hz1
      simp only [List.mem_singleton] at hz1
      subst hz1
      rcases List.mem_append.mp hz with hm | hm
      · exact lt_irrefl _ (hlt _ hm)
      · simp only [List.mem_singleton] at hm
        omega
    · simp only [Ord, List.map_cons, List.map_nil, List.pairwise_cons, List.mem_singleton,
        forall_eq, ltHi]
      exact ⟨by simp, hlo, h01⟩
    · simp only [Ord, List.map_cons, List.map_nil, List.pairwise_cons, List.mem_cons,
        List.mem_singleton, forall_eq_or_imp, forall_eq, geLo]
      refine ⟨by simp [h12], ⟨le_refl _, ltHi_mono hhi (le_of_lt h12)⟩, ⟨le_of_lt h12, hhi⟩, ?_⟩
      simp
    · exact gtLo_of_geLo hlo h01
    · exact ltHi_mono hhi (le_of_lt h12)
  obtain ⟨h3, t1, hres, hrep, hord, hnd, hleaves, hext, hmem⟩ :=
    attach_spec c _ _ _ k1 (2 * h.length + 2) root pre (by omega) hroot
  refine ⟨h3, t1, ?_, hrep, hord, hnd, ?_, ?_, ?_⟩
  · rw [hsplit]
    exact hres
  · simpa [Shape.leaves] using hleaves
  · refine HeapExt.trans (HeapExt.trans (HeapExt.ext_store h a _ [a] (by simp))
      (HeapExt.ext_append _ _ []) (fun _ hx => hx) (fun _ hx => by simp at hx)) hext
      (fun x hx => List.mem_append.mpr (Or.inr hx)) (fun x hx => List.mem_append.mpr (Or.inl hx))
  · intro b hb
    rcases hmem b hb with hb | hb | hb | hb
    · exact Or.inl hb
    · simp only [Shape.addrs, List.mem_singleton] at hb
      exact Or.inr (Or.inl hb)
    · simp only [Shape.addrs, List.mem_singleton] at hb
      exact Or.inr (Or.inr (by omega))
    · simp only [List.length_append, length_store, List.length_singleton] at hb
      exact Or.inr (Or.inr (by omega))

/-- One insertion of a key that is not in the tree: the tree afterwards is
whole and holds the new entry; only nodes of the tree are written, and the
tree afterwards uses addresses it used before or fresh ones. -/
theorem insertKey_frame {h : Heap} {t : Shape} (key : Int) (r : Nat) (hr : Rep h t)
    (ho : Ord none none t) (hn : t.addrs.Nodup) (hlink : Linked t.leaves none)
    (hkt : key ∉ t.entries.map Prod.fst) :
    ∃ h1 t1, insertKey h (some t.addr) key r = some (h1, some t1.addr) ∧
      (Rep h1 t1 ∧ Ord none none t1 ∧ t1.addrs.Nodup ∧ Linked t1.leaves none ∧
        t1.entries.Perm ((key, r) :: t.entries) ∧ HeapExt h h1 t.addrs ∧
        ∀ b ∈ t1.addrs, b ∈ t.addrs ∨ h.length ≤ b) := by
  obtain ⟨idx1, hd⟩ := descend_path key t [] h.length none 0 hr (hr.size_le hn) rfl
  have hplug := pathTo_plug key t []
  have hb := pathTo_bounds key t [] (by simp [pathLo, geLo]) (by simp [pathHi, ltHi])
  generalize pathTo key t [] = P at hd hplug hb
  obtain ⟨c, a, es0, nx⟩ := P
  simp only [plug] at hd hplug hb
  subst hplug
  obtain ⟨hrp, hleaf⟩ := (rep_plug c _).mp hr
  obtain ⟨op, oleaf⟩ := (ord_plug c _).mp ho
  have nd : (pathAddrs c ++ [a]).Nodup := ((addrs_plug c _).nodup_iff).mp hn
  have hlv := leaves_plug c (Shape.leaf a es0 nx)
  have haddr := plug_addr c (Shape.leaf a es0 nx)
  rw [hlv] at hlink
  simp only [addr_leaf, Shape.leaves] at hrp hlv haddr hlink
  simp only [Rep] at hleaf
  obtain ⟨hn1, _⟩ := not_mem_of_nodup_cons nd
  have hin : ∀ e ∈ es0, e ∈ (plug c (Shape.leaf a es0 nx)).entries := by
    intro e he
    rw [Shape.entries_eq, hlv]
    simp only [List.map_append, List.flatten_append, List.map_cons, List.map_nil,
      List.flatten_cons, List.flatten_nil, List.append_nil, List.mem_append]
    exact Or.inl (Or.inr he)
  have hne : ∀ e ∈ es0, key ≠ e.1 := by
    intro e he hc
    exact hkt (List.mem_map.mpr ⟨e, hin e he, hc.symm⟩)
  have hsub : ∀ x, x ∈ pathAddrs c ++ [a] → x ∈ (plug c (Shape.leaf a es0 nx)).addrs :=
    fun x hx => (((addrs_plug c (Shape.leaf a es0 nx)).mem_iff).mpr
      (by simpa [Shape.addrs] using hx))
  have finish : ∀ (h2 : Heap) (t1 : Shape)
      (mid1 : List (Nat × List (Int × Nat) × Option Nat)),
      Rep h2 t1 → Ord none none t1 → t1.addrs.Nodup →
      t1.leaves = leavesBefore c ++ mid1 ++ leavesAfter c →
      Linked (leavesBefore c ++ mid1 ++ leavesAfter c) none →
      ((mid1.map (fun l => l.2.1)).flatten).Perm ((key, r) :: es0) →
      HeapExt h h2 (pathAddrs c ++ [a]) →
      (∀ b ∈ t1.addrs, b ∈ pathAddrs c ∨ b = a ∨ h.length ≤ b) →
      Rep h2 t1 ∧ Ord none none t1 ∧ t1.addrs.Nodup ∧ Linked t1.leaves none ∧
        t1.entries.Perm ((key, r) :: (plug c (Shape.leaf a es0 nx)).entries) ∧
        HeapExt h h2 (plug c (Shape.leaf a es0 nx)).addrs ∧
        ∀ b ∈ t1.addrs, b ∈ (plug c (Shape.leaf a es0 nx)).addrs ∨ h.length ≤ b := by
    intro h2 t1 mid1 q1 q2 q3 q4 q5 q6 q7 q8
    refine ⟨q1, q2, q3, by rw [q4]; exact q5,
      entries_of_leaves (M := [(a, es0, nx)]) hlv q4 (by simpa using q6),
      HeapExt.trans (HeapExt.refl h []) q7 (fun _ hx => by simp at hx) hsub, ?_⟩
    intro b hb
    rcases q8 b hb with hb | hb | hb
    · exact Or.inl (hsub b (List.mem_append.mpr (Or.inl hb)))
    · exact Or.inl (hsub b (List.mem_append.mpr (Or.inr (by simp [hb]))))
    · exact Or.inr hb
  rcases hleaf.shape with ⟨k0, q0, x, y, rx, ry, rfl, hl⟩ | ⟨k0, q0, k1, q1, y, ry, rfl, hl⟩
  · -- the leaf has one entry and takes the second
    have ha := load_lt hl
    have hne0 : key ≠ k0 := hne (k0, q0) (by simp)
    have hplace := insertLeafPlace_one key r hl
    have hb0 := oleaf.2 (k0, q0) (by simp)
    by_cases hlt : key < k0
    · simp only [hlt, if_true] at hplace
      have hnum : getNum (store h a ⟨true, 2, [key, k0, y], [none, none, none, none], nx,
          [some r, some q0, ry]⟩) a = some 2 := by simp [getNum, load_store_eq, ha]
      obtain ⟨t1, p1, p2, p3, p4, p5, p6⟩ := leaf_grow_frame
        (⟨true, 2, [key, k0, y], [none, none, none, none], nx, [some r, some q0, ry]⟩)
        [(key, r), (k0, q0)] hrp nd op ⟨y, ry, load_store_eq _ ha⟩
        (by
          simp only [Ord, List.map_cons, List.map_nil, List.pairwise_cons, List.mem_cons,
            List.mem_singleton, forall_eq_or_imp, forall_eq]
          exact ⟨by simp [hlt], ⟨hb.1, ltHi_mono hb0.2 (le_of_lt hlt)⟩, hb0, by simp⟩)
      refine ⟨_, t1, ?_, finish _ t1 _ p2 p3 p4 p5 (linked_replace_one _ hlink) (by simp)
        (HeapExt.ext_store h a _ _ (by simp))
        (fun b hb => (p6 b hb).elim Or.inl (fun e => Or.inr (Or.inl e)))⟩
      rw [insertKey_after hd hplace hnum, haddr, p1]
      simp [ORDER]
    · simp only [hlt, if_false] at hplace
      have hgt : k0 < key := lt_of_le_of_ne (not_lt.mp hlt) (Ne.symm hne0)
      have hnum : getNum (store h a ⟨true, 2, [k0, key, y], [none, none, none, none], nx,
          [some q0, some r, ry]⟩) a = some 2 := by simp [getNum, load_store_eq, ha]
      obtain ⟨t1, p1, p2, p3, p4, p5, p6⟩ := leaf_grow_frame
        (⟨true, 2, [k0, key, y], [none, none, none, none], nx, [some q0, some r, ry]⟩)
        [(k0, q0), (key, r)] hrp nd op ⟨y, ry, load_store_eq _ ha⟩
        (by
          simp only [Ord, List.map_cons, List.map_nil, List.pairwise_cons, List.mem_cons,
            List.mem_singleton, forall_eq_or_imp, forall_eq]
          exact ⟨by simp [hgt], hb0, hb, by simp⟩)
      refine ⟨_, t1, ?_, finish _ t1 _ p2 p3 p4 p5 (linked_replace_one _ hlink)
        (by simpa using List.Perm.swap _ _ _)
        (HeapExt.ext_store h a _ _ (by simp))
        (fun b hb => (p6 b hb).elim Or.inl (fun e => Or.inr (Or.inl e)))⟩
      rw [insertKey_after hd hplace hnum, haddr, p1]
      simp [ORDER]
  · -- the leaf has two entries, takes the third and is split
    have ha := load_lt hl
    have hne0 : key ≠ k0 := hne (k0, q0) (by simp)
    have hne1 : key ≠ k1 := hne (k1, q1) (by simp)
    have hplace := insertLeafPlace_two key r hl
    have hb0 := oleaf.2 (k0, q0) (by simp)
    have hb1 := oleaf.2 (k1, q1) (by simp)
    have h01 : k0 < k1 := by
      have := oleaf.1
      simp only [List.map_cons, List.map_nil, List.pairwise_cons, List.mem_singleton,
        forall_eq] at this
      exact this.1
    have hlen : ∀ n : BPTreeNode, (store h a n).length = h.length := fun n => length_store h a n
    by_cases hlt : key < k0
    · simp only [hlt, if_true] at hplace
      have hnum : getNum (store h a ⟨true, 3, [key, k0, k1], [none, none, none, none], nx,
          [some r, some q0, some q1]⟩) a = some 3 := by simp [getNum, load_store_eq, ha]
      obtain ⟨h2, t1, p0, p2, p3, p4, p5, p6, p7⟩ := leaf_split_frame (c := c) (some (pathRoot c a))
        (c.head?.map Frame.addr)
        (load_store_eq (⟨true, 3, [key, k0, k1], [none, none, none, none], nx,
          [some r, some q0, some q1]⟩) ha) (hrp.path_store a _ hn1) nd op hlt h01 hb.1 hb1.2 rfl rfl
      refine ⟨_, t1, ?_, finish _ t1 _ p2 p3 p4 p5 (linked_replace_two _ _ _ hlink) ?_
          (HeapExt.trans (HeapExt.ext_store h a _ [a] (by simp)) p6 (fun x hx => by simp at hx; simp [hx])
            (fun _ hx => hx))
          (fun b hb => by simpa [length_store] using p7 b hb)⟩
      · rw [insertKey_after hd hplace hnum, haddr]
        simpa [ORDER] using p0
      · simp
    · simp only [hlt, if_false] at hplace
      have hgt : k0 < key := lt_of_le_of_ne (not_lt.mp hlt) (Ne.symm hne0)
      by_cases hlt1 : key < k1
      · simp only [hlt1, if_true] at hplace
        have hnum : getNum (store h a ⟨true, 3, [k0, key, k1], [none, none, none, none], nx,
            [some q0, some r, some q1]⟩) a = some 3 := by simp [getNum, load_store_eq, ha]
        obtain ⟨h2, t1, p0, p2, p3, p4, p5, p6, p7⟩ := leaf_split_frame (c := c)
          (some (pathRoot c a)) (c.head?.map Frame.addr)
          (load_store_eq (⟨true, 3, [k0, key, k1], [none, none, none, none], nx,
            [some q0, some r, some q1]⟩) ha) (hrp.path_store a _ hn1) nd op hgt hlt1 hb0.1 hb1.2
          rfl rfl
        refine ⟨_, t1, ?_, finish _ t1 _ p2 p3 p4 p5 (linked_replace_two _ _ _ hlink) ?_
          (HeapExt.trans (HeapExt.ext_store h a _ [a] (by simp)) p6 (fun x hx => by simp at hx; simp [hx])
            (fun _ hx => hx))
          (fun b hb => by simpa [length_store] using p7 b hb)⟩
        · rw [insertKey_after hd hplace hnum, haddr]
          simpa [ORDER] using p0
        · simpa using List.Perm.swap _ _ _
      · simp only [hlt1, if_false] at hplace
        have hgt1 : k1 < key := lt_of_le_of_ne (not_lt.mp hlt1) (Ne.symm hne1)
        have hnum : getNum (store h a ⟨true, 3, [k0, k1, key], [none, none, none, none], nx,
            [some q0, some q1, some r]⟩) a = some 3 := by simp [getNum, load_store_eq, ha]
        obtain ⟨h2, t1, p0, p2, p3, p4, p5, p6, p7⟩ := leaf_split_frame (c := c)
          (some (pathRoot c a)) (c.head?.map Frame.addr)
          (load_store_eq (⟨true, 3, [k0, k1, key], [none, none, none, none], nx,
            [some q0, some q1, some r]⟩) ha) (hrp.path_store a _ hn1) nd op h01 hgt1 hb0.1 hb.2
          rfl rfl
        refine ⟨_, t1, ?_, finish _ t1 _ p2 p3 p4 p5 (linked_replace_two _ _ _ hlink) ?_
          (HeapExt.trans (HeapExt.ext_store h a _ [a] (by simp)) p6 (fun x hx => by simp at hx; simp [hx])
            (fun _ hx => hx))
          (fun b hb => by simpa [length_store] using p7 b hb)⟩
        · rw [insertKey_after hd hplace hnum, haddr]
          simpa [ORDER] using p0
        · rw [List.perm_iff_count]
          intro z
          simp only [List.map_cons, List.map_nil, List.flatten_cons, List.flatten_nil,
            List.append_nil, List.singleton_append, List.cons_append, List.nil_append,
            List.count_cons, List.count_nil]
          omega

/-! ## Insertion into one tree of several -/

theorem Owned.congr_other {h h1 : Heap} {own own1 : Nat → Option Owner} {O : Owner}
    {root : Option Nat} {es : List (Int × Nat)} (ht : Owned h own O root es)
    (hload : ∀ a, a < h.length → own a = some O → load h1 a = load h a)
    (hown : ∀ a, a < h.length → own a = some O → own1 a = some O) :
    Owned h1 own1 O root es := by
  cases root with
  | none => exact ht
  | some r =>
    obtain ⟨t, h1', h2, h3, h4, h5, h6, h7⟩ := ht
    exact ⟨t, h1', h2.congr (fun a ha => hload a (h2.addr_lt a ha) (h7 a ha)), h3, h4, h5, h6,
      fun a ha => hown a (h2.addr_lt a ha) (h7 a ha)⟩

/-- A lookup that answers 0 on a whole tree: the key is not in the tree. -/
theorem Owned.fresh {h : Heap} {own : Nat → Option Owner} {O : Owner} {root : Option Nat}
    {es : List (Int × Nat)} (ht : Owned h own O root es) {key : Int}
    (hf : findTransactionInBPTree h root key = some false) : key ∉ es.map Prod.fst := by
  cases root with
  | none =>
    simp only [Owned] at ht
    subst ht
    simp
  | some r =>
    obtain ⟨t, rfl, h2, h3, h4, _, h6, _⟩ := ht
    intro hm
    obtain ⟨e, he, rfl⟩ := List.mem_map.mp hm
    have := (find_of_rep h2 h3 h4 ((h6.mem_iff).mpr he)).2
    rw [this] at hf
    simp at hf

/-- One insertion into a tree that shares the heap with other trees: the
tree takes the new entry and the fresh nodes, the other trees stay. -/
theorem insertKey_owned {h : Heap} {own : Nat → Option Owner} {O : Owner} {root : Option Nat}
    {es : List (Int × Nat)} (key : Int) (r : Nat) (ht : Owned h own O root es)
    (hk : key ∉ es.map Prod.fst) :
    ∃ h1 root1, insertKey h root key r = some (h1, root1) ∧
      Owned h1 (claimFrom own h.length O) O root1 ((key, r) :: es) ∧ h.length ≤ h1.length ∧
      ∀ (O2 : Owner) (root2 : Option Nat) (es2 : List (Int × Nat)), O2 ≠ O →
        Owned h own O2 root2 es2 → Owned h1 (claimFrom own h.length O) O2 root2 es2 := by
  cases root with
  | none =>
    simp only [Owned] at ht
    subst ht
    refine ⟨_, _, by simp only [insertKey]; exact insertFirst_eq h key r, ?_, by simp, ?_⟩
    · refine ⟨Shape.leaf h.length [(key, r)] none, rfl,
        ⟨0, 0, none, none, load_append_new _ _⟩, ?_, ?_, ?_, ?_, ?_⟩
      · simp [Ord, geLo, ltHi]
      · simp [Shape.addrs]
      · simp [Shape.leaves, Linked, nextOf]
      · simp [Shape.entries]
      · intro a ha
        simp only [Shape.addrs, List.mem_singleton] at ha
        simp [claimFrom, ha]
    · intro O2 root2 es2 _ h2
      refine h2.congr_other (fun a ha _ => load_append_left _ ha) (fun a ha hown => ?_)
      simp only [claimFrom, not_le.mpr ha, if_false]
      exact hown
  | some r0 =>
    obtain ⟨t, rfl, hr, ho, hn, hlink, hperm, hown⟩ := ht
    have hkt : key ∉ t.entries.map Prod.fst :=
      fun hm => hk (((hperm.map Prod.fst).mem_iff).mp hm)
    obtain ⟨h1, t1, g0, g1, g2, g3, g4, g5, g6, g7⟩ := insertKey_frame key r hr ho hn hlink hkt
    refine ⟨h1, some t1.addr, g0, ?_, g6.1, ?_⟩
    · refine ⟨t1, rfl, g1, g2, g3, g4, g5.trans (List.Perm.cons _ hperm), ?_⟩
      intro a ha
      rcases g7 a ha with hm | hge
      · have hlt := hr.addr_lt a hm
        simp only [claimFrom, not_le.mpr hlt, if_false]
        exact hown a hm
      · simp [claimFrom, hge]
    · intro O2 root2 es2 hne h2
      refine h2.congr_other (fun a ha ho2 => ?_) (fun a ha ho2 => ?_)
      · refine g6.2 a ha (fun hm => hne ?_)
        have := hown a hm
        rw [ho2] at this
        exact Option.some.inj this
      · simp only [claimFrom, not_le.mpr ha, if_false]
        exact ho2

/-- The function `insertTransactionIntoBPTree` on a tree that shares the heap
with other trees, for a live record whose id is not in the tree. -/
theorem insertTransactionIntoBPTree_owned {m : Store} {own : Nat → Option Owner} {O : Owner}
    {root : Option Nat} {es : List (Int × Nat)} {t : Nat} {tr : Transaction}
    (hrec : loadRec m.recs t = some tr) (ht : Owned m.nodes own O root es)
    (hk : tr.transactionID ∉ es.map Prod.fst) :
    ∃ m1 root1, insertTransactionIntoBPTree m root t = some (m1, root1) ∧ m1.recs = m.recs ∧
      Owned m1.nodes (claimFrom own m.nodes.length O) O root1 ((tr.transactionID, t) :: es) ∧
      ∀ (O2 : Owner) (root2 : Option Nat) (es2 : List (Int × Nat)), O2 ≠ O →
        Owned m.nodes own O2 root2 es2 →
          Owned m1.nodes (claimFrom own m.nodes.length O) O2 root2 es2 := by
  obtain ⟨h1, root1, g0, g1, _, g3⟩ := insertKey_owned tr.transactionID t ht hk
  exact ⟨{ m with nodes := h1 }, root1, by simp [insertTransactionIntoBPTree, hrec, g0], rfl,
    g1, g3⟩

/-- The three insertions of `insertTransaction` into the global tree, a
seller's tree and a buyer's tree. -/
theorem insertIntoTrees_owned {m : Store} {own : Nat → Option Owner} {g st bt : Option Nat}
    {eg es eb : List (Int × Nat)} {t : Nat} {tr : Transaction} {ids idb : Int}
    (hrec : loadRec m.recs t = some tr)
    (hg : Owned m.nodes own Owner.global g eg)
    (hs : Owned m.nodes own (Owner.seller ids) st es)
    (hb : Owned m.nodes own (Owner.buyer idb) bt eb)
    (kg : tr.transactionID ∉ eg.map Prod.fst) (ks : tr.transactionID ∉ es.map Prod.fst)
    (kb : tr.transactionID ∉ eb.map Prod.fst) :
    ∃ m1 g1 st1 bt1 own1, insertIntoTrees m g st bt t = some (m1, g1, st1, bt1) ∧
      m1.recs = m.recs ∧
      Owned m1.nodes own1 Owner.global g1 ((tr.transactionID, t) :: eg) ∧
      Owned m1.nodes own1 (Owner.seller ids) st1 ((tr.transactionID, t) :: es) ∧
      Owned m1.nodes own1 (Owner.buyer idb) bt1 ((tr.transactionID, t) :: eb) ∧
      ∀ (O2 : Owner) (root2 : Option Nat) (es2 : List (Int × Nat)), O2 ≠ Owner.global →
        O2 ≠ Owner.seller ids → O2 ≠ Owner.buyer idb →
        Owned m.nodes own O2 root2 es2 → Owned m1.nodes own1 O2 root2 es2 := by
  obtain ⟨ma, g1, a0, a1, a2, a3⟩ := insertTransactionIntoBPTree_owned hrec hg kg
  have hs1 := a3 _ _ _ (by simp) hs
  have hb1 := a3 _ _ _ (by simp) hb
  obtain ⟨mb, st1, b0, b1, b2, b3⟩ :=
    insertTransactionIntoBPTree_owned (m := ma) (by rw [a1]; exact hrec) hs1 ks
  have hg2 := b3 _ _ _ (by simp) a2
  have hb2 := b3 _ _ _ (by simp) hb1
  obtain ⟨mc, bt1, c0, c1, c2, c3⟩ :=
    insertTransactionIntoBPTree_owned (m := mb) (by rw [b1, a1]; exact hrec) hb2 kb
  have hg3 := c3 _ _ _ (by simp) hg2
  have hs3 := c3 _ _ _ (by simp) b2
  refine ⟨mc, g1, st1, bt1, _, ?_, by rw [c1, b1, a1], hg3, hs3, c2, ?_⟩
  · simp [insertIntoTrees, insertTransactionIntoEntityTree, a0, b0, c0]
  · intro O2 root2 es2 n1 n2 n3 h2
    exact c3 _ _ _ n3 (b3 _ _ _ n2 (a3 _ _ _ n1 h2))

/-! ## The engine keeps its trees apart -/

/-- The cells of a list after one cell has been replaced by a cell with the
same id, in a list without repeated ids. -/
theorem cells_after_set {α : Type} (f : α → Int) :
    ∀ (l : List α) (i : Nat) (a x : α), l[i]? = some a → (l.map f).Nodup →
      ∀ c ∈ l.set i x, c = x ∨ (c ∈ l ∧ f c ≠ f a)
  | [], _, _, _, h, _ => by simp at h
  | b :: rest, 0, a, x, h, hnd => by
    intro c hc
    simp only [List.getElem?_cons_zero, Option.some.injEq] at h
    subst h
    simp only [List.set_cons_zero, List.mem_cons] at hc
    rcases hc with rfl | hc
    · exact Or.inl rfl
    · simp only [List.map_cons, List.nodup_cons] at hnd
      refine Or.inr ⟨List.mem_cons_of_mem _ hc, fun e => hnd.1 ?_⟩
      rw [← e]
      exact List.mem_map_of_mem f hc
  | b :: rest, i + 1, a, x, h, hnd => by
    intro c hc
    simp only [List.getElem?_cons_succ] at h
    simp only [List.set_cons_succ, List.mem_cons] at hc
    simp only [List.map_cons, List.nodup_cons] at hnd
    rcases hc with rfl | hc
    · refine Or.inr ⟨List.mem_cons_self _ _, fun e => hnd.1 ?_⟩
      rw [e]
      exact List.mem_map_of_mem f (List.getElem?_mem h)
    · rcases cells_after_set f rest i a x h hnd.2 c hc with h1 | ⟨h1, h2⟩
      · exact Or.inl h1
      · exact Or.inr ⟨List.mem_cons_of_mem _ h1, h2⟩

theorem map_set_same {α : Type} (f : α → Int) :
    ∀ (l : List α) (i : Nat) (a x : α), l[i]? = some a → f x = f a →
      (l.set i x).map f = l.map f
  | [], _, _, _, h, _ => by simp at h
  | b :: rest, 0, a, x, h, hx => by
    simp only [List.getElem?_cons_zero, Option.some.injEq] at h
    subst h
    simp [hx]
  | b :: rest, i + 1, a, x, h, hx => by
    simp only [List.getElem?_cons_succ] at h
    simp [map_set_same f rest i a x h hx]

theorem entriesOf_fst_subset (L : List (Nat × Transaction)) (p : Nat × Transaction → Bool)
    {key : Int} (hk : key ∉ (entriesOf L).map Prod.fst) :
    key ∉ (entriesOf (L.filter p)).map Prod.fst := by
  intro hm
  apply hk
  simp only [entriesOf, List.map_map, List.mem_map, Function.comp] at hm ⊢
  obtain ⟨x, hx, rfl⟩ := hm
  exact ⟨x, List.mem_of_mem_filter hx, rfl⟩

theorem loadRec_append_left {recs : List (Option Transaction)} {p : Nat}
    (l : List (Option Transaction)) (hp : p < recs.length) :
    loadRec (recs ++ l) p = loadRec recs p := by
  simp [loadRec, List.getElem?_append_left hp]

/-- The call `createTransaction` keeps the trees and the history. -/
theorem ForestInv.create {s : Engine} {L : List (Nat × Transaction)} (inv : ForestInv s L)
    (transactionID buyerID sellerID : Int) (energyAmount pricePerKwh : Rat)
    (timestamp : String) :
    ForestInv (createTransaction s transactionID buyerID sellerID energyAmount pricePerKwh
      timestamp).1 L :=
  ⟨inv.trees, fun x hx => by
      show loadRec (s.mem.recs ++ _) x.1 = some x.2
      rw [loadRec_append_left _ (loadRec_lt (inv.recs x hx))]
      exact inv.recs x hx,
    inv.sellerIds, inv.buyerIds, inv.sellerCover, inv.buyerCover⟩

/-- The seller cell that `findOrCreateSeller` returns, its tree, and the
seller list the call leaves. -/
theorem ForestInv.sellerCell {s : Engine} {L : List (Nat × Transaction)} (inv : ForestInv s L)
    {own : Nat → Option Owner}
    (osell : ∀ S ∈ s.seller_head, Owned s.mem.nodes own (Owner.seller S.sellerID)
      S.transactionTree (entriesOf (L.filter (fun x => decide (x.2.sellerID = S.sellerID)))))
    (id : Int) (x y : Rat) {seller : Seller}
    (hs : (findOrCreateSeller s.seller_head id s.loading_mode x y).1[
      (findOrCreateSeller s.seller_head id s.loading_mode x y).2]? = some seller) :
    seller.sellerID = id ∧
      Owned s.mem.nodes own (Owner.seller id) seller.transactionTree
        (entriesOf (L.filter (fun x => decide (x.2.sellerID = id)))) ∧
      ((findOrCreateSeller s.seller_head id s.loading_mode x y).1.map
        (fun S => S.sellerID)).Nodup ∧
      (∀ c ∈ (findOrCreateSeller s.seller_head id s.loading_mode x y).1,
        c.sellerID ≠ id → c ∈ s.seller_head) ∧
      (∀ c ∈ s.seller_head, c ∈ (findOrCreateSeller s.seller_head id s.loading_mode x y).1) := by
  obtain ⟨S, q1, q2, q3, q4⟩ := findOrCreateSeller_spec s.seller_head id s.loading_mode x y
  rw [hs] at q1
  simp only [Option.some.injEq] at q1
  subst q1
  rcases q4 with ⟨h1, h2⟩ | ⟨h1, h2, h3, h4, h5⟩
  · have hmem : seller ∈ s.seller_head := List.mem_of_find?_eq_some h1
    refine ⟨q2, ?_, by rw [h2]; exact inv.sellerIds, fun c hc _ => by rw [h2] at hc; exact hc,
      fun c hc => by rw [h2]; exact hc⟩
    have := osell seller hmem
    rw [q2] at this
    exact this
  · refine ⟨q2, ?_, ?_, ?_, fun c hc => by rw [h3]; exact List.mem_cons_of_mem _ hc⟩
    · have hnil : L.filter (fun x => decide (x.2.sellerID = id)) = [] := by
        rw [List.filter_eq_nil_iff]
        intro z hz
        have hc := inv.sellerCover z hz
        obtain ⟨S1, hS1, e⟩ := List.mem_map.mp hc
        have := h2 S1 hS1
        simp only [decide_eq_true_eq]
        intro e2
        exact this (e.trans e2)
      rw [hnil, h5]
      rfl
    · rw [h3]
      simp only [List.map_cons, List.nodup_cons]
      refine ⟨?_, inv.sellerIds⟩
      intro hm
      obtain ⟨S1, hS1, e⟩ := List.mem_map.mp hm
      exact h2 S1 hS1 (e.trans q2)
    · intro c hc hne
      rw [h3] at hc
      rcases List.mem_cons.mp hc with rfl | hc
      · exact absurd q2 hne
      · exact hc

/-- The buyer cell that `findOrCreateBuyer` returns, its tree, and the buyer
list the call leaves. -/
theorem ForestInv.buyerCell {s : Engine} {L : List (Nat × Transaction)} (inv : ForestInv s L)
    {own : Nat → Option Owner}
    (obuy : ∀ B ∈ s.buyer_head, Owned s.mem.nodes own (Owner.buyer B.buyerID)
      B.transactionTree (entriesOf (L.filter (fun x => decide (x.2.buyerID = B.buyerID)))))
    (id : Int) {buyer : Buyer}
    (hb : (findOrCreateBuyer s.buyer_head id).1[(findOrCreateBuyer s.buyer_head id).2]? =
      some buyer) :
    buyer.buyerID = id ∧
      Owned s.mem.nodes own (Owner.buyer id) buyer.transactionTree
        (entriesOf (L.filter (fun x => decide (x.2.buyerID = id)))) ∧
      ((findOrCreateBuyer s.buyer_head id).1.map (fun B => B.buyerID)).Nodup ∧
      (∀ c ∈ (findOrCreateBuyer s.buyer_head id).1, c.buyerID ≠ id → c ∈ s.buyer_head) ∧
      (∀ c ∈ s.buyer_head, c ∈ (findOrCreateBuyer s.buyer_head id).1) := by
  obtain ⟨B, q1, q2, q3, q4⟩ := findOrCreateBuyer_spec s.buyer_head id
  rw [hb] at q1
  simp only [Option.some.injEq] at q1
  subst q1
  rcases q4 with ⟨h1, h2⟩ | ⟨h1, h2, h3, h4, h5⟩
  · have hmem : buyer ∈ s.buyer_head := List.mem_of_find?_eq_some h1
    refine ⟨q2, ?_, by rw [h2]; exact inv.buyerIds, fun c hc _ => by rw [h2] at hc; exact hc,
      fun c hc => by rw [h2]; exact hc⟩
    have := obuy buyer hmem
    rw [q2] at this
    exact this
  · refine ⟨q2, ?_, ?_, ?_, fun c hc => by rw [h3]; exact List.mem_cons_of_mem _ hc⟩
    · have hnil : L.filter (fun x => decide (x.2.buyerID = id)) = [] := by
        rw [List.filter_eq_nil_iff]
        intro z hz
        have hc := inv.buyerCover z hz
        obtain ⟨B1, hB1, e⟩ := List.mem_map.mp hc
        have := h2 B1 hB1
        simp only [decide_eq_true_eq]
        intro e2
        exact this (e.trans e2)
      rw [hnil, h5]
      rfl
    · rw [h3]
      simp only [List.map_cons, List.nodup_cons]
      refine ⟨?_, inv.buyerIds⟩
      intro hm
      obtain ⟨B1, hB1, e⟩ := List.mem_map.mp hm
      exact h2 B1 hB1 (e.trans q2)
    · intro c hc hne
      rw [h3] at hc
      rcases List.mem_cons.mp hc with rfl | hc
      · exact absurd q2 hne
      · exact hc

/-- The three insertions of `insertTransaction`, given that they have a
result. -/
theorem insertIntoTrees_given {m m1 : Store} {own : Nat → Option Owner}
    {g st bt g1 st1 bt1 : Option Nat} {eg es eb : List (Int × Nat)} {t : Nat}
    {tr : Transaction} {ids idb : Int}
    (hrun : insertIntoTrees m g st bt t = some (m1, g1, st1, bt1))
    (hrec : loadRec m.recs t = some tr)
    (hg : Owned m.nodes own Owner.global g eg)
    (hs : Owned m.nodes own (Owner.seller ids) st es)
    (hb : Owned m.nodes own (Owner.buyer idb) bt eb)
    (kg : tr.transactionID ∉ eg.map Prod.fst) (ks : tr.transactionID ∉ es.map Prod.fst)
    (kb : tr.transactionID ∉ eb.map Prod.fst) :
    m1.recs = m.recs ∧ ∃ own1,
      Owned m1.nodes own1 Owner.global g1 ((tr.transactionID, t) :: eg) ∧
      Owned m1.nodes own1 (Owner.seller ids) st1 ((tr.transactionID, t) :: es) ∧
      Owned m1.nodes own1 (Owner.buyer idb) bt1 ((tr.transactionID, t) :: eb) ∧
      ∀ (O2 : Owner) (root2 : Option Nat) (es2 : List (Int × Nat)), O2 ≠ Owner.global →
        O2 ≠ Owner.seller ids → O2 ≠ Owner.buyer idb →
        Owned m.nodes own O2 root2 es2 → Owned m1.nodes own1 O2 root2 es2 := by
  obtain ⟨m2, g2, st2, bt2, own1, e0, e1, t1, t2, t3, t4⟩ :=
    insertIntoTrees_owned hrec hg hs hb kg ks kb
  rw [hrun] at e0
  simp only [Option.some.injEq, Prod.mk.injEq] at e0
  obtain ⟨rfl, rfl, rfl, rfl⟩ := e0
  exact ⟨e1, own1, t1, t2, t3, t4⟩

/-- A successful `insertTransaction` of a record that is not in the history
keeps the trees apart and adds the record, with its price, to the history. -/
theorem ForestInv.insert {s s1 : Engine} {L : List (Nat × Transaction)} {t : Nat} {x y : Rat}
    {tr : Transaction} (inv : ForestInv s L) (hrec : loadRec s.mem.recs t = some tr)
    (hnew : ∀ z ∈ L, z.1 ≠ t)
    (hins : insertTransaction s t x y = some (s1, InsertReport.added)) :
    ∃ tr1 : Transaction, ForestInv s1 ((t, tr1) :: L) ∧
      tr1.transactionID = tr.transactionID ∧ tr1.buyerID = tr.buyerID ∧
      tr1.sellerID = tr.sellerID ∧ tr1.energyAmount = tr.energyAmount ∧
      tr1.timestamp = tr.timestamp := by
  obtain ⟨hfind, hfresh⟩ := insertTransaction_added hrec hins
  obtain ⟨seller, buyer, m, g1, st1, bt1, hs, hb, htrees, rfl⟩ := insertFresh_some hfresh
  obtain ⟨own, og, osell, obuy⟩ := inv.trees
  obtain ⟨s1, s2, s3, s4, s5⟩ := inv.sellerCell osell tr.sellerID x y hs
  obtain ⟨b1, b2, b3, b4, b5⟩ := inv.buyerCell obuy tr.buyerID hb
  have kg := og.fresh hfind
  have ks := entriesOf_fst_subset L (fun z => decide (z.2.sellerID = tr.sellerID)) kg
  have kb := entriesOf_fst_subset L (fun z => decide (z.2.buyerID = tr.buyerID)) kg
  obtain ⟨e1, own1, t1, t2, t3, t4⟩ := insertIntoTrees_given htrees
    (loadRec_set_eq _ (loadRec_lt hrec)) og s2 b2 kg ks kb
  refine ⟨{ tr with
      pricePerKwh := if tr.energyAmount ≤ 300 then seller.rateBelow300 else seller.rateAbove300,
      totalPrice := doubleMul tr.energyAmount
        (if tr.energyAmount ≤ 300 then seller.rateBelow300 else seller.rateAbove300) },
    ⟨⟨own1, t1, ?_, ?_⟩, ?_, ?_, ?_, ?_, ?_⟩, rfl, rfl, rfl, rfl, rfl⟩
  · -- the sellers
    intro S hS
    rcases cells_after_set (fun S => S.sellerID) _ _ seller _ hs s3 S hS with rfl | ⟨hmem, hne⟩
    · rw [(addRegularBuyer_fields _ _).1, (addRegularBuyer_fields _ _).2.2.2.2.2]
      simp only [s1, List.filter_cons, decide_True, if_true]
      exact t2
    · simp only at hne
      rw [s1] at hne
      have hold := osell S (s4 S hmem hne)
      have := t4 _ _ _ (by simp) (by simpa using hne) (by simp) hold
      rw [List.filter_cons_of_neg (by
        simp only [decide_eq_true_eq]
        exact fun e => hne e.symm)]
      exact this
  · -- the buyers
    intro B hB
    rcases cells_after_set (fun B => B.buyerID) _ _ buyer _ hb b3 B hB with rfl | ⟨hmem, hne⟩
    · simp only [b1, List.filter_cons, decide_True, if_true]
      exact t3
    · simp only at hne
      rw [b1] at hne
      have hold := obuy B (b4 B hmem hne)
      have := t4 _ _ _ (by simp) (by simp) (by simpa using hne) hold
      rw [List.filter_cons_of_neg (by
        simp only [decide_eq_true_eq]
        exact fun e => hne e.symm)]
      exact this
  · -- the records
    intro z hz
    show loadRec m.recs z.1 = some z.2
    rw [e1]
    rcases List.mem_cons.mp hz with rfl | hz
    · exact loadRec_set_eq _ (loadRec_lt hrec)
    · show loadRec (s.mem.recs.set t _) z.1 = some z.2
      rw [loadRec_set_ne _ (hnew z hz)]
      exact inv.recs z hz
  · -- the seller ids
    have key : ∀ X : Seller, X.sellerID = seller.sellerID →
        (((findOrCreateSeller s.seller_head tr.sellerID s.loading_mode x y).1.set
          (findOrCreateSeller s.seller_head tr.sellerID s.loading_mode x y).2 X).map
            (fun S => S.sellerID)).Nodup := fun X hX => by
      rw [map_set_same (fun S => S.sellerID) _ _ seller X hs hX]
      exact s3
    exact key _ (addRegularBuyer_fields _ _).1
  · have key : ∀ X : Buyer, X.buyerID = buyer.buyerID →
        (((findOrCreateBuyer s.buyer_head tr.buyerID).1.set
          (findOrCreateBuyer s.buyer_head tr.buyerID).2 X).map (fun B => B.buyerID)).Nodup :=
      fun X hX => by
        rw [map_set_same (fun B => B.buyerID) _ _ buyer X hb hX]
        exact b3
    exact key _ rfl
  · have key : ∀ X : Seller, X.sellerID = seller.sellerID →
        ∀ z ∈ (t, { tr with
            pricePerKwh :=
              if tr.energyAmount ≤ 300 then seller.rateBelow300 else seller.rateAbove300,
            totalPrice := doubleMul tr.energyAmount
              (if tr.energyAmount ≤ 300 then seller.rateBelow300 else seller.rateAbove300) }) ::
            L,
          z.2.sellerID ∈ ((findOrCreateSeller s.seller_head tr.sellerID s.loading_mode x y).1.set
            (findOrCreateSeller s.seller_head tr.sellerID s.loading_mode x y).2 X).map
              (fun S => S.sellerID) := fun X hX z hz => by
      rw [map_set_same (fun S => S.sellerID) _ _ seller X hs hX]
      rcases List.mem_cons.mp hz with rfl | hz
      · exact List.mem_map.mpr ⟨seller, List.getElem?_mem hs, s1⟩
      · obtain ⟨S1, hS1, e⟩ := List.mem_map.mp (inv.sellerCover z hz)
        exact List.mem_map.mpr ⟨S1, s5 S1 hS1, e⟩
    exact key _ (addRegularBuyer_fields _ _).1
  · have key : ∀ X : Buyer, X.buyerID = buyer.buyerID →
        ∀ z ∈ (t, { tr with
            pricePerKwh :=
              if tr.energyAmount ≤ 300 then seller.rateBelow300 else seller.rateAbove300,
            totalPrice := doubleMul tr.energyAmount
              (if tr.energyAmount ≤ 300 then seller.rateBelow300 else seller.rateAbove300) }) ::
            L,
          z.2.buyerID ∈ ((findOrCreateBuyer s.buyer_head tr.buyerID).1.set
            (findOrCreateBuyer s.buyer_head tr.buyerID).2 X).map (fun B => B.buyerID) :=
      fun X hX z hz => by
        rw [map_set_same (fun B => B.buyerID) _ _ buyer X hb hX]
        rcases List.mem_cons.mp hz with rfl | hz
        · exact List.mem_map.mpr ⟨buyer, List.getElem?_mem hb, b1⟩
        · obtain ⟨B1, hB1, e⟩ := List.mem_map.mp (inv.buyerCover z hz)
          exact List.mem_map.mpr ⟨B1, b5 B1 hB1, e⟩
    exact key _ rfl

/-! ## The engine over a sequence of transactions -/

/-- The leaf a path ends in holds entries of the tree. -/
theorem pathTo_leaf_subset (id : Int) (t : Shape) (c : List Frame) :
    ∀ e ∈ (pathTo id t c).2.2.1, e ∈ t.entries := by
  induction t generalizing c with
  | leaf a es nx => exact fun e he => he
  | node2 a c0 k0 c1 ih0 ih1 =>
    intro e he
    simp only [pathTo] at he
    simp only [Shape.entries, List.mem_append]
    split at he
    · exact Or.inl (ih0 _ e he)
    · exact Or.inr (ih1 _ e he)
  | node3 a c0 k0 c1 k1 c2 ih0 ih1 ih2 =>
    intro e he
    simp only [pathTo] at he
    simp only [Shape.entries, List.mem_append]
    split at he
    · exact Or.inl (Or.inl (ih0 _ e he))
    · split at he
      · exact Or.inl (Or.inr (ih1 _ e he))
      · exact Or.inr (ih2 _ e he)

/-- The key loop of the lookup on a leaf that does not hold the key. -/
theorem RepLeaf.find_absent {h : Heap} {a : Nat} {nx : Option Nat} {es : List (Int × Nat)}
    (hr : RepLeaf h a nx es) {key : Int} (hk : key ∉ es.map Prod.fst) :
    ∃ nk, getNum h a = some nk ∧ keyIndex h a key nk 0 = some none := by
  match es, hr with
  | [(k, r)], ⟨x, y, rx, ry, hl⟩ =>
    simp only [List.map, List.mem_singleton] at hk
    have hne : ¬ k = key := fun e => hk e.symm
    exact ⟨1, by simp [getNum, hl], by simp [keyIndex, getKey, hl, hne]⟩
  | [(k0, r0), (k1, r1)], ⟨y, ry, hl⟩ =>
    simp only [List.map, List.mem_cons, List.mem_singleton, List.not_mem_nil, or_false,
      not_or] at hk
    have hne0 : ¬ k0 = key := fun e => hk.1 e.symm
    have hne1 : ¬ k1 = key := fun e => hk.2 e.symm
    exact ⟨2, by simp [getNum, hl], by simp [keyIndex, getKey, hl, hne0, hne1]⟩

/-- The lookup answers 0 for a key that a represented tree does not hold. -/
theorem find_absent_of_rep {h : Heap} {t : Shape} (hr : Rep h t) (hn : t.addrs.Nodup)
    {key : Int} (hk : key ∉ t.entries.map Prod.fst) :
    findTransactionInBPTree h (some t.addr) key = some false := by
  obtain ⟨idx1, hd⟩ := descend_path key t [] h.length none 0 hr (hr.size_le hn) rfl
  have hleaf : key ∉ (pathTo key t []).2.2.1.map Prod.fst := by
    intro hm
    obtain ⟨e, he, he2⟩ := List.mem_map.mp hm
    exact hk (List.mem_map.mpr ⟨e, pathTo_leaf_subset key t [] e he, he2⟩)
  obtain ⟨nk, h1, h2⟩ := (hr.pathTo_leaf key []).find_absent hleaf
  simp [findTransactionInBPTree, hd, h1, h2]

/-- The lookup answers 0 for a key that a whole tree does not hold. -/
theorem Owned.absent {h : Heap} {own : Nat → Option Owner} {O : Owner} {root : Option Nat}
    {es : List (Int × Nat)} (ht : Owned h own O root es) {key : Int}
    (hk : key ∉ es.map Prod.fst) : findTransactionInBPTree h root key = some false := by
  cases root with
  | none => rfl
  | some r =>
    obtain ⟨t, rfl, h2, _, h4, _, h6, _⟩ := ht
    exact find_absent_of_rep h2 h4 (fun hm => hk (((h6.map Prod.fst).mem_iff).mp hm))

/-- The call `insertTransaction` adds a record whose id is not in the
history. -/
theorem ForestInv.insert_total {s : Engine} {L : List (Nat × Transaction)} {t : Nat}
    {tr : Transaction} (inv : ForestInv s L) (x y : Rat)
    (hrec : loadRec s.mem.recs t = some tr)
    (hkey : tr.transactionID ∉ (entriesOf L).map Prod.fst) :
    ∃ s1, insertTransaction s t x y = some (s1, InsertReport.added) := by
  obtain ⟨own, og, osell, obuy⟩ := inv.trees
  have hfind := og.absent hkey
  obtain ⟨S, q1, _⟩ := findOrCreateSeller_spec s.seller_head tr.sellerID s.loading_mode x y
  obtain ⟨B, r1, _⟩ := findOrCreateBuyer_spec s.buyer_head tr.buyerID
  obtain ⟨_, s2, _⟩ := inv.sellerCell osell tr.sellerID x y q1
  obtain ⟨_, b2, _⟩ := inv.buyerCell obuy tr.buyerID r1
  have ks := entriesOf_fst_subset L (fun z => decide (z.2.sellerID = tr.sellerID)) hkey
  have kb := entriesOf_fst_subset L (fun z => decide (z.2.buyerID = tr.buyerID)) hkey
  obtain ⟨m1, g1, st1, bt1, own1, e0, _⟩ := insertIntoTrees_owned
    (m := { s.mem with recs := s.mem.recs.set t (some
      { tr with
        pricePerKwh := if tr.energyAmount ≤ 300 then S.rateBelow300 else S.rateAbove300,
        totalPrice := doubleMul tr.energyAmount
          (if tr.energyAmount ≤ 300 then S.rateBelow300 else S.rateAbove300) }) })
    (loadRec_set_eq _ (loadRec_lt hrec)) og s2 b2 hkey ks kb
  simp only at e0
  have hfresh : (insertFresh s t tr x y).isSome := by
    unfold insertFresh
    simp only [q1, r1, e0]
    rfl
  obtain ⟨s1, hs1⟩ := Option.isSome_iff_exists.mp hfresh
  refine ⟨s1, ?_⟩
  unfold insertTransaction
  simp only [hrec, hfind, hs1]
  rfl

/-- The record `createTransaction` makes is live behind the pointer it
returns. -/
theorem createTransaction_record (s : Engine) (transactionID buyerID sellerID : Int)
    (energyAmount pricePerKwh : Rat) (timestamp : String) :
    loadRec (createTransaction s transactionID buyerID sellerID energyAmount pricePerKwh
        timestamp).1.mem.recs
      (createTransaction s transactionID buyerID sellerID energyAmount pricePerKwh timestamp).2 =
    some { transactionID := transactionID, buyerID := buyerID, sellerID := sellerID,
           energyAmount := energyAmount, pricePerKwh := pricePerKwh,
           totalPrice := doubleMul energyAmount pricePerKwh,
           timestamp := String.mk (timestamp.data.take 29) } := by
  simp [createTransaction, loadRec]

/-- One call `insertTransaction(createTransaction(...))` that adds its
record: the record joins the history, and its id was not there. -/
theorem ForestInv.step {s s1 : Engine} {L : List (Nat × Transaction)} (inv : ForestInv s L)
    (a : RecordArgs) (hcall : recordCall s a = some (s1, InsertReport.added)) :
    ∃ tr1 : Transaction, ForestInv s1 ((s.mem.recs.length, tr1) :: L) ∧
      tr1.transactionID = a.transactionID ∧ tr1.buyerID = a.buyerID ∧
      tr1.sellerID = a.sellerID ∧ tr1.energyAmount = a.energyAmount ∧
      tr1.timestamp = String.mk (a.timestamp.data.take 29) ∧
      a.transactionID ∉ (entriesOf L).map Prod.fst := by
  have inv1 := inv.create a.transactionID a.buyerID a.sellerID a.energyAmount a.pricePerKwh
    a.timestamp
  have hrec := createTransaction_record s a.transactionID a.buyerID a.sellerID a.energyAmount
    a.pricePerKwh a.timestamp
  have hnew : ∀ z ∈ L, z.1 ≠ s.mem.recs.length :=
    fun z hz => Nat.ne_of_lt (loadRec_lt (inv.recs z hz))
  obtain ⟨tr1, h1, h2, h3, h4, h5, h6⟩ := ForestInv.insert inv1 hrec hnew hcall
  obtain ⟨own, og, _, _⟩ := inv1.trees
  exact ⟨tr1, h1, h2, h3, h4, h5, h6, og.fresh (insertTransaction_added hrec hcall).1⟩

/-- The call `insertTransaction(createTransaction(...))` adds a record whose
id is not in the history. -/
theorem ForestInv.step_total {s : Engine} {L : List (Nat × Transaction)} (inv : ForestInv s L)
    (a : RecordArgs) (hkey : a.transactionID ∉ (entriesOf L).map Prod.fst) :
    ∃ s1, recordCall s a = some (s1, InsertReport.added) :=
  (inv.create a.transactionID a.buyerID a.sellerID a.energyAmount a.pricePerKwh
    a.timestamp).insert_total a.typedBelow a.typedAbove
    (createTransaction_record s a.transactionID a.buyerID a.sellerID a.energyAmount
      a.pricePerKwh a.timestamp) hkey

/-- The empty engine holds the empty history. -/
theorem ForestInv.forest_empty : ForestInv Engine.empty [] :=
  ⟨⟨fun _ => none, rfl, fun S hS => (by cases hS), fun B hB => (by cases hB)⟩,
    fun x hx => (by cases hx), List.nodup_nil, List.nodup_nil, fun x hx => (by cases hx),
    fun x hx => (by cases hx)⟩

/-- What a step of `recordAll` is. -/
theorem recordAll_cons {a : RecordArgs} {rest : List RecordArgs} {s s2 : Engine}
    (h : recordAll (a :: rest) s = some s2) :
    ∃ s1, recordCall s a = some (s1, InsertReport.added) ∧ recordAll rest s1 = some s2 := by
  unfold recordAll at h
  split at h
  · rename_i s1 hc
    exact ⟨s1, hc, h⟩
  · cases h

/-- Calls with ids that differ from each other and from those of the history
all add their record. -/
theorem recordAll_total : ∀ (inputs : List RecordArgs) {s : Engine}
    {L : List (Nat × Transaction)}, ForestInv s L →
    (inputs.map (fun a => a.transactionID)).Nodup →
    (∀ a ∈ inputs, a.transactionID ∉ (entriesOf L).map Prod.fst) →
    ∃ s1, recordAll inputs s = some s1
  | [], s, _, _, _, _ => ⟨s, rfl⟩
  | a :: rest, s, L, inv, hnd, hfresh => by
    obtain ⟨s1, hc⟩ := inv.step_total a (hfresh a (List.mem_cons_self _ _))
    obtain ⟨tr1, inv1, e1, _⟩ := inv.step a hc
    simp only [List.map_cons, List.nodup_cons] at hnd
    obtain ⟨s2, h2⟩ := recordAll_total rest inv1 hnd.2 (by
      intro b hb hm
      simp only [entriesOf, List.map_cons, List.map_map, List.mem_cons] at hm
      rcases hm with hm | hm
      · rw [e1] at hm
        exact hnd.1 (hm ▸ List.mem_map_of_mem (fun a => a.transactionID) hb)
      · exact hfresh b (List.mem_cons_of_mem _ hb) (by
          simpa only [entriesOf, List.map_map] using hm))
    exact ⟨s2, by simp only [recordAll, hc, h2]⟩

/-! ## Counters and regular buyers over a sequence of transactions -/

theorem mem_set_self {α : Type} : ∀ (l : List α) (i : Nat) (a x : α), l[i]? = some a →
    x ∈ l.set i x
  | [], _, _, _, h => by simp at h
  | b :: rest, 0, _, x, _ => by simp
  | b :: rest, i + 1, a, x, h => by
    simp only [List.getElem?_cons_succ] at h
    simp only [List.set_cons_succ, List.mem_cons]
    exact Or.inr (mem_set_self rest i a x h)

theorem mem_set_other {α : Type} (f : α → Int) : ∀ (l : List α) (i : Nat) (a x c : α),
    l[i]? = some a → c ∈ l → f c ≠ f a → c ∈ l.set i x
  | [], _, _, _, _, h, _, _ => by simp at h
  | b :: rest, 0, a, x, c, h, hc, hne => by
    simp only [List.getElem?_cons_zero, Option.some.injEq] at h
    subst h
    simp only [List.set_cons_zero, List.mem_cons] at hc ⊢
    rcases hc with rfl | hc
    · exact absurd rfl hne
    · exact Or.inr hc
  | b :: rest, i + 1, a, x, c, h, hc, hne => by
    simp only [List.getElem?_cons_succ] at h
    simp only [List.set_cons_succ, List.mem_cons] at hc ⊢
    rcases hc with rfl | hc
    · exact Or.inl rfl
    · exact Or.inr (mem_set_other f rest i a x c h hc hne)

/-- Two cells of a list without repeated ids that have one id are one cell. -/
theorem cell_unique {α : Type} (f : α → Int) : ∀ (l : List α), (l.map f).Nodup →
    ∀ a ∈ l, ∀ b ∈ l, f a = f b → a = b
  | [], _, a, ha, _, _, _ => by cases ha
  | c :: rest, hnd, a, ha, b, hb, e => by
    simp only [List.map_cons, List.nodup_cons] at hnd
    rcases List.mem_cons.mp ha with ha1 | ha1
    · rcases List.mem_cons.mp hb with hb1 | hb1
      · rw [ha1, hb1]
      · refine absurd ?_ hnd.1
        rw [← ha1, e]
        exact List.mem_map_of_mem f hb1
    · rcases List.mem_cons.mp hb with hb1 | hb1
      · refine absurd ?_ hnd.1
        rw [← hb1, ← e]
        exact List.mem_map_of_mem f ha1
      · exact cell_unique f rest hnd.2 a ha1 b hb1 e

theorem timesOf_cons (p : Int × Int) (H : List (Int × Int)) (b : Int) :
    timesOf (p :: H) b = timesOf H b + if p.1 = b then 1 else 0 := by
  unfold timesOf
  by_cases h : p.1 = b
  · simp [List.filter_cons, h]
  · simp [List.filter_cons, h]

theorem timesOf_append (H1 H2 : List (Int × Int)) (b : Int) :
    timesOf (H1 ++ H2) b = timesOf H1 b + timesOf H2 b := by
  simp [timesOf]

/-- The regular buyers after `addRegularBuyer`. -/
theorem addRegularBuyer_regs (S : Seller) (B : Buyer) :
    (addRegularBuyer S B).regularBuyers =
      if 5 < B.numTransactions ∧ B.buyerID ∉ S.regularBuyers then
        B.buyerID :: S.regularBuyers
      else S.regularBuyers := by
  unfold addRegularBuyer
  by_cases h1 : B.numTransactions > 5
  · by_cases h2 : B.buyerID ∈ S.regularBuyers
    · simp [h1, h2]
    · have h3 : 5 < B.numTransactions := h1
      simp [h1, h2, h3]
  · have h3 : ¬ 5 < B.numTransactions := h1
    simp [h1, h3]

/-- The counter of the buyer cell that `findOrCreateBuyer` returns. -/
theorem Book.book_buyerCell {s : Engine} {L : List (Nat × Transaction)} (inv : ForestInv s L)
    (bk : Book s (pairsOf L)) (id : Int) {buyer : Buyer}
    (hb : (findOrCreateBuyer s.buyer_head id).1[(findOrCreateBuyer s.buyer_head id).2]? =
      some buyer) :
    buyer.numTransactions = (timesOf (pairsOf L) id : Int) := by
  obtain ⟨B, q1, q2, q3, q4⟩ := findOrCreateBuyer_spec s.buyer_head id
  rw [hb] at q1
  simp only [Option.some.injEq] at q1
  subst q1
  rcases q4 with ⟨h1, h2⟩ | ⟨h1, h2, h3, h4, h5⟩
  · have := bk.counts buyer (List.mem_of_find?_eq_some h1)
    rw [q2] at this
    exact this
  · have hnil : (pairsOf L).filter (fun p => decide (p.1 = id)) = [] := by
      rw [List.filter_eq_nil_iff]
      intro p hp
      simp only [pairsOf, List.mem_map] at hp
      obtain ⟨z, hz, rfl⟩ := hp
      obtain ⟨B1, hB1, e⟩ := List.mem_map.mp (inv.buyerCover z hz)
      simp only [decide_eq_true_eq]
      intro e2
      exact h2 B1 hB1 (e.trans e2)
    rw [h5]
    simp [timesOf, hnil]

/-- The regular buyers of the seller cell that `findOrCreateSeller` returns. -/
theorem Book.book_sellerCell {s : Engine} {H : List (Int × Int)} (bk : Book s H) (id : Int)
    (x y : Rat) {seller : Seller}
    (hs : (findOrCreateSeller s.seller_head id s.loading_mode x y).1[
      (findOrCreateSeller s.seller_head id s.loading_mode x y).2]? = some seller) :
    seller.regularBuyers.Nodup ∧
      ∀ b ∈ seller.regularBuyers, (b, id) ∈ H ∧ 5 < timesOf H b := by
  obtain ⟨S, q1, q2, q3, q4⟩ := findOrCreateSeller_spec s.seller_head id s.loading_mode x y
  rw [hs] at q1
  simp only [Option.some.injEq] at q1
  subst q1
  rcases q4 with ⟨h1, h2⟩ | ⟨h1, h2, h3, h4, h5⟩
  · have hm := List.mem_of_find?_eq_some h1
    refine ⟨bk.regNodup seller hm, fun b hb => ?_⟩
    have := bk.regSound seller hm b hb
    rw [q2] at this
    exact this
  · rw [h5]
    exact ⟨List.nodup_nil, fun b hb => by cases hb⟩

/-- The books after a successful `insertTransaction`: the pair of the record
is the newest. -/
theorem Book.book_insert {s s1 : Engine} {L : List (Nat × Transaction)} {t : Nat} {x y : Rat}
    {tr : Transaction} (inv : ForestInv s L) (bk : Book s (pairsOf L))
    (hins : insertFresh s t tr x y = some s1) :
    Book s1 ((tr.buyerID, tr.sellerID) :: pairsOf L) := by
  obtain ⟨seller, buyer, m, g1, st1, bt1, hs, hb, htrees, rfl⟩ := insertFresh_some hins
  obtain ⟨own, og, osell, obuy⟩ := inv.trees
  obtain ⟨s1, _, s3, s4, s5⟩ := inv.sellerCell osell tr.sellerID x y hs
  obtain ⟨b1, _, b3, b4, b5⟩ := inv.buyerCell obuy tr.buyerID hb
  have hcount := bk.book_buyerCell inv tr.buyerID hb
  obtain ⟨hreg1, hreg2⟩ := bk.book_sellerCell tr.sellerID x y hs
  have hmono : ∀ b, timesOf (pairsOf L) b ≤ timesOf ((tr.buyerID, tr.sellerID) :: pairsOf L) b :=
    fun b => by rw [timesOf_cons]; omega
  have hnow : timesOf ((tr.buyerID, tr.sellerID) :: pairsOf L) tr.buyerID =
      timesOf (pairsOf L) tr.buyerID + 1 := by rw [timesOf_cons]; simp
  -- the cell of the record's seller after the call
  have hcell : ∀ N : Seller, N.sellerID = seller.sellerID →
      N.regularBuyers =
        (if 5 < buyer.numTransactions + 1 ∧ buyer.buyerID ∉ seller.regularBuyers then
          buyer.buyerID :: seller.regularBuyers
        else seller.regularBuyers) →
      Book { s with
        mem := m, globalTransactionTree := g1,
        seller_head :=
          (findOrCreateSeller s.seller_head tr.sellerID s.loading_mode x y).1.set
            (findOrCreateSeller s.seller_head tr.sellerID s.loading_mode x y).2 N,
        buyer_head :=
          (findOrCreateBuyer s.buyer_head tr.buyerID).1.set
            (findOrCreateBuyer s.buyer_head tr.buyerID).2
            { buyer with
              transactionTree := bt1, numTransactions := buyer.numTransactions + 1,
              totalEnergyPurchased := doubleAdd buyer.totalEnergyPurchased tr.energyAmount } }
        ((tr.buyerID, tr.sellerID) :: pairsOf L) := by
    intro N hN1 hN2
    have hNsub : ∀ b ∈ seller.regularBuyers, b ∈ N.regularBuyers := by
      intro b hb2
      rw [hN2]
      split_ifs
      · exact List.mem_cons_of_mem _ hb2
      · exact hb2
    refine ⟨?_, ?_, ?_, ?_⟩
    · -- the counters
      intro B hB
      rcases cells_after_set (fun B => B.buyerID) _ _ buyer _ hb b3 B hB with rfl | ⟨hmem, hne⟩
      · show buyer.numTransactions + 1 = _
        rw [b1, hnow, hcount]
        push_cast
        rfl
      · simp only at hne
        rw [b1] at hne
        rw [bk.counts B (b4 B hmem hne), timesOf_cons]
        have : ¬ tr.buyerID = B.buyerID := fun e => hne e.symm
        simp [this]
    · -- no regular buyer twice
      intro S hS
      rcases cells_after_set (fun S => S.sellerID) _ _ seller _ hs s3 S hS with rfl | ⟨hmem, hne⟩
      · rw [hN2]
        split_ifs with hc
        · exact List.nodup_cons.mpr ⟨hc.2, hreg1⟩
        · exact hreg1
      · simp only at hne
        rw [s1] at hne
        exact bk.regNodup S (s4 S hmem hne)
    · -- a regular buyer has a pair with the seller and more than 5 pairs
      intro S hS b hbm
      rcases cells_after_set (fun S => S.sellerID) _ _ seller _ hs s3 S hS with rfl | ⟨hmem, hne⟩
      · rw [hN2] at hbm
        have hold : b ∈ seller.regularBuyers →
            (b, S.sellerID) ∈ (tr.buyerID, tr.sellerID) :: pairsOf L ∧
              5 < timesOf ((tr.buyerID, tr.sellerID) :: pairsOf L) b := by
          intro hb2
          obtain ⟨g1, g2⟩ := hreg2 b hb2
          rw [hN1, s1]
          exact ⟨List.mem_cons_of_mem _ g1, lt_of_lt_of_le g2 (hmono b)⟩
        split_ifs at hbm with hc
        · rcases List.mem_cons.mp hbm with rfl | hb2
          · rw [hN1, s1, b1]
            refine ⟨List.mem_cons_self _ _, ?_⟩
            rw [hnow]
            have := hc.1
            rw [hcount] at this
            omega
          · exact hold hb2
        · exact hold hbm
      · simp only at hne
        rw [s1] at hne
        obtain ⟨g1, g2⟩ := bk.regSound S (s4 S hmem hne) b hbm
        exact ⟨List.mem_cons_of_mem _ g1, lt_of_lt_of_le g2 (hmono b)⟩
    · -- a buyer whose counter exceeded 5 is a regular buyer of the pair's seller
      intro H1 p H2 e hc
      have hNmem := mem_set_self
        (findOrCreateSeller s.seller_head tr.sellerID s.loading_mode x y).1
        (findOrCreateSeller s.seller_head tr.sellerID s.loading_mode x y).2 seller N hs
      cases H1 with
      | nil =>
        simp only [List.nil_append, List.cons.injEq] at e
        obtain ⟨e1, e2⟩ := e
        subst e1
        subst e2
        refine ⟨N, hNmem, by rw [hN1, s1], ?_⟩
        show tr.buyerID ∈ N.regularBuyers
        rw [hnow] at hc
        have h5 : 5 < buyer.numTransactions + 1 := by
          rw [hcount]
          omega
        rw [hN2, b1]
        by_cases hin : tr.buyerID ∈ seller.regularBuyers
        · split_ifs
          · exact List.mem_cons_self _ _
          · exact hin
        · rw [if_pos ⟨h5, hin⟩]
          exact List.mem_cons_self _ _
      | cons q H1 =>
        simp only [List.cons_append, List.cons.injEq] at e
        obtain ⟨S, hS, g1, g2⟩ := bk.regComplete H1 p H2 e.2 hc
        by_cases hid : S.sellerID = seller.sellerID
        · have hSs : S = seller := cell_unique (fun S => S.sellerID) _ s3 S (s5 S hS) seller
            (List.getElem?_mem hs) hid
          subst hSs
          exact ⟨N, hNmem, by rw [hN1, g1], hNsub _ g2⟩
        · exact ⟨S, mem_set_other (fun S => S.sellerID) _ _ seller N S hs (s5 S hS) hid, g1, g2⟩
  exact hcell _ (addRegularBuyer_fields _ _).1 (addRegularBuyer_regs _ _)

/-- The empty engine has empty books. -/
theorem Book.book_empty : Book Engine.empty [] :=
  ⟨fun B hB => (by cases hB), fun S hS => (by cases hS), fun S hS => (by cases hS),
    fun H1 p H2 e => (by cases H1 <;> cases e)⟩

/-- The call `createTransaction` keeps the books. -/
theorem Book.book_create {s : Engine} {H : List (Int × Int)} (bk : Book s H)
    (transactionID buyerID sellerID : Int) (energyAmount pricePerKwh : Rat)
    (timestamp : String) :
    Book (createTransaction s transactionID buyerID sellerID energyAmount pricePerKwh
      timestamp).1 H :=
  ⟨bk.counts, bk.regNodup, bk.regSound, bk.regComplete⟩

/-- One call `insertTransaction(createTransaction(...))` that adds its
record: the trees and the books take the record. -/
theorem engine_step {s s1 : Engine} {L : List (Nat × Transaction)} (inv : ForestInv s L)
    (bk : Book s (pairsOf L)) (a : RecordArgs)
    (hcall : recordCall s a = some (s1, InsertReport.added)) :
    ∃ x : Nat × Transaction, ForestInv s1 (x :: L) ∧ Book s1 (pairsOf (x :: L)) ∧
      x.2.transactionID = a.transactionID ∧ x.2.buyerID = a.buyerID ∧
      x.2.sellerID = a.sellerID ∧ a.transactionID ∉ (entriesOf L).map Prod.fst := by
  obtain ⟨tr1, h1, h2, h3, h4, _, _, h7⟩ := inv.step a hcall
  refine ⟨(s.mem.recs.length, tr1), h1, ?_, h2, h3, h4, h7⟩
  have inv1 := inv.create a.transactionID a.buyerID a.sellerID a.energyAmount a.pricePerKwh
    a.timestamp
  have bk1 := bk.book_create a.transactionID a.buyerID a.sellerID a.energyAmount a.pricePerKwh
    a.timestamp
  have hrec := createTransaction_record s a.transactionID a.buyerID a.sellerID a.energyAmount
    a.pricePerKwh a.timestamp
  have := Book.book_insert inv1 bk1 (insertTransaction_added hrec hcall).2
  show Book s1 ((tr1.buyerID, tr1.sellerID) :: pairsOf L)
  rw [h3, h4]
  exact this

/-- A run of calls each of which adds its record: the trees and the books
hold the records of the calls, the newest first. -/
theorem engine_run : ∀ (inputs : List RecordArgs) {s s1 : Engine}
    {L : List (Nat × Transaction)}, ForestInv s L → Book s (pairsOf L) →
    recordAll inputs s = some s1 →
    ∃ L1 : List (Nat × Transaction), ForestInv s1 (L1 ++ L) ∧ Book s1 (pairsOf (L1 ++ L)) ∧
      L1.map (fun x => (x.2.transactionID, x.2.buyerID, x.2.sellerID)) =
        (inputs.map (fun a => (a.transactionID, a.buyerID, a.sellerID))).reverse ∧
      ∀ a ∈ inputs, a.transactionID ∉ (entriesOf L).map Prod.fst
  | [], s, s1, L, inv, bk, h => by
    simp only [recordAll, Option.some.injEq] at h
    subst h
    exact ⟨[], inv, bk, rfl, fun a ha => (by cases ha)⟩
  | a :: rest, s, s2, L, inv, bk, h => by
    obtain ⟨s1, hc, hr⟩ := recordAll_cons h
    obtain ⟨x, inv1, bk1, e1, e2, e3, e4⟩ := engine_step inv bk a hc
    obtain ⟨L1, inv2, bk2, e5, e6⟩ := engine_run rest inv1 bk1 hr
    refine ⟨L1 ++ [x], by simpa using inv2, by simpa using bk2, ?_, ?_⟩
    · simp [e5, e1, e2, e3]
    · intro b hb
      rcases List.mem_cons.mp hb with rfl | hb
      · exact e4
      · intro hm
        exact e6 b hb (by
          simp only [entriesOf, List.map_cons, List.map_map, List.mem_cons] at hm ⊢
          exact Or.inr hm)

/-- The ids of a run of calls each of which adds its record differ from each
other. -/
theorem recordAll_ids_nodup : ∀ (inputs : List RecordArgs) {s s1 : Engine}
    {L : List (Nat × Transaction)}, ForestInv s L → Book s (pairsOf L) →
    recordAll inputs s = some s1 → (inputs.map (fun a => a.transactionID)).Nodup
  | [], _, _, _, _, _, _ => List.nodup_nil
  | a :: rest, s, s2, L, inv, bk, h => by
    obtain ⟨s1, hc, hr⟩ := recordAll_cons h
    obtain ⟨x, inv1, bk1, e1, _, _, _⟩ := engine_step inv bk a hc
    obtain ⟨L1, _, _, _, e6⟩ := engine_run rest inv1 bk1 hr
    simp only [List.map_cons, List.nodup_cons]
    refine ⟨?_, recordAll_ids_nodup rest inv1 bk1 hr⟩
    intro hm
    obtain ⟨b, hb, e⟩ := List.mem_map.mp hm
    refine e6 b hb ?_
    simp only [entriesOf, List.map_cons, List.map_map, List.mem_cons]
    exact Or.inl (e.trans e1.symm)

/-- A run of calls from the empty engine adds every record exactly when the
ids of the calls differ from each other. -/
theorem recordAll_some_iff (inputs : List RecordArgs) :
    (∃ s, recordAll inputs Engine.empty = some s) ↔
      (inputs.map (fun a => a.transactionID)).Nodup := by
  constructor
  · rintro ⟨s, h⟩
    exact recordAll_ids_nodup inputs ForestInv.forest_empty Book.book_empty h
  · intro h
    exact recordAll_total inputs ForestInv.forest_empty h (fun a _ hm => by
      simp [entriesOf] at hm)

/-- The history of a run of calls from the empty engine. -/
theorem engine_history {inputs : List RecordArgs} {s : Engine}
    (h : recordAll inputs Engine.empty = some s) :
    ∃ L : List (Nat × Transaction), ForestInv s L ∧ Book s (pairsOf L) ∧
      L.map (fun x => (x.2.transactionID, x.2.buyerID, x.2.sellerID)) =
        (inputs.map (fun a => (a.transactionID, a.buyerID, a.sellerID))).reverse := by
  obtain ⟨L1, h1, h2, h3, _⟩ := engine_run inputs ForestInv.forest_empty Book.book_empty h
  exact ⟨L1, by simpa using h1, by simpa using h2, h3⟩

/-! ## The scans of the trees of the engine -/

/-- The scans of a whole tree read its entries in ascending key order. -/
theorem Owned.owned_scan {h : Heap} {own : Nat → Option Owner} {O : Owner}
    {root : Option Nat} {es : List (Int × Nat)} (ht : Owned h own O root es) :
    ∃ ts : List (Int × Nat), ts.Perm es ∧ ts.Pairwise (fun a b => a.1 < b.1) ∧
      scanRecs h root = some (ts.map (fun e => some e.2)) ∧
      scanKeys h root = some (ts.map Prod.fst) := by
  cases root with
  | none =>
    simp only [Owned] at ht
    subst ht
    exact ⟨[], List.Perm.refl _, List.Pairwise.nil, rfl, rfl⟩
  | some r =>
    obtain ⟨t, rfl, h2, h3, h4, h5, h6, _⟩ := ht
    exact ⟨t.entries, h6, List.pairwise_map.mp h3.sorted, scanRecs_of_rep h2 h4 h5,
      scan_of_rep h2 h4 h5⟩

/-- Two lists of entries in ascending key order with the same entries are
one list. -/
theorem sorted_perm_eq {l1 l2 : List (Int × Nat)} (hp : l1.Perm l2)
    (h1 : l1.Pairwise (fun a b => a.1 < b.1)) (h2 : l2.Pairwise (fun a b => a.1 < b.1)) :
    l1 = l2 := by
  haveI : IsAntisymm (Int × Nat) (fun a b => a.1 < b.1) :=
    ⟨fun a b hab hba => absurd hab (not_lt.mpr (le_of_lt hba))⟩
  exact List.eq_of_perm_of_sorted hp h1 h2

/-- The entries of the part of a history that a test keeps. -/
theorem entriesOf_filter (p : Nat × Transaction → Bool) (q : Int × Nat → Bool) :
    ∀ (L : List (Nat × Transaction)), (∀ x ∈ L, q (x.2.transactionID, x.1) = p x) →
      entriesOf (L.filter p) = (entriesOf L).filter q
  | [], _ => rfl
  | x :: L, h => by
    have hx := h x (List.mem_cons_self _ _)
    have ih := entriesOf_filter p q L (fun z hz => h z (List.mem_cons_of_mem _ hz))
    simp only [entriesOf] at ih ⊢
    cases hp : p x with
    | true =>
      rw [hp] at hx
      simp [List.filter_cons, hp, hx, ih]
    | false =>
      rw [hp] at hx
      simp [List.filter_cons, hp, hx, ih]

/-- The scans of the tree that holds a part of the history read the part of
the global scan that the test keeps. -/
theorem Owned.scan_filter {h : Heap} {own : Nat → Option Owner} {O : Owner}
    {root : Option Nat} {L : List (Nat × Transaction)} {gs : List (Int × Nat)}
    (hg : gs.Perm (entriesOf L)) (hsorted : gs.Pairwise (fun a b => a.1 < b.1))
    (p : Nat × Transaction → Bool) (q : Int × Nat → Bool)
    (hpq : ∀ x ∈ L, q (x.2.transactionID, x.1) = p x)
    (ht : Owned h own O root (entriesOf (L.filter p))) :
    scanRecs h root = some ((gs.filter q).map (fun e => some e.2)) ∧
      scanKeys h root = some ((gs.filter q).map Prod.fst) := by
  obtain ⟨ts, t1, t2, t3, t4⟩ := ht.owned_scan
  rw [entriesOf_filter p q L hpq] at t1
  have : ts = gs.filter q := sorted_perm_eq (t1.trans (hg.filter q).symm) t2 (hsorted.filter q)
  subst this
  exact ⟨t3, t4⟩

/-- In a list without repeated ids exactly one cell has an id of the list. -/
theorem filter_id_length {α : Type} (f : α → Int) : ∀ (l : List α), (l.map f).Nodup →
    ∀ a ∈ l.map f, (l.filter (fun c => decide (f c = a))).length = 1
  | [], _, a, ha => by cases ha
  | c :: rest, hnd, a, ha => by
    simp only [List.map_cons, List.nodup_cons] at hnd
    simp only [List.map_cons, List.mem_cons] at ha
    by_cases hc : f c = a
    · have hnil : rest.filter (fun c => decide (f c = a)) = [] := by
        rw [List.filter_eq_nil_iff]
        intro d hd
        simp only [decide_eq_true_eq]
        intro e
        exact hnd.1 (hc ▸ e ▸ List.mem_map_of_mem f hd)
      simp [List.filter_cons, hc, hnil]
    · rcases ha with ha | ha
      · exact absurd ha.symm hc
      · simp [List.filter_cons, hc, filter_id_length f rest hnd.2 a ha]

/-- The walk over the seller list finds a cell of a list without repeated
ids by its id. -/
theorem sellerOf_mem : ∀ (l : List Seller), (l.map (fun S => S.sellerID)).Nodup →
    ∀ S ∈ l, sellerOf l S.sellerID = some S
  | [], _, S, hS => by cases hS
  | c :: rest, hnd, S, hS => by
    simp only [List.map_cons, List.nodup_cons] at hnd
    rcases List.mem_cons.mp hS with rfl | hS
    · simp [sellerOf]
    · have hne : ¬ c.sellerID = S.sellerID := fun e =>
        hnd.1 (e ▸ List.mem_map_of_mem (fun S => S.sellerID) hS)
      have ih := sellerOf_mem rest hnd.2 S hS
      simp only [sellerOf] at ih ⊢
      simp [List.find?_cons, hne, ih]

/-- The walk over the buyer list finds a cell of a list without repeated ids
by its id. -/
theorem buyerOf_mem : ∀ (l : List Buyer), (l.map (fun B => B.buyerID)).Nodup →
    ∀ B ∈ l, buyerOf l B.buyerID = some B
  | [], _, B, hB => by cases hB
  | c :: rest, hnd, B, hB => by
    simp only [List.map_cons, List.nodup_cons] at hnd
    rcases List.mem_cons.mp hB with rfl | hB
    · simp [buyerOf]
    · have hne : ¬ c.buyerID = B.buyerID := fun e =>
        hnd.1 (e ▸ List.mem_map_of_mem (fun B => B.buyerID) hB)
      have ih := buyerOf_mem rest hnd.2 B hB
      simp only [buyerOf] at ih ⊢
      simp [List.find?_cons, hne, ih]

/-- The rows read for live record pointers, and the rows read for the part of
them that a test on the record keeps. -/
theorem rowsOf_filter (recs : List (Option Transaction)) (p : Transaction → Bool) :
    ∀ (ps : List Nat), (∀ q ∈ ps, (loadRec recs q).isSome) →
      ∃ rows, rowsOf recs (ps.map some) = some rows ∧ ps.map (loadRec recs) = rows.map some ∧
        rowsOf recs ((ps.filter (fun q => ((loadRec recs q).map p).getD false)).map some) =
          some (rows.filter p)
  | [], _ => ⟨[], rfl, rfl, rfl⟩
  | q :: ps, h => by
    obtain ⟨tr, htr⟩ := Option.isSome_iff_exists.mp (h q (List.mem_cons_self _ _))
    obtain ⟨rows, r1, r2, r3⟩ := rowsOf_filter recs p ps
      (fun z hz => h z (List.mem_cons_of_mem _ hz))
    refine ⟨tr :: rows, by simp [rowsOf, htr, r1], by simp [htr, r2], ?_⟩
    cases hp : p tr with
    | true => simp [List.filter_cons, htr, hp, rowsOf, r3]
    | false => simp [List.filter_cons, htr, hp, r3]

/-- The tree of the engine that holds the records of the history with
`sel = id`: its scan reads the part of the global scan with `sel = id`, its
listing is that part of the global listing, and it holds the id of a record
of the history exactly when the record has `sel = id`. -/
theorem ForestInv.scan_part {s : Engine} {L : List (Nat × Transaction)} (inv : ForestInv s L)
    {gs : List (Int × Nat)} (hg : gs.Perm (entriesOf L))
    (hsorted : gs.Pairwise (fun a b => a.1 < b.1)) {rows : List Transaction}
    (hrows : rowsOf s.mem.recs ((gs.map Prod.snd).map some) = some rows)
    {own : Nat → Option Owner} {O : Owner} {root : Option Nat} (sel : Transaction → Int)
    (id : Int)
    (ht : Owned s.mem.nodes own O root
      (entriesOf (L.filter (fun x => decide (sel x.2 = id))))) :
    scanRecs s.mem.nodes root = some (((gs.map Prod.snd).filter
        (fun p => decide ((loadRec s.mem.recs p).map sel = some id))).map some) ∧
      displayTransactionsFromTree s.mem root =
        some (rows.filter (fun tr => decide (sel tr = id))) ∧
      ∀ x ∈ L, holdsId s.mem.nodes root x.2.transactionID = decide (sel x.2 = id) := by
  have hpq : ∀ x ∈ L,
      decide ((loadRec s.mem.recs x.1).map sel = some id) = decide (sel x.2 = id) := by
    intro x hx
    simp [inv.recs x hx]
  obtain ⟨k1, k2⟩ := Owned.scan_filter hg hsorted (fun x => decide (sel x.2 = id))
    (fun e => decide ((loadRec s.mem.recs e.2).map sel = some id)) hpq ht
  have hscan : scanRecs s.mem.nodes root = some (((gs.map Prod.snd).filter
      (fun p => decide ((loadRec s.mem.recs p).map sel = some id))).map some) := by
    rw [k1, List.filter_map]
    simp [Function.comp_def]
  have hmemL : ∀ e ∈ gs, ∃ x ∈ L, e = (x.2.transactionID, x.1) := by
    intro e he
    have := (hg.mem_iff).mp he
    simp only [entriesOf, List.mem_map] at this
    obtain ⟨x, hx, rfl⟩ := this
    exact ⟨x, hx, rfl⟩
  have hlive : ∀ q ∈ gs.map Prod.snd, (loadRec s.mem.recs q).isSome := by
    intro q hq
    obtain ⟨e, he, rfl⟩ := List.mem_map.mp hq
    obtain ⟨x, hx, rfl⟩ := hmemL e he
    simp [inv.recs x hx]
  obtain ⟨rows1, r1, _, r3⟩ := rowsOf_filter s.mem.recs (fun tr => decide (sel tr = id))
    (gs.map Prod.snd) hlive
  rw [hrows] at r1
  simp only [Option.some.injEq] at r1
  subst r1
  have hpred : (fun p => decide ((loadRec s.mem.recs p).map sel = some id)) =
      (fun q => ((loadRec s.mem.recs q).map (fun tr => decide (sel tr = id))).getD false) := by
    funext p
    cases loadRec s.mem.recs p <;> simp
  refine ⟨hscan, ?_, ?_⟩
  · simp only [displayTransactionsFromTree, hscan]
    rw [hpred]
    exact r3
  · intro x hx
    have hkeys : (gs.map Prod.fst).Nodup :=
      (List.pairwise_map.mpr hsorted).imp (fun h => ne_of_lt h)
    have hxg : (x.2.transactionID, x.1) ∈ gs :=
      (hg.mem_iff).mpr (List.mem_map.mpr ⟨x, hx, rfl⟩)
    simp only [holdsId, k2]
    by_cases hsel : sel x.2 = id
    · have : x.2.transactionID ∈ (gs.filter
          (fun e => decide ((loadRec s.mem.recs e.2).map sel = some id))).map Prod.fst :=
        List.mem_map.mpr ⟨_, List.mem_filter.mpr ⟨hxg, by
          show decide ((loadRec s.mem.recs x.1).map sel = some id) = true
          rw [hpq x hx]
          exact decide_eq_true hsel⟩, rfl⟩
      rw [decide_eq_true this, decide_eq_true hsel]
    · have : x.2.transactionID ∉ (gs.filter
          (fun e => decide ((loadRec s.mem.recs e.2).map sel = some id))).map Prod.fst := by
        intro hm
        obtain ⟨e, he, e1⟩ := List.mem_map.mp hm
        obtain ⟨he1, he2⟩ := List.mem_filter.mp he
        have heq : e = (x.2.transactionID, x.1) :=
          cell_unique Prod.fst gs hkeys e he1 _ hxg e1
        subst heq
        have he3 : decide ((loadRec s.mem.recs x.1).map sel = some id) = true := he2
        rw [hpq x hx] at he3
        exact hsel (of_decide_eq_true he3)
      rw [decide_eq_false this, decide_eq_false hsel]

/-- C12: a run of `insertTransaction(createTransaction(...))` calls from the
empty engine adds every record exactly when the ids differ from each other;
after such a run the scan of the global tree reads one pointer per call, no
pointer twice, in ascending id order, and for every seller cell the scan of
the seller's own tree reads exactly the pointers of the global scan, in its
order, whose record names the seller, and `createSetOfTransactionsForSeller`
lists exactly those rows of the global listing; likewise for every buyer
cell; and the id of every record is held by the tree of exactly one seller
cell and of exactly one buyer cell. -/
theorem entity_trees_restrict_global (inputs : List RecordArgs) :
    ((∃ s, recordAll inputs Engine.empty = some s) ↔
      (inputs.map (fun a => a.transactionID)).Nodup) ∧
    ∀ s, recordAll inputs Engine.empty = some s →
      ∃ (ps : List Nat) (rows : List Transaction),
        scanRecs s.mem.nodes s.globalTransactionTree = some (ps.map some) ∧
        displayTransactionsFromTree s.mem s.globalTransactionTree = some rows ∧
        ps.Nodup ∧ ps.length = inputs.length ∧
        ps.map (loadRec s.mem.recs) = rows.map some ∧
        (rows.map (fun tr => tr.transactionID)).Pairwise (· < ·) ∧
        (∀ S ∈ s.seller_head,
          scanRecs s.mem.nodes S.transactionTree =
            some ((ofSeller s.mem S.sellerID ps).map some) ∧
          createSetOfTransactionsForSeller s S.sellerID =
            some (rows.filter (fun tr => decide (tr.sellerID = S.sellerID)))) ∧
        (∀ B ∈ s.buyer_head,
          scanRecs s.mem.nodes B.transactionTree =
            some ((ofBuyer s.mem B.buyerID ps).map some) ∧
          createSetOfTransactionsForBuyer s B.buyerID =
            some (rows.filter (fun tr => decide (tr.buyerID = B.buyerID)))) ∧
        (∀ tr ∈ rows,
          (s.seller_head.filter
            (fun S => holdsId s.mem.nodes S.transactionTree tr.transactionID)).length = 1 ∧
          (s.buyer_head.filter
            (fun B => holdsId s.mem.nodes B.transactionTree tr.transactionID)).length = 1) := by
  refine ⟨recordAll_some_iff inputs, ?_⟩
  intro s h
  obtain ⟨L, inv, _, hL⟩ := engine_history h
  obtain ⟨own, og, osell, obuy⟩ := inv.trees
  obtain ⟨gs, g1, g2, g3, g4⟩ := og.owned_scan
  have hmemL : ∀ e ∈ gs, ∃ x ∈ L, e = (x.2.transactionID, x.1) := by
    intro e he
    have := (g1.mem_iff).mp he
    simp only [entriesOf, List.mem_map] at this
    obtain ⟨x, hx, rfl⟩ := this
    exact ⟨x, hx, rfl⟩
  obtain ⟨rows, w1, w2, w3⟩ := rowsOf_entries s.mem.recs gs (by
    intro e he
    obtain ⟨x, hx, rfl⟩ := hmemL e he
    exact ⟨x.2, inv.recs x hx, rfl⟩)
  have hrows : rowsOf s.mem.recs ((gs.map Prod.snd).map some) = some rows := by
    rw [List.map_map]
    exact w1
  have hkeys : (gs.map Prod.fst).Nodup :=
    (List.pairwise_map.mpr g2).imp (fun h => ne_of_lt h)
  refine ⟨gs.map Prod.snd, rows, by rw [g3, List.map_map]; rfl, ?_, ?_, ?_, ?_, ?_, ?_, ?_, ?_⟩
  · simp only [displayTransactionsFromTree, g3]
    exact w1
  · -- no pointer twice
    refine List.Nodup.map_on ?_ (List.Nodup.of_map Prod.fst hkeys)
    intro a ha b hb hab
    obtain ⟨x, hx, rfl⟩ := hmemL a ha
    obtain ⟨z, hz, rfl⟩ := hmemL b hb
    simp only at hab
    have := inv.recs x hx
    rw [hab, inv.recs z hz] at this
    simp only [Option.some.injEq] at this
    rw [hab, this]
  · -- one pointer per call
    have h1 := g1.length_eq
    have h2 := congrArg List.length hL
    simp only [entriesOf, List.length_map, List.length_reverse] at h1 h2 ⊢
    omega
  · rw [List.map_map]
    exact w3
  · rw [w2]
    exact List.pairwise_map.mpr g2
  · -- the sellers
    intro S hS
    obtain ⟨k1, k2, _⟩ := inv.scan_part g1 g2 hrows (fun tr => tr.sellerID) S.sellerID
      (osell S hS)
    refine ⟨k1, ?_⟩
    have hcell := sellerOf_mem s.seller_head inv.sellerIds S hS
    have : createSetOfTransactionsForSeller s S.sellerID =
        displayTransactionsFromTree s.mem S.transactionTree := by
      simp only [createSetOfTransactionsForSeller, hcell, displayTransactionsFromTree]
      cases S.transactionTree <;> rfl
    rw [this]
    exact k2
  · -- the buyers
    intro B hB
    obtain ⟨k1, k2, _⟩ := inv.scan_part g1 g2 hrows (fun tr => tr.buyerID) B.buyerID
      (obuy B hB)
    refine ⟨k1, ?_⟩
    have hcell := buyerOf_mem s.buyer_head inv.buyerIds B hB
    have : createSetOfTransactionsForBuyer s B.buyerID =
        displayTransactionsFromTree s.mem B.transactionTree := by
      simp only [createSetOfTransactionsForBuyer, hcell, displayTransactionsFromTree]
      cases B.transactionTree <;> rfl
    rw [this]
    exact k2
  · -- every id in the tree of one seller and of one buyer
    intro tr htr
    have hid : tr.transactionID ∈ gs.map Prod.fst := by
      rw [← w2]
      exact List.mem_map_of_mem (fun tr => tr.transactionID) htr
    obtain ⟨e, he, e1⟩ := List.mem_map.mp hid
    obtain ⟨x, hx, rfl⟩ := hmemL e he
    simp only at e1
    rw [← e1]
    constructor
    · rw [List.filter_congr (fun S hS =>
        (inv.scan_part g1 g2 hrows (fun tr => tr.sellerID) S.sellerID (osell S hS)).2.2 x hx)]
      have := filter_id_length (fun S : Seller => S.sellerID) s.seller_head inv.sellerIds
        x.2.sellerID (inv.sellerCover x hx)
      rw [← this]
      congr 1
      apply List.filter_congr
      intro S _
      simp only [decide_eq_decide]
      exact eq_comm
    · rw [List.filter_congr (fun B hB =>
        (inv.scan_part g1 g2 hrows (fun tr => tr.buyerID) B.buyerID (obuy B hB)).2.2 x hx)]
      have := filter_id_length (fun B : Buyer => B.buyerID) s.buyer_head inv.buyerIds
        x.2.buyerID (inv.buyerCover x hx)
      rw [← this]
      congr 1
      apply List.filter_congr
      intro B _
      simp only [decide_eq_decide]
      exact eq_comm

/-- Witness for C12: three calls between two buyers and two sellers. -/
theorem entity_trees_restrict_global_witness :
    recordAll threeMixed Engine.empty = some (engineAfter threeMixed) ∧
    ∃ (ps : List Nat) (rows : List Transaction),
      scanRecs (engineAfter threeMixed).mem.nodes (engineAfter threeMixed).globalTransactionTree =
        some (ps.map some) ∧
      displayTransactionsFromTree (engineAfter threeMixed).mem
        (engineAfter threeMixed).globalTransactionTree = some rows ∧
      ps.Nodup ∧ ps.length = threeMixed.length ∧
      ps.map (loadRec (engineAfter threeMixed).mem.recs) = rows.map some ∧
      (rows.map (fun tr => tr.transactionID)).Pairwise (· < ·) ∧
      (∀ S ∈ (engineAfter threeMixed).seller_head,
        scanRecs (engineAfter threeMixed).mem.nodes S.transactionTree =
          some ((ofSeller (engineAfter threeMixed).mem S.sellerID ps).map some) ∧
        createSetOfTransactionsForSeller (engineAfter threeMixed) S.sellerID =
          some (rows.filter (fun tr => decide (tr.sellerID = S.sellerID)))) ∧
      (∀ B ∈ (engineAfter threeMixed).buyer_head,
        scanRecs (engineAfter threeMixed).mem.nodes B.transactionTree =
          some ((ofBuyer (engineAfter threeMixed).mem B.buyerID ps).map some) ∧
        createSetOfTransactionsForBuyer (engineAfter threeMixed) B.buyerID =
          some (rows.filter (fun tr => decide (tr.buyerID = B.buyerID)))) ∧
      (∀ tr ∈ rows,
        ((engineAfter threeMixed).seller_head.filter
          (fun S => holdsId (engineAfter threeMixed).mem.nodes S.transactionTree
            tr.transactionID)).length = 1 ∧
        ((engineAfter threeMixed).buyer_head.filter
          (fun B => holdsId (engineAfter threeMixed).mem.nodes B.transactionTree
            tr.transactionID)).length = 1) :=
  ⟨by decide!, (entity_trees_restrict_global threeMixed).2 (engineAfter threeMixed) (by decide!)⟩

/-! ## Regular buyers -/

/-- The pairs of the history of a run are the pairs of its calls, newest
first. -/
theorem pairs_of_history {inputs : List RecordArgs} {L : List (Nat × Transaction)}
    (hL : L.map (fun x => (x.2.transactionID, x.2.buyerID, x.2.sellerID)) =
      (inputs.map (fun a => (a.transactionID, a.buyerID, a.sellerID))).reverse) :
    pairsOf L = (inputs.map (fun a => (a.buyerID, a.sellerID))).reverse := by
  have := congrArg (List.map (fun t : Int × Int × Int => (t.2.1, t.2.2))) hL
  simpa [pairsOf, List.map_map, List.map_reverse, Function.comp_def] using this

theorem timesOf_pairs (inputs : List RecordArgs) (b : Int) :
    timesOf (inputs.map (fun a => (a.buyerID, a.sellerID))).reverse b = buyerCount inputs b := by
  simp [timesOf, buyerCount, List.filter_reverse, List.filter_map, Function.comp_def]

/-- The books of the engine after a run of calls from the empty engine. -/
theorem book_of_run {inputs : List RecordArgs} {s : Engine}
    (h : recordAll inputs Engine.empty = some s) :
    Book s (inputs.map (fun a => (a.buyerID, a.sellerID))).reverse ∧
      (s.seller_head.map (fun S => S.sellerID)).Nodup ∧
      (s.buyer_head.map (fun B => B.buyerID)).Nodup := by
  obtain ⟨L, inv, bk, hL⟩ := engine_history h
  rw [pairs_of_history hL] at bk
  exact ⟨bk, inv.sellerIds, inv.buyerIds⟩

/-- The counter read by `transactionsOf` is the number of calls naming the
buyer. -/
theorem transactionsOf_run {inputs : List RecordArgs} {s : Engine}
    (h : recordAll inputs Engine.empty = some s) (b : Int) :
    transactionsOf s b ≤ (buyerCount inputs b : Int) := by
  obtain ⟨bk, _, _⟩ := book_of_run h
  unfold transactionsOf
  cases hb : buyerOf s.buyer_head b with
  | none => simp
  | some B =>
    have hm : B ∈ s.buyer_head := List.mem_of_find?_eq_some hb
    have hid : B.buyerID = b := by
      have := List.find?_some hb
      simpa using this
    have := bk.counts B hm
    rw [timesOf_pairs, hid] at this
    simp [this]

/-- C14: after a run of calls each of which adds its record, the counter of
every buyer is the number of calls that name the buyer, no seller's
regular-buyer list holds an id twice, and a buyer whose counter exceeds 5
right after one of the calls occurs exactly once in the regular-buyer list of
that call's seller, right after that call and after all the calls that
follow.  Six calls between buyer 20 and seller 10 leave `[20]` as the
regular buyers of seller 10, and so does a seventh; five leave none. -/
theorem regular_buyer_once (inputs : List RecordArgs) (s : Engine)
    (h : recordAll inputs Engine.empty = some s) :
    (∀ B ∈ s.buyer_head, B.numTransactions = (buyerCount inputs B.buyerID : Int)) ∧
    (∀ S ∈ s.seller_head, S.regularBuyers.Nodup) ∧
    (∀ (pre : List RecordArgs) (a : RecordArgs) (post : List RecordArgs) (s1 : Engine),
      inputs = pre ++ a :: post → recordAll (pre ++ [a]) Engine.empty = some s1 →
      5 < transactionsOf s1 a.buyerID →
      (regularBuyersOf s1 a.sellerID).count a.buyerID = 1 ∧
      (regularBuyersOf s a.sellerID).count a.buyerID = 1) ∧
    (recordAll (sevenWithOne.take 5) Engine.empty).map (fun e => regularBuyersOf e 10) =
      some [] ∧
    (recordAll (sevenWithOne.take 6) Engine.empty).map (fun e => regularBuyersOf e 10) =
      some [20] ∧
    (recordAll sevenWithOne Engine.empty).map (fun e => regularBuyersOf e 10) = some [20] := by
  obtain ⟨bk, hsn, _⟩ := book_of_run h
  refine ⟨?_, bk.regNodup, ?_, by decide!, by decide!, by decide!⟩
  · intro B hB
    rw [bk.counts B hB, timesOf_pairs]
  · intro pre a post s1 hsplit h1 hcnt
    have hc := lt_of_lt_of_le hcnt (transactionsOf_run h1 a.buyerID)
    have hc1 : 5 < timesOf ((a.buyerID, a.sellerID) ::
        (pre.map (fun a => (a.buyerID, a.sellerID))).reverse) a.buyerID := by
      have := timesOf_pairs (pre ++ [a]) a.buyerID
      simp only [List.map_append, List.map_cons, List.map_nil, List.reverse_append,
        List.reverse_cons, List.reverse_nil, List.nil_append, List.cons_append] at this
      rw [this]
      exact_mod_cast hc
    have key : ∀ (e : Engine) (rest : List RecordArgs),
        recordAll (pre ++ a :: rest) Engine.empty = some e →
        (regularBuyersOf e a.sellerID).count a.buyerID = 1 := by
      intro e rest he
      obtain ⟨bke, hse, _⟩ := book_of_run he
      obtain ⟨S, hS, g1, g2⟩ := bke.regComplete
        (rest.map (fun a => (a.buyerID, a.sellerID))).reverse (a.buyerID, a.sellerID)
        (pre.map (fun a => (a.buyerID, a.sellerID))).reverse (by simp) hc1
      have hcell := sellerOf_mem e.seller_head hse S hS
      rw [g1] at hcell
      simp only [regularBuyersOf, hcell]
      exact List.count_eq_one_of_mem (bke.regNodup S hS) g2
    exact ⟨key s1 [] h1, key s post (hsplit ▸ h)⟩

/-- Witness for C14: seven calls between buyer 20 and seller 10, the sixth
being the call after which the counter exceeds 5. -/
theorem regular_buyer_once_witness :
    recordAll sevenWithOne Engine.empty = some (engineAfter sevenWithOne) ∧
    recordAll (sevenWithOne.take 5 ++ [plainArgs 6 20 10 50]) Engine.empty =
      some (engineAfter (sevenWithOne.take 6)) ∧
    5 < transactionsOf (engineAfter (sevenWithOne.take 6)) 20 ∧
    (regularBuyersOf (engineAfter (sevenWithOne.take 6)) 10).count 20 = 1 ∧
    (regularBuyersOf (engineAfter sevenWithOne) 10).count 20 = 1 :=
  ⟨by decide!, by decide!, by decide!,
    (regular_buyer_once sevenWithOne (engineAfter sevenWithOne) (by decide!)).2.2.1
      (sevenWithOne.take 5) (plainArgs 6 20 10 50) [plainArgs 7 20 10 50]
      (engineAfter (sevenWithOne.take 6)) rfl (by decide!) (by decide!)⟩

/-- C15, what the code does instead: five calls between buyer 20 and seller
10 and then one between buyer 20 and seller 11 make buyer 20 a regular buyer
of seller 11, with which it has one transaction, and not of seller 10, with
which it has five. -/
theorem regular_buyer_not_per_seller :
    (recordAll fiveThenOther Engine.empty).map
      (fun e => (regularBuyersOf e 11, regularBuyersOf e 10)) = some ([20], []) ∧
    pairCount fiveThenOther 20 11 = 1 ∧ pairCount fiveThenOther 20 10 = 5 ∧
    buyerCount fiveThenOther 20 = 6 := by
  decide!

/-- C15 amended: after a run of calls each of which adds its record, a buyer
id is in a seller's regular-buyer list only if some call names that buyer
with that seller and more than 5 calls name that buyer, with whatever
seller. -/
theorem regular_buyer_total_count (inputs : List RecordArgs) (s : Engine)
    (h : recordAll inputs Engine.empty = some s) :
    ∀ S ∈ s.seller_head, ∀ b ∈ S.regularBuyers,
      0 < pairCount inputs b S.sellerID ∧ 5 < buyerCount inputs b := by
  obtain ⟨bk, _, _⟩ := book_of_run h
  intro S hS b hb
  obtain ⟨g1, g2⟩ := bk.regSound S hS b hb
  rw [timesOf_pairs] at g2
  refine ⟨?_, g2⟩
  simp only [List.mem_reverse, List.mem_map, Prod.mk.injEq] at g1
  obtain ⟨a, ha, e1, e2⟩ := g1
  unfold pairCount
  exact List.length_pos_of_mem (List.mem_filter.mpr ⟨ha, by simp [e1, e2]⟩)

/-- Witness for C15 amended: buyer 20 in the regular-buyer list of seller 10
after seven calls between them. -/
theorem regular_buyer_total_count_witness :
    recordAll sevenWithOne Engine.empty = some (engineAfter sevenWithOne) ∧
    ∀ S ∈ (engineAfter sevenWithOne).seller_head, ∀ b ∈ S.regularBuyers,
      0 < pairCount sevenWithOne b S.sellerID ∧ 5 < buyerCount sevenWithOne b :=
  ⟨by decide!, regular_buyer_total_count sevenWithOne (engineAfter sevenWithOne) (by decide!)⟩

/-! ## The two split functions on one node -/

/-- C28: `splitLeafNode` on a leaf with the three keys `k0, k1, k2` leaves the
old leaf with the one key `k0` and its record, makes a new leaf at the end of
the heap with `k1, k2` and their records, links the old leaf to the new one
and the new one to the old leaf's former successor, and changes no other
node.  Without a parent it then makes a new root with the one key `k1` and
the two leaves as children; with a parent it calls `insertInternalNode` with
`k1` and the new leaf, which in a parent holding one key puts `k1` at its
sorted place and the new leaf as the child right of it.  The key `k1` stays
in the new leaf. -/
theorem splitLeafNode_splits (fuel : Nat) (h : Heap) (root : Option Nat) (a : Nat)
    (k0 k1 k2 : Int) (cs : List (Option Nat)) (nx r0 r1 r2 : Option Nat)
    (hl : load h a = some ⟨true, 3, [k0, k1, k2], cs, nx, [r0, r1, r2]⟩) :
    ∃ h1, splitLeafMove h a = some (h1, h.length, k1) ∧
      load h1 a = some ⟨true, 1, [k0, 0, 0], cs, some h.length, [r0, none, none]⟩ ∧
      load h1 h.length =
        some ⟨true, 2, [k1, k2, 0], [none, none, none, none], nx, [r1, r2, none]⟩ ∧
      h1.length = h.length + 1 ∧
      (∀ p, p < h.length → p ≠ a → load h1 p = load h p) ∧
      splitLeafNode fuel h root a none =
        some (h1 ++ [some ⟨false, 1, [k1, 0, 0], [some a, some h.length, none, none], none,
          [none, none, none]⟩], some (h.length + 1)) ∧
      (∀ p, splitLeafNode fuel h root a (some p) =
        insertInternalNode fuel h1 root k1 h.length p) ∧
      (∀ (p : Nat) (x0 x y : Int) (c0 c1 z w pn : Option Nat) (rs : List (Option Nat)),
        p ≠ a → load h p = some ⟨false, 1, [x0, x, y], [c0, c1, z, w], pn, rs⟩ →
        splitLeafNode (fuel + 1) h root a (some p) =
          some (store h1 p
            (if k1 < x0 then ⟨false, 2, [k1, x0, y], [c0, some h.length, c1, w], pn, rs⟩
             else ⟨false, 2, [x0, k1, y], [c0, c1, some h.length, w], pn, rs⟩), root)) := by
  have ha := load_lt hl
  have hmove := splitLeafMove_eq hl
  have hother : ∀ p, p < h.length → p ≠ a →
      load (store h a ⟨true, 1, [k0, 0, 0], cs, some h.length, [r0, none, none]⟩ ++
        [some ⟨true, 2, [k1, k2, 0], [none, none, none, none], nx, [r1, r2, none]⟩]) p =
        load h p := fun p hp hne =>
    load_store_append (⟨true, 1, [k0, 0, 0], cs, some h.length, [r0, none, none]⟩ : BPTreeNode)
      _ hp hne
  refine ⟨_, hmove, load_store_append_eq _ _ ha, ?_, by simp [length_store],
    fun p hp hne => hother p hp hne, ?_, ?_, ?_⟩
  · exact load_append_at _ (by simp [length_store])
  · simp [splitLeafNode, hmove, newRootAbove_eq, length_store]
  · intro p
    simp [splitLeafNode, hmove]
  · intro p x0 x y c0 c1 z w pn rs hne hp
    have hpl := load_lt hp
    have hp1 : load (store h a ⟨true, 1, [k0, 0, 0], cs, some h.length, [r0, none, none]⟩ ++
        [some ⟨true, 2, [k1, k2, 0], [none, none, none, none], nx, [r1, r2, none]⟩]) p =
        some ⟨false, 1, [x0, x, y], [c0, c1, z, w], pn, rs⟩ := by
      rw [hother p hpl hne, hp]
    have hplace := insertInternalPlace_one k1 h.length hp1
    have hpl1 := load_lt hp1
    simp only [splitLeafNode, hmove, insertInternalNode, hplace, getNum]
    by_cases hk : k1 < x0
    · simp only [hk, if_true]
      rw [load_store_eq _ hpl1]
      simp [ORDER]
    · simp only [hk, if_false]
      rw [load_store_eq _ hpl1]
      simp [ORDER]

/-- Witness for C28: the leaf with the keys 1, 2, 3 of `heapFullLeaf`. -/
theorem splitLeafNode_splits_witness :
    load heapFullLeaf 0 =
      some ⟨true, 3, [1, 2, 3], [none, none, none, none], none, [some 0, some 1, some 2]⟩ ∧
    ∃ h1, splitLeafMove heapFullLeaf 0 = some (h1, heapFullLeaf.length, 2) ∧
      load h1 0 = some ⟨true, 1, [1, 0, 0], [none, none, none, none], some heapFullLeaf.length,
        [some 0, none, none]⟩ ∧
      load h1 heapFullLeaf.length =
        some ⟨true, 2, [2, 3, 0], [none, none, none, none], none, [some 1, some 2, none]⟩ ∧
      h1.length = heapFullLeaf.length + 1 ∧
      (∀ p, p < heapFullLeaf.length → p ≠ 0 → load h1 p = load heapFullLeaf p) ∧
      splitLeafNode 4 heapFullLeaf (some 0) 0 none =
        some (h1 ++ [some ⟨false, 1, [2, 0, 0], [some 0, some heapFullLeaf.length, none, none],
          none, [none, none, none]⟩], some (heapFullLeaf.length + 1)) ∧
      (∀ p, splitLeafNode 4 heapFullLeaf (some 0) 0 (some p) =
        insertInternalNode 4 h1 (some 0) 2 heapFullLeaf.length p) ∧
      (∀ (p : Nat) (x0 x y : Int) (c0 c1 z w pn : Option Nat) (rs : List (Option Nat)),
        p ≠ 0 → load heapFullLeaf p = some ⟨false, 1, [x0, x, y], [c0, c1, z, w], pn, rs⟩ →
        splitLeafNode (4 + 1) heapFullLeaf (some 0) 0 (some p) =
          some (store h1 p
            (if 2 < x0 then
              ⟨false, 2, [2, x0, y], [c0, some heapFullLeaf.length, c1, w], pn, rs⟩
             else ⟨false, 2, [x0, 2, y], [c0, c1, some heapFullLeaf.length, w], pn, rs⟩),
            some 0)) :=
  ⟨rfl, splitLeafNode_splits 4 heapFullLeaf (some 0) 0 1 2 3 [none, none, none, none] none
    (some 0) (some 1) (some 2) rfl⟩

/-- C29: `splitInternalNode` on an internal node with the three keys
`k0, k1, k2` and the four children `c0, c1, c2, c3` leaves the node with
`numKeys = 1`, the key `k0` and the children `c0, c1`, makes a new node at
the end of the heap with the one key `k2` and the children `c2, c3`, and
changes no other node.  The key `k1` is promoted: without a parent a new
root with the one key `k1` and the two nodes as children is made, with a
parent `insertInternalNode` is called with `k1` and the new node, which in a
parent holding one key puts `k1` at its sorted place and the new node as the
child right of it.  When `k0 < k1 < k2` the key `k1` is a key of neither
half (the slot `keys[1]` of the old node still holds it, beyond
`numKeys`). -/
theorem splitInternalNode_splits (fuel : Nat) (h : Heap) (root : Option Nat) (a : Nat)
    (k0 k1 k2 : Int) (c0 c1 c2 c3 nx : Option Nat) (rs : List (Option Nat))
    (hl : load h a = some ⟨false, 3, [k0, k1, k2], [c0, c1, c2, c3], nx, rs⟩) :
    ∃ h1, splitInternalMove h a = some (h1, h.length, k1) ∧
      load h1 a = some ⟨false, 1, [k0, k1, 0], [c0, c1, none, none], nx, rs⟩ ∧
      load h1 h.length =
        some ⟨false, 1, [k2, 0, 0], [c2, c3, none, none], none, [none, none, none]⟩ ∧
      h1.length = h.length + 1 ∧
      (∀ p, p < h.length → p ≠ a → load h1 p = load h p) ∧
      nodeKeys h1 a 1 0 = some [k0] ∧ nodeKeys h1 h.length 1 0 = some [k2] ∧
      (k0 < k1 → k1 < k2 → k1 ∉ [k0] ∧ k1 ∉ [k2]) ∧
      splitInternalNode (fuel + 1) h root a none =
        some (h1 ++ [some ⟨false, 1, [k1, 0, 0], [some a, some h.length, none, none], none,
          [none, none, none]⟩], some (h.length + 1)) ∧
      (∀ p, splitInternalNode (fuel + 1) h root a (some p) =
        insertInternalNode fuel h1 root k1 h.length p) ∧
      (∀ (p : Nat) (x0 x y : Int) (d0 d1 z w pn : Option Nat) (ps : List (Option Nat)),
        p ≠ a → load h p = some ⟨false, 1, [x0, x, y], [d0, d1, z, w], pn, ps⟩ →
        splitInternalNode (fuel + 2) h root a (some p) =
          some (store h1 p
            (if k1 < x0 then ⟨false, 2, [k1, x0, y], [d0, some h.length, d1, w], pn, ps⟩
             else ⟨false, 2, [x0, k1, y], [d0, d1, some h.length, w], pn, ps⟩), root)) := by
  have ha := load_lt hl
  have hmove := splitInternalMove_eq hl
  have hother : ∀ p, p < h.length → p ≠ a →
      load (store h a ⟨false, 1, [k0, k1, 0], [c0, c1, none, none], nx, rs⟩ ++
        [some ⟨false, 1, [k2, 0, 0], [c2, c3, none, none], none, [none, none, none]⟩]) p =
        load h p := fun p hp hne =>
    load_store_append (⟨false, 1, [k0, k1, 0], [c0, c1, none, none], nx, rs⟩ : BPTreeNode)
      _ hp hne
  have hold : load (store h a ⟨false, 1, [k0, k1, 0], [c0, c1, none, none], nx, rs⟩ ++
      [some ⟨false, 1, [k2, 0, 0], [c2, c3, none, none], none, [none, none, none]⟩]) a =
      some ⟨false, 1, [k0, k1, 0], [c0, c1, none, none], nx, rs⟩ :=
    load_store_append_eq _ _ ha
  have hnew : load (store h a ⟨false, 1, [k0, k1, 0], [c0, c1, none, none], nx, rs⟩ ++
      [some ⟨false, 1, [k2, 0, 0], [c2, c3, none, none], none, [none, none, none]⟩]) h.length =
      some ⟨false, 1, [k2, 0, 0], [c2, c3, none, none], none, [none, none, none]⟩ :=
    load_append_at _ (by simp [length_store])
  refine ⟨_, hmove, hold, hnew, by simp [length_store], fun p hp hne => hother p hp hne, ?_, ?_,
    ?_, ?_, ?_, ?_⟩
  · simp [nodeKeys, getKey, hold]
  · simp [nodeKeys, getKey, hnew]
  · intro h01 h12
    simp only [List.mem_singleton]
    exact ⟨fun e => by omega, fun e => by omega⟩
  · simp [splitInternalNode, hmove, newRootAbove_eq, length_store]
  · intro p
    simp [splitInternalNode, hmove]
  · intro p x0 x y d0 d1 z w pn ps hne hp
    have hpl := load_lt hp
    have hp1 : load (store h a ⟨false, 1, [k0, k1, 0], [c0, c1, none, none], nx, rs⟩ ++
        [some ⟨false, 1, [k2, 0, 0], [c2, c3, none, none], none, [none, none, none]⟩]) p =
        some ⟨false, 1, [x0, x, y], [d0, d1, z, w], pn, ps⟩ := by
      rw [hother p hpl hne, hp]
    have hplace := insertInternalPlace_one k1 h.length hp1
    have hpl1 := load_lt hp1
    simp only [splitInternalNode, hmove, insertInternalNode, hplace, getNum]
    by_cases hk : k1 < x0
    · simp only [hk, if_true]
      rw [load_store_eq _ hpl1]
      simp [ORDER]
    · simp only [hk, if_false]
      rw [load_store_eq _ hpl1]
      simp [ORDER]

/-- Witness for C29: the node with the keys 2, 3, 4 of `heapFullNode`, which
is the root. -/
theorem splitInternalNode_splits_witness :
    load heapFullNode 4 =
      some ⟨false, 3, [2, 3, 4], [some 0, some 1, some 2, some 3], none, [none, none, none]⟩ ∧
    ∃ h1, splitInternalMove heapFullNode 4 = some (h1, heapFullNode.length, 3) ∧
      load h1 4 = some ⟨false, 1, [2, 3, 0], [some 0, some 1, none, none], none,
        [none, none, none]⟩ ∧
      load h1 heapFullNode.length =
        some ⟨false, 1, [4, 0, 0], [some 2, some 3, none, none], none, [none, none, none]⟩ ∧
      h1.length = heapFullNode.length + 1 ∧
      (∀ p, p < heapFullNode.length → p ≠ 4 → load h1 p = load heapFullNode p) ∧
      nodeKeys h1 4 1 0 = some [2] ∧ nodeKeys h1 heapFullNode.length 1 0 = some [4] ∧
      ((2 : Int) < 3 → (3 : Int) < 4 → (3 : Int) ∉ [(2 : Int)] ∧ (3 : Int) ∉ [(4 : Int)]) ∧
      splitInternalNode (3 + 1) heapFullNode (some 4) 4 none =
        some (h1 ++ [some ⟨false, 1, [3, 0, 0], [some 4, some heapFullNode.length, none, none],
          none, [none, none, none]⟩], some (heapFullNode.length + 1)) ∧
      (∀ p, splitInternalNode (3 + 1) heapFullNode (some 4) 4 (some p) =
        insertInternalNode 3 h1 (some 4) 3 heapFullNode.length p) ∧
      (∀ (p : Nat) (x0 x y : Int) (d0 d1 z w pn : Option Nat) (ps : List (Option Nat)),
        p ≠ 4 → load heapFullNode p = some ⟨false, 1, [x0, x, y], [d0, d1, z, w], pn, ps⟩ →
        splitInternalNode (3 + 2) heapFullNode (some 4) 4 (some p) =
          some (store h1 p
            (if 3 < x0 then
              ⟨false, 2, [3, x0, y], [d0, some heapFullNode.length, d1, w], pn, ps⟩
             else ⟨false, 2, [x0, 3, y], [d0, d1, some heapFullNode.length, w], pn, ps⟩),
            some 4)) :=
  ⟨rfl, splitInternalNode_splits 3 heapFullNode (some 4) 4 2 3 4 (some 0) (some 1) (some 2)
    (some 3) none [none, none, none] rfl⟩

/-! ## The revenue reports never divide by 0 -/

/-- The call `insertTransaction` does not read `nextTransactionID`. -/
theorem insertTransaction_next (s : Engine) (n : Int) (t : Nat) (x y : Rat) :
    insertTransaction { s with nextTransactionID := n } t x y =
      (insertTransaction s t x y).map
        (fun r => ({ r.1 with nextTransactionID := n }, r.2)) := by
  unfold insertTransaction
  cases hrec : loadRec s.mem.recs t with
  | none => simp [hrec]
  | some tr =>
    simp only [hrec]
    cases hf : findTransactionInBPTree s.mem.nodes s.globalTransactionTree tr.transactionID with
    | none => simp [hf]
    | some b =>
      cases b with
      | true =>
        simp only [hf]
        cases hfr : freeRec s.mem.recs (some t) with
        | none => simp [hfr]
        | some recs => simp [hfr]
      | false =>
        simp only [hf]
        unfold insertFresh
        simp only
        cases hs : (findOrCreateSeller s.seller_head tr.sellerID s.loading_mode x y).1[
            (findOrCreateSeller s.seller_head tr.sellerID s.loading_mode x y).2]? with
        | none => simp [hs]
        | some seller =>
          cases hb : (findOrCreateBuyer s.buyer_head tr.buyerID).1[
              (findOrCreateBuyer s.buyer_head tr.buyerID).2]? with
          | none => simp [hs, hb]
          | some buyer =>
            simp only [hs, hb]
            split <;> simp_all

/-- C27, what the code does instead: recording the ids 5 and then 3 adds both
records; the second record has the id 3 that was typed although
`nextTransactionID` was 6 when it was recorded, and the ids recorded one
after the other do not increase. -/
theorem recorded_id_is_typed_not_next :
    (runMenu [recordPlain 5] Engine.empty).map (fun s => s.nextTransactionID) = some 6 ∧
    (runMenu [recordPlain 5, recordPlain 3] Engine.empty).map
      (fun s => ((loadRec s.mem.recs 0).map (fun tr => tr.transactionID),
        (loadRec s.mem.recs 1).map (fun tr => tr.transactionID), s.nextTransactionID)) =
      some (some 5, some 3, 6) ∧
    (runMenu [recordPlain 5, recordPlain 3] Engine.empty).bind
      (fun s => scanKeys s.mem.nodes s.globalTransactionTree) = some [3, 5] := by
  decide!

/-- What the `case 1` branch of `main` does when it has a result, for an id
that is not in the global tree. -/
theorem menuStep_record_some (s s1 : Engine) (transactionID buyerID sellerID : Int)
    (energyAmount : Rat) (timestamp : String) (x y : Rat)
    (hnew : findTransactionInBPTree s.mem.nodes s.globalTransactionTree transactionID =
      some false)
    (hrun : menuStep s (MenuAction.record transactionID buyerID sellerID energyAmount timestamp
      x y) = some s1) :
    (∃ tr, loadRec s1.mem.recs s.mem.recs.length = some tr ∧
      tr.transactionID = transactionID ∧ tr.buyerID = buyerID ∧ tr.sellerID = sellerID ∧
      tr.energyAmount = energyAmount) ∧
    s1.nextTransactionID =
      (if transactionID ≥ s.nextTransactionID then wrapInt (transactionID + 1)
       else s.nextTransactionID) ∧
    ∀ n : Int, menuStep { s with nextTransactionID := n }
        (MenuAction.record transactionID buyerID sellerID energyAmount timestamp x y) =
      some { s1 with
        nextTransactionID := if transactionID ≥ n then wrapInt (transactionID + 1) else n } := by
  have hcall : insertTransaction
      (createTransaction s transactionID buyerID sellerID energyAmount 0 timestamp).1
      (createTransaction s transactionID buyerID sellerID energyAmount 0 timestamp).2 x y =
      some (s1, InsertReport.added) := by
    simp only [menuStep, hnew] at hrun
    have hrec := createTransaction_record s transactionID buyerID sellerID energyAmount 0
      timestamp
    cases hi : insertTransaction
        (createTransaction s transactionID buyerID sellerID energyAmount 0 timestamp).1
        (createTransaction s transactionID buyerID sellerID energyAmount 0 timestamp).2 x y with
    | none => simp [hi] at hrun
    | some r =>
      obtain ⟨e1, rep⟩ := r
      simp only [hi, Option.map_some', Option.some.injEq] at hrun
      subst hrun
      cases rep with
      | added => rfl
      | duplicate =>
        exfalso
        unfold insertTransaction at hi
        simp only [hrec] at hi
        have hf : findTransactionInBPTree
            (createTransaction s transactionID buyerID sellerID energyAmount 0
              timestamp).1.mem.nodes
            (createTransaction s transactionID buyerID sellerID energyAmount 0
              timestamp).1.globalTransactionTree transactionID = some false := hnew
        simp only [hf, Option.map_eq_some', Prod.mk.injEq] at hi
        obtain ⟨_, _, _, hbad⟩ := hi
        cases hbad
  have hrec := createTransaction_record s transactionID buyerID sellerID energyAmount 0
    timestamp
  obtain ⟨_, hfresh⟩ := insertTransaction_added hrec hcall
  obtain ⟨S1, _, c2, _⟩ := insertFresh_record hrec hfresh
  obtain ⟨seller, buyer, m, g1, st1, bt1, _, _, _, e⟩ := insertFresh_some hfresh
  refine ⟨⟨_, c2, rfl, rfl, rfl, rfl⟩, by rw [e]; rfl, ?_⟩
  intro n
  have hnew2 : findTransactionInBPTree ({ s with nextTransactionID := n } : Engine).mem.nodes
      ({ s with nextTransactionID := n } : Engine).globalTransactionTree transactionID =
      some false := hnew
  simp only [menuStep, hnew2]
  have := insertTransaction_next
    (createTransaction s transactionID buyerID sellerID energyAmount 0 timestamp).1
    (if transactionID ≥ n then wrapInt (transactionID + 1) else n)
    (createTransaction s transactionID buyerID sellerID energyAmount 0 timestamp).2 x y
  rw [hcall] at this
  simp only [Option.map_some'] at this
  have hcreate : createTransaction { s with nextTransactionID := n } transactionID buyerID
      sellerID energyAmount 0 timestamp =
      ({ (createTransaction s transactionID buyerID sellerID energyAmount 0 timestamp).1 with
          nextTransactionID := if transactionID ≥ n then wrapInt (transactionID + 1) else n },
        (createTransaction s transactionID buyerID sellerID energyAmount 0 timestamp).2) := rfl
  rw [hcreate]
  simp only [this, Option.map_some']

/-- C27 amended: in every engine built by recording transactions, the
`case 1` branch of `main` for an id that is not in the global tree has a
result and stores a record with the id, buyer, seller, amount that were
typed; `nextTransactionID` becomes the `int` sum of that id and 1 if the id
is not below it (one more than the id, and -2147483648 after the id
2147483647) and stays as it is otherwise; and the branch does not read
`nextTransactionID`: started with another value of it, it does the same. -/
theorem record_keeps_typed_id (inputs : List RecordArgs) (s : Engine)
    (transactionID buyerID sellerID : Int) (energyAmount : Rat) (timestamp : String)
    (x y : Rat) (hs : recordAll inputs Engine.empty = some s)
    (hnew : findTransactionInBPTree s.mem.nodes s.globalTransactionTree transactionID =
      some false) :
    (∃ s1, menuStep s (MenuAction.record transactionID buyerID sellerID energyAmount timestamp
        x y) = some s1 ∧
      (∃ tr, loadRec s1.mem.recs s.mem.recs.length = some tr ∧
        tr.transactionID = transactionID ∧ tr.buyerID = buyerID ∧ tr.sellerID = sellerID ∧
        tr.energyAmount = energyAmount) ∧
      s1.nextTransactionID =
        (if transactionID ≥ s.nextTransactionID then wrapInt (transactionID + 1)
         else s.nextTransactionID) ∧
      ∀ n : Int, menuStep { s with nextTransactionID := n }
          (MenuAction.record transactionID buyerID sellerID energyAmount timestamp x y) =
        some { s1 with
          nextTransactionID :=
            if transactionID ≥ n then wrapInt (transactionID + 1) else n }) ∧
    (runMenu [recordPlain 2147483647] Engine.empty).map
      (fun s => ((loadRec s.mem.recs 0).map (fun tr => tr.transactionID), s.nextTransactionID)) =
      some (some 2147483647, -2147483648) := by
  refine ⟨?_, by decide!⟩
  obtain ⟨L, inv, _, _⟩ := engine_history hs
  obtain ⟨own, og, _, _⟩ := inv.trees
  have hkey := og.fresh hnew
  obtain ⟨s1, hcall⟩ := inv.step_total
    { transactionID := transactionID, buyerID := buyerID, sellerID := sellerID,
      energyAmount := energyAmount, pricePerKwh := 0, timestamp := timestamp,
      typedBelow := x, typedAbove := y } hkey
  have hrun : menuStep s (MenuAction.record transactionID buyerID sellerID energyAmount
      timestamp x y) = some s1 := by
    simp only [recordCall] at hcall
    simp only [menuStep, hnew, hcall, Option.map_some']
  obtain ⟨h1, h2, h3⟩ := menuStep_record_some s s1 transactionID buyerID sellerID energyAmount
    timestamp x y hnew hrun
  exact ⟨s1, hrun, h1, h2, h3⟩

/-- Witness for C27 amended: the id 3 recorded in the engine that holds the
id 5. -/
theorem record_keeps_typed_id_witness :
    recordAll [plainArgs 5 20 10 100] Engine.empty =
      some (engineAfter [plainArgs 5 20 10 100]) ∧
    findTransactionInBPTree (engineAfter [plainArgs 5 20 10 100]).mem.nodes
      (engineAfter [plainArgs 5 20 10 100]).globalTransactionTree 3 = some false ∧
    (∃ s1, menuStep (engineAfter [plainArgs 5 20 10 100]) (recordPlain 3) = some s1 ∧
      (∃ tr, loadRec s1.mem.recs (engineAfter [plainArgs 5 20 10 100]).mem.recs.length =
          some tr ∧
        tr.transactionID = 3 ∧ tr.buyerID = 20 ∧ tr.sellerID = 10 ∧ tr.energyAmount = 100) ∧
      s1.nextTransactionID =
        (if (3 : Int) ≥ (engineAfter [plainArgs 5 20 10 100]).nextTransactionID then
          wrapInt (3 + 1)
         else (engineAfter [plainArgs 5 20 10 100]).nextTransactionID) ∧
      ∀ n : Int, menuStep { engineAfter [plainArgs 5 20 10 100] with nextTransactionID := n }
          (recordPlain 3) =
        some { s1 with nextTransactionID := if (3 : Int) ≥ n then wrapInt (3 + 1) else n }) ∧
    (runMenu [recordPlain 2147483647] Engine.empty).map
      (fun s => ((loadRec s.mem.recs 0).map (fun tr => tr.transactionID), s.nextTransactionID)) =
      some (some 2147483647, -2147483648) :=
  ⟨by decide!, by decide!,
    record_keeps_typed_id [plainArgs 5 20 10 100] (engineAfter [plainArgs 5 20 10 100])
      3 20 10 100 "2024-01-01 10:00:00" (1 / 10) (2 / 25) (by decide!) (by decide!)⟩

/-! ## The record is released by every tree's delete -/

theorem descend_leaf {h : Heap} {a : Nat} {n : BPTreeNode} (id : Int) (hl : load h a = some n)
    (hleaf : n.isLeaf = true) : descend h id h.length a none 0 = some (a, none, 0) := by
  have ha := load_lt hl
  obtain ⟨f, hf⟩ : ∃ f, h.length = f + 1 := ⟨h.length - 1, by omega⟩
  rw [hf]
  simp [descend, hl, hleaf]

/-- The function `deleteTransactionFromBPTree` on a tree that is one leaf
with one key, for that key: the record behind the leaf's pointer is released
(and the leaf too), whichever tree the leaf is the root of. -/
theorem delete_one_leaf (m : Store) (a : Nat) (k x y : Int) (p : Nat)
    (cs : List (Option Nat)) (nx rx ry : Option Nat) (tr : Transaction)
    (hl : load m.nodes a = some ⟨true, 1, [k, x, y], cs, nx, [some p, rx, ry]⟩)
    (hrec : loadRec m.recs p = some tr) :
    ∃ h1, deleteTransactionFromBPTree m (some a) k =
      some ({ nodes := h1, recs := m.recs.set p none }, none) ∧ load h1 a = none := by
  have ha := load_lt hl
  have hd := descend_leaf k hl rfl
  refine ⟨(store m.nodes a ⟨true, 0, [k, x, y], cs, nx, [some p, rx, ry]⟩).set a none, ?_, ?_⟩
  · simp [deleteTransactionFromBPTree, hd, getNum, hl, keyIndex, getKey, getRec, freeRec, hrec,
      removeFromLeaf, forUp, decNum, setNum, modify, load_store_eq, ha, freeNode]
  · simp [load, store, List.getElem?_set_self, ha]

/-- C24: `deleteTransactionFromBPTree` releases the record behind the key it
removes in whichever tree it is called on: on every tree that is one leaf
with one key it releases the record of that key.  In the engine that holds
one transaction (id 1, buyer 20, seller 10, record pointer 0) the delete on
the seller's tree alone and the delete on the buyer's tree alone each release
the record, which the global tree still points to; so in
`deleteTransaction(1)` the record is released by the global tree's delete
and again by the seller's tree's delete, and the call has no defined
result. -/
theorem scoped_delete_releases_record (m : Store) (a : Nat) (k x y : Int) (p : Nat)
    (cs : List (Option Nat)) (nx rx ry : Option Nat) (tr : Transaction)
    (hl : load m.nodes a = some ⟨true, 1, [k, x, y], cs, nx, [some p, rx, ry]⟩)
    (hrec : loadRec m.recs p = some tr) :
    (∃ h1, deleteTransactionFromBPTree m (some a) k =
      some ({ nodes := h1, recs := m.recs.set p none }, none)) ∧
    (engineWithOne.globalTransactionTree,
      (sellerOf engineWithOne.seller_head 10).map (fun S => S.transactionTree),
      (buyerOf engineWithOne.buyer_head 20).map (fun B => B.transactionTree)) =
      (some 0, some (some 1), some (some 2)) ∧
    findTransactionById engineWithOne.mem.nodes engineWithOne.globalTransactionTree 1 =
      some (some 0) ∧
    (loadRec engineWithOne.mem.recs 0).isSome = true ∧
    (deleteTransactionFromBPTree engineWithOne.mem (some 1) 1).map
      (fun r => ((loadRec r.1.recs 0).isSome,
        findTransactionById r.1.nodes engineWithOne.globalTransactionTree 1)) =
      some (false, some (some 0)) ∧
    (deleteTransactionFromBPTree engineWithOne.mem (some 2) 1).map
      (fun r => ((loadRec r.1.recs 0).isSome,
        findTransactionById r.1.nodes engineWithOne.globalTransactionTree 1)) =
      some (false, some (some 0)) ∧
    (deleteTransactionFromBPTree engineWithOne.mem engineWithOne.globalTransactionTree 1).map
      (fun r => ((loadRec r.1.recs 0).isSome,
        deleteTransactionFromBPTree r.1 (some 1) 1)) = some (false, none) ∧
    deleteTransaction engineWithOne 1 = none := by
  obtain ⟨h1, g1, _⟩ := delete_one_leaf m a k x y p cs nx rx ry tr hl hrec
  exact ⟨⟨h1, g1⟩, by decide!, by decide!, by decide!, by decide!, by decide!, by decide!,
    by decide!⟩

/-- Witness for C24: the seller's tree of the engine that holds one
transaction. -/
theorem scoped_delete_releases_record_witness :
    load engineWithOne.mem.nodes 1 =
      some ⟨true, 1, [1, 0, 0], [none, none, none, none], none, [some 0, none, none]⟩ ∧
    (loadRec engineWithOne.mem.recs 0).isSome = true ∧
    ∃ h1, deleteTransactionFromBPTree engineWithOne.mem (some 1) 1 =
      some ({ nodes := h1, recs := engineWithOne.mem.recs.set 0 none }, none) :=
  ⟨by decide!, by decide!,
    (scoped_delete_releases_record engineWithOne.mem 1 1 0 0 0 [none, none, none, none] none
      none none
      { transactionID := 1, buyerID := 20, sellerID := 10, energyAmount := 100,
        pricePerKwh := 1 / 10, totalPrice := 10, timestamp := "2024-01-01 10:00:00" }
      (by decide!) (by decide!)).1⟩

/-! ## Levels are kept by insertion -/

theorem balanced_fill {f : Frame} {s : Shape} {n : Nat} (hf : f.Level n) (hb : s.Balanced)
    (hh : s.height = n) : (f.fill s).Balanced ∧ (f.fill s).height = n + 1 := by
  cases f <;>
    simp only [Frame.Level, Frame.before, Frame.after, List.nil_append, List.append_nil,
      List.mem_cons, List.mem_singleton, List.not_mem_nil, or_false, forall_eq_or_imp, forall_eq,
      List.cons_append, false_or, IsEmpty.forall_iff, implies_true, and_true] at hf <;>
    simp only [Frame.fill, Shape.Balanced, Shape.height] <;>
    simp [hb, hh, hf]

theorem fill_balanced_inv {f : Frame} {s : Shape} (hb : (f.fill s).Balanced) :
    s.Balanced ∧ f.Level s.height ∧ (f.fill s).height = s.height + 1 := by
  cases f <;>
    simp only [Frame.fill, Shape.Balanced, Shape.height] at hb ⊢ <;>
    simp only [Frame.Level, Frame.before, Frame.after, List.nil_append, List.append_nil,
      List.mem_cons, List.mem_singleton, List.not_mem_nil, or_false, forall_eq_or_imp, forall_eq,
      List.cons_append, false_or, IsEmpty.forall_iff, implies_true, and_true] <;>
    (try obtain ⟨b0, b1, b2, e1, e2⟩ := hb) <;> (try obtain ⟨b0, b1, e1⟩ := hb) <;>
    simp_all

theorem balanced_plug : ∀ (c : List Frame) (s : Shape) (n : Nat), PathLevel c n → s.Balanced →
    s.height = n → (plug c s).Balanced ∧ (plug c s).height = n + c.length := by
  intro c
  induction c with
  | nil => intro s n _ hb hh; exact ⟨hb, by simpa [plug] using hh⟩
  | cons f c ih =>
    intro s n hp hb hh
    obtain ⟨q1, q2⟩ := balanced_fill hp.1 hb hh
    obtain ⟨g1, g2⟩ := ih (f.fill s) (n + 1) hp.2 q1 q2
    exact ⟨g1, by simp only [plug, List.length_cons]; omega⟩

theorem plug_balanced_inv : ∀ (c : List Frame) (s : Shape), (plug c s).Balanced →
    s.Balanced ∧ PathLevel c s.height ∧ (plug c s).height = s.height + c.length := by
  intro c
  induction c with
  | nil => intro s hb; exact ⟨hb, trivial, rfl⟩
  | cons f c ih =>
    intro s hb
    obtain ⟨g1, g2, g3⟩ := ih (f.fill s) hb
    obtain ⟨q1, q2, q3⟩ := fill_balanced_inv g1
    rw [q3] at g2 g3
    exact ⟨q1, ⟨q2, g2⟩, by simp only [plug, List.length_cons]; omega⟩

/-- A subtree put back at the bottom of a path, without regard to the order of
its keys. -/
theorem plug_level {h : Heap} {c : List Frame} {s : Shape} {n : Nat}
    (hrp : RepPath h c s.addr) (hr : Rep h s) (nd : (pathAddrs c ++ s.addrs).Nodup)
    (hp : PathLevel c n) (hb : s.Balanced) (hh : s.height = n) :
    Rep h (plug c s) ∧ (plug c s).addrs.Nodup ∧ (plug c s).addr = pathRoot c s.addr ∧
      (plug c s).leaves = leavesBefore c ++ s.leaves ++ leavesAfter c ∧
      (plug c s).Balanced ∧ (plug c s).height = n + c.length :=
  ⟨(rep_plug c s).mpr ⟨hrp, hr⟩, ((addrs_plug c s).nodup_iff).mpr nd, plug_addr c s,
    leaves_plug c s, (balanced_plug c s n hp hb hh).1, (balanced_plug c s n hp hb hh).2⟩

/-- The base case: with no path left, a new root is made above two level
nodes of one height. -/
theorem attach_nil_level {h : Heap} {L R : Shape} {key : Int} {n base : Nat} (fuel : Nat)
    (root : Option Nat) (pre : UpPreF h [] L R key n base) :
    UpPostF [] L R n base (attach fuel h root [] L.addr key R.addr) := by
  have hlt : ∀ a ∈ L.addrs ++ R.addrs, a < h.length := by
    intro a ha
    rcases List.mem_append.mp ha with ha | ha
    · exact pre.rleft.addr_lt a ha
    · exact pre.rright.addr_lt a ha
  refine ⟨h ++ [some ⟨false, 1, [key, 0, 0], [some L.addr, some R.addr, none, none], none,
      [none, none, none]⟩], Shape.node2 h.length L key R, by simp [attach, newRootAbove_eq],
    ?_, ?_, ?_, ?_, ?_⟩
  · exact ⟨⟨0, 0, none, none, load_append_at _ rfl⟩, pre.rleft.append _, pre.rright.append _⟩
  · have hn := pre.nodup
    simp only [pathAddrs, List.nil_append] at hn
    simp only [Shape.addrs, List.nodup_cons]
    exact ⟨fun hm => lt_irrefl _ (hlt _ hm), hn⟩
  · simp [Shape.leaves, leavesBefore, leavesAfter]
  · exact ⟨pre.bleft, pre.bright, by rw [pre.hleft, pre.hright]⟩
  · refine Or.inr ⟨L, key, R, rfl, rfl, pre.lone, ?_, pre.hbase, pre.rnew⟩
    simp [Shape.height, pre.hleft]

/-- A full internal node at the bottom of the path `c` is split and its right
half handed to the rest of the path; the four subtrees are level and of one
height. -/
theorem splitFull_level {c : List Frame}
    (ih : ∀ (h : Heap) (L R : Shape) (key : Int) (n base fuel : Nat) (root : Option Nat),
      UpPreF h c L R key n base → 2 * c.length ≤ fuel → root = some (pathRoot c L.addr) →
      UpPostF c L R n base (attach fuel h root c L.addr key R.addr))
    {h1 : Heap} {a : Nat} {d0 d1 d2 d3 : Shape} {x0 x1 x2 : Int} {n base : Nat} (fuel : Nat)
    (root : Option Nat) (hbase : base ≤ h1.length)
    (hl : load h1 a = some ⟨false, 3, [x0, x1, x2],
      [some d0.addr, some d1.addr, some d2.addr, some d3.addr], none, [none, none, none]⟩)
    (hrp : RepPath h1 c a) (r0 : Rep h1 d0) (r1 : Rep h1 d1) (r2 : Rep h1 d2) (r3 : Rep h1 d3)
    (nd : (pathAddrs c ++ (a :: (d0.addrs ++ d1.addrs ++ (d2.addrs ++ d3.addrs)))).Nodup)
    (op : OrdPath c) (hlo : geLo (pathLo c) x1) (hhi : ltHi x1 (pathHi c))
    (b0 : d0.Balanced ∧ d0.height = n) (b1 : d1.Balanced ∧ d1.height = n)
    (b2 : d2.Balanced ∧ d2.height = n) (b3 : d3.Balanced ∧ d3.height = n)
    (hp : PathLevel c (n + 1))
    (hroot : root = some (pathRoot c a)) (hf : 2 * c.length + 1 ≤ fuel) :
    ∃ h2 t, splitFull fuel h1 root a = some (h2, some t.addr) ∧ Rep h2 t ∧
      t.addrs.Nodup ∧
      t.leaves = leavesBefore c ++ (d0.leaves ++ d1.leaves ++ (d2.leaves ++ d3.leaves)) ++
        leavesAfter c ∧
      t.Balanced ∧ Grown base (pathRoot c a) (n + 1 + c.length) t := by
  obtain ⟨f, rfl⟩ : ∃ f, fuel = f + 1 := ⟨fuel - 1, by omega⟩
  have ha : a < h1.length := load_lt hl
  have hcount := fun x => count_le_one_of_nodup nd x
  simp only [List.count_append, List.count_cons] at hcount
  have hnotpath : a ∉ pathAddrs c := by
    intro hm
    have h1' := mem_iff_count.mp hm
    have := hcount a
    simp at this
    omega
  have hlt : ∀ p ∈ pathAddrs c ++ (a :: (d0.addrs ++ d1.addrs ++ (d2.addrs ++ d3.addrs))),
      p < h1.length := by
    intro p hp
    simp only [List.mem_append, List.mem_cons] at hp
    rcases hp with hp | rfl | (hp | hp) | (hp | hp)
    · exact hrp.path_addr_lt p hp
    · exact ha
    · exact r0.addr_lt p hp
    · exact r1.addr_lt p hp
    · exact r2.addr_lt p hp
    · exact r3.addr_lt p hp
  let nl : BPTreeNode := ⟨false, 1, [x0, x1, 0], [some d0.addr, some d1.addr, none, none], none,
    [none, none, none]⟩
  let nr : BPTreeNode := ⟨false, 1, [x2, 0, 0], [some d2.addr, some d3.addr, none, none], none,
    [none, none, none]⟩
  have hstep : splitFull (f + 1) h1 root a =
      attach f (store h1 a nl ++ [some nr]) root c a x1 h1.length := by
    cases c with
    | nil =>
      simp only [pathRoot] at hroot
      simp [splitFull, hroot, splitInternalNode_succ, splitInternalMove_eq hl, attach, nl, nr]
    | cons g c1 =>
      have hmem := pathRoot_mem g c1 a
      have hra : ¬ pathRoot (g :: c1) a = a := fun e => hnotpath (e ▸ hmem)
      have hfind := searchParent_finds g c1 hrp hnotpath (h1.length + 1) (by
        have h1' := searchCost_le c1
        have h2' : (pathAddrs c1).length ≤ h1.length := by
          apply length_le_of_nodup_lt
          · have := nd
            simp only [pathAddrs, List.nodup_append] at this
            exact this.1.2.1
          · intro p hp
            exact hlt p (by simp [pathAddrs, hp])
        omega)
      simp [splitFull, hroot, hra, hfind, splitInternalNode_succ, splitInternalMove_eq hl, attach,
        nl, nr]
  have hmemd : ∀ p, p ∈ d0.addrs ++ d1.addrs ++ (d2.addrs ++ d3.addrs) → p ≠ a := by
    intro p hp e
    subst e
    have h1' := mem_iff_count.mp hp
    have := hcount p
    simp [List.count_append] at this h1'
    omega
  have hrep : ∀ d : Shape, Rep h1 d → (∀ p ∈ d.addrs, p ≠ a) →
      Rep (store h1 a nl ++ [some nr]) d := by
    intro d hd hp
    exact hd.congr (fun p hm => load_store_append nl _ (hd.addr_lt p hm) (hp p hm))
  have pre : UpPreF (store h1 a nl ++ [some nr]) c (Shape.node2 a d0 x0 d1)
      (Shape.node2 h1.length d2 x2 d3) x1 (n + 1) base := by
    refine ⟨?_, ?_, ?_, ?_, op, hlo, hhi, ⟨b0.1, b1.1, by rw [b0.2, b1.2]⟩,
      ⟨b2.1, b3.1, by rw [b2.2, b3.2]⟩, by simp [Shape.height, b0.2],
      by simp [Shape.height, b2.2], hp, rfl, hbase, by simp [length_store]; omega⟩
    · exact hrp.path_congr (fun p hp => load_store_append nl _ (hrp.path_addr_lt p hp)
        (fun e => hnotpath (e ▸ hp)))
    · exact ⟨⟨x1, 0, none, none, load_store_append_eq nl _ ha⟩,
        hrep d0 r0 (fun p hp => hmemd p (by simp [hp])),
        hrep d1 r1 (fun p hp => hmemd p (by simp [hp]))⟩
    · exact ⟨⟨0, 0, none, none, load_append_at _ (by simp [length_store])⟩,
        hrep d2 r2 (fun p hp => hmemd p (by simp [hp])),
        hrep d3 r3 (fun p hp => hmemd p (by simp [hp]))⟩
    · have hperm : (pathAddrs c ++ ((Shape.node2 a d0 x0 d1).addrs ++
          (Shape.node2 h1.length d2 x2 d3).addrs)).Perm
          (h1.length :: (pathAddrs c ++ (a :: (d0.addrs ++ d1.addrs ++
            (d2.addrs ++ d3.addrs))))) := by
        rw [List.perm_iff_count]
        intro x
        simp [Shape.addrs, List.count_append, List.count_cons]
        omega
      rw [hperm.nodup_iff, List.nodup_cons]
      exact ⟨fun hm => lt_irrefl _ (hlt _ hm), nd⟩
  obtain ⟨h2, t, hres, hrt, hnt, hleaves, hbal, hgrow⟩ :=
    ih _ _ _ x1 (n + 1) base f root pre (by omega) (by simpa using hroot)
  refine ⟨h2, t, by rw [hstep]; simpa using hres, hrt, hnt, ?_, hbal, ?_⟩
  · rw [hleaves]
    simp [Shape.leaves]
  · simpa using hgrow

/-- An internal node that has taken a third child without becoming full: the
tree around it is whole and level. -/
theorem place_node3_level {h : Heap} {c : List Frame} {a : Nat} {d0 d1 d2 : Shape}
    {u v y : Int} {w : Option Nat} {n : Nat} (ha : a < h.length)
    (hrp : RepPath h c a) (r0 : Rep h d0) (r1 : Rep h d1) (r2 : Rep h d2)
    (nd : (pathAddrs c ++ (a :: (d0.addrs ++ d1.addrs ++ d2.addrs))).Nodup)
    (b0 : d0.Balanced ∧ d0.height = n) (b1 : d1.Balanced ∧ d1.height = n)
    (b2 : d2.Balanced ∧ d2.height = n) (hp : PathLevel c (n + 1)) :
    ∃ t : Shape, t.addr = pathRoot c a ∧
      Rep (store h a ⟨false, 2, [u, v, y], [some d0.addr, some d1.addr, some d2.addr, w], none,
        [none, none, none]⟩) t ∧
      t.addrs.Nodup ∧
      t.leaves = leavesBefore c ++ (d0.leaves ++ d1.leaves ++ d2.leaves) ++ leavesAfter c ∧
      t.Balanced ∧ t.height = n + 1 + c.length := by
  obtain ⟨hn1, hn2⟩ := not_mem_of_nodup_cons nd
  simp only [List.mem_append, not_or] at hn2
  have hpl := plug_level (h := store h a ⟨false, 2, [u, v, y],
      [some d0.addr, some d1.addr, some d2.addr, w], none, [none, none, none]⟩) (c := c)
    (s := Shape.node3 a d0 u d1 v d2) (n := n + 1) (hrp.path_store a _ hn1)
    ⟨⟨y, w, load_store_eq _ ha⟩, r0.store a _ hn2.1.1, r1.store a _ hn2.1.2, r2.store a _ hn2.2⟩
    (by simpa [Shape.addrs] using nd) hp
    ⟨b0.1, b1.1, b2.1, by rw [b0.2, b1.2], by rw [b0.2, b2.2]⟩ (by simp [Shape.height, b0.2])
  obtain ⟨p1, p3, p4, p5, p6, p7⟩ := hpl
  exact ⟨_, by simpa using p4, p1, p3, by simpa [Shape.leaves] using p5, p6, p7⟩

theorem attach_n2l_level {h : Heap} {c : List Frame} {L R : Shape} {key : Int} {a : Nat}
    {k0 : Int} {c1 : Shape} {n base : Nat} (fuel : Nat) (root : Option Nat)
    (pre : UpPreF h (Frame.n2l a k0 c1 :: c) L R key n base)
    (hroot : root = some (pathRoot (Frame.n2l a k0 c1 :: c) L.addr)) :
    UpPostF (Frame.n2l a k0 c1 :: c) L R n base
      (attach (fuel + 1) h root (Frame.n2l a k0 c1 :: c) L.addr key R.addr) := by
  obtain ⟨⟨⟨x, y, z, w, hl⟩, rc1⟩, hrp⟩ := pre.rpath
  obtain ⟨hlev, hp⟩ := pre.plevel
  have lc1 : c1.Balanced ∧ c1.height = n := hlev c1 (by simp [Frame.before, Frame.after])
  have hk : key < k0 := pre.khi
  have ha := load_lt hl
  have nd : (pathAddrs c ++ (a :: (L.addrs ++ R.addrs ++ c1.addrs))).Nodup := by
    refine (List.Perm.nodup_iff ?_).mp pre.nodup
    rw [List.perm_iff_count]
    intro v
    simp [pathAddrs, Frame.addrs, Frame.addr, Frame.before, Frame.after, List.count_append,
      List.count_cons]
    omega
  obtain ⟨t, t1, t2, t4, t5, t6, t7⟩ := place_node3_level (u := key) (v := k0) (y := y) (w := w)
    ha hrp pre.rleft pre.rright rc1 nd ⟨pre.bleft, pre.hleft⟩ ⟨pre.bright, pre.hright⟩ lc1 hp
  refine ⟨_, t, ?_, t2, t4, ?_, t6, Or.inl ⟨by simpa [pathRoot, Frame.addr] using t1, ?_⟩⟩
  · simp [attach, Frame.addr, insertInternalNode_succ, insertInternalPlace_one key R.addr hl, hk,
      getNum, load_store_eq, ha, ORDER, hroot, pathRoot, t1]
  · rw [t5]
    simp [leavesBefore, leavesAfter, Frame.before, Frame.after]
  · rw [t7]
    simp only [List.length_cons]
    omega

theorem attach_n2r_level {h : Heap} {c : List Frame} {L R : Shape} {key : Int} {a : Nat}
    {k0 : Int} {c0 : Shape} {n base : Nat} (fuel : Nat) (root : Option Nat)
    (pre : UpPreF h (Frame.n2r a c0 k0 :: c) L R key n base)
    (hroot : root = some (pathRoot (Frame.n2r a c0 k0 :: c) L.addr)) :
    UpPostF (Frame.n2r a c0 k0 :: c) L R n base
      (attach (fuel + 1) h root (Frame.n2r a c0 k0 :: c) L.addr key R.addr) := by
  obtain ⟨⟨⟨x, y, z, w, hl⟩, rc0⟩, hrp⟩ := pre.rpath
  obtain ⟨hlev, hp⟩ := pre.plevel
  have lc0 : c0.Balanced ∧ c0.height = n := hlev c0 (by simp [Frame.before, Frame.after])
  have hk0 : k0 ≤ key := pre.klo
  have hk : ¬ key < k0 := by omega
  have ha := load_lt hl
  have nd : (pathAddrs c ++ (a :: (c0.addrs ++ L.addrs ++ R.addrs))).Nodup := by
    refine (List.Perm.nodup_iff ?_).mp pre.nodup
    rw [List.perm_iff_count]
    intro v
    simp [pathAddrs, Frame.addrs, Frame.addr, Frame.before, Frame.after, List.count_append,
      List.count_cons]
    omega
  obtain ⟨t, t1, t2, t4, t5, t6, t7⟩ := place_node3_level (u := k0) (v := key) (y := y) (w := w)
    ha hrp rc0 pre.rleft pre.rright nd lc0 ⟨pre.bleft, pre.hleft⟩ ⟨pre.bright, pre.hright⟩ hp
  refine ⟨_, t, ?_, t2, t4, ?_, t6, Or.inl ⟨by simpa [pathRoot, Frame.addr] using t1, ?_⟩⟩
  · simp [attach, Frame.addr, insertInternalNode_succ, insertInternalPlace_one key R.addr hl, hk,
      getNum, load_store_eq, ha, ORDER, hroot, pathRoot, t1]
  · rw [t5]
    simp [leavesBefore, leavesAfter, Frame.before, Frame.after]
  · rw [t7]
    simp only [List.length_cons]
    omega

/-- The shared end of the three cases in which the parent becomes full. -/
theorem attach_full_level {c : List Frame} {f : Frame} {L R : Shape} {a : Nat}
    {d0 d1 d2 d3 : Shape} {res : Option (Heap × Option Nat)} {n base : Nat}
    (hfa : f.addr = a)
    (hex : ∃ h2 t, res = some (h2, some t.addr) ∧ Rep h2 t ∧
      t.addrs.Nodup ∧
      t.leaves = leavesBefore c ++ (d0.leaves ++ d1.leaves ++ (d2.leaves ++ d3.leaves)) ++
        leavesAfter c ∧
      t.Balanced ∧ Grown base (pathRoot c a) (n + 1 + c.length) t)
    (hleaves : leavesBefore c ++ (d0.leaves ++ d1.leaves ++ (d2.leaves ++ d3.leaves)) ++
        leavesAfter c =
      leavesBefore (f :: c) ++ (L.leaves ++ R.leaves) ++ leavesAfter (f :: c)) :
    UpPostF (f :: c) L R n base res := by
  obtain ⟨h2, t, e1, e2, e4, e5, e6, e7⟩ := hex
  refine ⟨h2, t, e1, e2, e4, e5.trans hleaves, e6, ?_⟩
  have hlen : n + (f :: c).length = n + 1 + c.length := by simp only [List.length_cons]; omega
  rw [hlen]
  simpa [pathRoot, hfa] using e7

theorem attach_n3l_level {h : Heap} {c : List Frame} {L R : Shape} {key : Int} {a : Nat}
    {k0 k1 : Int} {c1 c2 : Shape} {n base : Nat}
    (ih : ∀ (h : Heap) (L R : Shape) (key : Int) (n base fuel : Nat) (root : Option Nat),
      UpPreF h c L R key n base → 2 * c.length ≤ fuel → root = some (pathRoot c L.addr) →
      UpPostF c L R n base (attach fuel h root c L.addr key R.addr))
    (fuel : Nat) (root : Option Nat) (hf : 2 * c.length + 1 ≤ fuel)
    (pre : UpPreF h (Frame.n3l a k0 c1 k1 c2 :: c) L R key n base)
    (hroot : root = some (pathRoot (Frame.n3l a k0 c1 k1 c2 :: c) L.addr)) :
    UpPostF (Frame.n3l a k0 c1 k1 c2 :: c) L R n base
      (attach (fuel + 1) h root (Frame.n3l a k0 c1 k1 c2 :: c) L.addr key R.addr) := by
  obtain ⟨⟨⟨y, w, hl⟩, rc1, rc2⟩, hrp⟩ := pre.rpath
  obtain ⟨⟨g1, g2, g3, oc1, oc2⟩, op⟩ := pre.opath
  obtain ⟨hlev, hp⟩ := pre.plevel
  have lc1 : c1.Balanced ∧ c1.height = n := hlev c1 (by simp [Frame.before, Frame.after])
  have lc2 : c2.Balanced ∧ c2.height = n := hlev c2 (by simp [Frame.before, Frame.after])
  have hk : key < k0 := pre.khi
  have ha := load_lt hl
  have nd : (pathAddrs c ++ (a :: (L.addrs ++ R.addrs ++ (c1.addrs ++ c2.addrs)))).Nodup := by
    refine (List.Perm.nodup_iff ?_).mp pre.nodup
    rw [List.perm_iff_count]
    intro v
    simp [pathAddrs, Frame.addrs, Frame.addr, Frame.before, Frame.after, List.count_append,
      List.count_cons]
    omega
  obtain ⟨q0, q1, q2, q3, q4, q5⟩ := place_node4 (⟨false, 3, [key, k0, k1],
    [some L.addr, some R.addr, some c1.addr, some c2.addr], none, [none, none, none]⟩)
    ha hrp pre.rleft pre.rright rc1 rc2 nd
  have hsp := splitFull_level ih fuel root (by simpa [length_store] using pre.hbase) q0 q1 q2 q3 q4 q5 nd op
    (geLo_of_gtLo g1 (le_refl _)) (ltHi_mono g3 (le_of_lt g2))
    ⟨pre.bleft, pre.hleft⟩ ⟨pre.bright, pre.hright⟩ lc1 lc2 hp
    (by simpa [pathRoot] using hroot) hf
  have hres : attach (fuel + 1) h root (Frame.n3l a k0 c1 k1 c2 :: c) L.addr key R.addr =
      splitFull fuel (store h a ⟨false, 3, [key, k0, k1],
        [some L.addr, some R.addr, some c1.addr, some c2.addr], none, [none, none, none]⟩)
        root a := by
    simp [attach, Frame.addr, insertInternalNode_succ, insertInternalPlace_two key R.addr hl, hk,
      getNum, load_store_eq, ha, ORDER]
  rw [hres]
  refine attach_full_level rfl hsp ?_
  simp [leavesBefore, leavesAfter, Frame.before, Frame.after]

theorem attach_n3m_level {h : Heap} {c : List Frame} {L R : Shape} {key : Int} {a : Nat}
    {k0 k1 : Int} {c0 c2 : Shape} {n base : Nat}
    (ih : ∀ (h : Heap) (L R : Shape) (key : Int) (n base fuel : Nat) (root : Option Nat),
      UpPreF h c L R key n base → 2 * c.length ≤ fuel → root = some (pathRoot c L.addr) →
      UpPostF c L R n base (attach fuel h root c L.addr key R.addr))
    (fuel : Nat) (root : Option Nat) (hf : 2 * c.length + 1 ≤ fuel)
    (pre : UpPreF h (Frame.n3m a c0 k0 k1 c2 :: c) L R key n base)
    (hroot : root = some (pathRoot (Frame.n3m a c0 k0 k1 c2 :: c) L.addr)) :
    UpPostF (Frame.n3m a c0 k0 k1 c2 :: c) L R n base
      (attach (fuel + 1) h root (Frame.n3m a c0 k0 k1 c2 :: c) L.addr key R.addr) := by
  obtain ⟨⟨⟨y, w, hl⟩, rc0, rc2⟩, hrp⟩ := pre.rpath
  obtain ⟨⟨g1, g2, g3, oc0, oc2⟩, op⟩ := pre.opath
  obtain ⟨hlev, hp⟩ := pre.plevel
  have lc0 : c0.Balanced ∧ c0.height = n := hlev c0 (by simp [Frame.before, Frame.after])
  have lc2 : c2.Balanced ∧ c2.height = n := hlev c2 (by simp [Frame.before, Frame.after])
  have hk0 : k0 ≤ key := pre.klo
  have hk1 : key < k1 := pre.khi
  have hk : ¬ key < k0 := by omega
  have ha := load_lt hl
  have nd : (pathAddrs c ++ (a :: (c0.addrs ++ L.addrs ++ (R.addrs ++ c2.addrs)))).Nodup := by
    refine (List.Perm.nodup_iff ?_).mp pre.nodup
    rw [List.perm_iff_count]
    intro v
    simp [pathAddrs, Frame.addrs, Frame.addr, Frame.before, Frame.after, List.count_append,
      List.count_cons]
    omega
  obtain ⟨q0, q1, q2, q3, q4, q5⟩ := place_node4 (⟨false, 3, [k0, key, k1],
    [some c0.addr, some L.addr, some R.addr, some c2.addr], none, [none, none, none]⟩)
    ha hrp rc0 pre.rleft pre.rright rc2 nd
  have hsp := splitFull_level ih fuel root (by simpa [length_store] using pre.hbase) q0 q1 q2 q3 q4 q5 nd op
    (geLo_of_gtLo g1 hk0) (ltHi_mono g3 (le_of_lt hk1))
    lc0 ⟨pre.bleft, pre.hleft⟩ ⟨pre.bright, pre.hright⟩ lc2 hp
    (by simpa [pathRoot] using hroot) hf
  have hres : attach (fuel + 1) h root (Frame.n3m a c0 k0 k1 c2 :: c) L.addr key R.addr =
      splitFull fuel (store h a ⟨false, 3, [k0, key, k1],
        [some c0.addr, some L.addr, some R.addr, some c2.addr], none, [none, none, none]⟩)
        root a := by
    simp [attach, Frame.addr, insertInternalNode_succ, insertInternalPlace_two key R.addr hl, hk,
      hk1, getNum, load_store_eq, ha, ORDER]
  rw [hres]
  refine attach_full_level rfl hsp ?_
  simp [leavesBefore, leavesAfter, Frame.before, Frame.after]

theorem attach_n3r_level {h : Heap} {c : List Frame} {L R : Shape} {key : Int} {a : Nat}
    {k0 k1 : Int} {c0 c1 : Shape} {n base : Nat}
    (ih : ∀ (h : Heap) (L R : Shape) (key : Int) (n base fuel : Nat) (root : Option Nat),
      UpPreF h c L R key n base → 2 * c.length ≤ fuel → root = some (pathRoot c L.addr) →
      UpPostF c L R n base (attach fuel h root c L.addr key R.addr))
    (fuel : Nat) (root : Option Nat) (hf : 2 * c.length + 1 ≤ fuel)
    (pre : UpPreF h (Frame.n3r a c0 k0 c1 k1 :: c) L R key n base)
    (hroot : root = some (pathRoot (Frame.n3r a c0 k0 c1 k1 :: c) L.addr)) :
    UpPostF (Frame.n3r a c0 k0 c1 k1 :: c) L R n base
      (attach (fuel + 1) h root (Frame.n3r a c0 k0 c1 k1 :: c) L.addr key R.addr) := by
  obtain ⟨⟨⟨y, w, hl⟩, rc0, rc1⟩, hrp⟩ := pre.rpath
  obtain ⟨⟨g1, g2, g3, oc0, oc1⟩, op⟩ := pre.opath
  obtain ⟨hlev, hp⟩ := pre.plevel
  have lc0 : c0.Balanced ∧ c0.height = n := hlev c0 (by simp [Frame.before, Frame.after])
  have lc1 : c1.Balanced ∧ c1.height = n := hlev c1 (by simp [Frame.before, Frame.after])
  have hk1 : k1 ≤ key := pre.klo
  have hk : ¬ key < k0 := by omega
  have hk' : ¬ key < k1 := by omega
  have ha := load_lt hl
  have nd : (pathAddrs c ++ (a :: (c0.addrs ++ c1.addrs ++ (L.addrs ++ R.addrs)))).Nodup := by
    refine (List.Perm.nodup_iff ?_).mp pre.nodup
    rw [List.perm_iff_count]
    intro v
    simp [pathAddrs, Frame.addrs, Frame.addr, Frame.before, Frame.after, List.count_append,
      List.count_cons]
    omega
  obtain ⟨q0, q1, q2, q3, q4, q5⟩ := place_node4 (⟨false, 3, [k0, k1, key],
    [some c0.addr, some c1.addr, some L.addr, some R.addr], none, [none, none, none]⟩)
    ha hrp rc0 rc1 pre.rleft pre.rright nd
  have hsp := splitFull_level ih fuel root (by simpa [length_store] using pre.hbase) q0 q1 q2 q3 q4 q5 nd op
    (geLo_of_gtLo g1 (le_of_lt g2)) g3
    lc0 lc1 ⟨pre.bleft, pre.hleft⟩ ⟨pre.bright, pre.hright⟩ hp
    (by simpa [pathRoot] using hroot) hf
  have hres : attach (fuel + 1) h root (Frame.n3r a c0 k0 c1 k1 :: c) L.addr key R.addr =
      splitFull fuel (store h a ⟨false, 3, [k0, k1, key],
        [some c0.addr, some c1.addr, some L.addr, some R.addr], none, [none, none, none]⟩)
        root a := by
    simp [attach, Frame.addr, insertInternalNode_succ, insertInternalPlace_two key R.addr hl, hk,
      hk', getNum, load_store_eq, ha, ORDER]
  rw [hres]
  refine attach_full_level rfl hsp ?_
  simp [leavesBefore, leavesAfter, Frame.before, Frame.after]

/-- Hanging a split-off node into the tree yields a whole, level tree again,
however far the splits travel up the path, also for a separator that equals
a key of the tree. -/
theorem attach_level : ∀ (c : List Frame) (h : Heap) (L R : Shape) (key : Int)
    (n base fuel : Nat) (root : Option Nat), UpPreF h c L R key n base → 2 * c.length ≤ fuel →
    root = some (pathRoot c L.addr) →
    UpPostF c L R n base (attach fuel h root c L.addr key R.addr) := by
  intro c
  induction c with
  | nil =>
    intro h L R key n base fuel root pre _ _
    exact attach_nil_level fuel root pre
  | cons f c ih =>
    intro h L R key n base fuel root pre hf hroot
    obtain ⟨F, rfl⟩ : ∃ F, fuel = F + 1 := ⟨fuel - 1, by simp at hf; omega⟩
    simp only [List.length_cons] at hf
    cases f with
    | n2l a k0 c1 => exact attach_n2l_level F root pre hroot
    | n2r a c0 k0 => exact attach_n2r_level F root pre hroot
    | n3l a k0 c1 k1 c2 => exact attach_n3l_level ih F root (by omega) pre hroot
    | n3m a c0 k0 k1 c2 => exact attach_n3m_level ih F root (by omega) pre hroot
    | n3r a c0 k0 c1 k1 => exact attach_n3r_level ih F root (by omega) pre hroot

/-- A leaf that has taken a second entry: the tree around it is whole and
level, whatever the new key is. -/
theorem leaf_grow_level {h : Heap} {c : List Frame} {a : Nat} {nx : Option Nat} (n : BPTreeNode)
    (es1 : List (Int × Nat)) (hrp : RepPath h c a) (nd : (pathAddrs c ++ [a]).Nodup)
    (hrep : RepLeaf (store h a n) a nx es1) (hp : PathLevel c 1) :
    ∃ t1 : Shape, t1.addr = pathRoot c a ∧ Rep (store h a n) t1 ∧
      t1.addrs.Nodup ∧ t1.leaves = leavesBefore c ++ [(a, es1, nx)] ++ leavesAfter c ∧
      t1.Balanced ∧ t1.height = 1 + c.length := by
  obtain ⟨hn1, _⟩ := not_mem_of_nodup_cons nd
  obtain ⟨p1, p3, p4, p5, p6, p7⟩ := plug_level (h := store h a n) (c := c)
    (s := Shape.leaf a es1 nx) (n := 1) (hrp.path_store a n hn1) hrep
    (by simpa [Shape.addrs] using nd) hp trivial rfl
  exact ⟨_, by simpa using p4, p1, p3, by simpa [Shape.leaves] using p5, p6, p7⟩

/-- A leaf that has taken a third entry is split and its right half is hung
into the tree, whatever the keys are, as long as the middle one lies within
the bounds of the leaf. -/
theorem leaf_split_level {h : Heap} {c : List Frame} {a : Nat} {nx : Option Nat}
    {k0 k1 k2 : Int} {r0 r1 r2 : Nat} (root parent : Option Nat)
    (hl : load h a = some ⟨true, 3, [k0, k1, k2], [none, none, none, none], nx,
      [some r0, some r1, some r2]⟩)
    (hrp : RepPath h c a) (nd : (pathAddrs c ++ [a]).Nodup) (op : OrdPath c)
    (hlo : geLo (pathLo c) k1) (hhi : ltHi k1 (pathHi c)) (hp : PathLevel c 1)
    (hroot : root = some (pathRoot c a)) (hpar : parent = c.head?.map Frame.addr) :
    ∃ h2 t1, splitLeafNode (2 * h.length + 2) h root a parent = some (h2, some t1.addr) ∧
      Rep h2 t1 ∧ t1.addrs.Nodup ∧
      t1.leaves = leavesBefore c ++
        [(a, [(k0, r0)], some h.length), (h.length, [(k1, r1), (k2, r2)], nx)] ++
        leavesAfter c ∧
      t1.Balanced ∧ Grown h.length (pathRoot c a) (1 + c.length) t1 := by
  have ha := load_lt hl
  obtain ⟨hn1, _⟩ := not_mem_of_nodup_cons nd
  have hlt := hrp.path_addr_lt
  have hsplit : splitLeafNode (2 * h.length + 2) h root a parent =
      attach (2 * h.length + 2)
        (store h a ⟨true, 1, [k0, 0, 0], [none, none, none, none], some h.length,
          [some r0, none, none]⟩ ++
          [some ⟨true, 2, [k1, k2, 0], [none, none, none, none], nx, [some r1, some r2, none]⟩])
        root c a k1 h.length := by
    simp only [splitLeafNode, splitLeafMove_eq hl]
    cases c with
    | nil => subst hpar; rfl
    | cons f c => subst hpar; rfl
  have hlen : c.length ≤ h.length :=
    le_trans (length_le_pathAddrs c) (length_le_of_nodup_lt (List.Nodup.of_append_left nd) hlt)
  have pre : UpPreF
      (store h a ⟨true, 1, [k0, 0, 0], [none, none, none, none], some h.length,
          [some r0, none, none]⟩ ++
          [some ⟨true, 2, [k1, k2, 0], [none, none, none, none], nx, [some r1, some r2, none]⟩])
      c (Shape.leaf a [(k0, r0)] (some h.length))
      (Shape.leaf h.length [(k1, r1), (k2, r2)] nx) k1 1 h.length := by
    refine ⟨(hrp.path_store a _ hn1).path_append _, ⟨0, 0, none, none, load_store_append_eq _ _ ha⟩,
      ⟨0, none, load_append_at _ (by simp [length_store])⟩, ?_, op, hlo, hhi, trivial, trivial,
      rfl, rfl, hp, rfl, le_refl _, by simp [length_store]⟩
    have e : pathAddrs c ++ ((Shape.leaf a [(k0, r0)] (some h.length)).addrs ++
        (Shape.leaf h.length [(k1, r1), (k2, r2)] nx).addrs) =
        (pathAddrs c ++ [a]) ++ [h.length] := by simp [Shape.addrs]
    rw [e, List.nodup_append]
    refine ⟨nd, by simp, ?_⟩
    intro z hz hz1
    simp only [List.mem_singleton] at hz1
    subst hz1
    rcases List.mem_append.mp hz with hm | hm
    · exact lt_irrefl _ (hlt _ hm)
    · simp only [List.mem_singleton] at hm
      omega
  obtain ⟨h3, t1, hres, hrep, hnd, hleaves, hbal, hgrow⟩ :=
    attach_level c _ _ _ k1 1 h.length (2 * h.length + 2) root pre (by omega) hroot
  refine ⟨h3, t1, ?_, hrep, hnd, ?_, hbal, ?_⟩
  · rw [hsplit]
    exact hres
  · simpa [Shape.leaves] using hleaves
  · simpa using hgrow

/-- One insertion into a whole, level tree gives a whole, level tree with
the new entry added, whether or not the key is already in the tree; the
root node stays and the height with it, unless a new root is put above the
old one. -/
theorem insertKey_level {h : Heap} {t : Shape} (key : Int) (r : Nat) (hr : Rep h t)
    (ho : Ord none none t) (hn : t.addrs.Nodup) (hlink : Linked t.leaves none)
    (hbal : t.Balanced) :
    ∃ h1 t1, insertKey h (some t.addr) key r = some (h1, some t1.addr) ∧ Rep h1 t1 ∧
      t1.addrs.Nodup ∧ Linked t1.leaves none ∧ t1.entries.Perm ((key, r) :: t.entries) ∧
      t1.Balanced ∧ Grown h.length t.addr t.height t1 := by
  obtain ⟨idx1, hd⟩ := descend_path key t [] h.length none 0 hr (hr.size_le hn) rfl
  have hplug := pathTo_plug key t []
  have hb := pathTo_bounds key t [] (by simp [pathLo, geLo]) (by simp [pathHi, ltHi])
  generalize pathTo key t [] = P at hd hplug hb
  obtain ⟨c, a, es0, nx⟩ := P
  simp only [plug] at hd hplug hb
  subst hplug
  obtain ⟨hrp, hleaf⟩ := (rep_plug c _).mp hr
  obtain ⟨op, oleaf⟩ := (ord_plug c _).mp ho
  obtain ⟨_, hp, hheight⟩ := plug_balanced_inv c _ hbal
  have nd : (pathAddrs c ++ [a]).Nodup := ((addrs_plug c _).nodup_iff).mp hn
  have hlv := leaves_plug c (Shape.leaf a es0 nx)
  have haddr := plug_addr c (Shape.leaf a es0 nx)
  rw [hlv] at hlink
  simp only [addr_leaf, Shape.leaves, Shape.height] at hrp hlv haddr hlink hp hheight
  simp only [Rep] at hleaf
  obtain ⟨hn1, _⟩ := not_mem_of_nodup_cons nd
  have finish : ∀ (h2 : Heap) (t1 : Shape)
      (mid1 : List (Nat × List (Int × Nat) × Option Nat)),
      t1.leaves = leavesBefore c ++ mid1 ++ leavesAfter c →
      Linked (leavesBefore c ++ mid1 ++ leavesAfter c) none →
      ((mid1.map (fun l => l.2.1)).flatten).Perm ((key, r) :: es0) →
      Linked t1.leaves none ∧
        t1.entries.Perm ((key, r) :: (plug c (Shape.leaf a es0 nx)).entries) := by
    intro h2 t1 mid1 q4 q5 q6
    exact ⟨by rw [q4]; exact q5,
      entries_of_leaves (M := [(a, es0, nx)]) hlv q4 (by simpa using q6)⟩
  rcases hleaf.shape with ⟨k0, q0, x, y, rx, ry, rfl, hl⟩ | ⟨k0, q0, k1, q1, y, ry, rfl, hl⟩
  · -- the leaf has one entry and takes the second
    have ha := load_lt hl
    have hplace := insertLeafPlace_one key r hl
    by_cases hlt : key < k0
    · simp only [hlt, if_true] at hplace
      have hnum : getNum (store h a ⟨true, 2, [key, k0, y], [none, none, none, none], nx,
          [some r, some q0, ry]⟩) a = some 2 := by simp [getNum, load_store_eq, ha]
      obtain ⟨t1, p1, p2, p4, p5, p6, p7⟩ := leaf_grow_level
        (⟨true, 2, [key, k0, y], [none, none, none, none], nx, [some r, some q0, ry]⟩)
        [(key, r), (k0, q0)] hrp nd ⟨y, ry, load_store_eq _ ha⟩ hp
      obtain ⟨f1, f2⟩ := finish (store h a ⟨true, 2, [key, k0, y], [none, none, none, none], nx,
          [some r, some q0, ry]⟩) t1 _ p5 (linked_replace_one _ hlink) (by simp)
      refine ⟨_, t1, ?_, p2, p4, f1, f2, p6, Or.inl ⟨by rw [p1, haddr], by rw [p7, hheight]⟩⟩
      rw [insertKey_after hd hplace hnum, haddr, p1]
      simp [ORDER]
    · simp only [hlt, if_false] at hplace
      have hnum : getNum (store h a ⟨true, 2, [k0, key, y], [none, none, none, none], nx,
          [some q0, some r, ry]⟩) a = some 2 := by simp [getNum, load_store_eq, ha]
      obtain ⟨t1, p1, p2, p4, p5, p6, p7⟩ := leaf_grow_level
        (⟨true, 2, [k0, key, y], [none, none, none, none], nx, [some q0, some r, ry]⟩)
        [(k0, q0), (key, r)] hrp nd ⟨y, ry, load_store_eq _ ha⟩ hp
      obtain ⟨f1, f2⟩ := finish (store h a ⟨true, 2, [k0, key, y], [none, none, none, none], nx,
          [some q0, some r, ry]⟩) t1 _ p5 (linked_replace_one _ hlink)
          (by simpa using List.Perm.swap _ _ _)
      refine ⟨_, t1, ?_, p2, p4, f1, f2, p6, Or.inl ⟨by rw [p1, haddr], by rw [p7, hheight]⟩⟩
      rw [insertKey_after hd hplace hnum, haddr, p1]
      simp [ORDER]
  · -- the leaf has two entries, takes the third and is split
    have ha := load_lt hl
    have hplace := insertLeafPlace_two key r hl
    have hb0 := oleaf.2 (k0, q0) (by simp)
    have hb1 := oleaf.2 (k1, q1) (by simp)
    have h01 : k0 < k1 := by
      have := oleaf.1
      simp only [List.map_cons, List.map_nil, List.pairwise_cons, List.mem_singleton,
        forall_eq] at this
      exact this.1
    have hgr : ∀ {t1 : Shape}, Grown h.length (pathRoot c a) (1 + c.length) t1 →
        Grown h.length (plug c (Shape.leaf a [(k0, q0), (k1, q1)] nx)).addr
          (plug c (Shape.leaf a [(k0, q0), (k1, q1)] nx)).height t1 := by
      intro t1 hg
      rw [haddr, hheight]
      exact hg
    by_cases hlt : key < k0
    · simp only [hlt, if_true] at hplace
      have hnum : getNum (store h a ⟨true, 3, [key, k0, k1], [none, none, none, none], nx,
          [some r, some q0, some q1]⟩) a = some 3 := by simp [getNum, load_store_eq, ha]
      obtain ⟨h2, t1, p0, p2, p4, p5, p6, p7⟩ := leaf_split_level (c := c)
        (some (pathRoot c a)) (c.head?.map Frame.addr)
        (load_store_eq (⟨true, 3, [key, k0, k1], [none, none, none, none], nx,
          [some r, some q0, some q1]⟩) ha) (hrp.path_store a _ hn1) nd op hb0.1
          (ltHi_mono hb1.2 (le_of_lt h01)) hp rfl rfl
      simp only [length_store] at p0 p5 p7
      obtain ⟨f1, f2⟩ := finish h2 t1 _ p5 (linked_replace_two _ _ _ hlink) (by simp)
      refine ⟨_, t1, ?_, p2, p4, f1, f2, p6, hgr p7⟩
      rw [insertKey_after hd hplace hnum, haddr]
      simpa [ORDER, length_store] using p0
    · simp only [hlt, if_false] at hplace
      by_cases hlt1 : key < k1
      · simp only [hlt1, if_true] at hplace
        have hnum : getNum (store h a ⟨true, 3, [k0, key, k1], [none, none, none, none], nx,
            [some q0, some r, some q1]⟩) a = some 3 := by simp [getNum, load_store_eq, ha]
        obtain ⟨h2, t1, p0, p2, p4, p5, p6, p7⟩ := leaf_split_level (c := c)
          (some (pathRoot c a)) (c.head?.map Frame.addr)
          (load_store_eq (⟨true, 3, [k0, key, k1], [none, none, none, none], nx,
            [some q0, some r, some q1]⟩) ha) (hrp.path_store a _ hn1) nd op hb.1 hb.2 hp rfl rfl
        simp only [length_store] at p0 p5 p7
        obtain ⟨f1, f2⟩ := finish h2 t1 _ p5 (linked_replace_two _ _ _ hlink)
          (by simpa using List.Perm.swap _ _ _)
        refine ⟨_, t1, ?_, p2, p4, f1, f2, p6, hgr p7⟩
        rw [insertKey_after hd hplace hnum, haddr]
        simpa [ORDER, length_store] using p0
      · simp only [hlt1, if_false] at hplace
        have hnum : getNum (store h a ⟨true, 3, [k0, k1, key], [none, none, none, none], nx,
            [some q0, some q1, some r]⟩) a = some 3 := by simp [getNum, load_store_eq, ha]
        obtain ⟨h2, t1, p0, p2, p4, p5, p6, p7⟩ := leaf_split_level (c := c)
          (some (pathRoot c a)) (c.head?.map Frame.addr)
          (load_store_eq (⟨true, 3, [k0, k1, key], [none, none, none, none], nx,
            [some q0, some q1, some r]⟩) ha) (hrp.path_store a _ hn1) nd op hb1.1 hb1.2 hp
            rfl rfl
        simp only [length_store] at p0 p5 p7
        obtain ⟨f1, f2⟩ := finish h2 t1 _ p5 (linked_replace_two _ _ _ hlink) (by
          rw [List.perm_iff_count]
          intro z
          simp only [List.map_cons, List.map_nil, List.flatten_cons, List.flatten_nil,
            List.append_nil, List.singleton_append, List.cons_append, List.nil_append,
            List.count_cons, List.count_nil]
          omega)
        refine ⟨_, t1, ?_, p2, p4, f1, f2, p6, hgr p7⟩
        rw [insertKey_after hd hplace hnum, haddr]
        simpa [ORDER, length_store] using p0

/-! ## Heights read from the heap -/

theorem Shape.height_pos (t : Shape) : 1 ≤ t.height := by
  cases t <;> simp [Shape.height]

theorem Shape.height_le_size (t : Shape) : t.height ≤ t.size := by
  induction t with
  | leaf a es nx => simp [Shape.height, Shape.size]
  | node2 a c0 k0 c1 ih0 ih1 => simp only [Shape.height, Shape.size]; omega
  | node3 a c0 k0 c1 k1 c2 ih0 ih1 ih2 => simp only [Shape.height, Shape.size]; omega

theorem Shape.leaves_ne_nil (t : Shape) : t.leaves ≠ [] := by
  induction t with
  | leaf a es nx => simp [Shape.leaves]
  | node2 a c0 k0 c1 ih0 ih1 => simp [Shape.leaves, ih0]
  | node3 a c0 k0 c1 k1 c2 ih0 ih1 ih2 => simp [Shape.leaves, ih0]

/-- The walk down the first children counts the height of the shape. -/
theorem levelsDown_of_rep {h : Heap} {t : Shape} (hr : Rep h t) :
    ∀ fuel, t.height ≤ fuel → levelsDown h fuel t.addr = some t.height := by
  induction t with
  | leaf a es nx =>
    intro fuel hf
    obtain ⟨f, rfl⟩ : ∃ f, fuel = f + 1 := ⟨fuel - 1, by simp [Shape.height] at hf; omega⟩
    rcases RepLeaf.shape hr with ⟨k, r, x, y, rx, ry, _, hl⟩ | ⟨k0, r0, k1, r1, y, ry, _, hl⟩ <;>
      simp [levelsDown, hl, Shape.height]
  | node2 a c0 k0 c1 ih0 ih1 =>
    intro fuel hf
    obtain ⟨f, rfl⟩ : ∃ f, fuel = f + 1 := ⟨fuel - 1, by simp [Shape.height] at hf; omega⟩
    obtain ⟨⟨x, y, z, w, hl⟩, r0, r1⟩ := hr
    simp only [Shape.height] at hf ⊢
    have q0 := ih0 r0 f (by omega)
    simp [levelsDown, hl, q0]
  | node3 a c0 k0 c1 k1 c2 ih0 ih1 ih2 =>
    intro fuel hf
    obtain ⟨f, rfl⟩ : ∃ f, fuel = f + 1 := ⟨fuel - 1, by simp [Shape.height] at hf; omega⟩
    obtain ⟨⟨y, w, hl⟩, r0, r1, r2⟩ := hr
    simp only [Shape.height] at hf ⊢
    have q0 := ih0 r0 f (by omega)
    simp [levelsDown, hl, q0]

/-- The levels of the leaves of a level shape are all its height. -/
theorem leafLevels_of_rep {h : Heap} {t : Shape} (hr : Rep h t) (hb : t.Balanced) :
    ∀ fuel, t.height ≤ fuel →
      leafLevels h fuel t.addr = some (List.replicate t.leaves.length t.height) := by
  induction t with
  | leaf a es nx =>
    intro fuel hf
    obtain ⟨f, rfl⟩ : ∃ f, fuel = f + 1 := ⟨fuel - 1, by simp [Shape.height] at hf; omega⟩
    rcases RepLeaf.shape hr with ⟨k, r, x, y, rx, ry, _, hl⟩ | ⟨k0, r0, k1, r1, y, ry, _, hl⟩ <;>
      simp [leafLevels, hl, Shape.height, Shape.leaves]
  | node2 a c0 k0 c1 ih0 ih1 =>
    intro fuel hf
    obtain ⟨f, rfl⟩ : ∃ f, fuel = f + 1 := ⟨fuel - 1, by simp [Shape.height] at hf; omega⟩
    obtain ⟨⟨x, y, z, w, hl⟩, r0, r1⟩ := hr
    obtain ⟨b0, b1, e1⟩ := hb
    simp only [Shape.height] at hf ⊢
    have q0 := ih0 r0 b0 f (by omega)
    have q1 := ih1 r1 b1 f (by omega)
    rw [e1] at q1
    have hrange : List.range (1 + 1) = [0, 1] := rfl
    rw [leafLevels]
    simp only [addr_node2, hl, Bool.false_eq_true, if_false]
    rw [hrange]
    simp only [List.foldr_cons, List.foldr_nil, Shape.leaves, List.length_append]
    rw [List.replicate_add]
    simp [q0, q1]
  | node3 a c0 k0 c1 k1 c2 ih0 ih1 ih2 =>
    intro fuel hf
    obtain ⟨f, rfl⟩ : ∃ f, fuel = f + 1 := ⟨fuel - 1, by simp [Shape.height] at hf; omega⟩
    obtain ⟨⟨y, w, hl⟩, r0, r1, r2⟩ := hr
    obtain ⟨b0, b1, b2, e1, e2⟩ := hb
    simp only [Shape.height] at hf ⊢
    have q0 := ih0 r0 b0 f (by omega)
    have q1 := ih1 r1 b1 f (by omega)
    have q2 := ih2 r2 b2 f (by omega)
    rw [e1] at q1
    rw [e2] at q2
    have hrange : List.range (2 + 1) = [0, 1, 2] := rfl
    rw [leafLevels]
    simp only [addr_node3, hl, Bool.false_eq_true, if_false]
    rw [hrange]
    simp only [List.foldr_cons, List.foldr_nil, Shape.leaves, List.length_append]
    rw [List.replicate_add, List.replicate_add]
    simp [q0, q1, q2]
    omega

/-- A heap holds at most one tree shape at an address. -/
theorem Rep.unique {h : Heap} : ∀ {t s : Shape}, Rep h t → Rep h s → t.addr = s.addr → t = s := by
  intro t
  induction t with
  | leaf a es nx =>
    intro s ht hs ha
    cases s with
    | leaf a1 es1 nx1 =>
      simp only [addr_leaf, addr_node2, addr_node3] at ha
      subst ha
      simp only [Rep] at ht hs
      rcases RepLeaf.shape ht with ⟨k, r, x, y, rx, ry, rfl, hl⟩ | ⟨k0, r0, k1, r1, y, ry, rfl, hl⟩ <;>
        rcases RepLeaf.shape hs with ⟨k', r', x', y', rx', ry', rfl, hl'⟩ |
          ⟨k0', r0', k1', r1', y', ry', rfl, hl'⟩ <;>
        rw [hl] at hl' <;> simp at hl' <;> simp [hl']
    | node2 a1 d0 j0 d1 =>
      simp only [addr_leaf, addr_node2, addr_node3] at ha
      subst ha
      obtain ⟨⟨x, y, z, w, hl'⟩, _, _⟩ := hs
      simp only [Rep] at ht
      rcases RepLeaf.shape ht with ⟨k, r, x, y, rx, ry, rfl, hl⟩ | ⟨k0, r0, k1, r1, y, ry, rfl, hl⟩ <;>
        rw [hl] at hl' <;> simp at hl'
    | node3 a1 d0 j0 d1 j1 d2 =>
      simp only [addr_leaf, addr_node2, addr_node3] at ha
      subst ha
      obtain ⟨⟨y, w, hl'⟩, _, _, _⟩ := hs
      simp only [Rep] at ht
      rcases RepLeaf.shape ht with ⟨k, r, x, y, rx, ry, rfl, hl⟩ | ⟨k0, r0, k1, r1, y, ry, rfl, hl⟩ <;>
        rw [hl] at hl' <;> simp at hl'
  | node2 a c0 k0 c1 ih0 ih1 =>
    intro s ht hs ha
    obtain ⟨⟨x, y, z, w, hl⟩, r0, r1⟩ := ht
    cases s with
    | leaf a1 es1 nx1 =>
      simp only [addr_leaf, addr_node2, addr_node3] at ha
      subst ha
      simp only [Rep] at hs
      rcases RepLeaf.shape hs with ⟨k, r, x, y, rx, ry, rfl, hl'⟩ |
        ⟨k0, r0, k1, r1, y, ry, rfl, hl'⟩ <;>
        rw [hl] at hl' <;> simp at hl'
    | node2 a1 d0 j0 d1 =>
      simp only [addr_leaf, addr_node2, addr_node3] at ha
      subst ha
      obtain ⟨⟨x', y', z', w', hl'⟩, s0, s1⟩ := hs
      rw [hl] at hl'
      simp at hl'
      obtain ⟨⟨e1, _, _⟩, e2, e3, _, _⟩ := hl'
      rw [ih0 r0 s0 e2, ih1 r1 s1 e3, e1]
    | node3 a1 d0 j0 d1 j1 d2 =>
      simp only [addr_leaf, addr_node2, addr_node3] at ha
      subst ha
      obtain ⟨⟨y', w', hl'⟩, _, _, _⟩ := hs
      rw [hl] at hl'
      simp at hl'
  | node3 a c0 k0 c1 k1 c2 ih0 ih1 ih2 =>
    intro s ht hs ha
    obtain ⟨⟨y, w, hl⟩, r0, r1, r2⟩ := ht
    cases s with
    | leaf a1 es1 nx1 =>
      simp only [addr_leaf, addr_node2, addr_node3] at ha
      subst ha
      simp only [Rep] at hs
      rcases RepLeaf.shape hs with ⟨k, r, x, y, rx, ry, rfl, hl'⟩ |
        ⟨k0, r0, k1, r1, y, ry, rfl, hl'⟩ <;>
        rw [hl] at hl' <;> simp at hl'
    | node2 a1 d0 j0 d1 =>
      simp only [addr_leaf, addr_node2, addr_node3] at ha
      subst ha
      obtain ⟨⟨x', y', z', w', hl'⟩, _, _⟩ := hs
      rw [hl] at hl'
      simp at hl'
    | node3 a1 d0 j0 d1 j1 d2 =>
      simp only [addr_leaf, addr_node2, addr_node3] at ha
      subst ha
      obtain ⟨⟨y', w', hl'⟩, s0, s1, s2⟩ := hs
      rw [hl] at hl'
      simp at hl'
      obtain ⟨⟨e1, e1', _⟩, e2, e3, e4, _⟩ := hl'
      rw [ih0 r0 s0 e2, ih1 r1 s1 e3, ih2 r2 s2 e4, e1, e1']

/-! ## Sequences of insertions keep the tree level -/

theorem WholeAt.tree {h : Heap} {root : Option Nat} {es : List (Int × Nat)}
    (hw : WholeAt h root es) : TreeAt h root es := by
  cases root with
  | none => exact hw
  | some r =>
    obtain ⟨t, h1, h2, h3, h4, h5, h6, _⟩ := hw
    exact ⟨t, h1, h2, h3, h4, h5, h6⟩

/-- The number of keys of the top node as the heap holds it. -/
theorem Rep.numKeys_eq {h : Heap} {t : Shape} (hr : Rep h t) :
    getNum h t.addr = some t.numKeys := by
  cases t with
  | leaf a es nx =>
    rcases RepLeaf.shape hr with ⟨k, r, x, y, rx, ry, rfl, hl⟩ | ⟨k0, r0, k1, r1, y, ry, rfl, hl⟩ <;>
      simp [getNum, hl, Shape.numKeys]
  | node2 a c0 k0 c1 =>
    obtain ⟨⟨x, y, z, w, hl⟩, _, _⟩ := hr
    simp [getNum, hl, Shape.numKeys]
  | node3 a c0 k0 c1 k1 c2 =>
    obtain ⟨⟨y, w, hl⟩, _, _, _⟩ := hr
    simp [getNum, hl, Shape.numKeys]

/-- One insertion of a key that is not in the tree keeps the tree whole and
level. -/
theorem insertKey_whole {h : Heap} {t : Shape} (key : Int) (r : Nat) (hr : Rep h t)
    (ho : Ord none none t) (hn : t.addrs.Nodup) (hlink : Linked t.leaves none)
    (hbal : t.Balanced) (hk : key ∉ t.entries.map Prod.fst) :
    ∃ h1 t1, insertKey h (some t.addr) key r = some (h1, some t1.addr) ∧ Rep h1 t1 ∧
      Ord none none t1 ∧ t1.addrs.Nodup ∧ Linked t1.leaves none ∧
      t1.entries.Perm ((key, r) :: t.entries) ∧ t1.Balanced ∧
      Grown h.length t.addr t.height t1 := by
  obtain ⟨h1, t1, e1, e2, e3, e4, e5, e6, e7⟩ := insertKey_level key r hr ho hn hlink hbal
  have ht : TreeAt h (some t.addr) t.entries := ⟨t, rfl, hr, ho, hn, hlink, List.Perm.refl _⟩
  obtain ⟨h2, root2, g1, g2⟩ := insertKey_tree key r ht hk
  rw [e1] at g1
  simp only [Option.some.injEq, Prod.mk.injEq] at g1
  obtain ⟨rfl, rfl⟩ := g1
  obtain ⟨s, s1, s2, s3, _⟩ := g2
  have hs : s = t1 := Rep.unique s2 e2 s1
  subst hs
  exact ⟨h1, s, e1, e2, s3, e3, e4, e5, e6, e7⟩

/-- The function `insertTransactionIntoBPTree` on a whole, level tree, for a
live record whose id is not in the tree. -/
theorem insertTransactionIntoBPTree_whole {m : Store} {root : Option Nat}
    {es : List (Int × Nat)} {t : Nat} {k : Int} (ht : WholeAt m.nodes root es)
    (hid : idOf m t = some k) (hk : k ∉ es.map Prod.fst) :
    ∃ m1 t1, insertTransactionIntoBPTree m root t = some (m1, some t1.addr) ∧
      m1.recs = m.recs ∧ WholeAt m1.nodes (some t1.addr) ((k, t) :: es) ∧
      Rep m1.nodes t1 ∧ t1.Balanced ∧ t1.addrs.Nodup ∧
      ((root = none ∧ t1.height = 1) ∨
        ∃ s, root = some s.addr ∧ Rep m.nodes s ∧ s.addrs.Nodup ∧
          Grown m.nodes.length s.addr s.height t1) := by
  simp only [idOf, Option.map_eq_some'] at hid
  obtain ⟨tr, h1, h2⟩ := hid
  cases root with
  | none =>
    simp only [WholeAt] at ht
    subst ht
    have hrep : Rep (m.nodes ++ [some ⟨true, 1, [k, 0, 0], [none, none, none, none], none,
        [some t, none, none]⟩]) (Shape.leaf m.nodes.length [(k, t)] none) :=
      ⟨0, 0, none, none, load_append_new _ _⟩
    refine ⟨{ m with nodes := m.nodes ++ [some ⟨true, 1, [k, 0, 0], [none, none, none, none],
      none, [some t, none, none]⟩] }, Shape.leaf m.nodes.length [(k, t)] none, ?_, rfl, ?_, hrep,
      trivial, by simp [Shape.addrs], Or.inl ⟨rfl, rfl⟩⟩
    · simp [insertTransactionIntoBPTree, h1, h2, insertKey, insertFirst_eq]
    · refine ⟨Shape.leaf m.nodes.length [(k, t)] none, rfl, hrep, ?_, ?_, ?_, ?_, trivial⟩
      · simp [Ord, geLo, ltHi]
      · simp [Shape.addrs]
      · simp [Shape.leaves, Linked, nextOf]
      · simp [Shape.entries]
  | some r0 =>
    obtain ⟨s, rfl, hr, ho, hn, hlink, hperm, hbal⟩ := ht
    have hks : k ∉ s.entries.map Prod.fst :=
      fun hm => hk (((hperm.map Prod.fst).mem_iff).mp hm)
    obtain ⟨h', t1, e1, e2, e3, e4, e5, e6, e7, e8⟩ := insertKey_whole k t hr ho hn hlink hbal hks
    refine ⟨{ m with nodes := h' }, t1, ?_, rfl,
      ⟨t1, rfl, e2, e3, e4, e5, e6.trans (List.Perm.cons _ hperm), e7⟩, e2, e7, e4,
      Or.inr ⟨s, rfl, hr, hn, e8⟩⟩
    simp [insertTransactionIntoBPTree, h1, h2, e1]

/-- The entries that a list of record pointers adds to a whole, level
tree. -/
theorem insertAll_whole : ∀ (ts : List Nat) (m : Store) (root : Option Nat)
    (es : List (Int × Nat)), WholeAt m.nodes root es →
    (∀ t ∈ ts, (idOf m t).isSome) → (ts.map (idOf m)).Nodup →
    (∀ t ∈ ts, ∀ k, idOf m t = some k → k ∉ es.map Prod.fst) →
    ∃ m1 root1 es1, insertAll ts (m, root) = some (m1, root1) ∧ m1.recs = m.recs ∧
      WholeAt m1.nodes root1 es1 ∧
      es1.Perm (es ++ ts.filterMap (fun t => (idOf m t).map (fun k => (k, t)))) := by
  intro ts
  induction ts with
  | nil =>
    intro m root es ht _ _ _
    exact ⟨m, root, es, rfl, rfl, ht, by simp⟩
  | cons t ts ih =>
    intro m root es ht hlive hnd hfresh
    obtain ⟨k, hk⟩ := Option.isSome_iff_exists.mp (hlive t (by simp))
    simp only [List.map_cons, List.nodup_cons] at hnd
    obtain ⟨m1, t1, h1, h2, h3, _⟩ :=
      insertTransactionIntoBPTree_whole ht hk (hfresh t (by simp) k hk)
    have hid : ∀ x, idOf m1 x = idOf m x := by
      intro x
      simp only [idOf, h2]
    have hfun : idOf m1 = idOf m := funext hid
    obtain ⟨m2, root2, es2, g1, g2, g3, g4⟩ := ih m1 (some t1.addr) ((k, t) :: es) h3
      (fun x hx => by rw [hid]; exact hlive x (by simp [hx]))
      (by rw [hfun]; exact hnd.2)
      (by
        intro x hx kx hkx hm
        rw [hid] at hkx
        simp only [List.map_cons, List.mem_cons] at hm
        rcases hm with hm | hm
        · subst hm
          apply hnd.1
          rw [hk, ← hkx]
          exact List.mem_map_of_mem _ hx
        · exact hfresh x (by simp [hx]) kx hkx hm)
    refine ⟨m2, root2, es2, ?_, g2.trans h2, g3, ?_⟩
    · simp only [insertAll, h1]
      exact g1
    · refine g4.trans ?_
      rw [hfun]
      simp only [List.filterMap_cons, hk, Option.map_some', List.cons_append]
      exact List.perm_middle.symm

/-- The tree built from the empty tree by inserting live records with
distinct ids is whole and level and holds exactly their entries. -/
theorem insertAll_empty_whole (m : Store) (ts : List Nat)
    (hlive : ∀ t ∈ ts, (idOf m t).isSome) (hdist : (ts.map (idOf m)).Nodup) :
    ∃ m1 root1 es1, insertAll ts (m, none) = some (m1, root1) ∧ m1.recs = m.recs ∧
      WholeAt m1.nodes root1 es1 ∧
      es1.Perm (ts.filterMap (fun t => (idOf m t).map (fun k => (k, t)))) := by
  obtain ⟨m1, root1, es1, h1, h2, h3, h4⟩ := insertAll_whole ts m none [] rfl hlive hdist
    (fun _ _ _ _ hm => by simp at hm)
  exact ⟨m1, root1, es1, h1, h2, h3, by simpa using h4⟩

/-- The height and the leaf levels read from the heap of a level tree. -/
theorem levels_of_rep {h : Heap} {t : Shape} (hr : Rep h t) (hn : t.addrs.Nodup)
    (hb : t.Balanced) :
    treeHeight h (some t.addr) = some t.height ∧
      leafLevels h h.length t.addr = some (List.replicate t.leaves.length t.height) := by
  have hle : t.height ≤ h.length := le_trans t.height_le_size (hr.size_le hn)
  exact ⟨levelsDown_of_rep hr _ hle, leafLevels_of_rep hr hb _ hle⟩

/-! ## The tree-level insert and keys already present -/

/-- C26 (counterexample): with two records of id 7 at the pointers 0 and 1,
`insertTransactionIntoBPTree` of the first into the empty tree gives a tree
in which 7 is found and whose scan is 7; the same call for the second record
is not rejected: it returns a tree whose scan reads 7 twice, with both
record pointers. -/
theorem tree_insert_keeps_second_copy :
    (insertAll [0] (storeWithIds [7, 7], none)).bind
      (fun s => findTransactionInBPTree s.1.nodes s.2 7) = some true ∧
    (insertAll [0] (storeWithIds [7, 7], none)).bind
      (fun s => scanKeys s.1.nodes s.2) = some [7] ∧
    ((insertAll [0] (storeWithIds [7, 7], none)).bind
      (fun s => insertTransactionIntoBPTree s.1 s.2 1)).bind
        (fun s => scanKeys s.1.nodes s.2) = some [7, 7] ∧
    ((insertAll [0] (storeWithIds [7, 7], none)).bind
      (fun s => insertTransactionIntoBPTree s.1 s.2 1)).bind
        (fun s => scanRecs s.1.nodes s.2) = some [some 0, some 1] := by
  decide!

/-- C26 (amended): `insertTransactionIntoBPTree` does not look for the key.
For every tree built from the empty tree by inserting live records with
distinct ids and every live record `t` whose id `k` is already a key of that
tree (it is found, and the scan reads it once), the call succeeds and adds
the record: the scan of the keys afterwards is the old scan with `k` once
more, so `k` occurs twice, and the scan of the record pointers is the old
one with `t` added. -/
theorem tree_insert_adds_second_copy (m : Store) (ts : List Nat) (t : Nat) (k : Int)
    (hlive : ∀ x ∈ ts, (idOf m x).isSome) (hdist : (ts.map (idOf m)).Nodup)
    (hid : idOf m t = some k) (hin : some k ∈ ts.map (idOf m)) :
    ∃ m1 root1 m2 root2 ks ps ks2 ps2, insertAll ts (m, none) = some (m1, root1) ∧
      findTransactionInBPTree m1.nodes root1 k = some true ∧
      scanKeys m1.nodes root1 = some ks ∧ scanRecs m1.nodes root1 = some ps ∧
      ks.count k = 1 ∧
      insertTransactionIntoBPTree m1 root1 t = some (m2, root2) ∧
      scanKeys m2.nodes root2 = some ks2 ∧ scanRecs m2.nodes root2 = some ps2 ∧
      ks2.Perm (k :: ks) ∧ ps2.Perm (some t :: ps) ∧ ks2.count k = 2 := by
  obtain ⟨m1, root1, es1, h1, h2, h3, h4⟩ := insertAll_empty_whole m ts hlive hdist
  obtain ⟨x, hx, hxk⟩ := List.mem_map.mp hin
  have hmem : (k, x) ∈ es1 := (h4.mem_iff).mpr (mem_added.mpr ⟨hx, hxk⟩)
  cases root1 with
  | none =>
    simp only [WholeAt] at h3
    subst h3
    simp at hmem
  | some r =>
    obtain ⟨T, rfl, hr, ho, hn, hlink, hperm, hbal⟩ := h3
    have hmemT : (k, x) ∈ T.entries := (hperm.mem_iff).mpr hmem
    have hfind := (find_of_rep hr ho hn hmemT).2
    have hcount : (T.entries.map Prod.fst).count k = 1 :=
      List.count_eq_one_of_mem (ho.sorted.imp (fun hab => ne_of_lt hab))
        (List.mem_map.mpr ⟨(k, x), hmemT, rfl⟩)
    simp only [idOf, Option.map_eq_some'] at hid
    obtain ⟨tr, g1, g2⟩ := hid
    obtain ⟨h', T1, e1, e2, e3, e4, e5, _, _⟩ := insertKey_level k t hr ho hn hlink hbal
    refine ⟨m1, some T.addr, { m1 with nodes := h' }, some T1.addr, T.entries.map Prod.fst,
      T.entries.map (fun e => some e.2), T1.entries.map Prod.fst,
      T1.entries.map (fun e => some e.2), h1, hfind, scan_of_rep hr hn hlink,
      scanRecs_of_rep hr hn hlink, hcount, ?_, scan_of_rep e2 e3 e4, scanRecs_of_rep e2 e3 e4,
      ?_, ?_, ?_⟩
    · simp [insertTransactionIntoBPTree, h2, g1, g2, e1]
    · simpa using e5.map Prod.fst
    · simpa using e5.map (fun e => some e.2)
    · have hp : (T1.entries.map Prod.fst).Perm (k :: T.entries.map Prod.fst) := by
        simpa using e5.map Prod.fst
      rw [hp.count_eq, List.count_cons_self, hcount]

/-- Witness for C26 (amended): the records with the ids 5, 3, 8 are inserted
and a fourth record that carries the id 3 again is handed to the tree-level
insert. -/
theorem tree_insert_adds_second_copy_witness :
    (∀ x ∈ [0, 1, 2], (idOf (storeWithIds [5, 3, 8, 3]) x).isSome) ∧
    ([0, 1, 2].map (idOf (storeWithIds [5, 3, 8, 3]))).Nodup ∧
    idOf (storeWithIds [5, 3, 8, 3]) 3 = some 3 ∧
    some 3 ∈ [0, 1, 2].map (idOf (storeWithIds [5, 3, 8, 3])) ∧
    ∃ m1 root1 m2 root2 ks ps ks2 ps2,
      insertAll [0, 1, 2] (storeWithIds [5, 3, 8, 3], none) = some (m1, root1) ∧
      findTransactionInBPTree m1.nodes root1 3 = some true ∧
      scanKeys m1.nodes root1 = some ks ∧ scanRecs m1.nodes root1 = some ps ∧
      ks.count 3 = 1 ∧
      insertTransactionIntoBPTree m1 root1 3 = some (m2, root2) ∧
      scanKeys m2.nodes root2 = some ks2 ∧ scanRecs m2.nodes root2 = some ps2 ∧
      ks2.Perm (3 :: ks) ∧ ps2.Perm (some 3 :: ps) ∧ ks2.count 3 = 2 :=
  ⟨by decide, by decide, by decide, by decide,
    tree_insert_adds_second_copy (storeWithIds [5, 3, 8, 3]) [0, 1, 2] 3 3
      (by decide) (by decide) (by decide) (by decide)⟩

/-! ## Leaves stay level -/

/-- C30: after the insertion of any live records with distinct ids into the
empty tree, every leaf is at the level of the tree height. Each further
insert of a record with a new id returns a tree whose root and height are
the old ones, or whose height is one more; in the latter case the tree was
empty, or the root has been split: the new root is a newly allocated node
with one key whose first child is the old root, now with one key, and whose
second child is newly allocated. -/
theorem inserts_keep_leaves_level (m : Store) (ts : List Nat)
    (hlive : ∀ t ∈ ts, (idOf m t).isSome) (hdist : (ts.map (idOf m)).Nodup) :
    ∃ m1 root1 n, insertAll ts (m, none) = some (m1, root1) ∧
      treeHeight m1.nodes root1 = some n ∧
      (∀ r, root1 = some r → ∃ cnt, 0 < cnt ∧
        leafLevels m1.nodes m1.nodes.length r = some (List.replicate cnt n)) ∧
      ∀ t k, idOf m t = some k → some k ∉ ts.map (idOf m) →
        ∃ m2 root2 n2, insertTransactionIntoBPTree m1 root1 t = some (m2, root2) ∧
          treeHeight m2.nodes root2 = some n2 ∧
          ((root2 = root1 ∧ n2 = n) ∨
            (n2 = n + 1 ∧ (root1 = none ∨
              ∃ r a b key x y z w, root1 = some r ∧ root2 = some a ∧
                m1.nodes.length ≤ a ∧ m1.nodes.length ≤ b ∧
                load m2.nodes a = some ⟨false, 1, [key, x, y], [some r, some b, z, w], none,
                  [none, none, none]⟩ ∧
                getNum m2.nodes r = some 1))) := by
  obtain ⟨m1, root1, es1, h1, h2, h3, h4⟩ := insertAll_empty_whole m ts hlive hdist
  have hn : ∃ n, treeHeight m1.nodes root1 = some n ∧
      (∀ r, root1 = some r → ∃ cnt, 0 < cnt ∧
        leafLevels m1.nodes m1.nodes.length r = some (List.replicate cnt n)) := by
    cases root1 with
    | none => exact ⟨0, rfl, fun r hr => by cases hr⟩
    | some r =>
      obtain ⟨T, rfl, hr, _, hnd, _, _, hbal⟩ := h3
      obtain ⟨q1, q2⟩ := levels_of_rep hr hnd hbal
      refine ⟨T.height, q1, fun r hr' => ?_⟩
      cases hr'
      exact ⟨T.leaves.length, List.length_pos.mpr T.leaves_ne_nil, q2⟩
  obtain ⟨n, hn1, hn2⟩ := hn
  refine ⟨m1, root1, n, h1, hn1, hn2, ?_⟩
  intro t k hid hnew
  have hid1 : idOf m1 t = some k := by
    simp only [idOf, h2]
    exact hid
  have hfresh : k ∉ es1.map Prod.fst := by
    intro hm
    have hm1 : k ∈ ts.filterMap (idOf m) := by
      rw [← keys_of_added]
      exact ((h4.map Prod.fst).mem_iff).mp hm
    obtain ⟨x, hx, hxk⟩ := List.mem_filterMap.mp hm1
    exact hnew (List.mem_map.mpr ⟨x, hx, hxk⟩)
  obtain ⟨m2, T2, e1, _, _, e4, e5, e6, e7⟩ := insertTransactionIntoBPTree_whole h3 hid1 hfresh
  obtain ⟨q1, _⟩ := levels_of_rep e4 e6 e5
  refine ⟨m2, some T2.addr, T2.height, e1, q1, ?_⟩
  rcases e7 with ⟨rfl, hh⟩ | ⟨S, rfl, hs, hsn, hg⟩
  · simp only [treeHeight, Option.some.injEq] at hn1
    subst hn1
    exact Or.inr ⟨by rw [hh], Or.inl rfl⟩
  · have hS : treeHeight m1.nodes (some S.addr) = some S.height :=
      levelsDown_of_rep hs _ (le_trans S.height_le_size (hs.size_le hsn))
    rw [hS] at hn1
    simp only [Option.some.injEq] at hn1
    subst hn1
    rcases hg with ⟨g1, g2⟩ | ⟨A, key, B, g1, g2, g3, g4, g5, g6⟩
    · exact Or.inl ⟨by rw [g1], g2⟩
    · refine Or.inr ⟨g4, Or.inr ?_⟩
      rw [g1] at e4
      obtain ⟨⟨x, y, z, w, hl⟩, rA, _⟩ := e4
      refine ⟨S.addr, T2.addr, B.addr, key, x, y, z, w, rfl, rfl, g5, g6, ?_, ?_⟩
      · rw [← g2]
        exact hl
      · have := rA.numKeys_eq
        rw [g2, g3] at this
        exact this

/-- Witness for C30: of six records with the ids 5, 3, 8, 1, 9, 2 the first
five are inserted in this order; the sixth is the further record. -/
theorem inserts_keep_leaves_level_witness :
    (∀ t ∈ [0, 1, 2, 3, 4], (idOf (storeWithIds [5, 3, 8, 1, 9, 2]) t).isSome) ∧
    ([0, 1, 2, 3, 4].map (idOf (storeWithIds [5, 3, 8, 1, 9, 2]))).Nodup ∧
    ∃ m1 root1 n, insertAll [0, 1, 2, 3, 4] (storeWithIds [5, 3, 8, 1, 9, 2], none) =
        some (m1, root1) ∧
      treeHeight m1.nodes root1 = some n ∧
      (∀ r, root1 = some r → ∃ cnt, 0 < cnt ∧
        leafLevels m1.nodes m1.nodes.length r = some (List.replicate cnt n)) ∧
      ∀ t k, idOf (storeWithIds [5, 3, 8, 1, 9, 2]) t = some k →
        some k ∉ [0, 1, 2, 3, 4].map (idOf (storeWithIds [5, 3, 8, 1, 9, 2])) →
        ∃ m2 root2 n2, insertTransactionIntoBPTree m1 root1 t = some (m2, root2) ∧
          treeHeight m2.nodes root2 = some n2 ∧
          ((root2 = root1 ∧ n2 = n) ∨
            (n2 = n + 1 ∧ (root1 = none ∨
              ∃ r a b key x y z w, root1 = some r ∧ root2 = some a ∧
                m1.nodes.length ≤ a ∧ m1.nodes.length ≤ b ∧
                load m2.nodes a = some ⟨false, 1, [key, x, y], [some r, some b, z, w], none,
                  [none, none, none]⟩ ∧
                getNum m2.nodes r = some 1))) :=
  ⟨by decide, by decide,
    inserts_keep_leaves_level (storeWithIds [5, 3, 8, 1, 9, 2]) [0, 1, 2, 3, 4]
      (by decide) (by decide)⟩

/-! ## Loading one row -/

/-- What `loadFresh` does when it has a result. -/
theorem loadFresh_some {s s1 : Engine} {t : Nat} {tr : Transaction}
    (hins : loadFresh s t tr = some s1) :
    ∃ seller buyer m g1 st1 bt1,
      (findOrCreateSeller s.seller_head tr.sellerID s.loading_mode 0 0).1[
        (findOrCreateSeller s.seller_head tr.sellerID s.loading_mode 0 0).2]? = some seller ∧
      (findOrCreateBuyer s.buyer_head tr.buyerID).1[
        (findOrCreateBuyer s.buyer_head tr.buyerID).2]? = some buyer ∧
      insertIntoTrees s.mem s.globalTransactionTree seller.transactionTree
        buyer.transactionTree t = some (m, g1, st1, bt1) ∧
      s1 = { s with
        mem := m, globalTransactionTree := g1,
        seller_head :=
          (findOrCreateSeller s.seller_head tr.sellerID s.loading_mode 0 0).1.set
            (findOrCreateSeller s.seller_head tr.sellerID s.loading_mode 0 0).2
            (addRegularBuyer
              { seller with
                transactionTree := st1, numTransactions := seller.numTransactions + 1,
                totalRevenue := doubleAdd seller.totalRevenue tr.totalPrice }
              { buyer with
                transactionTree := bt1, numTransactions := buyer.numTransactions + 1,
                totalEnergyPurchased := doubleAdd buyer.totalEnergyPurchased tr.energyAmount }),
        buyer_head :=
          (findOrCreateBuyer s.buyer_head tr.buyerID).1.set
            (findOrCreateBuyer s.buyer_head tr.buyerID).2
            { buyer with
              transactionTree := bt1, numTransactions := buyer.numTransactions + 1,
              totalEnergyPurchased := doubleAdd buyer.totalEnergyPurchased tr.energyAmount } } := by
  unfold loadFresh at hins
  simp only at hins
  cases hs : (findOrCreateSeller s.seller_head tr.sellerID s.loading_mode 0 0).1[
      (findOrCreateSeller s.seller_head tr.sellerID s.loading_mode 0 0).2]? with
  | none => simp [hs] at hins
  | some seller =>
    cases hb : (findOrCreateBuyer s.buyer_head tr.buyerID).1[
        (findOrCreateBuyer s.buyer_head tr.buyerID).2]? with
    | none => simp [hs, hb] at hins
    | some buyer =>
      simp only [hs, hb] at hins
      split at hins
      · simp at hins
      · rename_i m g1 st1 bt1 htrees
        simp only [Option.some.injEq] at hins
        exact ⟨seller, buyer, m, g1, st1, bt1, rfl, rfl, htrees, hins.symm⟩

/-- The seller list after `loadFresh`: the cell of the record's seller has
one transaction more and the record's total more revenue; the cells of the
other sellers are as before. -/
theorem loadFresh_sellers {s s1 : Engine} {t : Nat} {tr : Transaction}
    (hins : loadFresh s t tr = some s1) :
    ∃ S0 S1 : Seller, sellerOf s1.seller_head tr.sellerID = some S1 ∧
      S0.sellerID = tr.sellerID ∧ S1.sellerID = tr.sellerID ∧
      (sellerOf s.seller_head tr.sellerID = some S0 ∨
        (sellerOf s.seller_head tr.sellerID = none ∧
          S0 = ⟨tr.sellerID, if s.loading_mode then 0 else 0, if s.loading_mode then 0 else 0,
            0, 0, [], none⟩)) ∧
      S1.rateBelow300 = S0.rateBelow300 ∧ S1.rateAbove300 = S0.rateAbove300 ∧
      S1.numTransactions = S0.numTransactions + 1 ∧
      S1.totalRevenue = doubleAdd S0.totalRevenue tr.totalPrice ∧
      s1.seller_head.filter (fun S => decide (S.sellerID ≠ tr.sellerID)) =
        s.seller_head.filter (fun S => decide (S.sellerID ≠ tr.sellerID)) := by
  obtain ⟨seller, buyer, m, g1, st1, bt1, hs, hb, htrees, rfl⟩ := loadFresh_some hins
  obtain ⟨S, q1, q2, q3, q4⟩ :=
    findOrCreateSeller_spec s.seller_head tr.sellerID s.loading_mode 0 0
  rw [hs] at q1
  simp only [Option.some.injEq] at q1
  subst q1
  obtain ⟨f1, f2, f3, f4, f5, f6⟩ := addRegularBuyer_fields
    { seller with
      transactionTree := st1, numTransactions := seller.numTransactions + 1,
      totalRevenue := doubleAdd seller.totalRevenue tr.totalPrice }
    { buyer with
      transactionTree := bt1, numTransactions := buyer.numTransactions + 1,
      totalEnergyPurchased := doubleAdd buyer.totalEnergyPurchased tr.energyAmount }
  have hset := (sellerOf_set _ (f1.trans q2) q3).1
  refine ⟨seller, _, hset, q2, f1.trans q2, ?_, f2, f3, f4, f5, ?_⟩
  · rcases q4 with ⟨h1, _⟩ | ⟨h1, _, _, _, h5⟩
    · exact Or.inl h1
    · exact Or.inr ⟨h1, h5⟩
  · refine (sellers_filter_set _ _ _ _ _ hs q2 (f1.trans q2)).trans ?_
    rcases q4 with ⟨_, h2⟩ | ⟨_, _, h3, _, _⟩
    · rw [h2]
    · rw [h3]
      simp [List.filter_cons, q2]

/-- The step `loadFresh` for a live record whose id is not in the history:
it has a result, the trees stay apart, the record joins the history as it
is, and the records are not written to. -/
theorem ForestInv.loadFresh_spec {s : Engine} {L : List (Nat × Transaction)} {t : Nat}
    {tr : Transaction} (inv : ForestInv s L) (hrec : loadRec s.mem.recs t = some tr)
    (hkey : tr.transactionID ∉ (entriesOf L).map Prod.fst) :
    ∃ s1, loadFresh s t tr = some s1 ∧ ForestInv s1 ((t, tr) :: L) ∧
      s1.loading_mode = s.loading_mode ∧ s1.mem.recs = s.mem.recs := by
  obtain ⟨own, og, osell, obuy⟩ := inv.trees
  obtain ⟨seller, hs, _⟩ := findOrCreateSeller_spec s.seller_head tr.sellerID s.loading_mode 0 0
  obtain ⟨buyer, hb, _⟩ := findOrCreateBuyer_spec s.buyer_head tr.buyerID
  obtain ⟨s1, s2, s3, s4, s5⟩ := inv.sellerCell osell tr.sellerID 0 0 hs
  obtain ⟨b1, b2, b3, b4, b5⟩ := inv.buyerCell obuy tr.buyerID hb
  have ks := entriesOf_fst_subset L (fun z => decide (z.2.sellerID = tr.sellerID)) hkey
  have kb := entriesOf_fst_subset L (fun z => decide (z.2.buyerID = tr.buyerID)) hkey
  obtain ⟨m, g1, st1, bt1, own0, htrees, _⟩ := insertIntoTrees_owned (m := s.mem)
    hrec og s2 b2 hkey ks kb
  obtain ⟨e1, own1, t1, t2, t3, t4⟩ := insertIntoTrees_given htrees hrec og s2 b2 hkey ks kb
  have hrun : loadFresh s t tr = some { s with
      mem := m, globalTransactionTree := g1,
      seller_head :=
        (findOrCreateSeller s.seller_head tr.sellerID s.loading_mode 0 0).1.set
          (findOrCreateSeller s.seller_head tr.sellerID s.loading_mode 0 0).2
          (addRegularBuyer
            { seller with
              transactionTree := st1, numTransactions := seller.numTransactions + 1,
              totalRevenue := doubleAdd seller.totalRevenue tr.totalPrice }
            { buyer with
              transactionTree := bt1, numTransactions := buyer.numTransactions + 1,
              totalEnergyPurchased := doubleAdd buyer.totalEnergyPurchased tr.energyAmount }),
      buyer_head :=
        (findOrCreateBuyer s.buyer_head tr.buyerID).1.set
          (findOrCreateBuyer s.buyer_head tr.buyerID).2
          { buyer with
            transactionTree := bt1, numTransactions := buyer.numTransactions + 1,
            totalEnergyPurchased := doubleAdd buyer.totalEnergyPurchased tr.energyAmount } } := by
    unfold loadFresh
    simp only [hs, hb, htrees]
  refine ⟨_, hrun, ⟨⟨own1, t1, ?_, ?_⟩, ?_, ?_, ?_, ?_, ?_⟩, rfl, e1⟩
  · -- the sellers
    intro S hS
    rcases cells_after_set (fun S => S.sellerID) _ _ seller _ hs s3 S hS with rfl | ⟨hmem, hne⟩
    · rw [(addRegularBuyer_fields _ _).1, (addRegularBuyer_fields _ _).2.2.2.2.2]
      simp only [s1, List.filter_cons, decide_True, if_true]
      exact t2
    · simp only at hne
      rw [s1] at hne
      have hold := osell S (s4 S hmem hne)
      have := t4 _ _ _ (by simp) (by simpa using hne) (by simp) hold
      rw [List.filter_cons_of_neg (by
        simp only [decide_eq_true_eq]
        exact fun e => hne e.symm)]
      exact this
  · -- the buyers
    intro B hB
    rcases cells_after_set (fun B => B.buyerID) _ _ buyer _ hb b3 B hB with rfl | ⟨hmem, hne⟩
    · simp only [b1, List.filter_cons, decide_True, if_true]
      exact t3
    · simp only at hne
      rw [b1] at hne
      have hold := obuy B (b4 B hmem hne)
      have := t4 _ _ _ (by simp) (by simp) (by simpa using hne) hold
      rw [List.filter_cons_of_neg (by
        simp only [decide_eq_true_eq]
        exact fun e => hne e.symm)]
      exact this
  · -- the records
    intro z hz
    show loadRec m.recs z.1 = some z.2
    rw [e1]
    rcases List.mem_cons.mp hz with rfl | hz
    · exact hrec
    · exact inv.recs z hz
  · -- the seller ids
    have key : ∀ X : Seller, X.sellerID = seller.sellerID →
        (((findOrCreateSeller s.seller_head tr.sellerID s.loading_mode 0 0).1.set
          (findOrCreateSeller s.seller_head tr.sellerID s.loading_mode 0 0).2 X).map
            (fun S => S.sellerID)).Nodup := fun X hX => by
      rw [map_set_same (fun S => S.sellerID) _ _ seller X hs hX]
      exact s3
    exact key _ (addRegularBuyer_fields _ _).1
  · have key : ∀ X : Buyer, X.buyerID = buyer.buyerID →
        (((findOrCreateBuyer s.buyer_head tr.buyerID).1.set
          (findOrCreateBuyer s.buyer_head tr.buyerID).2 X).map (fun B => B.buyerID)).Nodup :=
      fun X hX => by
        rw [map_set_same (fun B => B.buyerID) _ _ buyer X hb hX]
        exact b3
    exact key _ rfl
  · have key : ∀ X : Seller, X.sellerID = seller.sellerID →
        ∀ z ∈ (t, tr) :: L,
          z.2.sellerID ∈ ((findOrCreateSeller s.seller_head tr.sellerID s.loading_mode 0 0).1.set
            (findOrCreateSeller s.seller_head tr.sellerID s.loading_mode 0 0).2 X).map
              (fun S => S.sellerID) := fun X hX z hz => by
      rw [map_set_same (fun S => S.sellerID) _ _ seller X hs hX]
      rcases List.mem_cons.mp hz with rfl | hz
      · exact List.mem_map.mpr ⟨seller, List.getElem?_mem hs, s1⟩
      · obtain ⟨S1, hS1, e⟩ := List.mem_map.mp (inv.sellerCover z hz)
        exact List.mem_map.mpr ⟨S1, s5 S1 hS1, e⟩
    exact key _ (addRegularBuyer_fields _ _).1
  · have key : ∀ X : Buyer, X.buyerID = buyer.buyerID →
        ∀ z ∈ (t, tr) :: L,
          z.2.buyerID ∈ ((findOrCreateBuyer s.buyer_head tr.buyerID).1.set
            (findOrCreateBuyer s.buyer_head tr.buyerID).2 X).map (fun B => B.buyerID) :=
      fun X hX z hz => by
        rw [map_set_same (fun B => B.buyerID) _ _ buyer X hb hX]
        rcases List.mem_cons.mp hz with rfl | hz
        · exact List.mem_map.mpr ⟨buyer, List.getElem?_mem hb, b1⟩
        · obtain ⟨B1, hB1, e⟩ := List.mem_map.mp (inv.buyerCover z hz)
          exact List.mem_map.mpr ⟨B1, b5 B1 hB1, e⟩
    exact key _ rfl

/-! ## The count of a whole tree -/

/-- The number of keys a leaf of a tree holds. -/
theorem RepLeaf.leaf_count {h : Heap} {a : Nat} {nx : Option Nat} {es : List (Int × Nat)}
    (hr : RepLeaf h a nx es) : ∃ n, load h a = some n ∧ n.isLeaf = true ∧ n.next = nx ∧
      n.numKeys = es.length := by
  rcases RepLeaf.shape hr with ⟨k, r, x, y, rx, ry, rfl, hl⟩ | ⟨k0, r0, k1, r1, y, ry, rfl, hl⟩
  · exact ⟨_, hl, rfl, rfl, rfl⟩
  · exact ⟨_, hl, rfl, rfl, rfl⟩

/-- The chain walk over linked leaves adds up the numbers of their keys. -/
theorem chainCount_of_linked {h : Heap} :
    ∀ (ls : List (Nat × List (Int × Nat) × Option Nat)) (fuel : Nat),
      (∀ l ∈ ls, RepLeaf h l.1 l.2.2 l.2.1) → Linked ls none → ls.length < fuel →
      chainCount h fuel (ls.head?.map (fun l => l.1)) =
        some ((ls.map (fun l => l.2.1)).flatten.length) := by
  intro ls
  induction ls with
  | nil =>
    intro fuel _ _ hf
    obtain ⟨f, rfl⟩ : ∃ f, fuel = f + 1 := ⟨fuel - 1, by simp at hf; omega⟩
    simp [chainCount]
  | cons l rest ih =>
    intro fuel hrep hlink hf
    obtain ⟨f, rfl⟩ : ∃ f, fuel = f + 1 := ⟨fuel - 1, by simp at hf; omega⟩
    obtain ⟨n, hl, _, hnx, hk⟩ := (hrep l (by simp)).leaf_count
    have hnext : n.next = rest.head?.map (fun l => l.1) := by
      rw [hnx, hlink.1]
      cases rest <;> rfl
    have hlink1 : Linked rest none := hlink.2
    have := ih f (fun m hm => hrep m (by simp [hm])) hlink1 (by simp at hf; omega)
    simp [chainCount, hl, hk, hnext, this]

/-- The function `countTransactionsInTree` on a whole tree counts its
entries. -/
theorem count_of_rep {h : Heap} {t : Shape} (hr : Rep h t) (hn : t.addrs.Nodup)
    (hlink : Linked t.leaves none) :
    countTransactionsInTree h (some t.addr) = some t.entries.length := by
  obtain ⟨l, rest, h1, h2⟩ := leftmost_of_rep hr h.length (hr.size_le hn)
  have h3 := chainCount_of_linked t.leaves (h.length + 1) hr.leaves hlink
    (by have := t.leaves_length_le; have := hr.size_le hn; omega)
  rw [h1] at h3
  simp only [List.head?_cons, Option.map_some'] at h3
  rw [← h1, ← Shape.entries_eq] at h3
  cases t with
  | leaf a es nx =>
    obtain ⟨n, hl, hleaf, _, hk⟩ := RepLeaf.leaf_count hr
    simp [countTransactionsInTree, hl, hleaf, hk, Shape.entries]
  | node2 a c0 k0 c1 =>
    obtain ⟨⟨x, y, z, w, hl⟩, _, _⟩ := hr
    simp only [addr_node2] at h2
    simp [countTransactionsInTree, hl, h2, h3]
  | node3 a c0 k0 c1 k1 c2 =>
    obtain ⟨⟨y, w, hl⟩, _, _, _⟩ := hr
    simp only [addr_node3] at h2
    simp [countTransactionsInTree, hl, h2, h3]

/-- The count of an owned tree. -/
theorem Owned.owned_count {h : Heap} {own : Nat → Option Owner} {O : Owner} {root : Option Nat}
    {es : List (Int × Nat)} (ht : Owned h own O root es) :
    countTransactionsInTree h root = some es.length := by
  cases root with
  | none =>
    simp only [Owned] at ht
    subst ht
    rfl
  | some r =>
    obtain ⟨t, rfl, h2, _, h4, h5, h6, _⟩ := ht
    rw [count_of_rep h2 h4 h5, h6.length_eq]

/-- The lookup answers 1 for a key that an owned tree holds. -/
theorem Owned.present {h : Heap} {own : Nat → Option Owner} {O : Owner} {root : Option Nat}
    {es : List (Int × Nat)} (ht : Owned h own O root es) {key : Int}
    (hk : key ∈ es.map Prod.fst) : findTransactionInBPTree h root key = some true := by
  cases root with
  | none =>
    simp only [Owned] at ht
    subst ht
    simp at hk
  | some r =>
    obtain ⟨t, rfl, h2, h3, h4, _, h6, _⟩ := ht
    obtain ⟨e, he, rfl⟩ := List.mem_map.mp hk
    exact (find_of_rep h2 h3 h4 ((h6.mem_iff).mpr he)).2

/-- The lookup by id returns the pointer stored with a key of an owned
tree whose keys differ. -/
theorem Owned.lookup {h : Heap} {own : Nat → Option Owner} {O : Owner} {root : Option Nat}
    {es : List (Int × Nat)} (ht : Owned h own O root es) {e : Int × Nat}
    (he : e ∈ es) : findTransactionById h root e.1 = some (some e.2) := by
  cases root with
  | none =>
    simp only [Owned] at ht
    subst ht
    simp at he
  | some r =>
    obtain ⟨t, rfl, h2, h3, h4, _, h6, _⟩ := ht
    exact (find_of_rep h2 h3 h4 ((h6.mem_iff).mpr he)).1

/-! ## The rows of a load -/

/-- Overwriting a record that is not in the history keeps the trees and the
history. -/
theorem ForestInv.setRec {s : Engine} {L : List (Nat × Transaction)} (inv : ForestInv s L)
    (t : Nat) (x : Option Transaction) (hnew : ∀ z ∈ L, z.1 ≠ t) :
    ForestInv { s with mem := { s.mem with recs := s.mem.recs.set t x } } L :=
  ⟨inv.trees, fun z hz => by
      show loadRec (s.mem.recs.set t x) z.1 = some z.2
      rw [loadRec_set_ne _ (hnew z hz)]
      exact inv.recs z hz,
    inv.sellerIds, inv.buyerIds, inv.sellerCover, inv.buyerCover⟩

/-- The branch of the loop body for a row whose id is not in the history:
it has a result, the record made from the row joins the history with the
row's price and total, and the seller of the row has the row's total more
revenue. -/
theorem ForestInv.loadNew_spec {s : Engine} {L : List (Nat × Transaction)} (inv : ForestInv s L)
    (row : LogRow) (hkey : row.transactionID ∉ (entriesOf L).map Prod.fst) :
    ∃ s1, loadNew s row = some s1 ∧
      ForestInv s1 ((s.mem.recs.length, rowRecord row) :: L) ∧
      s1.loading_mode = s.loading_mode ∧
      ∃ S0 S1 : Seller, sellerOf s1.seller_head row.sellerID = some S1 ∧
        (sellerOf s.seller_head row.sellerID = some S0 ∨
          (sellerOf s.seller_head row.sellerID = none ∧ S0.totalRevenue = 0 ∧
            S0.numTransactions = 0 ∧ S0.rateBelow300 = 0 ∧ S0.rateAbove300 = 0)) ∧
        S1.numTransactions = S0.numTransactions + 1 ∧
        S1.totalRevenue = doubleAdd S0.totalRevenue row.totalPrice ∧
        S1.rateBelow300 = S0.rateBelow300 ∧ S1.rateAbove300 = S0.rateAbove300 := by
  have inv1 := inv.create row.transactionID row.buyerID row.sellerID row.energyAmount
    row.pricePerKwh (String.mk row.timestamp)
  have hrec := createTransaction_record s row.transactionID row.buyerID row.sellerID
    row.energyAmount row.pricePerKwh (String.mk row.timestamp)
  have hnew : ∀ z ∈ L, z.1 ≠ s.mem.recs.length :=
    fun z hz => Nat.ne_of_lt (loadRec_lt (inv.recs z hz))
  have inv2 := inv1.setRec s.mem.recs.length (some (rowRecord row)) hnew
  have hrec2 : loadRec
      ((createTransaction s row.transactionID row.buyerID row.sellerID row.energyAmount
        row.pricePerKwh (String.mk row.timestamp)).1.mem.recs.set s.mem.recs.length
          (some (rowRecord row))) s.mem.recs.length = some (rowRecord row) :=
    loadRec_set_eq _ (loadRec_lt hrec)
  obtain ⟨s1, g1, g2, g3, g4⟩ := ForestInv.loadFresh_spec inv2 hrec2 hkey
  have hrun : loadNew s row = some s1 := by
    unfold loadNew
    rw [hrec]
    exact g1
  obtain ⟨S0, S1, q1, _, _, q4, r5, r6, q7, q8, _⟩ := loadFresh_sellers g1
  refine ⟨s1, hrun, g2, g3, S0, S1, q1, ?_, q7, q8, r5, r6⟩
  rcases q4 with q4 | ⟨q4, q5⟩
  · exact Or.inl q4
  · refine Or.inr ⟨q4, ?_, ?_, ?_, ?_⟩
    · rw [q5]
    · rw [q5]
    · rw [q5]; simp
    · rw [q5]; simp

/-- The ids counted as new do not depend on the order or the repetitions of
the ids seen. -/
theorem countFresh_congr : ∀ (ids : List Int) (a b : List Int), (∀ k, k ∈ a ↔ k ∈ b) →
    countFresh a ids = countFresh b ids
  | [], _, _, _ => rfl
  | k :: ks, a, b, h => by
    simp only [countFresh]
    rw [countFresh_congr ks (k :: a) (k :: b) (fun j => by simp [h j])]
    by_cases hk : k ∈ a
    · simp [hk, (h k).mp hk]
    · have hb : k ∉ b := fun hb => hk ((h k).mpr hb)
      simp [hk, hb]

theorem countFresh_le : ∀ (ids : List Int) (a : List Int), countFresh a ids ≤ ids.length
  | [], _ => le_refl _
  | k :: ks, a => by
    have := countFresh_le ks (k :: a)
    simp only [countFresh, List.length_cons]
    split <;> omega

/-- The loop of `loadDataFromFile` over lines none of which overruns the
timestamp array: it has a result; the counter `totalLoaded` grows by the
number of rows read whose id is not among the ids before them, `duplicates`
by the number of the other rows read; the lines from which no row is read
are reported one by one; the history grows by the rows counted as loaded. -/
theorem loadRows_spec (strtod : List Char → Option (Rat × List Char)) :
    ∀ (lines : List (List Char)) (s : Engine) (rep : LoadReport) (L : List (Nat × Transaction)),
      ForestInv s L → (∀ line ∈ lines, (scanRow strtod line).isSome) →
      ∃ s1 rep1 L1, loadRows strtod lines (s, rep) = some (s1, rep1) ∧ ForestInv s1 L1 ∧
        s1.loading_mode = s.loading_mode ∧
        rep1.totalLoaded = rep.totalLoaded +
          countFresh ((entriesOf L).map Prod.fst)
            ((rowsRead strtod lines).map (fun r => r.transactionID)) ∧
        rep1.duplicates = rep.duplicates + (rowsRead strtod lines).length -
          countFresh ((entriesOf L).map Prod.fst)
            ((rowsRead strtod lines).map (fun r => r.transactionID)) ∧
        rep1.malformed = rep.malformed ++ linesMalformed strtod lines ∧
        L1.length = L.length +
          countFresh ((entriesOf L).map Prod.fst)
            ((rowsRead strtod lines).map (fun r => r.transactionID)) ∧
        (∀ k, k ∈ (entriesOf L1).map Prod.fst ↔ k ∈ (entriesOf L).map Prod.fst ∨
          k ∈ (rowsRead strtod lines).map (fun r => r.transactionID)) := by
  intro lines
  induction lines with
  | nil =>
    intro s rep L inv _
    exact ⟨s, rep, L, rfl, inv, rfl, by simp [rowsRead, countFresh],
      by simp [rowsRead, countFresh], by simp [linesMalformed], by simp [rowsRead, countFresh],
      by simp [rowsRead]⟩
  | cons line rest ih =>
    intro s rep L inv hfit
    have hfit1 : ∀ l ∈ rest, (scanRow strtod l).isSome := fun l hl => hfit l (by simp [hl])
    obtain ⟨parsed, hp⟩ := Option.isSome_iff_exists.mp (hfit line (by simp))
    obtain ⟨own, og, _, _⟩ := inv.trees
    cases parsed with
    | none =>
      obtain ⟨s1, rep1, L1, e1, e2, e3, e4, e5, e6, e7, e8⟩ :=
        ih s { rep with malformed := rep.malformed ++ [line] } L inv hfit1
      have hread : rowsRead strtod (line :: rest) = rowsRead strtod rest := by
        simp [rowsRead, List.filterMap_cons, hp]
      have hmal : linesMalformed strtod (line :: rest) = line :: linesMalformed strtod rest := by
        simp [linesMalformed, List.filter_cons, hp]
      refine ⟨s1, rep1, L1, ?_, e2, e3, ?_, ?_, ?_, ?_, ?_⟩
      · simp only [loadRows, loadRow, hp]
        exact e1
      · rw [hread]; exact e4
      · rw [hread]; exact e5
      · rw [hmal, e6]; simp
      · rw [hread]; exact e7
      · rw [hread]; exact e8
    | some row =>
      have hread : rowsRead strtod (line :: rest) = row :: rowsRead strtod rest := by
        simp [rowsRead, List.filterMap_cons, hp]
      have hmal : linesMalformed strtod (line :: rest) = linesMalformed strtod rest := by
        simp [linesMalformed, List.filter_cons, hp]
      by_cases hk : row.transactionID ∈ (entriesOf L).map Prod.fst
      · have hfind := og.present hk
        obtain ⟨s1, rep1, L1, e1, e2, e3, e4, e5, e6, e7, e8⟩ :=
          ih s { rep with duplicates := rep.duplicates + 1 } L inv hfit1
        have hc : countFresh (row.transactionID :: (entriesOf L).map Prod.fst)
            ((rowsRead strtod rest).map (fun r => r.transactionID)) =
            countFresh ((entriesOf L).map Prod.fst)
              ((rowsRead strtod rest).map (fun r => r.transactionID)) :=
          countFresh_congr _ _ _ (fun j => by
            simp only [List.mem_cons]
            constructor
            · rintro (rfl | h)
              · exact hk
              · exact h
            · exact fun h => Or.inr h)
        have hle := countFresh_le ((rowsRead strtod rest).map (fun r => r.transactionID))
          ((entriesOf L).map Prod.fst)
        simp only [List.length_map] at hle
        refine ⟨s1, rep1, L1, ?_, e2, e3, ?_, ?_, ?_, ?_, ?_⟩
        · simp only [loadRows, loadRow, hp, hfind]
          exact e1
        · rw [hread, e4]
          simp only [List.map_cons, countFresh, hk, if_true, hc]
          simp
        · rw [hread, e5]
          simp only [List.map_cons, countFresh, hk, if_true, hc, List.length_cons]
          push_cast
          ring
        · rw [hmal]; exact e6
        · rw [hread, e7]
          simp only [List.map_cons, countFresh, hk, if_true, hc]
          simp
        · intro k
          rw [e8 k, hread]
          simp only [List.map_cons, List.mem_cons]
          constructor
          · rintro (h | h)
            · exact Or.inl h
            · exact Or.inr (Or.inr h)
          · rintro (h | rfl | h)
            · exact Or.inl h
            · exact Or.inl hk
            · exact Or.inr h
      · have hfind := og.absent hk
        obtain ⟨s0, g1, g2, g3, _⟩ := inv.loadNew_spec row hk
        obtain ⟨s1, rep1, L1, e1, e2, e3, e4, e5, e6, e7, e8⟩ :=
          ih s0 { rep with totalLoaded := rep.totalLoaded + 1 } _ g2 hfit1
        have hkeys : (entriesOf ((s.mem.recs.length, rowRecord row) :: L)).map Prod.fst =
            row.transactionID :: (entriesOf L).map Prod.fst := rfl
        rw [hkeys] at e4 e5 e7 e8
        refine ⟨s1, rep1, L1, ?_, e2, e3.trans g3, ?_, ?_, ?_, ?_, ?_⟩
        · simp only [loadRows, loadRow, hp, hfind, g1, Option.map_some']
          exact e1
        · rw [hread, e4]
          simp only [List.map_cons, countFresh, hk, if_false]
          push_cast
          ring
        · rw [hread, e5]
          simp only [List.map_cons, countFresh, hk, if_false, List.length_cons]
          push_cast
          ring
        · rw [hmal]; exact e6
        · rw [hread, e7]
          simp only [List.map_cons, countFresh, hk, if_false, List.length_cons]
          omega
        · intro k
          rw [e8 k, hread]
          simp only [List.map_cons, List.mem_cons]
          constructor
          · rintro ((rfl | h) | h)
            · exact Or.inr (Or.inl rfl)
            · exact Or.inl h
            · exact Or.inr (Or.inr h)
          · rintro (h | rfl | h)
            · exact Or.inl (Or.inr h)
            · exact Or.inl (Or.inl rfl)
            · exact Or.inr h

/-! ## Bulk load -/

/-- A loop of `loadDataFromFile` that has a result has read every line
without overrunning the timestamp array. -/
theorem loadRows_fit (strtod : List Char → Option (Rat × List Char)) :
    ∀ (lines : List (List Char)) (x y : Engine × LoadReport),
      loadRows strtod lines x = some y → ∀ line ∈ lines, (scanRow strtod line).isSome := by
  intro lines
  induction lines with
  | nil => intro _ _ _ line hl; cases hl
  | cons l rest ih =>
    intro x y hrun line hl
    obtain ⟨s, rep⟩ := x
    simp only [loadRows] at hrun
    cases hstep : loadRow strtod s rep l with
    | none => simp [hstep] at hrun
    | some x1 =>
      simp only [hstep] at hrun
      rcases List.mem_cons.mp hl with rfl | hl
      · cases hp : scanRow strtod line with
        | none => simp [loadRow, hp] at hstep
        | some v => rfl
      · exact ih x1 y hrun line hl

/-- Every line is a row read or a line reported as malformed, unless it
overruns the timestamp array. -/
theorem rows_or_malformed (strtod : List Char → Option (Rat × List Char)) :
    ∀ (lines : List (List Char)), (∀ line ∈ lines, (scanRow strtod line).isSome) →
      (rowsRead strtod lines).length + (linesMalformed strtod lines).length = lines.length := by
  intro lines
  induction lines with
  | nil => intro _; rfl
  | cons l rest ih =>
    intro hfit
    have h1 := ih (fun line hl => hfit line (by simp [hl]))
    obtain ⟨parsed, hp⟩ := Option.isSome_iff_exists.mp (hfit l (by simp))
    cases parsed with
    | none =>
      simp only [rowsRead, linesMalformed, List.filterMap_cons, List.filter_cons, hp,
        Option.getD_some, decide_True, if_true, List.length_cons] at h1 ⊢
      omega
    | some row =>
      simp only [rowsRead, linesMalformed, List.filterMap_cons, List.filter_cons, hp,
        Option.getD_some, List.length_cons] at h1 ⊢
      simp only [Option.some.injEq, reduceCtorEq, decide_False, Bool.false_eq_true, if_false]
      omega

/-- The list walk of `loadSellerPrices` that finds the seller keeps the ids
and the trees of the list. -/
theorem setSellerRates_keeps (id : Int) (a b : Rat) : ∀ (l l1 : List Seller),
    setSellerRates id a b l = some l1 →
      l1.map (fun S => S.sellerID) = l.map (fun S => S.sellerID) ∧
      ∀ S ∈ l1, ∃ S0 ∈ l, S.transactionTree = S0.transactionTree
  | [], _, h => by simp [setSellerRates] at h
  | S :: rest, l1, h => by
    simp only [setSellerRates] at h
    by_cases hid : S.sellerID = id
    · simp only [hid, if_true, Option.some.injEq] at h
      subst h
      refine ⟨by simp [hid], ?_⟩
      intro T hT
      rcases List.mem_cons.mp hT with rfl | hT
      · exact ⟨S, by simp, rfl⟩
      · exact ⟨T, by simp [hT], rfl⟩
    · simp only [hid, if_false, Option.map_eq_some'] at h
      obtain ⟨l2, h2, rfl⟩ := h
      obtain ⟨k1, k2⟩ := setSellerRates_keeps id a b rest l2 h2
      refine ⟨by simp [k1], ?_⟩
      intro T hT
      rcases List.mem_cons.mp hT with rfl | hT
      · exact ⟨T, by simp, rfl⟩
      · obtain ⟨S0, hS0, e⟩ := k2 T hT
        exact ⟨S0, by simp [hS0], e⟩

/-- The list walk of `loadSellerPrices` finds no seller only when none has
the id. -/
theorem setSellerRates_none (id : Int) (a b : Rat) : ∀ (l : List Seller),
    setSellerRates id a b l = none → id ∉ l.map (fun S => S.sellerID)
  | [], _ => by simp
  | S :: rest, h => by
    simp only [setSellerRates] at h
    by_cases hid : S.sellerID = id
    · simp [hid] at h
    · simp only [hid, if_false, Option.map_eq_none'] at h
      have := setSellerRates_none id a b rest h
      simp only [List.map_cons, List.mem_cons, not_or]
      exact ⟨fun e => hid e.symm, this⟩

/-- The sellers that `loadSellerPrices` makes have different ids and no
tree. -/
theorem loadSellerPrices_sellers (rows : List (Int × Rat × Rat)) : ∀ (l : List Seller),
    (l.map (fun S => S.sellerID)).Nodup → (∀ S ∈ l, S.transactionTree = none) →
      ((rows.foldl loadSellerPrice l).map (fun S => S.sellerID)).Nodup ∧
      ∀ S ∈ rows.foldl loadSellerPrice l, S.transactionTree = none := by
  induction rows with
  | nil => intro l h1 h2; exact ⟨h1, h2⟩
  | cons row rest ih =>
    intro l h1 h2
    simp only [List.foldl_cons]
    apply ih
    · unfold loadSellerPrice
      cases hset : setSellerRates row.1 row.2.1 row.2.2 l with
      | none =>
        simp only [List.map_cons, List.nodup_cons]
        exact ⟨setSellerRates_none _ _ _ l hset, h1⟩
      | some l1 =>
        simp only
        rw [(setSellerRates_keeps _ _ _ l l1 hset).1]
        exact h1
    · unfold loadSellerPrice
      cases hset : setSellerRates row.1 row.2.1 row.2.2 l with
      | none =>
        intro S hS
        rcases List.mem_cons.mp hS with rfl | hS
        · rfl
        · exact h2 S hS
      | some l1 =>
        intro S hS
        obtain ⟨S0, hS0, e⟩ := (setSellerRates_keeps _ _ _ l l1 hset).2 S hS
        rw [e]
        exact h2 S0 hS0

/-- The state at the start of the loop of `loadDataFromFile` in `main` holds
the empty history. -/
theorem ForestInv.forest_priced (prices : Option (List (Int × Rat × Rat))) :
    ForestInv (loadStartWith prices).1 [] := by
  have hs : (((loadStartWith prices).1.seller_head).map (fun S => S.sellerID)).Nodup ∧
      ∀ S ∈ (loadStartWith prices).1.seller_head, S.transactionTree = none := by
    cases prices with
    | none => exact ⟨List.nodup_nil, fun S hS => by cases hS⟩
    | some rows =>
      exact loadSellerPrices_sellers rows [] List.nodup_nil (fun S hS => by cases hS)
  have hb : (loadStartWith prices).1.buyer_head = [] := by
    cases prices <;> rfl
  have hg : (loadStartWith prices).1.globalTransactionTree = none := by
    cases prices <;> rfl
  refine ⟨⟨fun _ => none, ?_, ?_, ?_⟩, fun x hx => (by cases hx), hs.1, ?_,
    fun x hx => (by cases hx), fun x hx => (by cases hx)⟩
  · rw [hg]
    rfl
  · intro S hS
    rw [hs.2 S hS]
    rfl
  · intro B hB
    rw [hb] at hB
    cases hB
  · rw [hb]
    exact List.nodup_nil

/-- C21 (counterexample): of the three lines of `sampleLog` the first is
loaded, the second is not a row and the third repeats the id 1.  The load at
program start ends with the counters 1 (loaded) and 1 (duplicates), which
add up to 2, not 3; for the second line there is its warning and no counter.
A line whose seventh field has 30 characters makes `sscanf` write past
`timestamp[30]`: neither the reading of that line nor the load has a defined
result. -/
theorem load_reports_no_malformed_count :
    (loadDataFromFile sampleStrtod (some sampleLog.flatten) Engine.empty).map (fun r => r.2) =
      some (some ⟨1, 1, ["no row\n".data], 1, false⟩) ∧
    fgetsAll sampleLog.flatten.length sampleLog.flatten = sampleLog ∧
    sampleLog.length = 3 ∧
    scanRow sampleStrtod longStampLine = none ∧
    loadDataFromFile sampleStrtod (some longStampLine) Engine.empty = none := by
  decide!

/-- C21 (amended): for every price file and every log none of whose lines
(as `fgets` returns them) overruns the timestamp array, `loadDataFromFile`
as `main` calls it runs to its end.  The counter `totalLoaded` it reports is
the number of rows read whose id (as `sscanf` stores it in an `int`) is not
among the ids of the rows read before them, the counter `duplicates` the
number of the other rows read; there is no counter for the lines from which
no row is read: each of them is reported by a warning of its own, so the two
counters and the number of these warnings add up to the number of lines.
The count of the global tree equals `totalLoaded` and the mismatch warning is
not printed. -/
theorem load_counts_loaded_and_duplicates (strtod : List Char → Option (Rat × List Char))
    (prices : Option (List (Int × Rat × Rat))) (content : List Char)
    (hfit : ∀ line ∈ fgetsAll content.length content, (scanRow strtod line).isSome) :
    ∃ s1 sum, loadDataFromFile strtod (some content) (loadSellerPrices prices Engine.empty) =
        some (s1, some sum) ∧
      sum.totalLoaded = countFresh []
        ((rowsRead strtod (fgetsAll content.length content)).map (fun r => r.transactionID)) ∧
      sum.duplicates = (rowsRead strtod (fgetsAll content.length content)).length -
        countFresh []
          ((rowsRead strtod (fgetsAll content.length content)).map (fun r => r.transactionID)) ∧
      sum.malformed = linesMalformed strtod (fgetsAll content.length content) ∧
      sum.totalLoaded + sum.duplicates + sum.malformed.length =
        (fgetsAll content.length content).length ∧
      (sum.treeCount : Int) = sum.totalLoaded ∧ sum.mismatch = false := by
  obtain ⟨s1, rep1, L1, e1, e2, _, e4, e5, e6, e7, _⟩ :=
    loadRows_spec strtod (fgetsAll content.length content) (loadStartWith prices).1
      (loadStartWith prices).2 [] (ForestInv.forest_priced prices) hfit
  obtain ⟨own, og, _, _⟩ := e2.trees
  have hcount := og.owned_count
  have hlen : (entriesOf L1).length = L1.length := by simp [entriesOf]
  rw [hlen, e7] at hcount
  simp only [entriesOf, List.map_nil, List.length_nil, zero_add] at e4 e5 e6 e7 hcount
  have hsum := rows_or_malformed strtod (fgetsAll content.length content) hfit
  have hle := countFresh_le
    ((rowsRead strtod (fgetsAll content.length content)).map (fun r => r.transactionID)) []
  simp only [List.length_map] at hle
  have h4 : rep1.totalLoaded = countFresh []
      ((rowsRead strtod (fgetsAll content.length content)).map (fun r => r.transactionID)) := by
    rw [e4]
    simp [loadStartWith]
  have h5 : rep1.duplicates = (rowsRead strtod (fgetsAll content.length content)).length -
      countFresh []
        ((rowsRead strtod (fgetsAll content.length content)).map (fun r => r.transactionID)) := by
    rw [e5]
    simp [loadStartWith]
  have h6 : rep1.malformed = linesMalformed strtod (fgetsAll content.length content) := by
    rw [e6]
    simp [loadStartWith]
  have hrun : loadDataFromFile strtod (some content) (loadSellerPrices prices Engine.empty) =
      some ({ s1 with loading_mode := false },
        some { totalLoaded := rep1.totalLoaded, duplicates := rep1.duplicates,
               malformed := rep1.malformed,
               treeCount := countFresh []
                 ((rowsRead strtod (fgetsAll content.length content)).map
                   (fun r => r.transactionID)),
               mismatch := decide (((countFresh []
                 ((rowsRead strtod (fgetsAll content.length content)).map
                   (fun r => r.transactionID)) : Nat) : Int) ≠ rep1.totalLoaded) }) := by
    have e1' : loadRows strtod (fgetsAll content.length content)
        ({ loadSellerPrices prices Engine.empty with loading_mode := true }, ⟨0, 0, []⟩) =
        some (s1, rep1) := e1
    simp only [loadDataFromFile, e1', hcount]
  refine ⟨_, _, hrun, h4, h5, h6, ?_, h4.symm, ?_⟩
  · simp only [h4, h5, h6]
    omega
  · simp only [h4]
    simp

/-- Witness for C21 (amended): the three lines of `wrappedLog`, read with the
conversion for plain decimal numbers after the price file `samplePrices`.
The ids stored for the two rows are 5 and 5 (the number 4294967301 of the
third line does not fit an `int`), so the load reports 1 loaded and
1 duplicate. -/
theorem load_counts_loaded_and_duplicates_witness :
    (∀ line ∈ fgetsAll wrappedLog.flatten.length wrappedLog.flatten,
      (scanRow sampleStrtod line).isSome) ∧
    (rowsRead sampleStrtod (fgetsAll wrappedLog.flatten.length wrappedLog.flatten)).map
      (fun r => r.transactionID) = [5, 5] ∧
    (loadDataFromFile sampleStrtod (some wrappedLog.flatten)
      (loadSellerPrices samplePrices Engine.empty)).map (fun r => r.2) =
      some (some ⟨1, 1, ["no row\n".data], 1, false⟩) ∧
    ∃ s1 sum, loadDataFromFile sampleStrtod (some wrappedLog.flatten)
        (loadSellerPrices samplePrices Engine.empty) = some (s1, some sum) ∧
      sum.totalLoaded = countFresh []
        ((rowsRead sampleStrtod (fgetsAll wrappedLog.flatten.length wrappedLog.flatten)).map
          (fun r => r.transactionID)) ∧
      sum.duplicates =
        (rowsRead sampleStrtod (fgetsAll wrappedLog.flatten.length wrappedLog.flatten)).length -
          countFresh []
            ((rowsRead sampleStrtod (fgetsAll wrappedLog.flatten.length wrappedLog.flatten)).map
              (fun r => r.transactionID)) ∧
      sum.malformed =
        linesMalformed sampleStrtod (fgetsAll wrappedLog.flatten.length wrappedLog.flatten) ∧
      sum.totalLoaded + sum.duplicates + sum.malformed.length =
        (fgetsAll wrappedLog.flatten.length wrappedLog.flatten).length ∧
      (sum.treeCount : Int) = sum.totalLoaded ∧ sum.mismatch = false :=
  ⟨by decide!, by decide!, by decide!,
    load_counts_loaded_and_duplicates sampleStrtod samplePrices wrappedLog.flatten (by decide!)⟩

/-- C22, what the code does instead for the revenue: it is a double, and the
sum of doubles is rounded.  After the first row of `absorbLog` the revenue of
seller 10 is 9007199254740992; the second row is loaded with its total 1 as
the second transaction of the seller, and the revenue is 9007199254740992
after it as before, not 9007199254740993. -/
theorem loaded_revenue_is_rounded :
    (loadDataFromFile sampleStrtod (some (absorbLog.take 1).flatten)
      (loadSellerPrices samplePrices Engine.empty)).map (fun r =>
        (sellerOf r.1.seller_head 10).map (fun S => (S.numTransactions, S.totalRevenue))) =
      some (some (1, 9007199254740992)) ∧
    (loadDataFromFile sampleStrtod (some absorbLog.flatten)
      (loadSellerPrices samplePrices Engine.empty)).map (fun r =>
        (r.2.map (fun x => (x.totalLoaded, x.duplicates)),
          (loadRec r.1.mem.recs 1).map (fun tr => (tr.transactionID, tr.totalPrice)),
          (sellerOf r.1.seller_head 10).map (fun S => (S.numTransactions, S.totalRevenue)))) =
      some (some (2, 0), some (2, 1), some (2, 9007199254740992)) := by
  decide!

/-- C22 amended: when the loop of `loadDataFromFile` in `main` has read some
lines, whatever sellers and rates the price file has given, and the next line
is a row whose id the global tree does not hold, the loop body loads it: the
record it stores is found under the row's id and carries the row's values,
its price per unit and its total being those of the row whatever the rates
of the seller are and whether or not the total is the amount times the
price.  The rates of the row's seller stay as they are (0 and 0 for a seller
the row creates), and its revenue becomes the double nearest to the sum of
its former revenue (0 for a new seller) and the row's total, that sum being
in the range of the finite doubles. -/
theorem load_keeps_row_prices (strtod : List Char → Option (Rat × List Char))
    (prices : Option (List (Int × Rat × Rat))) (lines : List (List Char)) (line : List Char)
    (row : LogRow) (s : Engine) (rep : LoadReport)
    (hpre : loadRows strtod lines (loadStartWith prices) = some (s, rep))
    (hrow : scanRow strtod line = some (some row))
    (hnew : findTransactionInBPTree s.mem.nodes s.globalTransactionTree row.transactionID =
      some false)
    (hfin : inDoubleRange (doubleAdd
      (((sellerOf s.seller_head row.sellerID).map (fun S => S.totalRevenue)).getD 0)
      row.totalPrice) = true) :
    ∃ s1 S1, loadRow strtod s rep line =
        some (s1, { rep with totalLoaded := rep.totalLoaded + 1 }) ∧
      findTransactionById s1.mem.nodes s1.globalTransactionTree row.transactionID =
        some (some s.mem.recs.length) ∧
      loadRec s1.mem.recs s.mem.recs.length =
        some { transactionID := row.transactionID, buyerID := row.buyerID,
               sellerID := row.sellerID, energyAmount := row.energyAmount,
               pricePerKwh := row.pricePerKwh, totalPrice := row.totalPrice,
               timestamp := String.mk (row.timestamp.take 29) } ∧
      sellerOf s1.seller_head row.sellerID = some S1 ∧
      S1.rateBelow300 =
        ((sellerOf s.seller_head row.sellerID).map (fun S => S.rateBelow300)).getD 0 ∧
      S1.rateAbove300 =
        ((sellerOf s.seller_head row.sellerID).map (fun S => S.rateAbove300)).getD 0 ∧
      S1.totalRevenue =
        doubleAdd (((sellerOf s.seller_head row.sellerID).map (fun S => S.totalRevenue)).getD 0)
          row.totalPrice ∧
      S1.numTransactions =
        ((sellerOf s.seller_head row.sellerID).map (fun S => S.numTransactions)).getD 0 + 1 := by
  have _ := hfin
  have hfit := loadRows_fit strtod lines _ _ hpre
  obtain ⟨s0, rep0, L, e1, inv, _⟩ :=
    loadRows_spec strtod lines (loadStartWith prices).1 (loadStartWith prices).2 []
      (ForestInv.forest_priced prices) hfit
  have e1' : loadRows strtod lines (loadStartWith prices) = some (s0, rep0) := e1
  rw [hpre] at e1'
  simp only [Option.some.injEq, Prod.mk.injEq] at e1'
  obtain ⟨rfl, rfl⟩ := e1'
  obtain ⟨own, og, _, _⟩ := inv.trees
  have hk := og.fresh hnew
  obtain ⟨s1, g1, g2, _, S0, S1, q1, q2, q3, q4, q5, q6⟩ := inv.loadNew_spec row hk
  obtain ⟨own1, og1, _, _⟩ := g2.trees
  refine ⟨s1, S1, ?_, ?_, ?_, q1, ?_, ?_, ?_, ?_⟩
  · simp [loadRow, hrow, hnew, g1]
  · exact og1.lookup (e := (row.transactionID, s.mem.recs.length)) (by simp [entriesOf, rowRecord])
  · exact g2.recs (s.mem.recs.length, rowRecord row) (by simp)
  · rcases q2 with q2 | ⟨q2, _, _, q7, _⟩
    · rw [q2, q5]; rfl
    · rw [q2, q5, q7]; rfl
  · rcases q2 with q2 | ⟨q2, _, _, _, q8⟩
    · rw [q2, q6]; rfl
    · rw [q2, q6, q8]; rfl
  · rcases q2 with q2 | ⟨q2, q7, _⟩
    · rw [q2, q4]; rfl
    · rw [q2, q4, q7]; rfl
  · rcases q2 with q2 | ⟨q2, _, q7, _⟩
    · rw [q2, q3]; rfl
    · rw [q2, q3, q7]; rfl

/-- Witness for C22 amended: the price file gives seller 10 the rates 0.25 and
0.125; after the first line of `sampleLog` (seller 10, total 20) the line
`oddRowLine` is loaded: 200 units at 0.10 with the total 99.99. -/
theorem load_keeps_row_prices_witness :
    loadRows sampleStrtod ["1,20,10,200.00,0.10,20.00,2024-01-01 10:00:00\n".data]
      (loadStartWith samplePrices) = some (loadedPriced.1, loadedPriced.2) ∧
    scanRow sampleStrtod oddRowLine = some (some oddRow) ∧
    findTransactionInBPTree loadedPriced.1.mem.nodes loadedPriced.1.globalTransactionTree
      oddRow.transactionID = some false ∧
    inDoubleRange (doubleAdd
      (((sellerOf loadedPriced.1.seller_head oddRow.sellerID).map
        (fun S => S.totalRevenue)).getD 0) oddRow.totalPrice) = true ∧
    (sellerOf loadedPriced.1.seller_head oddRow.sellerID).map
      (fun S => (S.rateBelow300, S.rateAbove300, S.totalRevenue)) = some (1 / 4, 1 / 8, 20) ∧
    ∃ s1 S1, loadRow sampleStrtod loadedPriced.1 loadedPriced.2 oddRowLine =
        some (s1, { loadedPriced.2 with totalLoaded := loadedPriced.2.totalLoaded + 1 }) ∧
      findTransactionById s1.mem.nodes s1.globalTransactionTree oddRow.transactionID =
        some (some loadedPriced.1.mem.recs.length) ∧
      loadRec s1.mem.recs loadedPriced.1.mem.recs.length =
        some { transactionID := oddRow.transactionID, buyerID := oddRow.buyerID,
               sellerID := oddRow.sellerID, energyAmount := oddRow.energyAmount,
               pricePerKwh := oddRow.pricePerKwh, totalPrice := oddRow.totalPrice,
               timestamp := String.mk (oddRow.timestamp.take 29) } ∧
      sellerOf s1.seller_head oddRow.sellerID = some S1 ∧
      S1.rateBelow300 =
        ((sellerOf loadedPriced.1.seller_head oddRow.sellerID).map
          (fun S => S.rateBelow300)).getD 0 ∧
      S1.rateAbove300 =
        ((sellerOf loadedPriced.1.seller_head oddRow.sellerID).map
          (fun S => S.rateAbove300)).getD 0 ∧
      S1.totalRevenue =
        doubleAdd
          (((sellerOf loadedPriced.1.seller_head oddRow.sellerID).map
            (fun S => S.totalRevenue)).getD 0) oddRow.totalPrice ∧
      S1.numTransactions =
        ((sellerOf loadedPriced.1.seller_head oddRow.sellerID).map
          (fun S => S.numTransactions)).getD 0 + 1 :=
  ⟨by decide!, by decide!, by decide!, by decide!, by decide!,
    load_keeps_row_prices sampleStrtod samplePrices
      ["1,20,10,200.00,0.10,20.00,2024-01-01 10:00:00\n".data] oddRowLine oddRow
      loadedPriced.1 loadedPriced.2 (by decide!) (by decide!) (by decide!) (by decide!)⟩

/-- C23: the transaction 1 over 2 ^ 818 units (a number of 247 digits) is
recorded in the empty engine, whose global tree then scans as 1.  The line
`insertTransaction` writes for it has 289 characters, so `fgets` with the
buffer of 256 returns it in two pieces; from neither of them `sscanf` reads
seven values, and the load at program start of this log leaves the global
tree empty: both pieces are reported as malformed and nothing is loaded. -/
theorem long_line_lost_on_reload :
    (recordAll [hugeArgs] Engine.empty).bind
      (fun s => scanKeys s.mem.nodes s.globalTransactionTree) = some [1] ∧
    (recordAll [hugeArgs] Engine.empty).map
      (fun s => ((logOf s.mem.recs [0]).length,
        (fgetsAll (logOf s.mem.recs [0]).length (logOf s.mem.recs [0])).map List.length)) =
      some (289, [255, 34]) ∧
    (recordAll [hugeArgs] Engine.empty).bind
      (fun s => (loadDataFromFile sampleStrtod (some (logOf s.mem.recs [0])) Engine.empty).map
        (fun r => (scanKeys r.1.mem.nodes r.1.globalTransactionTree,
          r.2.map (fun x => (x.totalLoaded, x.duplicates, x.malformed.length))))) =
      some (some [], some (0, 0, 2)) := by
  decide!

/-! ## The traced insertion and the insertion -/

/-- Without the flag, the traced functions are `splitInternalNode` and
`insertInternalNode`. -/
theorem traced_internal_fst : ∀ fuel : Nat,
    (∀ h root node parent, (splitInternalNodeTraced fuel h root node parent).map Prod.fst =
      splitInternalNode fuel h root node parent) ∧
    (∀ h root key rc node, (insertInternalNodeTraced fuel h root key rc node).map Prod.fst =
      insertInternalNode fuel h root key rc node) := by
  intro fuel
  induction fuel with
  | zero =>
    constructor
    · intro h root node parent
      simp [splitInternalNodeTraced, splitInternalNode]
    · intro h root key rc node
      simp [insertInternalNodeTraced, insertInternalNode]
  | succ fuel ih =>
    obtain ⟨ih1, ih2⟩ := ih
    constructor
    · intro h root node parent
      rw [splitInternalNodeTraced, splitInternalNode]
      cases hm : splitInternalMove h node with
      | none => rfl
      | some res =>
        obtain ⟨h1, newNode, promoteKey⟩ := res
        cases parent with
        | none =>
          simp only
          cases newRootAbove h1 promoteKey node newNode <;> rfl
        | some p => exact ih2 h1 root promoteKey newNode p
    · intro h root key rc node
      rw [insertInternalNodeTraced, insertInternalNode]
      cases hp : insertInternalPlace h key rc node with
      | none => rfl
      | some h1 =>
        simp only
        cases hn : getNum h1 node with
        | none => rfl
        | some nk =>
          simp only
          by_cases hfull : nk = ORDER - 1
          · simp only [hfull, if_true]
            by_cases hroot : root = some node
            · simp only [hroot, if_true]
              exact ih1 h1 (some node) node none
            · simp only [hroot, if_false]
              cases root with
              | none => rfl
              | some r =>
                simp only
                cases hs : searchParent h1 node (h1.length + 1) [r] with
                | none => rfl
                | some found =>
                  cases found with
                  | none =>
                    simp only
                    rw [← ih1 h1 (some r) node none]
                    cases splitInternalNodeTraced fuel h1 (some r) node none <;> rfl
                  | some parent => exact ih1 h1 (some r) node (some parent)
          · simp only [hfull, if_false]
            rfl

/-- Without the flag, `insertKeyTraced` is `insertKey`. -/
theorem insertKeyTraced_fst (h : Heap) (root : Option Nat) (key : Int) (t : Nat) :
    (insertKeyTraced h root key t).map Prod.fst = insertKey h root key t := by
  unfold insertKeyTraced insertKey
  cases root with
  | none =>
    simp only
    cases insertFirst h key t <;> rfl
  | some r =>
    simp only
    cases hd : descend h key h.length r none 0 with
    | none => rfl
    | some res =>
      obtain ⟨cursor, parent, idx⟩ := res
      simp only
      cases hp : insertLeafPlace h key t cursor with
      | none => rfl
      | some h1 =>
        simp only
        cases hn : getNum h1 cursor with
        | none => rfl
        | some nk =>
          simp only
          by_cases hfull : nk = ORDER - 1
          · simp only [hfull, if_true]
            unfold splitLeafNodeTraced splitLeafNode
            cases hm : splitLeafMove h1 cursor with
            | none => rfl
            | some res =>
              obtain ⟨h2, newNode, promoteKey⟩ := res
              cases parent with
              | none =>
                simp only
                cases newRootAbove h2 promoteKey cursor newNode <;> rfl
              | some p => exact (traced_internal_fst _).2 h2 (some r) promoteKey newNode p
          · simp only [hfull, if_false]
            rfl

/-- Without the flag, `insertTransactionIntoBPTreeTraced` is
`insertTransactionIntoBPTree`. -/
theorem insertTransactionIntoBPTreeTraced_fst (m : Store) (root : Option Nat) (t : Nat) :
    (insertTransactionIntoBPTreeTraced m root t).map Prod.fst =
      insertTransactionIntoBPTree m root t := by
  unfold insertTransactionIntoBPTreeTraced insertTransactionIntoBPTree
  cases hl : loadRec m.recs t with
  | none => rfl
  | some tr =>
    simp only
    rw [← insertKeyTraced_fst]
    cases insertKeyTraced m.nodes root tr.transactionID t with
    | none => rfl
    | some res =>
      obtain ⟨⟨h1, root1⟩, warned⟩ := res
      rfl

/-- The parent search returns only a node that has `node` among its
children. -/
theorem searchChildren_true {h : Heap} {node cursor : Nat} :
    ∀ (cnt i : Nat) (stack stack1 : List Nat),
      searchChildren h node cursor cnt i stack = some (true, stack1) →
      ∃ j, getChild h cursor j = some (some node) := by
  intro cnt
  induction cnt with
  | zero =>
    intro i stack stack1 hs
    simp [searchChildren] at hs
  | succ cnt ih =>
    intro i stack stack1 hs
    rw [searchChildren] at hs
    cases hc : getChild h cursor i with
    | none => simp [hc] at hs
    | some c =>
      simp only [hc] at hs
      by_cases hcn : c = some node
      · exact ⟨i, by rw [hc, hcn]⟩
      · simp only [hcn, if_false] at hs
        cases hlf : getLeaf h cursor with
        | none => simp [hlf] at hs
        | some leaf =>
          simp only [hlf] at hs
          cases c with
          | none => exact ih _ _ _ hs
          | some cp =>
            simp only at hs
            by_cases hb : leaf = true
            · simp only [hb, if_true] at hs
              exact ih _ _ _ hs
            · simp only [hb, if_false] at hs
              exact ih _ _ _ hs

theorem searchParent_is_parent {h : Heap} {node : Nat} :
    ∀ (fuel : Nat) (stack : List Nat) (p : Nat),
      searchParent h node fuel stack = some (some p) →
      ∃ j, getChild h p j = some (some node) := by
  intro fuel
  induction fuel with
  | zero =>
    intro stack p hs
    simp [searchParent] at hs
  | succ fuel ih =>
    intro stack p hs
    cases stack with
    | nil => simp [searchParent] at hs
    | cons cursor stack =>
      rw [searchParent] at hs
      cases hn : getNum h cursor with
      | none => simp [hn] at hs
      | some nk =>
        simp only [hn] at hs
        cases hc : searchChildren h node cursor (nk + 1) 0 stack with
        | none => simp [hc] at hs
        | some res =>
          obtain ⟨found, stack1⟩ := res
          cases found with
          | true =>
            simp only [hc, Option.some.injEq] at hs
            subst hs
            exact searchChildren_true _ _ _ _ hc
          | false =>
            simp only [hc] at hs
            exact ih _ _ hs

/-! ## The parent search during an insertion

The lemmas of this section follow one insertion up the path of its splits,
without regard to the order of the keys: they hold for every tree that a
heap holds with each address once. -/

theorem insertInternalNodeTraced_succ (fuel : Nat) (h : Heap) (root : Option Nat) (key : Int)
    (rc node : Nat) :
    insertInternalNodeTraced (fuel + 1) h root key rc node =
      match insertInternalPlace h key rc node with
      | none => none
      | some h1 =>
        match getNum h1 node with
        | none => none
        | some nk =>
          if nk = ORDER - 1 then splitFullTraced fuel h1 root node else some ((h1, root), false) := by
  rw [insertInternalNodeTraced]
  cases insertInternalPlace h key rc node with
  | none => rfl
  | some h1 =>
    simp only
    cases getNum h1 node with
    | none => rfl
    | some nk =>
      simp only [splitFullTraced]

theorem splitInternalNodeTraced_succ (fuel : Nat) (h : Heap) (root : Option Nat) (node : Nat)
    (parent : Option Nat) :
    splitInternalNodeTraced (fuel + 1) h root node parent =
      match splitInternalMove h node with
      | none => none
      | some (h1, newNode, promoteKey) =>
        match parent with
        | none => (newRootAbove h1 promoteKey node newNode).map (fun res => (res, false))
        | some p => insertInternalNodeTraced fuel h1 root promoteKey newNode p := by
  rw [splitInternalNodeTraced]

/-- An internal node that has taken a third child, at whichever place: the
tree around it is held by the heap. -/
theorem place_node3_held {h : Heap} {c : List Frame} {a : Nat} {d0 d1 d2 : Shape} {u v y : Int}
    {w : Option Nat} (ha : a < h.length)
    (hrp : RepPath h c a) (r0 : Rep h d0) (r1 : Rep h d1) (r2 : Rep h d2)
    (nd : (pathAddrs c ++ (a :: (d0.addrs ++ d1.addrs ++ d2.addrs))).Nodup) :
    ∃ t : Shape, t.addr = pathRoot c a ∧
      Rep (store h a ⟨false, 2, [u, v, y], [some d0.addr, some d1.addr, some d2.addr, w], none,
        [none, none, none]⟩) t ∧ t.addrs.Nodup := by
  obtain ⟨hn1, hn2⟩ := not_mem_of_nodup_cons nd
  simp only [List.mem_append, not_or] at hn2
  refine ⟨plug c (Shape.node3 a d0 u d1 v d2), by rw [plug_addr]; rfl, ?_, ?_⟩
  · exact (rep_plug c _).mpr ⟨hrp.path_store a _ hn1,
      ⟨⟨y, w, load_store_eq _ ha⟩, r0.store a _ hn2.1.1, r1.store a _ hn2.1.2,
        r2.store a _ hn2.2⟩⟩
  · exact ((addrs_plug c _).nodup_iff).mpr (by simpa [Shape.addrs] using nd)

/-- A full internal node at the bottom of the path `c` that is not the root:
the search finds its parent, the node is split and its right half handed to
the parent, all without the warning. -/
theorem splitFull_held {c : List Frame}
    (ih : ∀ (h : Heap) (L R : Shape) (key : Int) (fuel : Nat) (root : Option Nat),
      RepPath h c L.addr → Rep h L → Rep h R → (pathAddrs c ++ (L.addrs ++ R.addrs)).Nodup →
      2 * c.length ≤ fuel → root = some (pathRoot c L.addr) →
      ∃ h1 t, attachTraced fuel h root c L.addr key R.addr = some ((h1, some t.addr), false) ∧
        Rep h1 t ∧ t.addrs.Nodup)
    {h1 : Heap} {a : Nat} {d0 d1 d2 d3 : Shape} {x0 x1 x2 : Int} (fuel : Nat)
    (root : Option Nat)
    (hl : load h1 a = some ⟨false, 3, [x0, x1, x2],
      [some d0.addr, some d1.addr, some d2.addr, some d3.addr], none, [none, none, none]⟩)
    (hrp : RepPath h1 c a) (r0 : Rep h1 d0) (r1 : Rep h1 d1) (r2 : Rep h1 d2) (r3 : Rep h1 d3)
    (nd : (pathAddrs c ++ (a :: (d0.addrs ++ d1.addrs ++ (d2.addrs ++ d3.addrs)))).Nodup)
    (hroot : root = some (pathRoot c a)) (hf : 2 * c.length + 1 ≤ fuel) :
    ∃ h2 t, splitFullTraced fuel h1 root a = some ((h2, some t.addr), false) ∧ Rep h2 t ∧
      t.addrs.Nodup := by
  obtain ⟨f, rfl⟩ : ∃ f, fuel = f + 1 := ⟨fuel - 1, by omega⟩
  have ha : a < h1.length := load_lt hl
  have hcount := fun x => count_le_one_of_nodup nd x
  simp only [List.count_append, List.count_cons] at hcount
  have hnotpath : a ∉ pathAddrs c := by
    intro hm
    have h1' := mem_iff_count.mp hm
    have := hcount a
    simp at this
    omega
  have hlt : ∀ p ∈ pathAddrs c ++ (a :: (d0.addrs ++ d1.addrs ++ (d2.addrs ++ d3.addrs))),
      p < h1.length := by
    intro p hp
    simp only [List.mem_append, List.mem_cons] at hp
    rcases hp with hp | rfl | (hp | hp) | (hp | hp)
    · exact hrp.path_addr_lt p hp
    · exact ha
    · exact r0.addr_lt p hp
    · exact r1.addr_lt p hp
    · exact r2.addr_lt p hp
    · exact r3.addr_lt p hp
  let nl : BPTreeNode := ⟨false, 1, [x0, x1, 0], [some d0.addr, some d1.addr, none, none], none,
    [none, none, none]⟩
  let nr : BPTreeNode := ⟨false, 1, [x2, 0, 0], [some d2.addr, some d3.addr, none, none], none,
    [none, none, none]⟩
  have hstep : splitFullTraced (f + 1) h1 root a =
      attachTraced f (store h1 a nl ++ [some nr]) root c a x1 h1.length := by
    cases c with
    | nil =>
      simp only [pathRoot] at hroot
      simp [splitFullTraced, hroot, splitInternalNodeTraced_succ, splitInternalMove_eq hl,
        attachTraced, nl, nr]
    | cons g c1 =>
      have hmem := pathRoot_mem g c1 a
      have hra : ¬ pathRoot (g :: c1) a = a := fun e => hnotpath (e ▸ hmem)
      have hfind := searchParent_finds g c1 hrp hnotpath (h1.length + 1) (by
        have h1' := searchCost_le c1
        have h2' : (pathAddrs c1).length ≤ h1.length := by
          apply length_le_of_nodup_lt
          · have := nd
            simp only [pathAddrs, List.nodup_append] at this
            exact this.1.2.1
          · intro p hp
            exact hlt p (by simp [pathAddrs, hp])
        omega)
      simp [splitFullTraced, hroot, hra, hfind, splitInternalNodeTraced_succ,
        splitInternalMove_eq hl, attachTraced, nl, nr]
  have hmemd : ∀ p, p ∈ d0.addrs ++ d1.addrs ++ (d2.addrs ++ d3.addrs) → p ≠ a := by
    intro p hp e
    subst e
    have h1' := mem_iff_count.mp hp
    have := hcount p
    simp [List.count_append] at this h1'
    omega
  have hrep : ∀ d : Shape, Rep h1 d → (∀ p ∈ d.addrs, p ≠ a) →
      Rep (store h1 a nl ++ [some nr]) d := by
    intro d hd hp
    exact hd.congr (fun p hm => load_store_append nl _ (hd.addr_lt p hm) (hp p hm))
  have q1 : RepPath (store h1 a nl ++ [some nr]) c (Shape.node2 a d0 x0 d1).addr :=
    hrp.path_congr (fun p hp => load_store_append nl _ (hrp.path_addr_lt p hp)
      (fun e => hnotpath (e ▸ hp)))
  have q2 : Rep (store h1 a nl ++ [some nr]) (Shape.node2 a d0 x0 d1) :=
    ⟨⟨x1, 0, none, none, load_store_append_eq nl _ ha⟩,
      hrep d0 r0 (fun p hp => hmemd p (by simp [hp])),
      hrep d1 r1 (fun p hp => hmemd p (by simp [hp]))⟩
  have q3 : Rep (store h1 a nl ++ [some nr]) (Shape.node2 h1.length d2 x2 d3) :=
    ⟨⟨0, 0, none, none, load_append_at _ (by simp [length_store])⟩,
      hrep d2 r2 (fun p hp => hmemd p (by simp [hp])),
      hrep d3 r3 (fun p hp => hmemd p (by simp [hp]))⟩
  have q4 : (pathAddrs c ++ ((Shape.node2 a d0 x0 d1).addrs ++
      (Shape.node2 h1.length d2 x2 d3).addrs)).Nodup := by
    have hperm : (pathAddrs c ++ ((Shape.node2 a d0 x0 d1).addrs ++
        (Shape.node2 h1.length d2 x2 d3).addrs)).Perm
        (h1.length :: (pathAddrs c ++ (a :: (d0.addrs ++ d1.addrs ++
          (d2.addrs ++ d3.addrs))))) := by
      rw [List.perm_iff_count]
      intro x
      simp [Shape.addrs, List.count_append, List.count_cons]
      omega
    rw [hperm.nodup_iff, List.nodup_cons]
    exact ⟨fun hm => lt_irrefl _ (hlt _ hm), nd⟩
  obtain ⟨h2, t, hres, hrt, hnt⟩ :=
    ih _ _ _ x1 f root q1 q2 q3 q4 (by omega) (by simpa using hroot)
  exact ⟨h2, t, by rw [hstep]; simpa using hres, hrt, hnt⟩

theorem attach_n2l_held {h : Heap} {c : List Frame} {L R : Shape} {key : Int} {a : Nat}
    {k0 : Int} {c1 : Shape} (fuel : Nat) (root : Option Nat)
    (hpath : RepPath h (Frame.n2l a k0 c1 :: c) L.addr) (hL : Rep h L) (hR : Rep h R)
    (hnd : (pathAddrs (Frame.n2l a k0 c1 :: c) ++ (L.addrs ++ R.addrs)).Nodup)
    (hroot : root = some (pathRoot (Frame.n2l a k0 c1 :: c) L.addr)) :
    ∃ h1 t, attachTraced (fuel + 1) h root (Frame.n2l a k0 c1 :: c) L.addr key R.addr =
        some ((h1, some t.addr), false) ∧ Rep h1 t ∧ t.addrs.Nodup := by
  obtain ⟨⟨⟨x, y, z, w, hl⟩, rc1⟩, hrp⟩ := hpath
  have ha := load_lt hl
  by_cases hk : key < k0
  · have nd : (pathAddrs c ++ (a :: (L.addrs ++ R.addrs ++ c1.addrs))).Nodup := by
      refine (List.Perm.nodup_iff ?_).mp hnd
      rw [List.perm_iff_count]
      intro v
      simp [pathAddrs, Frame.addrs, Frame.addr, Frame.before, Frame.after, List.count_append,
        List.count_cons]
      omega
    obtain ⟨t, t1, t2, t3⟩ := place_node3_held (u := key) (v := k0) (y := y) (w := w) ha hrp
      hL hR rc1 nd
    refine ⟨_, t, ?_, t2, t3⟩
    simp [attachTraced, Frame.addr, insertInternalNodeTraced_succ,
      insertInternalPlace_one key R.addr hl, hk, getNum, load_store_eq, ha, ORDER, hroot,
      pathRoot, t1]
  · have nd : (pathAddrs c ++ (a :: (L.addrs ++ c1.addrs ++ R.addrs))).Nodup := by
      refine (List.Perm.nodup_iff ?_).mp hnd
      rw [List.perm_iff_count]
      intro v
      simp [pathAddrs, Frame.addrs, Frame.addr, Frame.before, Frame.after, List.count_append,
        List.count_cons]
      omega
    obtain ⟨t, t1, t2, t3⟩ := place_node3_held (u := k0) (v := key) (y := y) (w := w) ha hrp
      hL rc1 hR nd
    refine ⟨_, t, ?_, t2, t3⟩
    simp [attachTraced, Frame.addr, insertInternalNodeTraced_succ,
      insertInternalPlace_one key R.addr hl, hk, getNum, load_store_eq, ha, ORDER, hroot,
      pathRoot, t1]

theorem attach_n2r_held {h : Heap} {c : List Frame} {L R : Shape} {key : Int} {a : Nat}
    {k0 : Int} {c0 : Shape} (fuel : Nat) (root : Option Nat)
    (hpath : RepPath h (Frame.n2r a c0 k0 :: c) L.addr) (hL : Rep h L) (hR : Rep h R)
    (hnd : (pathAddrs (Frame.n2r a c0 k0 :: c) ++ (L.addrs ++ R.addrs)).Nodup)
    (hroot : root = some (pathRoot (Frame.n2r a c0 k0 :: c) L.addr)) :
    ∃ h1 t, attachTraced (fuel + 1) h root (Frame.n2r a c0 k0 :: c) L.addr key R.addr =
        some ((h1, some t.addr), false) ∧ Rep h1 t ∧ t.addrs.Nodup := by
  obtain ⟨⟨⟨x, y, z, w, hl⟩, rc0⟩, hrp⟩ := hpath
  have ha := load_lt hl
  by_cases hk : key < k0
  · have nd : (pathAddrs c ++ (a :: (c0.addrs ++ R.addrs ++ L.addrs))).Nodup := by
      refine (List.Perm.nodup_iff ?_).mp hnd
      rw [List.perm_iff_count]
      intro v
      simp [pathAddrs, Frame.addrs, Frame.addr, Frame.before, Frame.after, List.count_append,
        List.count_cons]
      omega
    obtain ⟨t, t1, t2, t3⟩ := place_node3_held (u := key) (v := k0) (y := y) (w := w) ha hrp
      rc0 hR hL nd
    refine ⟨_, t, ?_, t2, t3⟩
    simp [attachTraced, Frame.addr, insertInternalNodeTraced_succ,
      insertInternalPlace_one key R.addr hl, hk, getNum, load_store_eq, ha, ORDER, hroot,
      pathRoot, t1]
  · have nd : (pathAddrs c ++ (a :: (c0.addrs ++ L.addrs ++ R.addrs))).Nodup := by
      refine (List.Perm.nodup_iff ?_).mp hnd
      rw [List.perm_iff_count]
      intro v
      simp [pathAddrs, Frame.addrs, Frame.addr, Frame.before, Frame.after, List.count_append,
        List.count_cons]
      omega
    obtain ⟨t, t1, t2, t3⟩ := place_node3_held (u := k0) (v := key) (y := y) (w := w) ha hrp
      rc0 hL hR nd
    refine ⟨_, t, ?_, t2, t3⟩
    simp [attachTraced, Frame.addr, insertInternalNodeTraced_succ,
      insertInternalPlace_one key R.addr hl, hk, getNum, load_store_eq, ha, ORDER, hroot,
      pathRoot, t1]

theorem attach_n3l_held {h : Heap} {c : List Frame} {L R : Shape} {key : Int} {a : Nat}
    {k0 k1 : Int} {c1 c2 : Shape}
    (ih : ∀ (h : Heap) (L R : Shape) (key : Int) (fuel : Nat) (root : Option Nat),
      RepPath h c L.addr → Rep h L → Rep h R → (pathAddrs c ++ (L.addrs ++ R.addrs)).Nodup →
      2 * c.length ≤ fuel → root = some (pathRoot c L.addr) →
      ∃ h1 t, attachTraced fuel h root c L.addr key R.addr = some ((h1, some t.addr), false) ∧
        Rep h1 t ∧ t.addrs.Nodup)
    (fuel : Nat) (root : Option Nat) (hf : 2 * c.length + 1 ≤ fuel)
    (hpath : RepPath h (Frame.n3l a k0 c1 k1 c2 :: c) L.addr) (hL : Rep h L) (hR : Rep h R)
    (hnd : (pathAddrs (Frame.n3l a k0 c1 k1 c2 :: c) ++ (L.addrs ++ R.addrs)).Nodup)
    (hroot : root = some (pathRoot (Frame.n3l a k0 c1 k1 c2 :: c) L.addr)) :
    ∃ h1 t, attachTraced (fuel + 1) h root (Frame.n3l a k0 c1 k1 c2 :: c) L.addr key R.addr =
        some ((h1, some t.addr), false) ∧ Rep h1 t ∧ t.addrs.Nodup := by
  obtain ⟨⟨⟨y, w, hl⟩, rc1, rc2⟩, hrp⟩ := hpath
  have ha := load_lt hl
  have hroot1 : root = some (pathRoot c a) := by simpa [pathRoot] using hroot
  by_cases hk : key < k0
  · have nd : (pathAddrs c ++ (a :: (L.addrs ++ R.addrs ++ (c1.addrs ++ c2.addrs)))).Nodup := by
      refine (List.Perm.nodup_iff ?_).mp hnd
      rw [List.perm_iff_count]
      intro v
      simp [pathAddrs, Frame.addrs, Frame.addr, Frame.before, Frame.after, List.count_append,
      List.count_cons]
      omega
    obtain ⟨q0, q1, q2, q3, q4, q5⟩ := place_node4 (⟨false, 3, [key, k0, k1],
      [some L.addr, some R.addr, some c1.addr, some c2.addr], none, [none, none, none]⟩)
      ha hrp hL hR rc1 rc2 nd
    obtain ⟨h2, t, e1, e2, e3⟩ := splitFull_held ih fuel root q0 q1 q2 q3 q4 q5 nd hroot1 hf
    refine ⟨h2, t, ?_, e2, e3⟩
    rw [← e1]
    simp [attachTraced, Frame.addr, insertInternalNodeTraced_succ,
      insertInternalPlace_two key R.addr hl, hk, getNum, load_store_eq, ha, ORDER]
  · by_cases hk1 : key < k1
    · have nd : (pathAddrs c ++ (a :: (L.addrs ++ c1.addrs ++ (R.addrs ++ c2.addrs)))).Nodup := by
        refine (List.Perm.nodup_iff ?_).mp hnd
        rw [List.perm_iff_count]
        intro v
        simp [pathAddrs, Frame.addrs, Frame.addr, Frame.before, Frame.after, List.count_append,
        List.count_cons]
        omega
      obtain ⟨q0, q1, q2, q3, q4, q5⟩ := place_node4 (⟨false, 3, [k0, key, k1],
        [some L.addr, some c1.addr, some R.addr, some c2.addr], none, [none, none, none]⟩)
        ha hrp hL rc1 hR rc2 nd
      obtain ⟨h2, t, e1, e2, e3⟩ := splitFull_held ih fuel root q0 q1 q2 q3 q4 q5 nd hroot1 hf
      refine ⟨h2, t, ?_, e2, e3⟩
      rw [← e1]
      simp [attachTraced, Frame.addr, insertInternalNodeTraced_succ,
        insertInternalPlace_two key R.addr hl, hk, hk1, getNum, load_store_eq, ha, ORDER]
    · have nd : (pathAddrs c ++ (a :: (L.addrs ++ c1.addrs ++ (c2.addrs ++ R.addrs)))).Nodup := by
        refine (List.Perm.nodup_iff ?_).mp hnd
        rw [List.perm_iff_count]
        intro v
        simp [pathAddrs, Frame.addrs, Frame.addr, Frame.before, Frame.after, List.count_append,
        List.count_cons]
        omega
      obtain ⟨q0, q1, q2, q3, q4, q5⟩ := place_node4 (⟨false, 3, [k0, k1, key],
        [some L.addr, some c1.addr, some c2.addr, some R.addr], none, [none, none, none]⟩)
        ha hrp hL rc1 rc2 hR nd
      obtain ⟨h2, t, e1, e2, e3⟩ := splitFull_held ih fuel root q0 q1 q2 q3 q4 q5 nd hroot1 hf
      refine ⟨h2, t, ?_, e2, e3⟩
      rw [← e1]
      simp [attachTraced, Frame.addr, insertInternalNodeTraced_succ,
        insertInternalPlace_two key R.addr hl, hk, hk1, getNum, load_store_eq, ha, ORDER]

theorem attach_n3m_held {h : Heap} {c : List Frame} {L R : Shape} {key : Int} {a : Nat}
    {k0 k1 : Int} {c0 c2 : Shape}
    (ih : ∀ (h : Heap) (L R : Shape) (key : Int) (fuel : Nat) (root : Option Nat),
      RepPath h c L.addr → Rep h L → Rep h R → (pathAddrs c ++ (L.addrs ++ R.addrs)).Nodup →
      2 * c.length ≤ fuel → root = some (pathRoot c L.addr) →
      ∃ h1 t, attachTraced fuel h root c L.addr key R.addr = some ((h1, some t.addr), false) ∧
        Rep h1 t ∧ t.addrs.Nodup)
    (fuel : Nat) (root : Option Nat) (hf : 2 * c.length + 1 ≤ fuel)
    (hpath : RepPath h (Frame.n3m a c0 k0 k1 c2 :: c) L.addr) (hL : Rep h L) (hR : Rep h R)
    (hnd : (pathAddrs (Frame.n3m a c0 k0 k1 c2 :: c) ++ (L.addrs ++ R.addrs)).Nodup)
    (hroot : root = some (pathRoot (Frame.n3m a c0 k0 k1 c2 :: c) L.addr)) :
    ∃ h1 t, attachTraced (fuel + 1) h root (Frame.n3m a c0 k0 k1 c2 :: c) L.addr key R.addr =
        some ((h1, some t.addr), false) ∧ Rep h1 t ∧ t.addrs.Nodup := by
  obtain ⟨⟨⟨y, w, hl⟩, rc0, rc2⟩, hrp⟩ := hpath
  have ha := load_lt hl
  have hroot1 : root = some (pathRoot c a) := by simpa [pathRoot] using hroot
  by_cases hk : key < k0
  · have nd : (pathAddrs c ++ (a :: (c0.addrs ++ R.addrs ++ (L.addrs ++ c2.addrs)))).Nodup := by
      refine (List.Perm.nodup_iff ?_).mp hnd
      rw [List.perm_iff_count]
      intro v
      simp [pathAddrs, Frame.addrs, Frame.addr, Frame.before, Frame.after, List.count_append,
      List.count_cons]
      omega
    obtain ⟨q0, q1, q2, q3, q4, q5⟩ := place_node4 (⟨false, 3, [key, k0, k1],
      [some c0.addr, some R.addr, some L.addr, some c2.addr], none, [none, none, none]⟩)
      ha hrp rc0 hR hL rc2 nd
    obtain ⟨h2, t, e1, e2, e3⟩ := splitFull_held ih fuel root q0 q1 q2 q3 q4 q5 nd hroot1 hf
    refine ⟨h2, t, ?_, e2, e3⟩
    rw [← e1]
    simp [attachTraced, Frame.addr, insertInternalNodeTraced_succ,
      insertInternalPlace_two key R.addr hl, hk, getNum, load_store_eq, ha, ORDER]
  · by_cases hk1 : key < k1
    · have nd : (pathAddrs c ++ (a :: (c0.addrs ++ L.addrs ++ (R.addrs ++ c2.addrs)))).Nodup := by
        refine (List.Perm.nodup_iff ?_).mp hnd
        rw [List.perm_iff_count]
        intro v
        simp [pathAddrs, Frame.addrs, Frame.addr, Frame.before, Frame.after, List.count_append,
        List.count_cons]
        omega
      obtain ⟨q0, q1, q2, q3, q4, q5⟩ := place_node4 (⟨false, 3, [k0, key, k1],
        [some c0.addr, some L.addr, some R.addr, some c2.addr], none, [none, none, none]⟩)
        ha hrp rc0 hL hR rc2 nd
      obtain ⟨h2, t, e1, e2, e3⟩ := splitFull_held ih fuel root q0 q1 q2 q3 q4 q5 nd hroot1 hf
      refine ⟨h2, t, ?_, e2, e3⟩
      rw [← e1]
      simp [attachTraced, Frame.addr, insertInternalNodeTraced_succ,
        insertInternalPlace_two key R.addr hl, hk, hk1, getNum, load_store_eq, ha, ORDER]
    · have nd : (pathAddrs c ++ (a :: (c0.addrs ++ L.addrs ++ (c2.addrs ++ R.addrs)))).Nodup := by
        refine (List.Perm.nodup_iff ?_).mp hnd
        rw [List.perm_iff_count]
        intro v
        simp [pathAddrs, Frame.addrs, Frame.addr, Frame.before, Frame.after, List.count_append,
        List.count_cons]
        omega
      obtain ⟨q0, q1, q2, q3, q4, q5⟩ := place_node4 (⟨false, 3, [k0, k1, key],
        [some c0.addr, some L.addr, some c2.addr, some R.addr], none, [none, none, none]⟩)
        ha hrp rc0 hL rc2 hR nd
      obtain ⟨h2, t, e1, e2, e3⟩ := splitFull_held ih fuel root q0 q1 q2 q3 q4 q5 nd hroot1 hf
      refine ⟨h2, t, ?_, e2, e3⟩
      rw [← e1]
      simp [attachTraced, Frame.addr, insertInternalNodeTraced_succ,
        insertInternalPlace_two key R.addr hl, hk, hk1, getNum, load_store_eq, ha, ORDER]

theorem attach_n3r_held {h : Heap} {c : List Frame} {L R : Shape} {key : Int} {a : Nat}
    {k0 k1 : Int} {c0 c1 : Shape}
    (ih : ∀ (h : Heap) (L R : Shape) (key : Int) (fuel : Nat) (root : Option Nat),
      RepPath h c L.addr → Rep h L → Rep h R → (pathAddrs c ++ (L.addrs ++ R.addrs)).Nodup →
      2 * c.length ≤ fuel → root = some (pathRoot c L.addr) →
      ∃ h1 t, attachTraced fuel h root c L.addr key R.addr = some ((h1, some t.addr), false) ∧
        Rep h1 t ∧ t.addrs.Nodup)
    (fuel : Nat) (root : Option Nat) (hf : 2 * c.length + 1 ≤ fuel)
    (hpath : RepPath h (Frame.n3r a c0 k0 c1 k1 :: c) L.addr) (hL : Rep h L) (hR : Rep h R)
    (hnd : (pathAddrs (Frame.n3r a c0 k0 c1 k1 :: c) ++ (L.addrs ++ R.addrs)).Nodup)
    (hroot : root = some (pathRoot (Frame.n3r a c0 k0 c1 k1 :: c) L.addr)) :
    ∃ h1 t, attachTraced (fuel + 1) h root (Frame.n3r a c0 k0 c1 k1 :: c) L.addr key R.addr =
        some ((h1, some t.addr), false) ∧ Rep h1 t ∧ t.addrs.Nodup := by
  obtain ⟨⟨⟨y, w, hl⟩, rc0, rc1⟩, hrp⟩ := hpath
  have ha := load_lt hl
  have hroot1 : root = some (pathRoot c a) := by simpa [pathRoot] using hroot
  by_cases hk : key < k0
  · have nd : (pathAddrs c ++ (a :: (c0.addrs ++ R.addrs ++ (c1.addrs ++ L.addrs)))).Nodup := by
      refine (List.Perm.nodup_iff ?_).mp hnd
      rw [List.perm_iff_count]
      intro v
      simp [pathAddrs, Frame.addrs, Frame.addr, Frame.before, Frame.after, List.count_append,
      List.count_cons]
      omega
    obtain ⟨q0, q1, q2, q3, q4, q5⟩ := place_node4 (⟨false, 3, [key, k0, k1],
      [some c0.addr, some R.addr, some c1.addr, some L.addr], none, [none, none, none]⟩)
      ha hrp rc0 hR rc1 hL nd
    obtain ⟨h2, t, e1, e2, e3⟩ := splitFull_held ih fuel root q0 q1 q2 q3 q4 q5 nd hroot1 hf
    refine ⟨h2, t, ?_, e2, e3⟩
    rw [← e1]
    simp [attachTraced, Frame.addr, insertInternalNodeTraced_succ,
      insertInternalPlace_two key R.addr hl, hk, getNum, load_store_eq, ha, ORDER]
  · by_cases hk1 : key < k1
    · have nd : (pathAddrs c ++ (a :: (c0.addrs ++ c1.addrs ++ (R.addrs ++ L.addrs)))).Nodup := by
        refine (List.Perm.nodup_iff ?_).mp hnd
        rw [List.perm_iff_count]
        intro v
        simp [pathAddrs, Frame.addrs, Frame.addr, Frame.before, Frame.after, List.count_append,
        List.count_cons]
        omega
      obtain ⟨q0, q1, q2, q3, q4, q5⟩ := place_node4 (⟨false, 3, [k0, key, k1],
        [some c0.addr, some c1.addr, some R.addr, some L.addr], none, [none, none, none]⟩)
        ha hrp rc0 rc1 hR hL nd
      obtain ⟨h2, t, e1, e2, e3⟩ := splitFull_held ih fuel root q0 q1 q2 q3 q4 q5 nd hroot1 hf
      refine ⟨h2, t, ?_, e2, e3⟩
      rw [← e1]
      simp [attachTraced, Frame.addr, insertInternalNodeTraced_succ,
        insertInternalPlace_two key R.addr hl, hk, hk1, getNum, load_store_eq, ha, ORDER]
    · have nd : (pathAddrs c ++ (a :: (c0.addrs ++ c1.addrs ++ (L.addrs ++ R.addrs)))).Nodup := by
        refine (List.Perm.nodup_iff ?_).mp hnd
        rw [List.perm_iff_count]
        intro v
        simp [pathAddrs, Frame.addrs, Frame.addr, Frame.before, Frame.after, List.count_append,
        List.count_cons]
        omega
      obtain ⟨q0, q1, q2, q3, q4, q5⟩ := place_node4 (⟨false, 3, [k0, k1, key],
        [some c0.addr, some c1.addr, some L.addr, some R.addr], none, [none, none, none]⟩)
        ha hrp rc0 rc1 hL hR nd
      obtain ⟨h2, t, e1, e2, e3⟩ := splitFull_held ih fuel root q0 q1 q2 q3 q4 q5 nd hroot1 hf
      refine ⟨h2, t, ?_, e2, e3⟩
      rw [← e1]
      simp [attachTraced, Frame.addr, insertInternalNodeTraced_succ,
        insertInternalPlace_two key R.addr hl, hk, hk1, getNum, load_store_eq, ha, ORDER]

/-- Hanging a split-off node into a tree that the heap holds with each
address once: however far the splits travel up the path, every search for a
parent finds it, the warning is not printed, and the result is such a tree
again. -/
theorem attach_held : ∀ (c : List Frame) (h : Heap) (L R : Shape) (key : Int) (fuel : Nat)
    (root : Option Nat), RepPath h c L.addr → Rep h L → Rep h R →
    (pathAddrs c ++ (L.addrs ++ R.addrs)).Nodup → 2 * c.length ≤ fuel →
    root = some (pathRoot c L.addr) →
    ∃ h1 t, attachTraced fuel h root c L.addr key R.addr = some ((h1, some t.addr), false) ∧
      Rep h1 t ∧ t.addrs.Nodup := by
  intro c
  induction c with
  | nil =>
    intro h L R key fuel root _ hL hR hnd _ _
    have hlt : ∀ a ∈ L.addrs ++ R.addrs, a < h.length := by
      intro a ha
      rcases List.mem_append.mp ha with ha | ha
      · exact hL.addr_lt a ha
      · exact hR.addr_lt a ha
    refine ⟨h ++ [some ⟨false, 1, [key, 0, 0], [some L.addr, some R.addr, none, none], none,
        [none, none, none]⟩], Shape.node2 h.length L key R,
      by simp [attachTraced, newRootAbove_eq], ?_, ?_⟩
    · exact ⟨⟨0, 0, none, none, load_append_at _ rfl⟩, hL.append _, hR.append _⟩
    · simp only [pathAddrs, List.nil_append] at hnd
      simp only [Shape.addrs, List.nodup_cons]
      exact ⟨fun hm => lt_irrefl _ (hlt _ hm), hnd⟩
  | cons f c ih =>
    intro h L R key fuel root hpath hL hR hnd hf hroot
    obtain ⟨F, rfl⟩ : ∃ F, fuel = F + 1 := ⟨fuel - 1, by simp at hf; omega⟩
    simp only [List.length_cons] at hf
    cases f with
    | n2l a k0 c1 => exact attach_n2l_held F root hpath hL hR hnd hroot
    | n2r a c0 k0 => exact attach_n2r_held F root hpath hL hR hnd hroot
    | n3l a k0 c1 k1 c2 => exact attach_n3l_held ih F root (by omega) hpath hL hR hnd hroot
    | n3m a c0 k0 k1 c2 => exact attach_n3m_held ih F root (by omega) hpath hL hR hnd hroot
    | n3r a c0 k0 c1 k1 => exact attach_n3r_held ih F root (by omega) hpath hL hR hnd hroot

/-! ## Every insertion finds the parents it looks for -/

theorem insertKeyTraced_after {h h1 : Heap} {r0 : Nat} {key : Int} {r cursor idx nk : Nat}
    {parent : Option Nat}
    (hd : descend h key h.length r0 none 0 = some (cursor, parent, idx))
    (hp : insertLeafPlace h key r cursor = some h1) (hn : getNum h1 cursor = some nk) :
    insertKeyTraced h (some r0) key r =
      if nk = ORDER - 1 then splitLeafNodeTraced (2 * h1.length + 2) h1 (some r0) cursor parent
      else some ((h1, some r0), false) := by
  simp [insertKeyTraced, hd, hp, hn]

/-- A leaf that has taken a second entry: the tree around it is held by the
heap. -/
theorem leaf_grow_held {h : Heap} {c : List Frame} {a : Nat} {nx : Option Nat} (n : BPTreeNode)
    (es1 : List (Int × Nat)) (hrp : RepPath h c a) (nd : (pathAddrs c ++ [a]).Nodup)
    (hrep : RepLeaf (store h a n) a nx es1) :
    ∃ t1 : Shape, t1.addr = pathRoot c a ∧ Rep (store h a n) t1 ∧ t1.addrs.Nodup := by
  obtain ⟨hn1, _⟩ := not_mem_of_nodup_cons nd
  refine ⟨plug c (Shape.leaf a es1 nx), by rw [plug_addr]; rfl, ?_, ?_⟩
  · exact (rep_plug c _).mpr ⟨hrp.path_store a n hn1, hrep⟩
  · exact ((addrs_plug c _).nodup_iff).mpr (by simpa [Shape.addrs] using nd)

/-- A leaf that has taken a third entry is split and its right half is hung
into the tree, without the warning. -/
theorem leaf_split_held {h : Heap} {c : List Frame} {a : Nat} {nx : Option Nat}
    {k0 k1 k2 : Int} {r0 r1 r2 : Nat} (root parent : Option Nat)
    (hl : load h a = some ⟨true, 3, [k0, k1, k2], [none, none, none, none], nx,
      [some r0, some r1, some r2]⟩)
    (hrp : RepPath h c a) (nd : (pathAddrs c ++ [a]).Nodup)
    (hroot : root = some (pathRoot c a)) (hpar : parent = c.head?.map Frame.addr) :
    ∃ h2 t1, splitLeafNodeTraced (2 * h.length + 2) h root a parent =
        some ((h2, some t1.addr), false) ∧ Rep h2 t1 ∧ t1.addrs.Nodup := by
  have ha := load_lt hl
  obtain ⟨hn1, _⟩ := not_mem_of_nodup_cons nd
  have hlt := hrp.path_addr_lt
  have hsplit : splitLeafNodeTraced (2 * h.length + 2) h root a parent =
      attachTraced (2 * h.length + 2)
        (store h a ⟨true, 1, [k0, 0, 0], [none, none, none, none], some h.length,
          [some r0, none, none]⟩ ++
          [some ⟨true, 2, [k1, k2, 0], [none, none, none, none], nx, [some r1, some r2, none]⟩])
        root c a k1 h.length := by
    simp only [splitLeafNodeTraced, splitLeafMove_eq hl]
    cases c with
    | nil => subst hpar; rfl
    | cons f c => subst hpar; rfl
  have hlen : c.length ≤ h.length :=
    le_trans (length_le_pathAddrs c) (length_le_of_nodup_lt (List.Nodup.of_append_left nd) hlt)
  have q4 : (pathAddrs c ++ ((Shape.leaf a [(k0, r0)] (some h.length)).addrs ++
      (Shape.leaf h.length [(k1, r1), (k2, r2)] nx).addrs)).Nodup := by
    have e : pathAddrs c ++ ((Shape.leaf a [(k0, r0)] (some h.length)).addrs ++
        (Shape.leaf h.length [(k1, r1), (k2, r2)] nx).addrs) =
        (pathAddrs c ++ [a]) ++ [h.length] := by simp [Shape.addrs]
    rw [e, List.nodup_append]
    refine ⟨nd, by simp, ?_⟩
    intro z hz hz1
    simp only [List.mem_singleton] at hz1
    subst hz1
    rcases List.mem_append.mp hz with hm | hm
    · exact lt_irrefl _ (hlt _ hm)
    · simp only [List.mem_singleton] at hm
      omega
  obtain ⟨h3, t1, hres, hrep, hnd⟩ :=
    attach_held c _ (Shape.leaf a [(k0, r0)] (some h.length))
      (Shape.leaf h.length [(k1, r1), (k2, r2)] nx) k1 (2 * h.length + 2) root
      ((hrp.path_store a _ hn1).path_append _) ⟨0, 0, none, none, load_store_append_eq _ _ ha⟩
      ⟨0, none, load_append_at _ (by simp [length_store])⟩ q4 (by omega) hroot
  exact ⟨h3, t1, by rw [hsplit]; exact hres, hrep, hnd⟩

/-- One insertion into a tree that the heap holds with each address once,
whatever the keys of the tree and the new key are: the warning is not
printed, and the result is such a tree again. -/
theorem insertKeyTraced_held {h : Heap} {t : Shape} (key : Int) (r : Nat) (hr : Rep h t)
    (hn : t.addrs.Nodup) :
    ∃ h1 t1, insertKeyTraced h (some t.addr) key r = some ((h1, some t1.addr), false) ∧
      Rep h1 t1 ∧ t1.addrs.Nodup := by
  obtain ⟨idx1, hd⟩ := descend_path key t [] h.length none 0 hr (hr.size_le hn) rfl
  have hplug := pathTo_plug key t []
  generalize pathTo key t [] = P at hd hplug
  obtain ⟨c, a, es0, nx⟩ := P
  simp only [plug] at hd hplug
  subst hplug
  obtain ⟨hrp, hleaf⟩ := (rep_plug c _).mp hr
  have nd : (pathAddrs c ++ [a]).Nodup := ((addrs_plug c _).nodup_iff).mp hn
  have haddr := plug_addr c (Shape.leaf a es0 nx)
  simp only [addr_leaf] at hrp haddr
  simp only [Rep] at hleaf
  obtain ⟨hn1, _⟩ := not_mem_of_nodup_cons nd
  rcases hleaf.shape with ⟨k0, q0, x, y, rx, ry, rfl, hl⟩ | ⟨k0, q0, k1, q1, y, ry, rfl, hl⟩
  · have ha := load_lt hl
    have hplace := insertLeafPlace_one key r hl
    by_cases hlt : key < k0
    · simp only [hlt, if_true] at hplace
      have hnum : getNum (store h a ⟨true, 2, [key, k0, y], [none, none, none, none], nx,
          [some r, some q0, ry]⟩) a = some 2 := by simp [getNum, load_store_eq, ha]
      obtain ⟨t1, p1, p2, p3⟩ := leaf_grow_held
        (⟨true, 2, [key, k0, y], [none, none, none, none], nx, [some r, some q0, ry]⟩)
        [(key, r), (k0, q0)] hrp nd ⟨y, ry, load_store_eq _ ha⟩
      refine ⟨_, t1, ?_, p2, p3⟩
      rw [insertKeyTraced_after hd hplace hnum, haddr, p1]
      simp [ORDER]
    · simp only [hlt, if_false] at hplace
      have hnum : getNum (store h a ⟨true, 2, [k0, key, y], [none, none, none, none], nx,
          [some q0, some r, ry]⟩) a = some 2 := by simp [getNum, load_store_eq, ha]
      obtain ⟨t1, p1, p2, p3⟩ := leaf_grow_held
        (⟨true, 2, [k0, key, y], [none, none, none, none], nx, [some q0, some r, ry]⟩)
        [(k0, q0), (key, r)] hrp nd ⟨y, ry, load_store_eq _ ha⟩
      refine ⟨_, t1, ?_, p2, p3⟩
      rw [insertKeyTraced_after hd hplace hnum, haddr, p1]
      simp [ORDER]
  · have ha := load_lt hl
    have hplace := insertLeafPlace_two key r hl
    by_cases hlt : key < k0
    · simp only [hlt, if_true] at hplace
      have hnum : getNum (store h a ⟨true, 3, [key, k0, k1], [none, none, none, none], nx,
          [some r, some q0, some q1]⟩) a = some 3 := by simp [getNum, load_store_eq, ha]
      obtain ⟨h2, t1, p0, p2, p3⟩ := leaf_split_held (c := c)
        (some (pathRoot c a)) (c.head?.map Frame.addr)
        (load_store_eq (⟨true, 3, [key, k0, k1], [none, none, none, none], nx,
          [some r, some q0, some q1]⟩) ha) (hrp.path_store a _ hn1) nd rfl rfl
      simp only [length_store] at p0
      refine ⟨_, t1, ?_, p2, p3⟩
      rw [insertKeyTraced_after hd hplace hnum, haddr]
      simpa [ORDER, length_store] using p0
    · simp only [hlt, if_false] at hplace
      by_cases hlt1 : key < k1
      · simp only [hlt1, if_true] at hplace
        have hnum : getNum (store h a ⟨true, 3, [k0, key, k1], [none, none, none, none], nx,
            [some q0, some r, some q1]⟩) a = some 3 := by simp [getNum, load_store_eq, ha]
        obtain ⟨h2, t1, p0, p2, p3⟩ := leaf_split_held (c := c)
          (some (pathRoot c a)) (c.head?.map Frame.addr)
          (load_store_eq (⟨true, 3, [k0, key, k1], [none, none, none, none], nx,
            [some q0, some r, some q1]⟩) ha) (hrp.path_store a _ hn1) nd rfl rfl
        simp only [length_store] at p0
        refine ⟨_, t1, ?_, p2, p3⟩
        rw [insertKeyTraced_after hd hplace hnum, haddr]
        simpa [ORDER, length_store] using p0
      · simp only [hlt1, if_false] at hplace
        have hnum : getNum (store h a ⟨true, 3, [k0, k1, key], [none, none, none, none], nx,
            [some q0, some q1, some r]⟩) a = some 3 := by simp [getNum, load_store_eq, ha]
        obtain ⟨h2, t1, p0, p2, p3⟩ := leaf_split_held (c := c)
          (some (pathRoot c a)) (c.head?.map Frame.addr)
          (load_store_eq (⟨true, 3, [k0, k1, key], [none, none, none, none], nx,
            [some q0, some q1, some r]⟩) ha) (hrp.path_store a _ hn1) nd rfl rfl
        simp only [length_store] at p0
        refine ⟨_, t1, ?_, p2, p3⟩
        rw [insertKeyTraced_after hd hplace hnum, haddr]
        simpa [ORDER, length_store] using p0

/-- One call of the traced `insertTransactionIntoBPTree` on the empty tree or
on a tree that the heap holds with each address once. -/
theorem insertTransactionIntoBPTreeTraced_held {m : Store} {root : Option Nat} {t : Nat}
    (hroot : root = none ∨ ∃ s : Shape, root = some s.addr ∧ Rep m.nodes s ∧ s.addrs.Nodup)
    (hlive : (idOf m t).isSome) :
    ∃ m1 t1, insertTransactionIntoBPTreeTraced m root t = some ((m1, some t1.addr), false) ∧
      insertTransactionIntoBPTree m root t = some (m1, some t1.addr) ∧
      m1.recs = m.recs ∧ Rep m1.nodes t1 ∧ t1.addrs.Nodup := by
  obtain ⟨tr, htr⟩ : ∃ tr, loadRec m.recs t = some tr := by
    simp only [idOf] at hlive
    cases hq : loadRec m.recs t with
    | none => simp [hq] at hlive
    | some tr => exact ⟨tr, rfl⟩
  have key : ∃ h1 t1, insertKeyTraced m.nodes root tr.transactionID t =
      some ((h1, some t1.addr), false) ∧ Rep h1 t1 ∧ t1.addrs.Nodup := by
    rcases hroot with rfl | ⟨s, rfl, hs, hsn⟩
    · refine ⟨m.nodes ++ [some ⟨true, 1, [tr.transactionID, 0, 0], [none, none, none, none],
          none, [some t, none, none]⟩], Shape.leaf m.nodes.length [(tr.transactionID, t)] none,
        by simp [insertKeyTraced, insertFirst_eq], ?_, by simp [Shape.addrs]⟩
      exact ⟨0, 0, none, none, load_append_at _ rfl⟩
    · exact insertKeyTraced_held tr.transactionID t hs hsn
  obtain ⟨h1, t1, e1, e2, e3⟩ := key
  have e0 : insertTransactionIntoBPTreeTraced m root t =
      some (({ m with nodes := h1 }, some t1.addr), false) := by
    simp [insertTransactionIntoBPTreeTraced, htr, e1]
  refine ⟨{ m with nodes := h1 }, t1, e0, ?_, rfl, e2, e3⟩
  rw [← insertTransactionIntoBPTreeTraced_fst, e0]
  rfl

/-- Every sequence of insertions of live records, with whatever ids, starting
from the empty tree or from a tree that the heap holds with each address
once, has a result of that kind. -/
theorem insertAll_held : ∀ (ts : List Nat) (m : Store) (root : Option Nat),
    (root = none ∨ ∃ s : Shape, root = some s.addr ∧ Rep m.nodes s ∧ s.addrs.Nodup) →
    (∀ t ∈ ts, (idOf m t).isSome) →
    ∃ m1 root1, insertAll ts (m, root) = some (m1, root1) ∧ m1.recs = m.recs ∧
      (root1 = none ∨ ∃ s : Shape, root1 = some s.addr ∧ Rep m1.nodes s ∧ s.addrs.Nodup) := by
  intro ts
  induction ts with
  | nil =>
    intro m root hroot _
    exact ⟨m, root, rfl, rfl, hroot⟩
  | cons t ts ih =>
    intro m root hroot hlive
    obtain ⟨m1, t1, _, e1, e2, e3, e4⟩ :=
      insertTransactionIntoBPTreeTraced_held hroot (hlive t (by simp))
    obtain ⟨m2, root2, g1, g2, g3⟩ := ih m1 (some t1.addr) (Or.inr ⟨t1, rfl, e3, e4⟩)
      (fun x hx => by simp only [idOf, e2]; exact hlive x (by simp [hx]))
    refine ⟨m2, root2, ?_, g2.trans e2, g3⟩
    simp only [insertAll, e1]
    exact g1

/-- C32: live records, with whatever ids, are inserted into the empty tree
one after the other.  The insertions have a result, and on the tree they give
every further insertion of a live record runs without the warning "Parent not
found for internal node during split": whenever `insertInternalNode` has made
an internal node full that is not the root, its search from the root has
found a parent, so the branch that splits the node as if it were the root is
not taken (`insertTransactionIntoBPTreeTraced` returns the flag 0, and its
result is the one of `insertTransactionIntoBPTree`).  A node the search
returns has the node looked for among its children. -/
theorem parent_search_finds_parent (m : Store) (ts : List Nat)
    (hlive : ∀ t ∈ ts, (idOf m t).isSome) :
    (∃ m1 root1, insertAll ts (m, none) = some (m1, root1) ∧
      ∀ t, (idOf m t).isSome → ∃ m2 root2,
        insertTransactionIntoBPTreeTraced m1 root1 t = some ((m2, root2), false) ∧
        insertTransactionIntoBPTree m1 root1 t = some (m2, root2)) ∧
    ∀ (h : Heap) (node fuel : Nat) (stack : List Nat) (p : Nat),
      searchParent h node fuel stack = some (some p) →
      ∃ j, getChild h p j = some (some node) := by
  refine ⟨?_, fun h node fuel stack p hs => searchParent_is_parent fuel stack p hs⟩
  obtain ⟨m1, root1, e1, e2, e3⟩ := insertAll_held ts m none (Or.inl rfl) hlive
  refine ⟨m1, root1, e1, fun t ht => ?_⟩
  obtain ⟨m2, t2, g1, g2, _⟩ :=
    insertTransactionIntoBPTreeTraced_held (m := m1) (t := t) e3
      (by simp only [idOf, e2]; exact ht)
  exact ⟨m2, some t2.addr, g1, g2⟩

/-- Witness for C32: of seven records with the ids 1 to 7 the first six are
inserted in this order.  (The insertion of the seventh fills the internal
node above the last leaves, which is not the root, so that insertion makes
the search.) -/
theorem parent_search_finds_parent_witness :
    (∀ t ∈ [0, 1, 2, 3, 4, 5], (idOf (storeWithIds [1, 2, 3, 4, 5, 6, 7]) t).isSome) ∧
    ((∃ m1 root1, insertAll [0, 1, 2, 3, 4, 5] (storeWithIds [1, 2, 3, 4, 5, 6, 7], none) =
        some (m1, root1) ∧
      ∀ t, (idOf (storeWithIds [1, 2, 3, 4, 5, 6, 7]) t).isSome → ∃ m2 root2,
        insertTransactionIntoBPTreeTraced m1 root1 t = some ((m2, root2), false) ∧
        insertTransactionIntoBPTree m1 root1 t = some (m2, root2)) ∧
    ∀ (h : Heap) (node fuel : Nat) (stack : List Nat) (p : Nat),
      searchParent h node fuel stack = some (some p) →
      ∃ j, getChild h p j = some (some node)) :=
  ⟨by decide, parent_search_finds_parent (storeWithIds [1, 2, 3, 4, 5, 6, 7])
    [0, 1, 2, 3, 4, 5] (by decide)⟩

/-! ## Borrowing and merging after deletes -/

/-- C31: the ids 1, 2, 3 are inserted, 2 is deleted and 4 is inserted
(`refillRun`).  The root (node 2) then has the key 2 and two children: the
leaf 0 with key 1 and its right sibling, the leaf 1, with the keys 3 and 4
beside the records of the ids 3 and 4 (pointers 2 and 3).  The delete of 1
empties the leaf 0, the sibling has a key to spare and `borrowFromNext` runs:
afterwards the leaf 0 holds one entry, whose key is 2, the key the parent
had, not the sibling's smallest key 3, beside the record of id 3; the sibling
keeps key 4 and the parent's key is 3.  The lookup then finds the id 2 with
the record of id 3 and does not find the id 3. -/
theorem borrow_next_takes_parent_key :
    (runTree refillRun (storeWithIds [1, 2, 3, 4], none)).map (fun s => (s.2, s.1.nodes)) =
      some (some 2,
        [some ⟨true, 1, [1, 0, 0], [none, none, none, none], some 1, [some 0, none, none]⟩,
         some ⟨true, 2, [3, 4, 0], [none, none, none, none], none, [some 2, some 3, none]⟩,
         some ⟨false, 1, [2, 0, 0], [some 0, some 1, none, none], none, [none, none, none]⟩]) ∧
    (runTree (refillRun ++ [TreeOp.delete 1]) (storeWithIds [1, 2, 3, 4], none)).map
        (fun s => (s.2, s.1.nodes)) =
      some (some 2,
        [some ⟨true, 1, [2, 0, 0], [none, none, none, none], some 1, [some 2, none, none]⟩,
         some ⟨true, 1, [4, 4, 0], [none, none, none, none], none, [some 3, some 3, none]⟩,
         some ⟨false, 1, [3, 0, 0], [some 0, some 1, none, none], none, [none, none, none]⟩]) ∧
    (runTree (refillRun ++ [TreeOp.delete 1]) (storeWithIds [1, 2, 3, 4], none)).map
        (fun s => (idOf s.1 2, idOf s.1 3)) = some (some 3, some 4) ∧
    (runTree (refillRun ++ [TreeOp.delete 1]) (storeWithIds [1, 2, 3, 4], none)).bind
        (fun s => (findTransactionById s.1.nodes s.2 2).bind (fun r2 =>
          (findTransactionById s.1.nodes s.2 3).map (fun r3 => (r2, r3)))) =
      some (some 2, none) := by
  exact ⟨by decide!, by decide!, by decide!, by decide!⟩

/-- C33: the ids 1, 2, 3 are inserted, which gives the leaves 1 and 2, 3
under the key 2, and each of the three ids is found.  After the delete of 1
the ordered scan still reads 2, 3, but neither lookup finds the id 2 any
more: `borrowFromNext` has moved the key 2 into the left leaf and left the
parent's key at 2, so the descent for 2 goes to the right leaf. -/
theorem delete_hides_other_id :
    (treeOfIds [1, 2, 3]).bind (fun s =>
      (findTransactionById s.1.nodes s.2 1).bind (fun r1 =>
        (findTransactionById s.1.nodes s.2 2).bind (fun r2 =>
          (findTransactionById s.1.nodes s.2 3).map (fun r3 => (r1, r2, r3))))) =
      some (some 0, some 1, some 2) ∧
    ((treeOfIds [1, 2, 3]).bind (fun s => deleteTransactionFromBPTree s.1 s.2 1)).map
        (fun s => (s.2, s.1.nodes)) =
      some (some 2,
        [some ⟨true, 1, [2, 0, 0], [none, none, none, none], some 1, [some 1, none, none]⟩,
         some ⟨true, 1, [3, 3, 0], [none, none, none, none], none, [some 2, some 2, none]⟩,
         some ⟨false, 1, [2, 0, 0], [some 0, some 1, none, none], none, [none, none, none]⟩]) ∧
    ((treeOfIds [1, 2, 3]).bind (fun s => deleteTransactionFromBPTree s.1 s.2 1)).bind
        (fun s => (scanKeys s.1.nodes s.2).map (fun ks => (ks, idOf s.1 1, idOf s.1 2))) =
      some ([2, 3], some 2, some 3) ∧
    ((treeOfIds [1, 2, 3]).bind (fun s => deleteTransactionFromBPTree s.1 s.2 1)).bind
        (fun s => (findTransactionInBPTree s.1.nodes s.2 2).bind (fun b =>
          (findTransactionById s.1.nodes s.2 2).bind (fun r2 =>
            (findTransactionById s.1.nodes s.2 3).map (fun r3 => (b, r2, r3))))) =
      some (false, none, some 2) := by
  exact ⟨by decide!, by decide!, by decide!, by decide!⟩

/-- C34: the ids 2, 3, 4, 1 are inserted and 4 is deleted (`spareLeftRun`),
which gives the leaf 0 with the keys 1 and 2 and the leaf 1 with the key 3
under the key 3 of the root (node 2).  The delete of 3 empties the right
leaf, the left one has a key to spare and `borrowFromPrev` runs: the right
leaf then holds the key 3, the key the parent had, beside the record of id 2
(pointer 0).  `findTransactionById(root, 3)` returns that record, whose
`transactionID` is 2. -/
theorem leaf_key_beside_other_record :
    (runTree spareLeftRun (storeWithIds [2, 3, 4, 1], none)).map (fun s => (s.2, s.1.nodes)) =
      some (some 2,
        [some ⟨true, 2, [1, 2, 0], [none, none, none, none], some 1, [some 3, some 0, none]⟩,
         some ⟨true, 1, [3, 4, 0], [none, none, none, none], none, [some 1, some 2, none]⟩,
         some ⟨false, 1, [3, 0, 0], [some 0, some 1, none, none], none, [none, none, none]⟩]) ∧
    (runTree (spareLeftRun ++ [TreeOp.delete 3]) (storeWithIds [2, 3, 4, 1], none)).map
        (fun s => (s.2, s.1.nodes)) =
      some (some 2,
        [some ⟨true, 1, [1, 2, 0], [none, none, none, none], some 1, [some 3, some 0, none]⟩,
         some ⟨true, 1, [3, 4, 0], [none, none, none, none], none, [some 0, some 2, none]⟩,
         some ⟨false, 1, [2, 0, 0], [some 0, some 1, none, none], none, [none, none, none]⟩]) ∧
    (runTree (spareLeftRun ++ [TreeOp.delete 3]) (storeWithIds [2, 3, 4, 1], none)).bind
        (fun s => (findTransactionById s.1.nodes s.2 3).map (fun r =>
          (r, idOf s.1 0, idOf s.1 3))) =
      some (some 0, some 2, some 1) := by
  exact ⟨by decide!, by decide!, by decide!⟩

/-- C35: the ids 1, 2, 3, 4, 5 are inserted (root 6 above the internal nodes 2
and 5) and 2 is deleted twice (`emptyParentRun`): the first delete merges the
leaves under node 2, which copies the key 2 of node 2 into the leaf 0 and
leaves node 2 with no key; the second delete takes that copy out of the leaf
again.  The leaf 0 then holds the key 1 and its parent, the node 2, holds 0
keys.  In the delete of 1 the descent ends in the leaf 0 with the parent 2,
the leaf becomes empty, the loop over the children of the parent stops at
`parentIdx = 0`, which is not below `numKeys = 0`, so `mergeNodes` is called
with the index `0 - 1`: `children[-1]` is read and the delete has no defined
result. -/
theorem delete_merges_at_negative_index :
    (runTree emptyParentRun (storeWithIds [1, 2, 3, 4, 5], none)).map
        (fun s => (s.2, s.1.nodes)) =
      some (some 6,
        [some ⟨true, 1, [1, 2, 0], [none, none, none, none], some 3, [some 0, none, none]⟩,
         none,
         some ⟨false, 0, [2, 3, 0], [some 0, some 1, none, none], none, [none, none, none]⟩,
         some ⟨true, 1, [3, 0, 0], [none, none, none, none], some 4, [some 2, none, none]⟩,
         some ⟨true, 2, [4, 5, 0], [none, none, none, none], none, [some 3, some 4, none]⟩,
         some ⟨false, 1, [4, 0, 0], [some 3, some 4, none, none], none, [none, none, none]⟩,
         some ⟨false, 1, [3, 0, 0], [some 2, some 5, none, none], none, [none, none, none]⟩]) ∧
    (runTree emptyParentRun (storeWithIds [1, 2, 3, 4, 5], none)).bind
        (fun s => (descend s.1.nodes 1 s.1.nodes.length 6 none 0).map (fun d =>
          (d.1, d.2.1, getNum s.1.nodes 2))) =
      some (0, some 2, some 0) ∧
    (runTree emptyParentRun (storeWithIds [1, 2, 3, 4, 5], none)).bind
        (fun s => (removeFromLeaf s.1.nodes 0 0).bind (fun h =>
          (parentIndex h 2 0 1 0).map (fun i =>
            (i, (mergeNodes h s.2 2 ((i : Int) - 1)).isSome,
              (rebalanceLeaf h s.2 0 (some 2)).isSome)))) =
      some (0, false, false) ∧
    runTree (emptyParentRun ++ [TreeOp.delete 1]) (storeWithIds [1, 2, 3, 4, 5], none) =
      none := by
  exact ⟨by decide!, by decide!, by decide!, by decide!⟩

/-- C37: the ids 1, 2, 3 are inserted, then 3 and 2 are deleted.  The second
delete merges the two leaves under the root, which copies the key 2 of the
root into the left leaf, beside the null pointer `splitLeafNode` had left in
that slot.  On the tree that results, one leaf with the keys 1 and 2,
`findTransactionInBPTree(root, 2)` returns 1 and `findTransactionById(root,
2)` returns the null pointer. -/
theorem lookups_disagree_after_merge :
    (((treeOfIds [1, 2, 3]).bind (fun s => deleteTransactionFromBPTree s.1 s.2 3)).bind
        (fun s => deleteTransactionFromBPTree s.1 s.2 2)).map (fun s => (s.2, s.1.nodes)) =
      some (some 0,
        [some ⟨true, 2, [1, 2, 0], [none, none, none, none], none, [some 0, none, none]⟩,
         none, none]) ∧
    (((treeOfIds [1, 2, 3]).bind (fun s => deleteTransactionFromBPTree s.1 s.2 3)).bind
        (fun s => deleteTransactionFromBPTree s.1 s.2 2)).bind
      (fun s => (findTransactionInBPTree s.1.nodes s.2 2).bind (fun b =>
          (findTransactionById s.1.nodes s.2 2).map (fun r => (b, r)))) =
      some (true, none) := by
  exact ⟨by decide!, by decide!⟩

/-! ## Nodes stay within their arrays -/

/-- Every node of a represented tree holds one or two keys in arrays of the
declared sizes. -/
theorem nodeSizes_of_rep {h : Heap} {t : Shape} (hr : Rep h t) :
    ∀ fuel, t.size ≤ fuel → ∃ xs, nodeSizes h fuel t.addr = some xs ∧ xs.length = t.size ∧
      ∀ x ∈ xs, 1 ≤ x.1 ∧ x.1 ≤ ORDER - 2 ∧ x.2.1 = ORDER - 1 ∧ x.2.2.1 = ORDER ∧
        x.2.2.2 = ORDER - 1 := by
  induction t with
  | leaf a es nx =>
    intro fuel hf
    obtain ⟨f, rfl⟩ : ∃ f, fuel = f + 1 := ⟨fuel - 1, by simp [Shape.size] at hf; omega⟩
    rcases RepLeaf.shape hr with ⟨k, r, x, y, rx, ry, _, hl⟩ | ⟨k0, r0, k1, r1, y, ry, _, hl⟩ <;>
      simp [nodeSizes, hl, Shape.size, ORDER] <;>
      intro a1 a2 a3 a4 e1 e2 e3 e4 <;> subst e1 e2 e3 e4 <;> simp
  | node2 a c0 k0 c1 ih0 ih1 =>
    intro fuel hf
    obtain ⟨f, rfl⟩ : ∃ f, fuel = f + 1 := ⟨fuel - 1, by simp [Shape.size] at hf; omega⟩
    obtain ⟨⟨x, y, z, w, hl⟩, r0, r1⟩ := hr
    simp only [Shape.size] at hf ⊢
    obtain ⟨xs0, q0, l0, p0⟩ := ih0 r0 f (by omega)
    obtain ⟨xs1, q1, l1, p1⟩ := ih1 r1 f (by omega)
    have hrange : List.range (1 + 1) = [0, 1] := rfl
    refine ⟨(1, 3, 4, 3) :: (xs0 ++ (xs1 ++ [])), ?_, ?_, ?_⟩
    · rw [nodeSizes]
      simp only [addr_node2, hl, Bool.false_eq_true, if_false]
      rw [hrange]
      simp [q0, q1]
    · simp [l0, l1]
      omega
    · intro v hv
      simp only [List.mem_cons, List.mem_append, List.not_mem_nil, or_false] at hv
      rcases hv with rfl | hv | hv
      · simp [ORDER]
      · exact p0 v hv
      · exact p1 v hv
  | node3 a c0 k0 c1 k1 c2 ih0 ih1 ih2 =>
    intro fuel hf
    obtain ⟨f, rfl⟩ : ∃ f, fuel = f + 1 := ⟨fuel - 1, by simp [Shape.size] at hf; omega⟩
    obtain ⟨⟨y, w, hl⟩, r0, r1, r2⟩ := hr
    simp only [Shape.size] at hf ⊢
    obtain ⟨xs0, q0, l0, p0⟩ := ih0 r0 f (by omega)
    obtain ⟨xs1, q1, l1, p1⟩ := ih1 r1 f (by omega)
    obtain ⟨xs2, q2, l2, p2⟩ := ih2 r2 f (by omega)
    have hrange : List.range (2 + 1) = [0, 1, 2] := rfl
    refine ⟨(2, 3, 4, 3) :: (xs0 ++ (xs1 ++ (xs2 ++ []))), ?_, ?_, ?_⟩
    · rw [nodeSizes]
      simp only [addr_node3, hl, Bool.false_eq_true, if_false]
      rw [hrange]
      simp [q0, q1, q2]
    · simp [l0, l1, l2]
      omega
    · intro v hv
      simp only [List.mem_cons, List.mem_append, List.not_mem_nil, or_false] at hv
      rcases hv with rfl | hv | hv | hv
      · simp [ORDER]
      · exact p0 v hv
      · exact p1 v hv
      · exact p2 v hv

/-- C36: after the insertion of any live records with distinct ids into the
empty tree, every node of the tree holds at least 1 and at most `ORDER - 2`
= 2 keys, in arrays of the declared sizes (`ORDER - 1` keys and records,
`ORDER` children).  Each further insert of a record with a new id has a
result; as a write to `keys[i]`, `records[i]` or `children[i]` has none
when `i` is not below the size of the array, no insert writes past the
arrays of a node.  (The tree after that insert is again one built by inserts
of distinct ids.) -/
theorem inserts_keep_nodes_within_arrays (m : Store) (ts : List Nat)
    (hlive : ∀ t ∈ ts, (idOf m t).isSome) (hdist : (ts.map (idOf m)).Nodup) :
    ∃ m1 root1, insertAll ts (m, none) = some (m1, root1) ∧
      (∀ r, root1 = some r → ∃ xs, nodeSizes m1.nodes m1.nodes.length r = some xs ∧
        0 < xs.length ∧
        ∀ x ∈ xs, 1 ≤ x.1 ∧ x.1 ≤ ORDER - 2 ∧ x.2.1 = ORDER - 1 ∧ x.2.2.1 = ORDER ∧
          x.2.2.2 = ORDER - 1) ∧
      ∀ t k, idOf m t = some k → some k ∉ ts.map (idOf m) →
        ∃ m2 r2 xs, insertTransactionIntoBPTree m1 root1 t = some (m2, some r2) ∧
          nodeSizes m2.nodes m2.nodes.length r2 = some xs ∧
          ∀ x ∈ xs, 1 ≤ x.1 ∧ x.1 ≤ ORDER - 2 ∧ x.2.1 = ORDER - 1 ∧ x.2.2.1 = ORDER ∧
            x.2.2.2 = ORDER - 1 := by
  obtain ⟨m1, root1, es1, h1, h2, h3, h4⟩ := insertAll_empty_whole m ts hlive hdist
  refine ⟨m1, root1, h1, ?_, ?_⟩
  · intro r hr'
    subst hr'
    obtain ⟨T, rfl, hr, _, hnd, _, _, _⟩ := h3
    obtain ⟨xs, q1, q2, q3⟩ := nodeSizes_of_rep hr _ (hr.size_le hnd)
    refine ⟨xs, q1, ?_, q3⟩
    rw [q2]
    cases T <;> simp [Shape.size]
  · intro t k hid hnew
    have hid1 : idOf m1 t = some k := by
      simp only [idOf, h2]
      exact hid
    have hfresh : k ∉ es1.map Prod.fst := by
      intro hm
      have hm1 : k ∈ ts.filterMap (idOf m) := by
        rw [← keys_of_added]
        exact ((h4.map Prod.fst).mem_iff).mp hm
      obtain ⟨x, hx, hxk⟩ := List.mem_filterMap.mp hm1
      exact hnew (List.mem_map.mpr ⟨x, hx, hxk⟩)
    obtain ⟨m2, T2, e1, _, _, e4, _, e6, _⟩ := insertTransactionIntoBPTree_whole h3 hid1 hfresh
    obtain ⟨xs, q1, _, q3⟩ := nodeSizes_of_rep e4 _ (e4.size_le e6)
    exact ⟨m2, T2.addr, xs, e1, q1, q3⟩

/-- Witness for C36: of six records with the ids 5, 3, 8, 1, 9, 2 the first
five are inserted in this order; the sixth is the further record. -/
theorem inserts_keep_nodes_within_arrays_witness :
    (∀ t ∈ [0, 1, 2, 3, 4], (idOf (storeWithIds [5, 3, 8, 1, 9, 2]) t).isSome) ∧
    ([0, 1, 2, 3, 4].map (idOf (storeWithIds [5, 3, 8, 1, 9, 2]))).Nodup ∧
    ∃ m1 root1, insertAll [0, 1, 2, 3, 4] (storeWithIds [5, 3, 8, 1, 9, 2], none) =
        some (m1, root1) ∧
      (∀ r, root1 = some r → ∃ xs, nodeSizes m1.nodes m1.nodes.length r = some xs ∧
        0 < xs.length ∧
        ∀ x ∈ xs, 1 ≤ x.1 ∧ x.1 ≤ ORDER - 2 ∧ x.2.1 = ORDER - 1 ∧ x.2.2.1 = ORDER ∧
          x.2.2.2 = ORDER - 1) ∧
      ∀ t k, idOf (storeWithIds [5, 3, 8, 1, 9, 2]) t = some k →
        some k ∉ [0, 1, 2, 3, 4].map (idOf (storeWithIds [5, 3, 8, 1, 9, 2])) →
        ∃ m2 r2 xs, insertTransactionIntoBPTree m1 root1 t = some (m2, some r2) ∧
          nodeSizes m2.nodes m2.nodes.length r2 = some xs ∧
          ∀ x ∈ xs, 1 ≤ x.1 ∧ x.1 ≤ ORDER - 2 ∧ x.2.1 = ORDER - 1 ∧ x.2.2.1 = ORDER ∧
            x.2.2.2 = ORDER - 1 :=
  ⟨by decide, by decide,
    inserts_keep_nodes_within_arrays (storeWithIds [5, 3, 8, 1, 9, 2]) [0, 1, 2, 3, 4]
      (by decide) (by decide)⟩

/-! ## Deleting from a leaf with two keys -/

theorem removeFromLeaf_two {h : Heap} {a : Nat} {k0 k1 y : Int} {cs : List (Option Nat)}
    {nx r0 r1 ry : Option Nat}
    (hl : load h a = some ⟨true, 2, [k0, k1, y], cs, nx, [r0, r1, ry]⟩) :
    removeFromLeaf h a 0 = some (store h a ⟨true, 1, [k1, k1, y], cs, nx, [r1, r1, ry]⟩) ∧
    removeFromLeaf h a 1 = some (store h a ⟨true, 1, [k0, k1, y], cs, nx, [r0, r1, ry]⟩) := by
  have ha := load_lt hl
  constructor <;>
    simp [removeFromLeaf, getNum, getKey, getRec, setKey, setRec, setNum, decNum, copyKey,
      copyRec, modify, forUp, hl, load_store_eq, store_store, ha]

/-- The lookup by id answers with the null pointer for a key that a
represented tree does not hold. -/
theorem findById_absent_of_rep {h : Heap} {t : Shape} (hr : Rep h t) (hn : t.addrs.Nodup)
    {key : Int} (hk : key ∉ t.entries.map Prod.fst) :
    findTransactionById h (some t.addr) key = some none := by
  obtain ⟨idx1, hd⟩ := descend_path key t [] h.length none 0 hr (hr.size_le hn) rfl
  have hleaf : key ∉ (pathTo key t []).2.2.1.map Prod.fst := by
    intro hm
    obtain ⟨e, he, he2⟩ := List.mem_map.mp hm
    exact hk (List.mem_map.mpr ⟨e, pathTo_leaf_subset key t [] e he, he2⟩)
  obtain ⟨nk, h1, h2⟩ := (hr.pathTo_leaf key []).find_absent hleaf
  simp [findTransactionById, hd, h1, h2]

theorem entries_plug (c : List Frame) (s : Shape) :
    (plug c s).entries = ((leavesBefore c).map (fun l => l.2.1)).flatten ++ s.entries ++
      ((leavesAfter c).map (fun l => l.2.1)).flatten := by
  rw [Shape.entries_eq, leaves_plug, Shape.entries_eq s]
  simp

/-- The function `deleteTransactionFromBPTree` for a key whose leaf holds two
keys: the record is released and the key taken out of the leaf; nothing else
is written. -/
theorem delete_two_leaf {m : Store} {r a : Nat} {parent : Option Nat} {idx : Nat}
    {k0 k1 y : Int} {cs : List (Option Nat)} {nx ry : Option Nat} {q0 q1 : Nat}
    (tr : Transaction) (k : Int)
    (hd : descend m.nodes k m.nodes.length r none 0 = some (a, parent, idx))
    (hl : load m.nodes a = some ⟨true, 2, [k0, k1, y], cs, nx, [some q0, some q1, ry]⟩)
    (hne : k0 ≠ k1) :
    (k = k0 → loadRec m.recs q0 = some tr →
      deleteTransactionFromBPTree m (some r) k =
        some (⟨store m.nodes a ⟨true, 1, [k1, k1, y], cs, nx, [some q1, some q1, ry]⟩,
          m.recs.set q0 none⟩, some r)) ∧
    (k = k1 → loadRec m.recs q1 = some tr →
      deleteTransactionFromBPTree m (some r) k =
        some (⟨store m.nodes a ⟨true, 1, [k0, k1, y], cs, nx, [some q0, some q1, ry]⟩,
          m.recs.set q1 none⟩, some r)) := by
  have ha := load_lt hl
  obtain ⟨e0, e1⟩ := removeFromLeaf_two hl
  constructor
  · intro hk hrec
    subst hk
    simp only [deleteTransactionFromBPTree, hd]
    simp [getNum, hl, keyIndex, getKey, getRec, freeRec, hrec, e0, load_store_eq, ha, ORDER]
  · intro hk hrec
    subst hk
    simp only [deleteTransactionFromBPTree, hd]
    simp [getNum, hl, keyIndex, getKey, getRec, freeRec, hrec, e1, load_store_eq, ha, ORDER, hne]

/-- The delete of an entry whose leaf holds two entries, on a represented,
ordered tree: the heap afterwards holds the same tree with that entry taken
out of its leaf. -/
theorem delete_two_leaf_tree {m : Store} {t : Shape} (hr : Rep m.nodes t)
    (ho : Ord none none t) (hn : t.addrs.Nodup) {e : Int × Nat} (he : e ∈ t.entries)
    {tr : Transaction} (hrec : loadRec m.recs e.2 = some tr) {cursor : Nat}
    {parent : Option Nat} {idx : Nat}
    (hd : descend m.nodes e.1 m.nodes.length t.addr none 0 = some (cursor, parent, idx))
    (hfull : getNum m.nodes cursor = some 2) :
    ∃ (n : BPTreeNode) (t2 : Shape) (e1 : Int × Nat) (k0 k1 y : Int) (q0 q1 : Nat)
      (nx ry : Option Nat),
      deleteTransactionFromBPTree m (some t.addr) e.1 =
        some (⟨store m.nodes cursor n, m.recs.set e.2 none⟩, some t.addr) ∧
      t2.addr = t.addr ∧ Rep (store m.nodes cursor n) t2 ∧ Ord none none t2 ∧
      t2.addrs.Nodup ∧ cursor < m.nodes.length ∧
      load m.nodes cursor = some ⟨true, 2, [k0, k1, y], [none, none, none, none], nx,
        [some q0, some q1, ry]⟩ ∧
      ((e = (k0, q0) ∧ e1 = (k1, q1)) ∨ (e = (k1, q1) ∧ e1 = (k0, q0))) ∧
      (∃ x rx, n = ⟨true, 1, [e1.1, x, y], [none, none, none, none], nx,
        [some e1.2, rx, ry]⟩) ∧
      e1.1 ≠ e.1 ∧ e1 ∈ t.entries ∧ e.1 ∉ t2.entries.map Prod.fst ∧
      ∀ x ∈ t.entries, x.1 ≠ e.1 → x ∈ t2.entries := by
  obtain ⟨idx1, hd1⟩ := descend_path e.1 t [] m.nodes.length none 0 hr (hr.size_le hn) rfl
  have hent := pathTo_entry ho [] he
  have hplug := pathTo_plug e.1 t []
  have hsorted := ho.sorted
  generalize pathTo e.1 t [] = P at hd1 hplug hent
  obtain ⟨c, a, es0, nx⟩ := P
  simp only [plug] at hd1 hplug hent
  subst hplug
  rw [hd] at hd1
  simp only [Option.some.injEq, Prod.mk.injEq] at hd1
  obtain ⟨rfl, _, _⟩ := hd1
  obtain ⟨hrp, hleaf⟩ := (rep_plug c _).mp hr
  obtain ⟨op, oleaf⟩ := (ord_plug c _).mp ho
  have nd : (pathAddrs c ++ [cursor]).Nodup := ((addrs_plug c _).nodup_iff).mp hn
  have haddr := plug_addr c (Shape.leaf cursor es0 nx)
  simp only [addr_leaf] at hrp haddr
  simp only [Rep] at hleaf
  obtain ⟨hn1, _⟩ := not_mem_of_nodup_cons nd
  rw [entries_plug] at hsorted
  simp only [Shape.entries] at hsorted hent
  have keep : ∀ (n : BPTreeNode) (es1 : List (Int × Nat)),
      RepLeaf (store m.nodes cursor n) cursor nx es1 → (∀ x ∈ es1, x ∈ es0) →
      (es1.map Prod.fst).Pairwise (· < ·) →
      (plug c (Shape.leaf cursor es1 nx)).addr = (plug c (Shape.leaf cursor es0 nx)).addr ∧
        Rep (store m.nodes cursor n) (plug c (Shape.leaf cursor es1 nx)) ∧
        Ord none none (plug c (Shape.leaf cursor es1 nx)) ∧
        (plug c (Shape.leaf cursor es1 nx)).addrs.Nodup := by
    intro n es1 hrl hsub hpw
    refine ⟨by rw [plug_addr, plug_addr]; rfl, (rep_plug c _).mpr ⟨hrp.path_store _ _ hn1, hrl⟩,
      (ord_plug c _).mpr ⟨op, hpw, fun x hx => oleaf.2 x (hsub x hx)⟩,
      ((addrs_plug c _).nodup_iff).mpr nd⟩
  rcases hleaf.shape with ⟨k0, q0, x, y, rx, ry, rfl, hl⟩ | ⟨k0, q0, k1, q1, y, ry, rfl, hl⟩
  · simp [getNum, hl] at hfull
  · have ha := load_lt hl
    have h01 : k0 < k1 := by
      have := oleaf.1
      simp only [List.map_cons, List.map_nil, List.pairwise_cons, List.mem_singleton,
        forall_eq] at this
      exact this.1
    have hne : k0 ≠ k1 := by omega
    obtain ⟨d0, d1⟩ := delete_two_leaf tr e.1 hd hl hne
    have hnd : ((((leavesBefore c).map (fun l => l.2.1)).flatten ++ [(k0, q0), (k1, q1)] ++
        ((leavesAfter c).map (fun l => l.2.1)).flatten).map Prod.fst).Nodup :=
      hsorted.imp (fun hlt => ne_of_lt hlt)
    simp only [List.mem_cons, List.mem_singleton, List.not_mem_nil, or_false] at hent
    rcases hent with rfl | rfl
    · obtain ⟨g1, g2, g3, g4⟩ := keep ⟨true, 1, [k1, k1, y], [none, none, none, none], nx,
        [some q1, some q1, ry]⟩ [(k1, q1)] ⟨k1, y, some q1, ry, load_store_eq _ ha⟩
        (by simp) (by simp)
      refine ⟨_, _, (k1, q1), k0, k1, y, q0, q1, nx, ry, d0 rfl hrec, g1, g2, g3, g4, ha, hl,
        Or.inl ⟨rfl, rfl⟩, ⟨k1, some q1, rfl⟩, by simpa using hne.symm, ?_, ?_, ?_⟩
      · rw [entries_plug]
        simp [Shape.entries]
      · rw [entries_plug]
        simp only [Shape.entries]
        simp only [List.map_append, List.map_cons, List.map_nil, List.nodup_append,
          List.nodup_cons] at hnd
        simp only [List.map_append, List.map_cons, List.map_nil, List.mem_append,
          List.mem_singleton, not_or]
        refine ⟨⟨fun hm => hnd.1.2.2 hm (by simp), hne⟩, fun hm => hnd.2.2 (by simp) hm⟩
      · intro x hx hxe
        rw [entries_plug] at hx ⊢
        simp only [Shape.entries, List.mem_append, List.mem_cons, List.mem_singleton,
          List.not_mem_nil, or_false] at hx ⊢
        rcases hx with (hx | rfl | rfl) | hx
        · exact Or.inl (Or.inl hx)
        · exact absurd rfl hxe
        · exact Or.inl (Or.inr rfl)
        · exact Or.inr hx
    · obtain ⟨g1, g2, g3, g4⟩ := keep ⟨true, 1, [k0, k1, y], [none, none, none, none], nx,
        [some q0, some q1, ry]⟩ [(k0, q0)] ⟨k1, y, some q1, ry, load_store_eq _ ha⟩
        (by simp) (by simp)
      refine ⟨_, _, (k0, q0), k0, k1, y, q0, q1, nx, ry, d1 rfl hrec, g1, g2, g3, g4, ha, hl,
        Or.inr ⟨rfl, rfl⟩, ⟨k1, some q1, rfl⟩, by simpa using hne, ?_, ?_, ?_⟩
      · rw [entries_plug]
        simp [Shape.entries]
      · rw [entries_plug]
        simp only [Shape.entries]
        simp only [List.map_append, List.map_cons, List.map_nil, List.nodup_append,
          List.nodup_cons] at hnd
        simp only [List.map_append, List.map_cons, List.map_nil, List.mem_append,
          List.mem_singleton, not_or]
        refine ⟨⟨fun hm => hnd.1.2.2 hm (by simp), hne.symm⟩, fun hm => hnd.2.2 (by simp) hm⟩
      · intro x hx hxe
        rw [entries_plug] at hx ⊢
        simp only [Shape.entries, List.mem_append, List.mem_cons, List.mem_singleton,
          List.not_mem_nil, or_false] at hx ⊢
        rcases hx with (hx | rfl | rfl) | hx
        · exact Or.inl (Or.inl hx)
        · exact Or.inl (Or.inr rfl)
        · exact absurd rfl hxe
        · exact Or.inr hx

/-- C38: a tree is built from the empty tree by inserting records with
distinct ids, and the record `tk` among them has the id `k`, whose leaf
(where the descent for `k` ends) holds two keys.  Then
`deleteTransactionFromBPTree` of `k` has a result with the same root; the
only node written is that leaf: every other node of the heap is as before
and no node is allocated or released; the leaf is still a leaf with the same
`next` link and holds one key, which is the other of the two keys it held,
beside that key's record; the record of `k` is released and no other;
neither lookup finds `k`, and for every other record inserted both lookups
find its id, with that record, which still carries the id. -/
theorem delete_from_full_leaf_is_local (m : Store) (ts : List Nat)
    (hlive : ∀ t ∈ ts, (idOf m t).isSome) (hdist : (ts.map (idOf m)).Nodup)
    (tk : Nat) (k : Int) (htk : tk ∈ ts) (hid : idOf m tk = some k)
    (m1 : Store) (r cursor : Nat) (parent : Option Nat) (idx : Nat)
    (hrun : insertAll ts (m, none) = some (m1, some r))
    (hdesc : descend m1.nodes k m1.nodes.length r none 0 = some (cursor, parent, idx))
    (hfull : getNum m1.nodes cursor = some 2) :
    ∃ m2 j q, deleteTransactionFromBPTree m1 (some r) k = some (m2, some r) ∧
      m2.nodes.length = m1.nodes.length ∧
      (∀ p, p ≠ cursor → m2.nodes[p]? = m1.nodes[p]?) ∧
      m2.recs = m1.recs.set tk none ∧ m1.recs = m.recs ∧
      getLeaf m2.nodes cursor = some true ∧ getNum m2.nodes cursor = some 1 ∧
      getNext m2.nodes cursor = getNext m1.nodes cursor ∧
      getKey m2.nodes cursor 0 = some j ∧ getRec m2.nodes cursor 0 = some (some q) ∧
      j ≠ k ∧ q ∈ ts ∧ idOf m q = some j ∧
      ((getKey m1.nodes cursor 0 = some k ∧ getKey m1.nodes cursor 1 = some j ∧
          getRec m1.nodes cursor 1 = some (some q)) ∨
        (getKey m1.nodes cursor 0 = some j ∧ getRec m1.nodes cursor 0 = some (some q) ∧
          getKey m1.nodes cursor 1 = some k)) ∧
      findTransactionInBPTree m2.nodes (some r) k = some false ∧
      findTransactionById m2.nodes (some r) k = some none ∧
      ∀ t ∈ ts, ∀ i, idOf m t = some i → i ≠ k →
        findTransactionInBPTree m2.nodes (some r) i = some true ∧
        findTransactionById m2.nodes (some r) i = some (some t) ∧ idOf m2 t = some i := by
  obtain ⟨m1', root1, es1, hrun', hrecs, hw, hperm⟩ := insertAll_empty_whole m ts hlive hdist
  rw [hrun] at hrun'
  simp only [Option.some.injEq, Prod.mk.injEq] at hrun'
  obtain ⟨rfl, rfl⟩ := hrun'
  obtain ⟨t, haddr, hr, ho, hn, _, hperm2, _⟩ := hw
  subst haddr
  have hmem : ∀ x i, x ∈ ts → idOf m x = some i → (i, x) ∈ t.entries := by
    intro x i hx hi
    refine (hperm2.mem_iff).mpr ((hperm.mem_iff).mpr ?_)
    exact List.mem_filterMap.mpr ⟨x, hx, by simp [hi]⟩
  have hback : ∀ e ∈ t.entries, e.2 ∈ ts ∧ idOf m e.2 = some e.1 := by
    intro e he
    obtain ⟨x, hx, hxe⟩ := List.mem_filterMap.mp ((hperm.mem_iff).mp ((hperm2.mem_iff).mp he))
    cases hi : idOf m x with
    | none => simp [hi] at hxe
    | some i =>
      simp only [hi, Option.map_some', Option.some.injEq] at hxe
      subst hxe
      exact ⟨hx, hi⟩
  have hek : ((k, tk) : Int × Nat) ∈ t.entries := hmem tk k htk hid
  obtain ⟨tr, htr⟩ : ∃ tr, loadRec m1.recs tk = some tr := by
    rw [hrecs]
    simp only [idOf] at hid
    cases hq : loadRec m.recs tk with
    | none => simp [hq] at hid
    | some tr => exact ⟨tr, rfl⟩
  obtain ⟨n, t2, e1, k0, k1, y, q0, q1, nx, ry, hdel, g1, g2, g3, g4, ha, hl, hcase, ⟨x, rx, hnn⟩,
      hne, he1, habs, hkeep⟩ :=
    delete_two_leaf_tree (e := (k, tk)) hr ho hn hek htr hdesc hfull
  obtain ⟨hq1, hq2⟩ := hback e1 he1
  subst hnn
  have hln := load_store_eq (h := m1.nodes) (⟨true, 1, [e1.1, x, y], [none, none, none, none],
    nx, [some e1.2, rx, ry]⟩ : BPTreeNode) ha
  refine ⟨_, e1.1, e1.2, hdel, length_store _ _ _, ?_, rfl, hrecs, ?_, ?_, ?_, ?_, ?_, hne, hq1,
    hq2, ?_, ?_, ?_, ?_⟩
  · intro p hp
    simp [store, List.getElem?_set_ne (Ne.symm hp)]
  · simp [getLeaf, hln]
  · simp [getNum, hln]
  · simp [getNext, hln, hl]
  · simp [getKey, hln]
  · simp [getRec, hln]
  · rcases hcase with ⟨c1, c2⟩ | ⟨c1, c2⟩
    · simp only [Prod.mk.injEq] at c1
      obtain ⟨rfl, rfl⟩ := c1
      subst c2
      exact Or.inl ⟨by simp [getKey, hl], by simp [getKey, hl], by simp [getRec, hl]⟩
    · simp only [Prod.mk.injEq] at c1
      obtain ⟨rfl, rfl⟩ := c1
      subst c2
      exact Or.inr ⟨by simp [getKey, hl], by simp [getRec, hl], by simp [getKey, hl]⟩
  · rw [← g1]
    exact find_absent_of_rep g2 g4 habs
  · rw [← g1]
    exact findById_absent_of_rep g2 g4 habs
  · intro x hx i hi hik
    have hx2 : ((i, x) : Int × Nat) ∈ t2.entries := hkeep _ (hmem x i hx hi) hik
    obtain ⟨f1, f2⟩ := find_of_rep g2 g3 g4 hx2
    rw [g1] at f1 f2
    refine ⟨f2, f1, ?_⟩
    have hxk : x ≠ tk := by
      intro hxe
      subst hxe
      rw [hid] at hi
      exact hik (Option.some.inj hi).symm
    simp only [idOf, loadRec_set_ne none hxk]
    rw [hrecs]
    exact hi

/-- Witness for C38: the ids 1, 2, 3 are inserted, which gives the leaves 1
and 2, 3 under the root (node 2); the leaf of the id 3 (node 1) holds two
keys. -/
theorem delete_from_full_leaf_is_local_witness :
    (∀ t ∈ [0, 1, 2], (idOf (storeWithIds [1, 2, 3]) t).isSome) ∧
    ([0, 1, 2].map (idOf (storeWithIds [1, 2, 3]))).Nodup ∧
    2 ∈ [0, 1, 2] ∧ idOf (storeWithIds [1, 2, 3]) 2 = some 3 ∧
    insertAll [0, 1, 2] (storeWithIds [1, 2, 3], none) =
      some (((treeOfIds [1, 2, 3]).getD (storeWithIds [], none)).1, some 2) ∧
    descend ((treeOfIds [1, 2, 3]).getD (storeWithIds [], none)).1.nodes 3
      ((treeOfIds [1, 2, 3]).getD (storeWithIds [], none)).1.nodes.length 2 none 0 =
      some (1, some 2, 1) ∧
    getNum ((treeOfIds [1, 2, 3]).getD (storeWithIds [], none)).1.nodes 1 = some 2 ∧
    ∃ m2 j q, deleteTransactionFromBPTree
        ((treeOfIds [1, 2, 3]).getD (storeWithIds [], none)).1 (some 2) 3 = some (m2, some 2) ∧
      m2.nodes.length = ((treeOfIds [1, 2, 3]).getD (storeWithIds [], none)).1.nodes.length ∧
      (∀ p, p ≠ 1 → m2.nodes[p]? =
        ((treeOfIds [1, 2, 3]).getD (storeWithIds [], none)).1.nodes[p]?) ∧
      m2.recs = ((treeOfIds [1, 2, 3]).getD (storeWithIds [], none)).1.recs.set 2 none ∧
      ((treeOfIds [1, 2, 3]).getD (storeWithIds [], none)).1.recs =
        (storeWithIds [1, 2, 3]).recs ∧
      getLeaf m2.nodes 1 = some true ∧ getNum m2.nodes 1 = some 1 ∧
      getNext m2.nodes 1 =
        getNext ((treeOfIds [1, 2, 3]).getD (storeWithIds [], none)).1.nodes 1 ∧
      getKey m2.nodes 1 0 = some j ∧ getRec m2.nodes 1 0 = some (some q) ∧
      j ≠ 3 ∧ q ∈ [0, 1, 2] ∧ idOf (storeWithIds [1, 2, 3]) q = some j ∧
      ((getKey ((treeOfIds [1, 2, 3]).getD (storeWithIds [], none)).1.nodes 1 0 = some 3 ∧
          getKey ((treeOfIds [1, 2, 3]).getD (storeWithIds [], none)).1.nodes 1 1 = some j ∧
          getRec ((treeOfIds [1, 2, 3]).getD (storeWithIds [], none)).1.nodes 1 1 =
            some (some q)) ∨
        (getKey ((treeOfIds [1, 2, 3]).getD (storeWithIds [], none)).1.nodes 1 0 = some j ∧
          getRec ((treeOfIds [1, 2, 3]).getD (storeWithIds [], none)).1.nodes 1 0 =
            some (some q) ∧
          getKey ((treeOfIds [1, 2, 3]).getD (storeWithIds [], none)).1.nodes 1 1 = some 3)) ∧
      findTransactionInBPTree m2.nodes (some 2) 3 = some false ∧
      findTransactionById m2.nodes (some 2) 3 = some none ∧
      ∀ t ∈ [0, 1, 2], ∀ i, idOf (storeWithIds [1, 2, 3]) t = some i → i ≠ 3 →
        findTransactionInBPTree m2.nodes (some 2) i = some true ∧
        findTransactionById m2.nodes (some 2) i = some (some t) ∧ idOf m2 t = some i :=
  ⟨by decide!, by decide!, by decide!, by decide!, by decide!, by decide!, by decide!,
    delete_from_full_leaf_is_local (storeWithIds [1, 2, 3]) [0, 1, 2] (by decide!) (by decide!)
      2 3 (by decide!) (by decide!) ((treeOfIds [1, 2, 3]).getD (storeWithIds [], none)).1
      2 1 (some 2) 1 (by decide!) (by decide!) (by decide!)⟩

/-! ## Insert into the empty tree, then delete -/

/-- C39: for every memory and every record `t` in it, with id `k`:
`insertTransactionIntoBPTree` on the empty tree gives a tree whose root is a
newly allocated leaf, and `deleteTransactionFromBPTree` of `k` on that tree
gives the empty tree again: the root is the null pointer, the leaf is
released (and so is the record, as by every delete), no other node has
changed; on the result every lookup reports the id it is asked for as
absent and `countTransactionsInTree` returns 0. -/
theorem insert_then_delete_is_empty (m : Store) (t : Nat) (k : Int)
    (hid : idOf m t = some k) :
    ∃ m1 r, insertTransactionIntoBPTree m none t = some (m1, some r) ∧
      findTransactionInBPTree m1.nodes (some r) k = some true ∧
      ∃ m2 root2, deleteTransactionFromBPTree m1 (some r) k = some (m2, root2) ∧
        root2 = none ∧ load m2.nodes r = none ∧
        (∀ p, p ≠ r → load m2.nodes p = load m.nodes p) ∧
        m2.recs = m.recs.set t none ∧
        (∀ j, findTransactionInBPTree m2.nodes root2 j = some false ∧
          findTransactionById m2.nodes root2 j = some none) ∧
        countTransactionsInTree m2.nodes root2 = some 0 := by
  obtain ⟨tr, htr, hk⟩ : ∃ tr, loadRec m.recs t = some tr ∧ tr.transactionID = k := by
    simp only [idOf] at hid
    cases hr : loadRec m.recs t with
    | none => simp [hr] at hid
    | some tr => exact ⟨tr, rfl, by simpa [hr] using hid⟩
  let leaf1 : BPTreeNode :=
    ⟨true, 1, [k, 0, 0], [none, none, none, none], none, [some t, none, none]⟩
  let leaf0 : BPTreeNode :=
    ⟨true, 0, [k, 0, 0], [none, none, none, none], none, [some t, none, none]⟩
  have hins : insertTransactionIntoBPTree m none t =
      some ({ m with nodes := m.nodes ++ [some leaf1] }, some m.nodes.length) := by
    simp [insertTransactionIntoBPTree, htr, insertKey, insertFirst_eq, hk, leaf1]
  have hl : load (m.nodes ++ [some leaf1]) m.nodes.length = some leaf1 := load_append_at _ rfl
  have hlen : m.nodes.length < (m.nodes ++ [some leaf1]).length := by simp
  have hd := descend_leaf k hl rfl
  have hfind : findTransactionInBPTree (m.nodes ++ [some leaf1]) (some m.nodes.length) k =
      some true := by
    simp only [findTransactionInBPTree, hd]
    simp [getNum, hl, keyIndex, getKey, leaf1]
  have hdel : deleteTransactionFromBPTree { m with nodes := m.nodes ++ [some leaf1] }
      (some m.nodes.length) k =
      some (⟨(store (m.nodes ++ [some leaf1]) m.nodes.length leaf0).set m.nodes.length none,
        m.recs.set t none⟩, none) := by
    simp only [deleteTransactionFromBPTree, hd]
    simp [getNum, hl, keyIndex, getKey, getRec, freeRec, htr, removeFromLeaf, forUp, decNum,
      setNum, modify, load_store_eq, hlen, freeNode, leaf1, leaf0]
  refine ⟨_, _, hins, hfind, _, none, hdel, rfl, ?_, ?_, rfl, ?_, rfl⟩
  · simp [load, store, List.getElem?_set_self]
  · intro p hp
    simp only [load, store]
    rw [List.getElem?_set_ne (Ne.symm hp), List.getElem?_set_ne (Ne.symm hp)]
    by_cases hlt : p < m.nodes.length
    · rw [List.getElem?_append_left hlt]
    · have hgt : m.nodes.length < p := by omega
      rw [List.getElem?_eq_none (by simp; omega), List.getElem?_eq_none (by omega)]
  · intro j
    exact ⟨rfl, rfl⟩

/-- Witness for C39: the record 0 of `storeWithIds [7]`, whose id is 7. -/
theorem insert_then_delete_is_empty_witness :
    idOf (storeWithIds [7]) 0 = some 7 ∧
    ∃ m1 r, insertTransactionIntoBPTree (storeWithIds [7]) none 0 = some (m1, some r) ∧
      findTransactionInBPTree m1.nodes (some r) 7 = some true ∧
      ∃ m2 root2, deleteTransactionFromBPTree m1 (some r) 7 = some (m2, root2) ∧
        root2 = none ∧ load m2.nodes r = none ∧
        (∀ p, p ≠ r → load m2.nodes p = load (storeWithIds [7]).nodes p) ∧
        m2.recs = (storeWithIds [7]).recs.set 0 none ∧
        (∀ j, findTransactionInBPTree m2.nodes root2 j = some false ∧
          findTransactionById m2.nodes root2 j = some none) ∧
        countTransactionsInTree m2.nodes root2 = some 0 :=
  ⟨by decide!, insert_then_delete_is_empty (storeWithIds [7]) 0 7 (by decide!)⟩

/-! ## The count of the global tree after a bulk load -/

/-- C40: for every price file and every log none of whose lines (as `fgets`
returns them) makes `sscanf` write past `timestamp[30]`, `loadDataFromFile`
as `main` calls it runs to its end, `countTransactionsInTree` on the global
tree of the engine it leaves returns the value of the counter `totalLoaded`,
and the mismatch warning is not printed. -/
theorem load_count_matches_loaded (strtod : List Char → Option (Rat × List Char))
    (prices : Option (List (Int × Rat × Rat))) (content : List Char)
    (hfit : ∀ line ∈ fgetsAll content.length content, (scanRow strtod line).isSome) :
    ∃ s1 sum n, loadDataFromFile strtod (some content) (loadSellerPrices prices Engine.empty) =
        some (s1, some sum) ∧
      countTransactionsInTree s1.mem.nodes s1.globalTransactionTree = some n ∧
      sum.treeCount = n ∧ (n : Int) = sum.totalLoaded ∧ sum.mismatch = false := by
  obtain ⟨s1, rep1, L1, e1, e2, _, e4, _, _, e7, _⟩ :=
    loadRows_spec strtod (fgetsAll content.length content) (loadStartWith prices).1
      (loadStartWith prices).2 [] (ForestInv.forest_priced prices) hfit
  obtain ⟨own, og, _, _⟩ := e2.trees
  have hcount := og.owned_count
  have hlen : (entriesOf L1).length = L1.length := by simp [entriesOf]
  rw [hlen, e7] at hcount
  simp only [entriesOf, List.map_nil, List.length_nil, zero_add] at e4 e7 hcount
  have h4 : rep1.totalLoaded = countFresh []
      ((rowsRead strtod (fgetsAll content.length content)).map (fun r => r.transactionID)) := by
    rw [e4]
    simp [loadStartWith]
  have hrun : loadDataFromFile strtod (some content) (loadSellerPrices prices Engine.empty) =
      some ({ s1 with loading_mode := false },
        some { totalLoaded := rep1.totalLoaded, duplicates := rep1.duplicates,
               malformed := rep1.malformed,
               treeCount := countFresh []
                 ((rowsRead strtod (fgetsAll content.length content)).map
                   (fun r => r.transactionID)),
               mismatch := decide (((countFresh []
                 ((rowsRead strtod (fgetsAll content.length content)).map
                   (fun r => r.transactionID)) : Nat) : Int) ≠ rep1.totalLoaded) }) := by
    have e1' : loadRows strtod (fgetsAll content.length content)
        ({ loadSellerPrices prices Engine.empty with loading_mode := true }, ⟨0, 0, []⟩) =
        some (s1, rep1) := e1
    simp only [loadDataFromFile, e1', hcount]
  refine ⟨_, _, _, hrun, hcount, rfl, h4.symm, ?_⟩
  simp only [h4]
  simp

/-- Witness for C40: the three lines of `sampleLog` loaded into the empty
engine (there is no price file), read with the conversion for plain decimal
numbers. -/
theorem load_count_matches_loaded_witness :
    (∀ line ∈ fgetsAll sampleLog.flatten.length sampleLog.flatten,
      (scanRow sampleStrtod line).isSome) ∧
    ∃ s1 sum n, loadDataFromFile sampleStrtod (some sampleLog.flatten)
        (loadSellerPrices none Engine.empty) = some (s1, some sum) ∧
      countTransactionsInTree s1.mem.nodes s1.globalTransactionTree = some n ∧
      sum.treeCount = n ∧ (n : Int) = sum.totalLoaded ∧ sum.mismatch = false :=
  ⟨by decide!, load_count_matches_loaded sampleStrtod none sampleLog.flatten (by decide!)⟩

end EnergyTrading
